import Mathlib

/-!
# Linked queue and linked set (`linked_queue.hpp`, `linked_set.hpp`)

The containers are built from heap-allocated `LN` nodes that are linked by raw
pointers.  The embedding keeps the pointers: a heap is a growing table of cells,
`new` appends a cell, `delete` empties one, and a pointer is `Option Nat`
(`none` is `nullptr`).  Every member function is a function on the heap and the
object's fields; a member function that can throw returns the thrown exception
next to the state in which it was thrown.

The members `used` and `mod_count` are C++ `int`s.  The member functions below
compute them as integers and so describe one call exactly as long as the result
fits an `int`; what the 32-bit object holds after the call is given by `wrap_int`
and the `stored` functions, and the runs of many calls (`Mutated32`,
`Reachable32`) store every state that way.
-/

namespace ics

/-- What a call can end with instead of a value: one of the exceptions of
`ics_exceptions.hpp`, an access through a null or deallocated pointer
(`invalidAccess`, undefined behaviour in C++), or a loop that never leaves a
cyclic chain (`nonTermination`). -/
inductive Error where
  | EmptyError
  | ConcurrentModificationError
  | CannotEraseError
  | IteratorPositionIllegal
  | IteratorTypeError
  | ComparingDifferentIteratorsError
  | invalidAccess
  | nonTermination
  deriving DecidableEq, Repr

/-- Equality of outcomes is decidable, so that closed statements about runs can
be settled by evaluation. -/
instance instDecidableEqExcept {ε α : Type} [DecidableEq ε] [DecidableEq α] :
    DecidableEq (Except ε α)
  | .ok a, .ok b =>
    if hab : a = b then isTrue (by rw [hab]) else isFalse (fun hc => hab (Except.ok.inj hc))
  | .error a, .error b =>
    if hab : a = b then isTrue (by rw [hab]) else isFalse (fun hc => hab (Except.error.inj hc))
  | .ok _, .error _ => isFalse (fun hc => by cases hc)
  | .error _, .ok _ => isFalse (fun hc => by cases hc)

/-- The list node `LN` of both containers: `T value; LN* next`. -/
structure LN (T : Type) where
  value : T
  next : Option Nat
  deriving DecidableEq, Repr

/-- The free store.  Cell `a` holds `some n` while the node allocated at address
`a` is live and `none` once it has been deleted; addresses from `cells.length`
on have not been handed out yet. -/
structure Heap (T : Type) where
  cells : List (Option (LN T))
  deriving DecidableEq, Repr

namespace Heap

variable {T : Type}

/-- The node stored at address `a`, if that address is live. -/
def read (h : Heap T) (a : Nat) : Option (LN T) :=
  match h.cells[a]? with
  | some (some n) => some n
  | _ => none

/-- Dereference of a pointer: `*p`; `none` for a null or dangling pointer. -/
def deref (h : Heap T) (p : Option Nat) : Option (LN T) :=
  match p with
  | none => none
  | some a => h.read a

/-- Allocation `new LN(...)`: the fresh address and the extended heap. -/
def alloc (h : Heap T) (n : LN T) : Nat × Heap T :=
  (h.cells.length, ⟨h.cells ++ [some n]⟩)

/-- Assignment to the node at address `a`. -/
def write (h : Heap T) (a : Nat) (n : LN T) : Heap T :=
  ⟨h.cells.set a (some n)⟩

/-- Deallocation `delete p` of the node at address `a`. -/
def free (h : Heap T) (a : Nat) : Heap T :=
  ⟨h.cells.set a none⟩

end Heap

/-! ## LinkedQueue (`linked_queue.hpp`) -/

/-- The data members of `LinkedQueue<T>`: `front`, `rear`, `used`, `mod_count`,
with their in-class default values. -/
structure LinkedQueue where
  front : Option Nat := none
  rear : Option Nat := none
  used : Int := 0
  mod_count : Int := 0
  deriving DecidableEq, Repr

/-- A place that holds a node pointer, as denoted by the `LN** to` of the two
`operator =`: the container's `front` member or the `next` member of a node. -/
inductive Slot where
  | front
  | next (a : Nat)
  deriving DecidableEq, Repr

namespace Slot

variable {T : Type}

/-- Read `*to`; `none` when `to` points into a node that is not live. -/
def get (h : Heap T) (front : Option Nat) : Slot → Option (Option Nat)
  | .front => some front
  | .next a => (h.read a).map (fun n => n.next)

/-- Store `*to = p`, giving the new heap and the new value of `front`. -/
def set (h : Heap T) (front : Option Nat) (p : Option Nat) : Slot → Option (Heap T × Option Nat)
  | .front => some (h, p)
  | .next a => (h.read a).map (fun n => (h.write a { n with next := p }, front))

end Slot

namespace LinkedQueue

variable {T : Type}

/-- The default constructor `LinkedQueue()`. -/
def default_ctor : LinkedQueue := {}

/-- Member `empty()`. -/
def empty (q : LinkedQueue) : Bool := q.used == 0

/-- Member `size()`. -/
def size (q : LinkedQueue) : Int := q.used

/-- Member `peek()`: throws `EmptyError` when `empty()`, else yields `front->value`. -/
def peek (h : Heap T) (q : LinkedQueue) : Except Error T × Heap T × LinkedQueue :=
  if q.empty then (.error .EmptyError, h, q)
  else
    match h.deref q.front with
    | none => (.error .invalidAccess, h, q)
    | some n => (.ok n.value, h, q)

/-- Member `enqueue(element)`. -/
def enqueue (h : Heap T) (q : LinkedQueue) (element : T) :
    Except Error Int × Heap T × LinkedQueue :=
  if q.front = none then
    let r := h.alloc ⟨element, none⟩
    (.ok 1, r.2, { q with front := some r.1, rear := some r.1,
                          used := q.used + 1, mod_count := q.mod_count + 1 })
  else
    let r := h.alloc ⟨element, none⟩
    match q.rear with
    | none => (.error .invalidAccess, r.2, q)
    | some ra =>
      match r.2.read ra with
      | none => (.error .invalidAccess, r.2, q)
      | some rn =>
        (.ok 1, r.2.write ra { rn with next := some r.1 },
          { q with rear := some r.1, used := q.used + 1, mod_count := q.mod_count + 1 })

/-- Member `dequeue()`.  Only `front`, `used` and `mod_count` are assigned;
`rear` is left as it was. -/
def dequeue (h : Heap T) (q : LinkedQueue) : Except Error T × Heap T × LinkedQueue :=
  if q.empty then (.error .EmptyError, h, q)
  else
    match q.front with
    | none => (.error .invalidAccess, h, q)
    | some fa =>
      match h.read fa with
      | none => (.error .invalidAccess, h, q)
      | some fn =>
        (.ok fn.value, h.free fa,
          { q with front := fn.next, used := q.used - 1, mod_count := q.mod_count + 1 })

/-- The loop of the helper `delete_list`: delete every node from `p` to the null
pointer. -/
def delete_list_loop : Nat → Heap T → Option Nat → Except Error Unit × Heap T
  | _, h, none => (.ok (), h)
  | 0, h, some _ => (.error .nonTermination, h)
  | fuel + 1, h, some a =>
    match h.read a with
    | none => (.error .invalidAccess, h)
    | some n => delete_list_loop fuel (h.free a) n.next

/-- Helper `delete_list(front)`; the caller stores `nullptr` in the reference
argument when the call returns. -/
def delete_list (h : Heap T) (p : Option Nat) : Except Error Unit × Heap T :=
  delete_list_loop (h.cells.length + 1) h p

/-- Member `clear()`. -/
def clear (h : Heap T) (q : LinkedQueue) : Except Error Unit × Heap T × LinkedQueue :=
  match delete_list h q.front with
  | (.error e, h1) => (.error e, h1, q)
  | (.ok _, h1) =>
    (.ok (), h1, { front := none, rear := none, used := 0, mod_count := q.mod_count + 1 })

/-- The loop of `enqueue_all`, over the values the iterable yields. -/
def enqueue_all_loop (h : Heap T) (q : LinkedQueue) (count : Int) :
    List T → Except Error Int × Heap T × LinkedQueue
  | [] => (.ok count, h, q)
  | v :: vs =>
    match enqueue h q v with
    | (.error e, h1, q1) => (.error e, h1, q1)
    | (.ok k, h1, q1) => enqueue_all_loop h1 q1 (count + k) vs

/-- The constructors from an initializer list or an iterable: enqueue every
value into the default-constructed queue. -/
def iterable_ctor (h : Heap T) (i : List T) : Except Error Unit × Heap T × LinkedQueue :=
  match enqueue_all_loop h default_ctor 0 i with
  | (.error e, h1, q1) => (.error e, h1, q1)
  | (.ok _, h1, q1) => (.ok (), h1, q1)

/-- The loop of the copy constructor: walk the chain of `to_copy` from `p` and
enqueue every value met. -/
def copy_ctor_loop : Nat → Heap T → LinkedQueue → Option Nat →
    Except Error Unit × Heap T × LinkedQueue
  | _, h, q, none => (.ok (), h, q)
  | 0, h, q, some _ => (.error .nonTermination, h, q)
  | fuel + 1, h, q, some a =>
    match h.read a with
    | none => (.error .invalidAccess, h, q)
    | some n =>
      match enqueue h q n.value with
      | (.error e, h1, q1) => (.error e, h1, q1)
      | (.ok _, h1, q1) =>
        match h1.read a with
        | none => (.error .invalidAccess, h1, q1)
        | some n1 => copy_ctor_loop fuel h1 q1 n1.next

/-- The copy constructor `LinkedQueue(to_copy)`. -/
def copy_ctor (h : Heap T) (to_copy : LinkedQueue) :
    Except Error Unit × Heap T × LinkedQueue :=
  copy_ctor_loop (h.cells.length + 1) h default_ctor to_copy.front

/-- The `for` loop of `operator =`: copy the values of the chain of `rhs` from
`p` on into the nodes reached through `to`, allocating where `*to` is null.
Carries the heap, `this->front` and `to`. -/
def operator_assign_loop : Nat → Heap T → Option Nat → Slot → Option Nat →
    Except Error Unit × Heap T × Option Nat × Slot
  | _, h, front, to_, none => (.ok (), h, front, to_)
  | 0, h, front, to_, some _ => (.error .nonTermination, h, front, to_)
  | fuel + 1, h, front, to_, some pa =>
    match to_.get h front with
    | none => (.error .invalidAccess, h, front, to_)
    | some (some ta) =>
      match h.read pa, h.read ta with
      | some pn, some tn =>
        let h1 := h.write ta { tn with value := pn.value }
        match h1.read pa with
        | none => (.error .invalidAccess, h1, front, to_)
        | some pn1 => operator_assign_loop fuel h1 front (.next ta) pn1.next
      | _, _ => (.error .invalidAccess, h, front, to_)
    | some none =>
      match h.read pa with
      | none => (.error .invalidAccess, h, front, to_)
      | some pn =>
        let r := h.alloc ⟨pn.value, none⟩
        match to_.set r.2 front (some r.1) with
        | none => (.error .invalidAccess, r.2, front, to_)
        | some (h2, front2) =>
          match h2.read pa with
          | none => (.error .invalidAccess, h2, front2, to_)
          | some pn1 => operator_assign_loop fuel h2 front2 (.next r.1) pn1.next

/-- Member `operator =`; `this` and `rhs_addr` are the addresses of the two queue
objects, compared by `this == &rhs`. -/
def operator_assign (this rhs_addr : Nat) (h : Heap T) (q rhs : LinkedQueue) :
    Except Error Unit × Heap T × LinkedQueue :=
  if this = rhs_addr then (.ok (), h, q)
  else
    match operator_assign_loop (h.cells.length + 1) h q.front .front rhs.front with
    | (.error e, h1, front1, _) => (.error e, h1, { q with front := front1 })
    | (.ok _, h1, front1, to_) =>
      match to_.get h1 front1 with
      | none => (.error .invalidAccess, h1, { q with front := front1 })
      | some star_to =>
        let q1 : LinkedQueue := { q with front := front1, rear := star_to, used := rhs.used }
        if star_to ≠ none then
          match delete_list h1 star_to with
          | (.error e, h2) => (.error e, h2, q1)
          | (.ok _, h2) =>
            match to_.set h2 front1 none with
            | none => (.error .invalidAccess, h2, q1)
            | some (h3, front3) =>
              (.ok (), h3, { q1 with front := front3, mod_count := q.mod_count + 1 })
        else (.ok (), h1, { q1 with mod_count := q.mod_count + 1 })

/-- The data members of `LinkedQueue<T>::Iterator`; `ref_queue` is the address
of the queue object the iterator was made for. -/
structure Iterator where
  prev : Option Nat := none
  current : Option Nat
  ref_queue : Nat
  expected_mod_count : Int
  can_erase : Bool := true
  deriving DecidableEq, Repr

/-- Member `begin()` of the queue object at address `this`. -/
def begin (this : Nat) (q : LinkedQueue) : Iterator :=
  { current := q.front, ref_queue := this, expected_mod_count := q.mod_count }

/-- Member `end()` of the queue object at address `this`. -/
def end_ (this : Nat) (q : LinkedQueue) : Iterator :=
  { current := none, ref_queue := this, expected_mod_count := q.mod_count }

namespace Iterator

/-- Member `Iterator::erase()`; `q` is the state of `*ref_queue`. -/
def erase (h : Heap T) (q : LinkedQueue) (it : Iterator) :
    Except Error T × Heap T × LinkedQueue × Iterator :=
  if it.expected_mod_count ≠ q.mod_count then (.error .ConcurrentModificationError, h, q, it)
  else if !it.can_erase then (.error .CannotEraseError, h, q, it)
  else
    match it.current with
    | none => (.error .CannotEraseError, h, q, it)
    | some c =>
      let it1 : Iterator := { it with can_erase := false }
      match h.read c with
      | none => (.error .invalidAccess, h, q, it1)
      | some cn =>
        let q1 : LinkedQueue := if it.current = q.rear then { q with rear := it.prev } else q
        match it.prev with
        | none =>
          let q2 : LinkedQueue := { q1 with front := cn.next }
          let h1 := h.free c
          let it2 : Iterator := { it1 with current := q2.front }
          let q3 : LinkedQueue := { q2 with used := q2.used - 1, mod_count := q2.mod_count + 1 }
          (.ok cn.value, h1, q3, { it2 with expected_mod_count := q3.mod_count })
        | some pa =>
          match h.read pa with
          | none => (.error .invalidAccess, h, q1, it1)
          | some pn =>
            let h1 := (h.write pa { pn with next := cn.next }).free c
            match h1.read pa with
            | none => (.error .invalidAccess, h1, q1, it1)
            | some pn1 =>
              let it2 : Iterator := { it1 with current := pn1.next }
              let q3 : LinkedQueue :=
                { q1 with used := q1.used - 1, mod_count := q1.mod_count + 1 }
              (.ok cn.value, h1, q3, { it2 with expected_mod_count := q3.mod_count })

/-- The step shared by both increments, after the checks: move the cursor or
make the slot erasable again. -/
def advance (h : Heap T) (it : Iterator) (c : Nat) : Option Iterator :=
  if it.can_erase then
    match h.read c with
    | none => none
    | some cn => some { it with prev := some c, current := cn.next }
  else some { it with can_erase := true }

/-- Prefix `operator ++`; the value is the iterator itself after the step. -/
def operator_pre_inc (h : Heap T) (q : LinkedQueue) (it : Iterator) :
    Except Error Iterator × Heap T × LinkedQueue × Iterator :=
  if it.expected_mod_count ≠ q.mod_count then (.error .ConcurrentModificationError, h, q, it)
  else
    match it.current with
    | none => (.ok it, h, q, it)
    | some c =>
      match advance h it c with
      | none => (.error .invalidAccess, h, q, it)
      | some it1 => (.ok it1, h, q, it1)

/-- Postfix `operator ++ (int)`; the value is a copy of the iterator made
before the step. -/
def operator_post_inc (h : Heap T) (q : LinkedQueue) (it : Iterator) :
    Except Error Iterator × Heap T × LinkedQueue × Iterator :=
  if it.expected_mod_count ≠ q.mod_count then (.error .ConcurrentModificationError, h, q, it)
  else
    match it.current with
    | none => (.ok it, h, q, it)
    | some c =>
      match advance h it c with
      | none => (.error .invalidAccess, h, q, it)
      | some it1 => (.ok it, h, q, it1)

/-- Member `Iterator::operator ==`.  The `dynamic_cast` of a reference to an
`Iterator` cannot give null, so `IteratorTypeError` is never thrown. -/
def operator_eq (h : Heap T) (q : LinkedQueue) (it rhs : Iterator) :
    Except Error Bool × Heap T × LinkedQueue × Iterator :=
  if it.expected_mod_count ≠ q.mod_count then (.error .ConcurrentModificationError, h, q, it)
  else if it.ref_queue ≠ rhs.ref_queue then
    (.error .ComparingDifferentIteratorsError, h, q, it)
  else (.ok (it.current == rhs.current), h, q, it)

/-- Member `Iterator::operator !=`. -/
def operator_ne (h : Heap T) (q : LinkedQueue) (it rhs : Iterator) :
    Except Error Bool × Heap T × LinkedQueue × Iterator :=
  if it.expected_mod_count ≠ q.mod_count then (.error .ConcurrentModificationError, h, q, it)
  else if it.ref_queue ≠ rhs.ref_queue then
    (.error .ComparingDifferentIteratorsError, h, q, it)
  else (.ok (it.current != rhs.current), h, q, it)

/-- Member `Iterator::operator *`: the value of the node under the cursor. -/
def operator_deref (h : Heap T) (q : LinkedQueue) (it : Iterator) :
    Except Error T × Heap T × LinkedQueue × Iterator :=
  if it.expected_mod_count ≠ q.mod_count then (.error .ConcurrentModificationError, h, q, it)
  else if !it.can_erase || it.current == none then
    (.error .IteratorPositionIllegal, h, q, it)
  else
    match h.deref it.current with
    | none => (.error .invalidAccess, h, q, it)
    | some cn => (.ok cn.value, h, q, it)

/-- Member `Iterator::operator ->`: the address of the node whose `value` member the
returned pointer designates. -/
def operator_arrow (h : Heap T) (q : LinkedQueue) (it : Iterator) :
    Except Error Nat × Heap T × LinkedQueue × Iterator :=
  if it.expected_mod_count ≠ q.mod_count then (.error .ConcurrentModificationError, h, q, it)
  else
    match it.can_erase, it.current with
    | true, some c => (.ok c, h, q, it)
    | _, _ => (.error .IteratorPositionIllegal, h, q, it)

end Iterator

/-- The loop of `operator ==`: compare the values of this chain from `p` with
those read through the iterator `rhs_i` over `rhs`. -/
def operator_eq_loop [DecidableEq T] : Nat → Heap T → LinkedQueue → Option Nat → Iterator →
    Except Error Bool
  | _, _, _, none, _ => .ok true
  | 0, _, _, some _, _ => .error .nonTermination
  | fuel + 1, h, rhs, some a, rhs_i =>
    match h.read a with
    | none => .error .invalidAccess
    | some n =>
      match (Iterator.operator_deref h rhs rhs_i).1 with
      | .error e => .error e
      | .ok v =>
        if n.value ≠ v then .ok false
        else
          match Iterator.operator_pre_inc h rhs rhs_i with
          | (.error e, _) => .error e
          | (.ok _, _, _, it1) => operator_eq_loop fuel h rhs n.next it1

/-- Member `operator ==` of the queue at address `this` against the queue at
address `rhs_addr`. -/
def operator_eq [DecidableEq T] (this rhs_addr : Nat) (h : Heap T) (q rhs : LinkedQueue) :
    Except Error Bool :=
  if this = rhs_addr then .ok true
  else if q.size ≠ rhs.size then .ok false
  else operator_eq_loop (h.cells.length + 1) h rhs q.front (begin rhs_addr rhs)

/-- Member `operator !=`. -/
def operator_ne [DecidableEq T] (this rhs_addr : Nat) (h : Heap T) (q rhs : LinkedQueue) :
    Except Error Bool :=
  match operator_eq this rhs_addr h q rhs with
  | .error e => .error e
  | .ok b => .ok (!b)

end LinkedQueue

/-! ## LinkedSet (`linked_set.hpp`) -/

/-- The data members of `LinkedSet<T>`: `front`, `trailer`, `used`, `mod_count`. -/
structure LinkedSet where
  front : Option Nat
  trailer : Option Nat
  used : Int := 0
  mod_count : Int := 0
  deriving DecidableEq, Repr

namespace LinkedSet

variable {T : Type}

/-- The default constructor: `front = new LN()`, `trailer = front`.  The value
member of the node made by `LN()` is not given a value by the program; it is
`default` here. -/
def default_ctor [Inhabited T] (h : Heap T) : Heap T × LinkedSet :=
  let r := h.alloc ⟨default, none⟩
  (r.2, { front := some r.1, trailer := some r.1 })

/-- Member `empty()`. -/
def empty (s : LinkedSet) : Bool := s.used == 0

/-- Member `size()`. -/
def size (s : LinkedSet) : Int := s.used

/-- The loop of `contains`: `for (p = front; p != trailer; p = p->next)`. -/
def contains_loop [DecidableEq T] (h : Heap T) (trailer : Option Nat) (element : T) :
    Nat → Option Nat → Except Error Bool
  | 0, p => if p = trailer then .ok false else .error .nonTermination
  | fuel + 1, p =>
    if p = trailer then .ok false
    else
      match h.deref p with
      | none => .error .invalidAccess
      | some n => if n.value = element then .ok true else contains_loop h trailer element fuel n.next

/-- Member `contains(element)`. -/
def contains [DecidableEq T] (h : Heap T) (s : LinkedSet) (element : T) : Except Error Bool :=
  contains_loop h s.trailer element (h.cells.length + 1) s.front

/-- Member `contains_all(i)`, over the values the iterable yields. -/
def contains_all [DecidableEq T] (h : Heap T) (s : LinkedSet) : List T → Except Error Bool
  | [] => .ok true
  | v :: vs =>
    match contains h s v with
    | .error e => .error e
    | .ok false => .ok false
    | .ok true => contains_all h s vs

/-- Member `insert(element)`. -/
def insert [DecidableEq T] (h : Heap T) (s : LinkedSet) (element : T) :
    Except Error Int × Heap T × LinkedSet :=
  match contains h s element with
  | .error e => (.error e, h, s)
  | .ok true => (.ok 0, h, s)
  | .ok false =>
    let r := h.alloc ⟨element, s.front⟩
    (.ok 1, r.2, { s with front := some r.1, used := s.used + 1, mod_count := s.mod_count + 1 })

/-- Helper `erase_at(p)`: retarget `trailer` when `p->next` is the trailer, copy
the successor over `*p`, delete the successor. -/
def erase_at (h : Heap T) (s : LinkedSet) (p : Nat) : Except Error Int × Heap T × LinkedSet :=
  match h.read p with
  | none => (.error .invalidAccess, h, s)
  | some pn =>
    let s1 : LinkedSet := if pn.next = s.trailer then { s with trailer := some p } else s
    match pn.next with
    | none => (.error .invalidAccess, h, s1)
    | some to_delete =>
      match h.read to_delete with
      | none => (.error .invalidAccess, h, s1)
      | some nn =>
        ((.ok 1 : Except Error Int), (h.write p nn).free to_delete,
          { s1 with used := s1.used - 1, mod_count := s1.mod_count + 1 })

/-- The loop of `erase`: find the first node holding `element` and erase there. -/
def erase_loop [DecidableEq T] (h : Heap T) (s : LinkedSet) (element : T) :
    Nat → Option Nat → Except Error Int × Heap T × LinkedSet
  | 0, p => if p = s.trailer then (.ok 0, h, s) else (.error .nonTermination, h, s)
  | fuel + 1, p =>
    if p = s.trailer then (.ok 0, h, s)
    else
      match p with
      | none => (.error .invalidAccess, h, s)
      | some pa =>
        match h.read pa with
        | none => (.error .invalidAccess, h, s)
        | some pn => if pn.value = element then erase_at h s pa else erase_loop h s element fuel pn.next

/-- Member `erase(element)`. -/
def erase [DecidableEq T] (h : Heap T) (s : LinkedSet) (element : T) :
    Except Error Int × Heap T × LinkedSet :=
  erase_loop h s element (h.cells.length + 1) s.front

/-- The loop of the helper `delete_list`: delete every node from `p` up to, and
not including, the trailer. -/
def delete_list_loop (trailer : Option Nat) : Nat → Heap T → Option Nat → Except Error Unit × Heap T
  | 0, h, p => if p = trailer then (.ok (), h) else (.error .nonTermination, h)
  | fuel + 1, h, p =>
    if p = trailer then (.ok (), h)
    else
      match p with
      | none => (.error .invalidAccess, h)
      | some a =>
        match h.read a with
        | none => (.error .invalidAccess, h)
        | some n => delete_list_loop trailer fuel (h.free a) n.next

/-- Helper `delete_list(front)`; the caller stores `trailer` in the reference
argument when the call returns. -/
def delete_list (h : Heap T) (trailer : Option Nat) (p : Option Nat) : Except Error Unit × Heap T :=
  delete_list_loop trailer (h.cells.length + 1) h p

/-- Member `clear()`. -/
def clear (h : Heap T) (s : LinkedSet) : Except Error Unit × Heap T × LinkedSet :=
  match delete_list h s.trailer s.front with
  | (.error e, h1) => (.error e, h1, s)
  | (.ok _, h1) =>
    (.ok (), h1, { s with front := s.trailer, used := 0, mod_count := s.mod_count + 1 })

/-- The destructor: `delete_list(front); delete trailer`. -/
def destructor (h : Heap T) (s : LinkedSet) : Except Error Unit × Heap T :=
  match delete_list h s.trailer s.front with
  | (.error e, h1) => (.error e, h1)
  | (.ok _, h1) =>
    match s.trailer with
    | none => (.ok (), h1)
    | some t =>
      match h1.read t with
      | none => (.error .invalidAccess, h1)
      | some _ => (.ok (), h1.free t)

/-- The loop of `insert_all`, over the values the iterable yields. -/
def insert_all_loop [DecidableEq T] (h : Heap T) (s : LinkedSet) (count : Int) :
    List T → Except Error Int × Heap T × LinkedSet
  | [] => (.ok count, h, s)
  | v :: vs =>
    match insert h s v with
    | (.error e, h1, s1) => (.error e, h1, s1)
    | (.ok k, h1, s1) => insert_all_loop h1 s1 (count + k) vs

/-- Member `insert_all(i)`. -/
def insert_all [DecidableEq T] (h : Heap T) (s : LinkedSet) (i : List T) :
    Except Error Int × Heap T × LinkedSet :=
  insert_all_loop h s 0 i

/-- The loop of `erase_all`, over the values the iterable yields. -/
def erase_all_loop [DecidableEq T] (h : Heap T) (s : LinkedSet) (count : Int) :
    List T → Except Error Int × Heap T × LinkedSet
  | [] => (.ok count, h, s)
  | v :: vs =>
    match erase h s v with
    | (.error e, h1, s1) => (.error e, h1, s1)
    | (.ok k, h1, s1) => erase_all_loop h1 s1 (count + k) vs

/-- Member `erase_all(i)`. -/
def erase_all [DecidableEq T] (h : Heap T) (s : LinkedSet) (i : List T) :
    Except Error Int × Heap T × LinkedSet :=
  erase_all_loop h s 0 i

/-- The constructors from an initializer list or an iterable: insert every
value into the default-constructed set. -/
def iterable_ctor [DecidableEq T] [Inhabited T] (h : Heap T) (i : List T) :
    Except Error Unit × Heap T × LinkedSet :=
  let r := default_ctor h
  match insert_all_loop r.1 r.2 0 i with
  | (.error e, h1, s1) => (.error e, h1, s1)
  | (.ok _, h1, s1) => (.ok (), h1, s1)

/-- The loop of the copy constructor: push a copy of every node of `to_copy`
from `f` on at the front of the new chain. -/
def copy_ctor_loop (src_trailer : Option Nat) : Nat → Heap T → Option Nat → Option Nat →
    Except Error Unit × Heap T × Option Nat
  | 0, h, front, f =>
    if f = src_trailer then (.ok (), h, front) else (.error .nonTermination, h, front)
  | fuel + 1, h, front, f =>
    if f = src_trailer then (.ok (), h, front)
    else
      match h.deref f with
      | none => (.error .invalidAccess, h, front)
      | some n =>
        let r := h.alloc ⟨n.value, front⟩
        copy_ctor_loop src_trailer fuel r.2 (some r.1) n.next

/-- The copy constructor `LinkedSet(to_copy)`, with `used(to_copy.used)`. -/
def copy_ctor [Inhabited T] (h : Heap T) (to_copy : LinkedSet) :
    Except Error Unit × Heap T × LinkedSet :=
  let r := h.alloc ⟨default, none⟩
  match copy_ctor_loop to_copy.trailer (r.2.cells.length + 1) r.2 (some r.1) to_copy.front with
  | (.error e, h1, front1) =>
    (.error e, h1, { front := front1, trailer := some r.1, used := to_copy.used })
  | (.ok _, h1, front1) =>
    (.ok (), h1, { front := front1, trailer := some r.1, used := to_copy.used })

/-- The loop of `retain_all`: walk this chain, erasing in place every node
whose value the temporary set `tmp` does not contain. -/
def retain_all_loop [DecidableEq T] (tmp : LinkedSet) :
    Nat → Heap T → LinkedSet → Option Nat → Int → Except Error Int × Heap T × LinkedSet
  | 0, h, s, p, count =>
    if p = s.trailer then (.ok count, h, s) else (.error .nonTermination, h, s)
  | fuel + 1, h, s, p, count =>
    if p = s.trailer then (.ok count, h, s)
    else
      match p with
      | none => (.error .invalidAccess, h, s)
      | some pa =>
        match h.read pa with
        | none => (.error .invalidAccess, h, s)
        | some pn =>
          match contains h tmp pn.value with
          | .error e => (.error e, h, s)
          | .ok false =>
            match erase_at h s pa with
            | (.error e, h1, s1) => (.error e, h1, s1)
            | (.ok _, h1, s1) => retain_all_loop tmp fuel h1 s1 p (count + 1)
          | .ok true => retain_all_loop tmp fuel h s pn.next count

/-- Member `retain_all(i)`: build the temporary set from `i`, run the loop,
destroy the temporary. -/
def retain_all [DecidableEq T] [Inhabited T] (h : Heap T) (s : LinkedSet) (i : List T) :
    Except Error Int × Heap T × LinkedSet :=
  match iterable_ctor h i with
  | (.error e, h1, _) => (.error e, h1, s)
  | (.ok _, h1, tmp) =>
    match retain_all_loop tmp (h1.cells.length + 1) h1 s s.front 0 with
    | (.error e, h2, s2) => (.error e, h2, s2)
    | (.ok count, h2, s2) =>
      match destructor h2 tmp with
      | (.error e, h3) => (.error e, h3, s2)
      | (.ok _, h3) => (.ok count, h3, s2)

/-- The `for` loop of `operator =`: copy the values of the chain of `rhs` from
`p` up to its trailer into the nodes reached through `to`, allocating a node in
front of this set's trailer where `*to` is the trailer.  Carries the heap,
`this->front` and `to`. -/
def operator_assign_loop (trailer rhs_trailer : Option Nat) :
    Nat → Heap T → Option Nat → Slot → Option Nat →
    Except Error Unit × Heap T × Option Nat × Slot
  | 0, h, front, to_, p =>
    if p = rhs_trailer then (.ok (), h, front, to_) else (.error .nonTermination, h, front, to_)
  | fuel + 1, h, front, to_, p =>
    if p = rhs_trailer then (.ok (), h, front, to_)
    else
      match p with
      | none => (.error .invalidAccess, h, front, to_)
      | some pa =>
        match to_.get h front with
        | none => (.error .invalidAccess, h, front, to_)
        | some star_to =>
          if star_to ≠ trailer then
            match star_to with
            | none => (.error .invalidAccess, h, front, to_)
            | some ta =>
              match h.read pa, h.read ta with
              | some pn, some tn =>
                let h1 := h.write ta { tn with value := pn.value }
                match h1.read pa with
                | none => (.error .invalidAccess, h1, front, to_)
                | some pn1 =>
                  operator_assign_loop trailer rhs_trailer fuel h1 front (.next ta) pn1.next
              | _, _ => (.error .invalidAccess, h, front, to_)
          else
            match h.read pa with
            | none => (.error .invalidAccess, h, front, to_)
            | some pn =>
              let r := h.alloc ⟨pn.value, trailer⟩
              match to_.set r.2 front (some r.1) with
              | none => (.error .invalidAccess, r.2, front, to_)
              | some (h2, front2) =>
                match h2.read pa with
                | none => (.error .invalidAccess, h2, front2, to_)
                | some pn1 =>
                  operator_assign_loop trailer rhs_trailer fuel h2 front2 (.next r.1) pn1.next

/-- Member `operator =`; `this` and `rhs_addr` are the addresses of the two set
objects, compared by `this == &rhs`. -/
def operator_assign (this rhs_addr : Nat) (h : Heap T) (s rhs : LinkedSet) :
    Except Error Unit × Heap T × LinkedSet :=
  if this = rhs_addr then (.ok (), h, s)
  else
    match operator_assign_loop s.trailer rhs.trailer (h.cells.length + 1) h s.front .front
        rhs.front with
    | (.error e, h1, front1, _) => (.error e, h1, { s with front := front1 })
    | (.ok _, h1, front1, to_) =>
      let s1 : LinkedSet := { s with front := front1, used := rhs.used }
      match to_.get h1 front1 with
      | none => (.error .invalidAccess, h1, s1)
      | some star_to =>
        if star_to ≠ s.trailer then
          match delete_list h1 s.trailer star_to with
          | (.error e, h2) => (.error e, h2, s1)
          | (.ok _, h2) =>
            match to_.set h2 front1 s.trailer with
            | none => (.error .invalidAccess, h2, s1)
            | some (h3, front3) =>
              (.ok (), h3, { s1 with front := front3, mod_count := s.mod_count + 1 })
        else (.ok (), h1, { s1 with mod_count := s.mod_count + 1 })

/-- The loop shared by `operator ==`, `operator <=` and `operator <`:
`for (p = front; p != trailer; p = p->next) if (!rhs.contains(p->value)) return false;`
followed by `return true`. -/
def all_in_loop [DecidableEq T] (h : Heap T) (trailer : Option Nat) (rhs : LinkedSet) :
    Nat → Option Nat → Except Error Bool
  | 0, p => if p = trailer then .ok true else .error .nonTermination
  | fuel + 1, p =>
    if p = trailer then .ok true
    else
      match h.deref p with
      | none => .error .invalidAccess
      | some n =>
        match contains h rhs n.value with
        | .error e => .error e
        | .ok false => .ok false
        | .ok true => all_in_loop h trailer rhs fuel n.next

/-- Member `operator ==` of the set at address `this` against the set at
address `rhs_addr`. -/
def operator_eq [DecidableEq T] (this rhs_addr : Nat) (h : Heap T) (s rhs : LinkedSet) :
    Except Error Bool :=
  if this = rhs_addr then .ok true
  else if s.used ≠ rhs.size then .ok false
  else all_in_loop h s.trailer rhs (h.cells.length + 1) s.front

/-- Member `operator !=`. -/
def operator_ne [DecidableEq T] (this rhs_addr : Nat) (h : Heap T) (s rhs : LinkedSet) :
    Except Error Bool :=
  match operator_eq this rhs_addr h s rhs with
  | .error e => .error e
  | .ok b => .ok (!b)

/-- Member `operator <=`. -/
def operator_le [DecidableEq T] (this rhs_addr : Nat) (h : Heap T) (s rhs : LinkedSet) :
    Except Error Bool :=
  if this = rhs_addr then .ok true
  else if s.used > rhs.size then .ok false
  else all_in_loop h s.trailer rhs (h.cells.length + 1) s.front

/-- Member `operator <`. -/
def operator_lt [DecidableEq T] (this rhs_addr : Nat) (h : Heap T) (s rhs : LinkedSet) :
    Except Error Bool :=
  if this = rhs_addr then .ok false
  else if s.used ≥ rhs.size then .ok false
  else all_in_loop h s.trailer rhs (h.cells.length + 1) s.front

/-- Member `operator >=`: `rhs <= *this`. -/
def operator_ge [DecidableEq T] (this rhs_addr : Nat) (h : Heap T) (s rhs : LinkedSet) :
    Except Error Bool :=
  operator_le rhs_addr this h rhs s

/-- Member `operator >`: `rhs < *this`. -/
def operator_gt [DecidableEq T] (this rhs_addr : Nat) (h : Heap T) (s rhs : LinkedSet) :
    Except Error Bool :=
  operator_lt rhs_addr this h rhs s

/-- The data members of `LinkedSet<T>::Iterator`; `ref_set` is the address of
the set object the iterator was made for. -/
structure Iterator where
  current : Option Nat
  ref_set : Nat
  expected_mod_count : Int
  can_erase : Bool := true
  deriving DecidableEq, Repr

/-- Member `begin()` of the set object at address `this`. -/
def begin (this : Nat) (s : LinkedSet) : Iterator :=
  { current := s.front, ref_set := this, expected_mod_count := s.mod_count }

/-- Member `end()` of the set object at address `this`. -/
def end_ (this : Nat) (s : LinkedSet) : Iterator :=
  { current := s.trailer, ref_set := this, expected_mod_count := s.mod_count }

namespace Iterator

/-- Member `Iterator::erase()`; `s` is the state of `*ref_set`. -/
def erase (h : Heap T) (s : LinkedSet) (it : Iterator) :
    Except Error T × Heap T × LinkedSet × Iterator :=
  if it.expected_mod_count ≠ s.mod_count then (.error .ConcurrentModificationError, h, s, it)
  else if !it.can_erase then (.error .CannotEraseError, h, s, it)
  else if it.current = s.trailer then (.error .CannotEraseError, h, s, it)
  else
    let it1 : Iterator := { it with can_erase := false }
    match it.current with
    | none => (.error .invalidAccess, h, s, it1)
    | some c =>
      match h.read c with
      | none => (.error .invalidAccess, h, s, it1)
      | some cn =>
        match erase_at h s c with
        | (.error e, h1, s1) => (.error e, h1, s1, it1)
        | (.ok _, h1, s1) =>
          (.ok cn.value, h1, s1, { it1 with expected_mod_count := s1.mod_count })

/-- The step shared by both increments, after the checks: move the cursor or
make the slot erasable again. -/
def advance (h : Heap T) (it : Iterator) : Option Iterator :=
  if it.can_erase then
    match h.deref it.current with
    | none => none
    | some cn => some { it with current := cn.next }
  else some { it with can_erase := true }

/-- Prefix `operator ++`; the value is the iterator itself after the step. -/
def operator_pre_inc (h : Heap T) (s : LinkedSet) (it : Iterator) :
    Except Error Iterator × Heap T × LinkedSet × Iterator :=
  if it.expected_mod_count ≠ s.mod_count then (.error .ConcurrentModificationError, h, s, it)
  else if it.current = s.trailer then (.ok it, h, s, it)
  else
    match advance h it with
    | none => (.error .invalidAccess, h, s, it)
    | some it1 => (.ok it1, h, s, it1)

/-- Postfix `operator ++ (int)`; the value is a copy of the iterator made
before the step. -/
def operator_post_inc (h : Heap T) (s : LinkedSet) (it : Iterator) :
    Except Error Iterator × Heap T × LinkedSet × Iterator :=
  if it.expected_mod_count ≠ s.mod_count then (.error .ConcurrentModificationError, h, s, it)
  else if it.current = s.trailer then (.ok it, h, s, it)
  else
    match advance h it with
    | none => (.error .invalidAccess, h, s, it)
    | some it1 => (.ok it, h, s, it1)

/-- Member `Iterator::operator ==`.  The `dynamic_cast` of a reference to an
`Iterator` cannot give null, so `IteratorTypeError` is never thrown. -/
def operator_eq (h : Heap T) (s : LinkedSet) (it rhs : Iterator) :
    Except Error Bool × Heap T × LinkedSet × Iterator :=
  if it.expected_mod_count ≠ s.mod_count then (.error .ConcurrentModificationError, h, s, it)
  else if it.ref_set ≠ rhs.ref_set then
    (.error .ComparingDifferentIteratorsError, h, s, it)
  else (.ok (it.current == rhs.current), h, s, it)

/-- Member `Iterator::operator !=`. -/
def operator_ne (h : Heap T) (s : LinkedSet) (it rhs : Iterator) :
    Except Error Bool × Heap T × LinkedSet × Iterator :=
  if it.expected_mod_count ≠ s.mod_count then (.error .ConcurrentModificationError, h, s, it)
  else if it.ref_set ≠ rhs.ref_set then
    (.error .ComparingDifferentIteratorsError, h, s, it)
  else (.ok (it.current != rhs.current), h, s, it)

/-- Member `Iterator::operator *`: the value of the node under the cursor. -/
def operator_deref (h : Heap T) (s : LinkedSet) (it : Iterator) :
    Except Error T × Heap T × LinkedSet × Iterator :=
  if it.expected_mod_count ≠ s.mod_count then (.error .ConcurrentModificationError, h, s, it)
  else if !it.can_erase || it.current == s.trailer then
    (.error .IteratorPositionIllegal, h, s, it)
  else
    match h.deref it.current with
    | none => (.error .invalidAccess, h, s, it)
    | some cn => (.ok cn.value, h, s, it)

/-- Member `Iterator::operator ->`: the address of the node whose `value` member the
returned pointer designates (null when the cursor is null). -/
def operator_arrow (h : Heap T) (s : LinkedSet) (it : Iterator) :
    Except Error (Option Nat) × Heap T × LinkedSet × Iterator :=
  if it.expected_mod_count ≠ s.mod_count then (.error .ConcurrentModificationError, h, s, it)
  else if !it.can_erase || it.current == s.trailer then
    (.error .IteratorPositionIllegal, h, s, it)
  else (.ok it.current, h, s, it)

end Iterator

end LinkedSet

/-! ## Chains of nodes and the container invariants -/

section Invariants

variable {T : Type}

/-- The relation `Path h p l q`: following `next` from the pointer `p` one passes exactly the
live nodes listed in `l`, each with its address and its value, and arrives at
the pointer `q`. -/
def Path (h : Heap T) : Option Nat → List (Nat × T) → Option Nat → Prop
  | p, [], q => p = q
  | p, x :: l, q => p = some x.1 ∧ ∃ nx, h.read x.1 = some ⟨x.2, nx⟩ ∧ Path h nx l q

/-- The queue invariant with the nodes `l` of the chain made explicit: the
chain from `front` ends at the null pointer, `used` counts its nodes, and while
the chain is not empty `rear` is its last node. -/
def LinkedQueue.WellFormed (h : Heap T) (q : LinkedQueue) (l : List (Nat × T)) : Prop :=
  Path h q.front l none ∧ q.used = l.length ∧ ∀ x, l.getLast? = some x → q.rear = some x.1

/-- The full queue invariant of the specification with the nodes `l` of the
chain made explicit: the chain from `front` ends at the null pointer, `used`
counts its nodes, and `rear` is null when the chain is empty and its last node
otherwise. -/
def LinkedQueue.Invariant (h : Heap T) (q : LinkedQueue) (l : List (Nat × T)) : Prop :=
  Path h q.front l none ∧ q.used = l.length ∧ q.rear = l.getLast?.map Prod.fst

/-- The structural invariant of the set with the nodes `l` before the trailer
made explicit: the chain from `front` reaches the trailer node without passing
it, the trailer node is live and has no successor, and `used` counts the
nodes before it. -/
def LinkedSet.WellFormed (h : Heap T) (s : LinkedSet) (l : List (Nat × T)) : Prop :=
  ∃ t, s.trailer = some t ∧ Path h s.front l (some t) ∧ (∀ x ∈ l, x.1 ≠ t) ∧
    (∃ v, h.read t = some ⟨v, none⟩) ∧ s.used = l.length

/-- Set semantics: no two nodes of the chain hold equal values. -/
def LinkedSet.Unique (l : List (Nat × T)) : Prop := (l.map Prod.snd).Nodup

/-- What `erase_at` makes of the nodes `l2` that follow the node at address `a`:
the first of them is absorbed into the node at `a`, which takes over its
value; the others stay. -/
def LinkedSet.absorb (a : Nat) : List (Nat × T) → List (Nat × T)
  | [] => []
  | y :: l3 => (a, y.2) :: l3

/-- The node at address `a` belongs to the set: it is the trailer or a node of
the chain. -/
def LinkedSet.Owns (h : Heap T) (s : LinkedSet) (a : Nat) : Prop :=
  ∃ l, LinkedSet.WellFormed h s l ∧ (s.trailer = some a ∨ ∃ x ∈ l, x.1 = a)

/-- What a member call on a well-formed set means for the iterators over it:
either the generation has grown, or generation, trailer and chain are what they
were.  `s`, `l` are the set and its chain before the call, `s1`, `l1` after. -/
def LinkedSet.Advances (s : LinkedSet) (l : List (Nat × T)) (s1 : LinkedSet)
    (l1 : List (Nat × T)) : Prop :=
  s.mod_count < s1.mod_count ∨
    (s1.mod_count = s.mod_count ∧ s1.trailer = s.trailer ∧ l1 = l)

/-- Where the `LN** to` of `operator =` points once the nodes `done` of the
destination chain have been passed: at `front` when there is none, else at
the `next` member of the last of them. -/
def Slot.after (done : List (Nat × T)) : Slot :=
  match done.getLast? with
  | none => .front
  | some y => .next y.1

/-- What holds of an iterator over a well-formed set with chain `l`: it never
records a generation ahead of the set, and while it is up to date its cursor
is the trailer or a node of the chain. -/
def LinkedSet.IteratorOk (s : LinkedSet) (l : List (Nat × T)) (it : LinkedSet.Iterator) :
    Prop :=
  it.expected_mod_count ≤ s.mod_count ∧
    (it.expected_mod_count = s.mod_count →
      it.current = s.trailer ∨ ∃ x ∈ l, it.current = some x.1)

/-- The invariant of a set together with the iterators over it. -/
def LinkedSet.Inv (h : Heap T) (s : LinkedSet) (its : List LinkedSet.Iterator) : Prop :=
  ∃ l, LinkedSet.WellFormed h s l ∧ LinkedSet.Unique l ∧ ∀ it ∈ its, LinkedSet.IteratorOk s l it

end Invariants

/-! ## The 32-bit `int` members -/

/-- The value of an `int` that has been given the integer `x`: `x` itself when it
lies between -2147483648 and 2147483647, else `x` reduced modulo 2^32 into that
range, which is what `++` and `--` on a 32-bit two's complement `int` leave
behind when they overflow. -/
def wrap_int (x : Int) : Int := (x + 2147483648) % 4294967296 - 2147483648

/-- The queue object as it is stored: both `int` members hold 32-bit values.
The members are changed by `++`, `--` and assignment only, and are compared
only where a call starts, so reducing once after a call gives what reducing at
every `++` and `--` gives. -/
def LinkedQueue.stored (q : LinkedQueue) : LinkedQueue :=
  { q with used := wrap_int q.used, mod_count := wrap_int q.mod_count }

/-- The set object as it is stored: both `int` members hold 32-bit values. -/
def LinkedSet.stored (s : LinkedSet) : LinkedSet :=
  { s with used := wrap_int s.used, mod_count := wrap_int s.mod_count }

/-- The set iterator as it is stored: `expected_mod_count` is an `int` too. -/
def LinkedSet.Iterator.stored (it : LinkedSet.Iterator) : LinkedSet.Iterator :=
  { it with expected_mod_count := wrap_int it.expected_mod_count }

/-- Both members of the set are within the range of `int`: what a member
function computed for them is what the object holds, nothing has overflowed. -/
def LinkedSet.InRange (s : LinkedSet) : Prop :=
  -2147483648 ≤ s.used ∧ s.used ≤ 2147483647 ∧
    -2147483648 ≤ s.mod_count ∧ s.mod_count ≤ 2147483647

instance LinkedSet.instDecidableInRange (s : LinkedSet) : Decidable (LinkedSet.InRange s) := by
  unfold LinkedSet.InRange
  infer_instance

/-! ## Runs of queue calls and the list model they are compared with -/

/-- A call made on a queue by client code. -/
inductive QueueCall (T : Type) where
  | enqueue (v : T)
  | dequeue
  | peek
  deriving DecidableEq, Repr

/-- What a call answers: the exception thrown, the `int` returned by `enqueue`,
or the value returned by `dequeue` or `peek`. -/
abbrev QueueReply (T : Type) := Except Error (Int ⊕ T)

section Runs

variable {T : Type}

/-- Make the calls `cs` one after the other on the queue `q`, a thrown exception
being caught by the caller; gives the replies in order and the final state. -/
def LinkedQueue.run (h : Heap T) (q : LinkedQueue) :
    List (QueueCall T) → List (QueueReply T) × Heap T × LinkedQueue
  | [] => ([], h, q)
  | .enqueue v :: cs =>
    let r := LinkedQueue.enqueue h q v
    let rest := LinkedQueue.run r.2.1 r.2.2 cs
    (r.1.map Sum.inl :: rest.1, rest.2)
  | .dequeue :: cs =>
    let r := LinkedQueue.dequeue h q
    let rest := LinkedQueue.run r.2.1 r.2.2 cs
    (r.1.map Sum.inr :: rest.1, rest.2)
  | .peek :: cs =>
    let r := LinkedQueue.peek h q
    let rest := LinkedQueue.run r.2.1 r.2.2 cs
    (r.1.map Sum.inr :: rest.1, rest.2)

/-- The iterator reached from `it` by `k` prefix increments `++it` on a queue
that is not changed meanwhile. -/
def LinkedQueue.Iterator.increments (h : Heap T) (q : LinkedQueue) :
    Nat → LinkedQueue.Iterator → Except Error LinkedQueue.Iterator
  | 0, it => .ok it
  | k + 1, it =>
    match LinkedQueue.Iterator.operator_pre_inc h q it with
    | (.error e, _) => .error e
    | (.ok _, _, _, it1) => LinkedQueue.Iterator.increments h q k it1

/-- The client loop `for (it = ...; it != q.end(); ++it) visit(*it);` on the queue
at address `this`, from the iterator `it` on; gives the values visited, in
order, after those in `acc`. -/
def LinkedQueue.for_each_loop (this : Nat) (h : Heap T) (q : LinkedQueue) :
    Nat → LinkedQueue.Iterator → List T → Except Error (List T)
  | 0, _, _ => .error .nonTermination
  | fuel + 1, it, acc =>
    match (LinkedQueue.Iterator.operator_ne h q it (LinkedQueue.end_ this q)).1 with
    | .error e => .error e
    | .ok false => .ok acc
    | .ok true =>
      match (LinkedQueue.Iterator.operator_deref h q it).1 with
      | .error e => .error e
      | .ok v =>
        match LinkedQueue.Iterator.operator_pre_inc h q it with
        | (.error e, _) => .error e
        | (.ok _, _, _, it1) => LinkedQueue.for_each_loop this h q fuel it1 (acc ++ [v])

/-- The client loop `for (it = q.begin(); it != q.end(); ++it) visit(*it);`. -/
def LinkedQueue.for_each (this : Nat) (h : Heap T) (q : LinkedQueue) : Except Error (List T) :=
  LinkedQueue.for_each_loop this h q (h.cells.length + 1) (LinkedQueue.begin this q) []

/-- The client loop `for (it = ...; it != q.end(); ++it) it.erase();` on the queue
at address `this`, from the iterator `it` on; gives the values that the calls
of `erase()` returned, in order, after those in `acc`, and the final state. -/
def LinkedQueue.drain_loop (this : Nat) :
    Nat → Heap T → LinkedQueue → LinkedQueue.Iterator → List T →
      Except Error (List T) × Heap T × LinkedQueue × LinkedQueue.Iterator
  | 0, h, q, it, _ => (.error .nonTermination, h, q, it)
  | fuel + 1, h, q, it, acc =>
    match (LinkedQueue.Iterator.operator_ne h q it (LinkedQueue.end_ this q)).1 with
    | .error e => (.error e, h, q, it)
    | .ok false => (.ok acc, h, q, it)
    | .ok true =>
      match LinkedQueue.Iterator.erase h q it with
      | (.error e, h1, q1, it1) => (.error e, h1, q1, it1)
      | (.ok v, h1, q1, it1) =>
        match LinkedQueue.Iterator.operator_pre_inc h1 q1 it1 with
        | (.error e, h2, q2, it2) => (.error e, h2, q2, it2)
        | (.ok _, h2, q2, it2) => LinkedQueue.drain_loop this fuel h2 q2 it2 (acc ++ [v])

/-- The client loop `for (it = q.begin(); it != q.end(); ++it) it.erase();`. -/
def LinkedQueue.drain (this : Nat) (h : Heap T) (q : LinkedQueue) :
    Except Error (List T) × Heap T × LinkedQueue × LinkedQueue.Iterator :=
  LinkedQueue.drain_loop this (h.cells.length + 1) h q (LinkedQueue.begin this q) []

/-- The iterator reached from `it` by `k` prefix increments `++it` on a set that
is not changed meanwhile. -/
def LinkedSet.Iterator.increments (h : Heap T) (s : LinkedSet) :
    Nat → LinkedSet.Iterator → Except Error LinkedSet.Iterator
  | 0, it => .ok it
  | k + 1, it =>
    match LinkedSet.Iterator.operator_pre_inc h s it with
    | (.error e, _) => .error e
    | (.ok _, _, _, it1) => LinkedSet.Iterator.increments h s k it1

/-- The client loop `for (it = ...; it != s.end(); ++it) visit(*it);` on the set at
address `this`, from the iterator `it` on; gives the values visited, in order,
after those in `acc`. -/
def LinkedSet.for_each_loop (this : Nat) (h : Heap T) (s : LinkedSet) :
    Nat → LinkedSet.Iterator → List T → Except Error (List T)
  | 0, _, _ => .error .nonTermination
  | fuel + 1, it, acc =>
    match (LinkedSet.Iterator.operator_ne h s it (LinkedSet.end_ this s)).1 with
    | .error e => .error e
    | .ok false => .ok acc
    | .ok true =>
      match (LinkedSet.Iterator.operator_deref h s it).1 with
      | .error e => .error e
      | .ok v =>
        match LinkedSet.Iterator.operator_pre_inc h s it with
        | (.error e, _) => .error e
        | (.ok _, _, _, it1) => LinkedSet.for_each_loop this h s fuel it1 (acc ++ [v])

/-- The client loop `for (it = s.begin(); it != s.end(); ++it) visit(*it);`. -/
def LinkedSet.for_each (this : Nat) (h : Heap T) (s : LinkedSet) : Except Error (List T) :=
  LinkedSet.for_each_loop this h s (h.cells.length + 1) (LinkedSet.begin this s) []

/-- The client loop `for (it = ...; it != s.end(); ++it) it.erase();` on the set at
address `this`, from the iterator `it` on; gives the values that the calls of
`erase()` returned, in order, after those in `acc`, and the final state. -/
def LinkedSet.drain_loop (this : Nat) :
    Nat → Heap T → LinkedSet → LinkedSet.Iterator → List T →
      Except Error (List T) × Heap T × LinkedSet × LinkedSet.Iterator
  | 0, h, s, it, _ => (.error .nonTermination, h, s, it)
  | fuel + 1, h, s, it, acc =>
    match (LinkedSet.Iterator.operator_ne h s it (LinkedSet.end_ this s)).1 with
    | .error e => (.error e, h, s, it)
    | .ok false => (.ok acc, h, s, it)
    | .ok true =>
      match LinkedSet.Iterator.erase h s it with
      | (.error e, h1, s1, it1) => (.error e, h1, s1, it1)
      | (.ok v, h1, s1, it1) =>
        match LinkedSet.Iterator.operator_pre_inc h1 s1 it1 with
        | (.error e, h2, s2, it2) => (.error e, h2, s2, it2)
        | (.ok _, h2, s2, it2) => LinkedSet.drain_loop this fuel h2 s2 it2 (acc ++ [v])

/-- The client loop `for (it = s.begin(); it != s.end(); ++it) it.erase();`. -/
def LinkedSet.drain (this : Nat) (h : Heap T) (s : LinkedSet) :
    Except Error (List T) × Heap T × LinkedSet × LinkedSet.Iterator :=
  LinkedSet.drain_loop this (h.cells.length + 1) h s (LinkedSet.begin this s) []

/-- The list model of a first-in-first-out queue, in the words of the
specification: `enqueue` appends at the end and answers 1, `dequeue` removes at
the front and answers the value removed, `peek` answers the value at the front,
and both fail with `EmptyError` on the empty list. -/
def FifoModel.run : List T → List (QueueCall T) → List (QueueReply T) × List T
  | l, [] => ([], l)
  | l, .enqueue v :: cs =>
    let rest := FifoModel.run (l ++ [v]) cs
    (.ok (.inl 1) :: rest.1, rest.2)
  | [], .dequeue :: cs =>
    let rest := FifoModel.run [] cs
    (.error .EmptyError :: rest.1, rest.2)
  | x :: l, .dequeue :: cs =>
    let rest := FifoModel.run l cs
    (.ok (.inr x) :: rest.1, rest.2)
  | [], .peek :: cs =>
    let rest := FifoModel.run [] cs
    (.error .EmptyError :: rest.1, rest.2)
  | x :: l, .peek :: cs =>
    let rest := FifoModel.run (x :: l) cs
    (.ok (.inr x) :: rest.1, rest.2)

/-- The number of `enqueue` calls in a sequence of calls. -/
def QueueCall.enqueues : List (QueueCall T) → Int
  | [] => 0
  | .enqueue _ :: cs => QueueCall.enqueues cs + 1
  | _ :: cs => QueueCall.enqueues cs

/-- The number of `dequeue` calls that answered with a value; `cs` and `rs` are
the calls and their replies. -/
def QueueCall.dequeued : List (QueueCall T) → List (QueueReply T) → Int
  | .dequeue :: cs, .ok _ :: rs => QueueCall.dequeued cs rs + 1
  | _ :: cs, _ :: rs => QueueCall.dequeued cs rs
  | _, _ => 0

/-- Client code that calls `insert` for the values `vs` one after the other;
gives what the calls returned, in order, and the final state. -/
def LinkedSet.insert_each [DecidableEq T] (h : Heap T) (s : LinkedSet) :
    List T → List (Except Error Int) × Heap T × LinkedSet
  | [] => ([], h, s)
  | v :: vs =>
    let r := LinkedSet.insert h s v
    let rest := LinkedSet.insert_each r.2.1 r.2.2 vs
    (r.1 :: rest.1, rest.2)

/-- The relation `LinkedQueue.Mutated32 n h q h1 q1`: the 32-bit queue went from state `q` in
heap `h` to state `q1` in heap `h1` by one or more calls that returned normally,
each a direct `enqueue`, `dequeue`, `clear`, a copy-assignment from another
queue object, or an `erase()` through some iterator over the queue; `n` is the
number of times these calls executed `++mod_count`, one each. -/
inductive LinkedQueue.Mutated32 : Nat → Heap T → LinkedQueue → Heap T → LinkedQueue → Prop
  | enqueue (h : Heap T) (q : LinkedQueue) (v : T) (k : Int) :
      (LinkedQueue.enqueue h q v).1 = .ok k →
      LinkedQueue.Mutated32 1 h q (LinkedQueue.enqueue h q v).2.1
        (LinkedQueue.stored (LinkedQueue.enqueue h q v).2.2)
  | dequeue (h : Heap T) (q : LinkedQueue) (v : T) :
      (LinkedQueue.dequeue h q).1 = .ok v →
      LinkedQueue.Mutated32 1 h q (LinkedQueue.dequeue h q).2.1
        (LinkedQueue.stored (LinkedQueue.dequeue h q).2.2)
  | clear (h : Heap T) (q : LinkedQueue) :
      (LinkedQueue.clear h q).1 = .ok () →
      LinkedQueue.Mutated32 1 h q (LinkedQueue.clear h q).2.1
        (LinkedQueue.stored (LinkedQueue.clear h q).2.2)
  | operator_assign (h : Heap T) (q rhs : LinkedQueue) (this rhs_addr : Nat) :
      this ≠ rhs_addr → (LinkedQueue.operator_assign this rhs_addr h q rhs).1 = .ok () →
      LinkedQueue.Mutated32 1 h q (LinkedQueue.operator_assign this rhs_addr h q rhs).2.1
        (LinkedQueue.stored (LinkedQueue.operator_assign this rhs_addr h q rhs).2.2)
  | iterator_erase (h : Heap T) (q : LinkedQueue) (other : LinkedQueue.Iterator) (v : T) :
      (LinkedQueue.Iterator.erase h q other).1 = .ok v →
      LinkedQueue.Mutated32 1 h q (LinkedQueue.Iterator.erase h q other).2.1
        (LinkedQueue.stored (LinkedQueue.Iterator.erase h q other).2.2.1)
  | next {m n : Nat} {h h1 h2 : Heap T} {q q1 q2 : LinkedQueue} :
      LinkedQueue.Mutated32 m h q h1 q1 → LinkedQueue.Mutated32 n h1 q1 h2 q2 →
      LinkedQueue.Mutated32 (m + n) h q h2 q2

/-- The relation `LinkedSet.Mutated32 n h s h1 s1`: the 32-bit set went from state `s` in heap
`h` to state `s1` in heap `h1` by one or more calls that returned normally, each
an `insert` that returned 1, an `erase` that returned 1, a `clear`, a
`retain_all` that removed something, a copy-assignment from another set object,
or an `erase()` through some iterator over the set; `n` is the number of times
these calls executed `++mod_count`: one each, and one for every node that a
`retain_all` removed. -/
inductive LinkedSet.Mutated32 [DecidableEq T] [Inhabited T] :
    Nat → Heap T → LinkedSet → Heap T → LinkedSet → Prop
  | insert (h : Heap T) (s : LinkedSet) (v : T) :
      (LinkedSet.insert h s v).1 = .ok 1 →
      LinkedSet.Mutated32 1 h s (LinkedSet.insert h s v).2.1
        (LinkedSet.stored (LinkedSet.insert h s v).2.2)
  | erase (h : Heap T) (s : LinkedSet) (v : T) :
      (LinkedSet.erase h s v).1 = .ok 1 →
      LinkedSet.Mutated32 1 h s (LinkedSet.erase h s v).2.1
        (LinkedSet.stored (LinkedSet.erase h s v).2.2)
  | clear (h : Heap T) (s : LinkedSet) :
      (LinkedSet.clear h s).1 = .ok () →
      LinkedSet.Mutated32 1 h s (LinkedSet.clear h s).2.1
        (LinkedSet.stored (LinkedSet.clear h s).2.2)
  | retain_all (h : Heap T) (s : LinkedSet) (i : List T) (k : Int) :
      (LinkedSet.retain_all h s i).1 = .ok k → k ≠ 0 →
      LinkedSet.Mutated32 k.toNat h s (LinkedSet.retain_all h s i).2.1
        (LinkedSet.stored (LinkedSet.retain_all h s i).2.2)
  | operator_assign (h : Heap T) (s rhs : LinkedSet) (this rhs_addr : Nat) :
      this ≠ rhs_addr → (LinkedSet.operator_assign this rhs_addr h s rhs).1 = .ok () →
      LinkedSet.Mutated32 1 h s (LinkedSet.operator_assign this rhs_addr h s rhs).2.1
        (LinkedSet.stored (LinkedSet.operator_assign this rhs_addr h s rhs).2.2)
  | iterator_erase (h : Heap T) (s : LinkedSet) (other : LinkedSet.Iterator) (v : T) :
      (LinkedSet.Iterator.erase h s other).1 = .ok v →
      LinkedSet.Mutated32 1 h s (LinkedSet.Iterator.erase h s other).2.1
        (LinkedSet.stored (LinkedSet.Iterator.erase h s other).2.2.1)
  | next {m n : Nat} {h h1 h2 : Heap T} {s s1 s2 : LinkedSet} :
      LinkedSet.Mutated32 m h s h1 s1 → LinkedSet.Mutated32 n h1 s1 h2 s2 →
      LinkedSet.Mutated32 (m + n) h s h2 s2

/-- The states of `LinkedSet.Reachable32` when `used` and `mod_count` are taken to be
unbounded integers that never wrap.  No 32-bit object runs like this once a
counter overflows; the relation is the stepping stone from which the 32-bit
runs without overflow inherit the invariant. -/
inductive LinkedSet.Reachable [DecidableEq T] [Inhabited T] (this : Nat) :
    Heap T → LinkedSet → List LinkedSet.Iterator → Prop
  | default_ctor (h0 : Heap T) :
      LinkedSet.Reachable this (LinkedSet.default_ctor h0).1 (LinkedSet.default_ctor h0).2 []
  | iterable_ctor (h0 : Heap T) (i : List T) :
      LinkedSet.Reachable this (LinkedSet.iterable_ctor h0 i).2.1
        (LinkedSet.iterable_ctor h0 i).2.2 []
  | copy_ctor (h0 : Heap T) (to_copy : LinkedSet) (l : List (Nat × T)) :
      LinkedSet.WellFormed h0 to_copy l → LinkedSet.Unique l →
      LinkedSet.Reachable this (LinkedSet.copy_ctor h0 to_copy).2.1
        (LinkedSet.copy_ctor h0 to_copy).2.2 []
  | insert {h : Heap T} {s : LinkedSet} {its : List LinkedSet.Iterator} (v : T) :
      LinkedSet.Reachable this h s its →
      LinkedSet.Reachable this (LinkedSet.insert h s v).2.1 (LinkedSet.insert h s v).2.2 its
  | erase {h : Heap T} {s : LinkedSet} {its : List LinkedSet.Iterator} (v : T) :
      LinkedSet.Reachable this h s its →
      LinkedSet.Reachable this (LinkedSet.erase h s v).2.1 (LinkedSet.erase h s v).2.2 its
  | clear {h : Heap T} {s : LinkedSet} {its : List LinkedSet.Iterator} :
      LinkedSet.Reachable this h s its →
      LinkedSet.Reachable this (LinkedSet.clear h s).2.1 (LinkedSet.clear h s).2.2 its
  | insert_all {h : Heap T} {s : LinkedSet} {its : List LinkedSet.Iterator} (i : List T) :
      LinkedSet.Reachable this h s its →
      LinkedSet.Reachable this (LinkedSet.insert_all h s i).2.1
        (LinkedSet.insert_all h s i).2.2 its
  | erase_all {h : Heap T} {s : LinkedSet} {its : List LinkedSet.Iterator} (i : List T) :
      LinkedSet.Reachable this h s its →
      LinkedSet.Reachable this (LinkedSet.erase_all h s i).2.1
        (LinkedSet.erase_all h s i).2.2 its
  | retain_all {h : Heap T} {s : LinkedSet} {its : List LinkedSet.Iterator} (i : List T) :
      LinkedSet.Reachable this h s its →
      LinkedSet.Reachable this (LinkedSet.retain_all h s i).2.1
        (LinkedSet.retain_all h s i).2.2 its
  | self_assign {h : Heap T} {s : LinkedSet} {its : List LinkedSet.Iterator} :
      LinkedSet.Reachable this h s its →
      LinkedSet.Reachable this (LinkedSet.operator_assign this this h s s).2.1
        (LinkedSet.operator_assign this this h s s).2.2 its
  | operator_assign {h : Heap T} {s : LinkedSet} {its : List LinkedSet.Iterator}
      (rhs_addr : Nat) (rhs : LinkedSet) (lr : List (Nat × T)) :
      LinkedSet.Reachable this h s its → this ≠ rhs_addr →
      LinkedSet.WellFormed h rhs lr → LinkedSet.Unique lr →
      (∀ a, LinkedSet.Owns h s a → ¬ LinkedSet.Owns h rhs a) →
      LinkedSet.Reachable this (LinkedSet.operator_assign this rhs_addr h s rhs).2.1
        (LinkedSet.operator_assign this rhs_addr h s rhs).2.2 its
  | begin {h : Heap T} {s : LinkedSet} {its : List LinkedSet.Iterator} :
      LinkedSet.Reachable this h s its →
      LinkedSet.Reachable this h s (LinkedSet.begin this s :: its)
  | end_ {h : Heap T} {s : LinkedSet} {its : List LinkedSet.Iterator} :
      LinkedSet.Reachable this h s its →
      LinkedSet.Reachable this h s (LinkedSet.end_ this s :: its)
  | iterator_erase {h : Heap T} {s : LinkedSet} {its : List LinkedSet.Iterator} (i : Nat)
      (it : LinkedSet.Iterator) :
      LinkedSet.Reachable this h s its → its[i]? = some it →
      LinkedSet.Reachable this (LinkedSet.Iterator.erase h s it).2.1
        (LinkedSet.Iterator.erase h s it).2.2.1
        (its.set i (LinkedSet.Iterator.erase h s it).2.2.2)
  | iterator_pre_inc {h : Heap T} {s : LinkedSet} {its : List LinkedSet.Iterator} (i : Nat)
      (it : LinkedSet.Iterator) :
      LinkedSet.Reachable this h s its → its[i]? = some it →
      LinkedSet.Reachable this h s
        (its.set i (LinkedSet.Iterator.operator_pre_inc h s it).2.2.2)
  | iterator_post_inc {h : Heap T} {s : LinkedSet} {its : List LinkedSet.Iterator} (i : Nat)
      (it : LinkedSet.Iterator) :
      LinkedSet.Reachable this h s its → its[i]? = some it →
      LinkedSet.Reachable this h s
        (it :: its.set i (LinkedSet.Iterator.operator_post_inc h s it).2.2.2)
  | frame {h : Heap T} {s : LinkedSet} {its : List LinkedSet.Iterator} (h1 : Heap T) :
      LinkedSet.Reachable this h s its →
      (∀ a, LinkedSet.Owns h s a → h1.read a = h.read a) →
      LinkedSet.Reachable this h1 s its

/-- The states a 32-bit set object at address `this` can be in, together with the
iterators that client code holds over it.  The object is created by one of its
constructors (a copy being made from a set that satisfies the invariants);
then client code calls members of the set, makes iterators with `begin()` and
`end()`, and steps or erases through any of them; copy-assignment is from the
object itself or from another set that satisfies the invariants and shares no
node with this one.  Between calls the rest of the program may change the heap
outside the nodes the set owns (`frame`).  After every call the `int` members
hold the wrapped values (`stored`).  The parameter `ok` selects the runs: a call
is taken only when `ok` holds of the counters it computed, so `fun _ => True`
gives all runs and `LinkedSet.InRange` the runs in which no counter overflows. -/
inductive LinkedSet.Reachable32 [DecidableEq T] [Inhabited T] (ok : LinkedSet → Prop)
    (this : Nat) : Heap T → LinkedSet → List LinkedSet.Iterator → Prop
  | default_ctor (h0 : Heap T) :
      ok (LinkedSet.default_ctor h0).2 →
      LinkedSet.Reachable32 ok this (LinkedSet.default_ctor h0).1
        (LinkedSet.stored (LinkedSet.default_ctor h0).2) []
  | iterable_ctor (h0 : Heap T) (i : List T) :
      ok (LinkedSet.iterable_ctor h0 i).2.2 →
      LinkedSet.Reachable32 ok this (LinkedSet.iterable_ctor h0 i).2.1
        (LinkedSet.stored (LinkedSet.iterable_ctor h0 i).2.2) []
  | copy_ctor (h0 : Heap T) (to_copy : LinkedSet) (l : List (Nat × T)) :
      LinkedSet.WellFormed h0 to_copy l → LinkedSet.Unique l →
      ok (LinkedSet.copy_ctor h0 to_copy).2.2 →
      LinkedSet.Reachable32 ok this (LinkedSet.copy_ctor h0 to_copy).2.1
        (LinkedSet.stored (LinkedSet.copy_ctor h0 to_copy).2.2) []
  | insert {h : Heap T} {s : LinkedSet} {its : List LinkedSet.Iterator} (v : T) :
      LinkedSet.Reachable32 ok this h s its → ok (LinkedSet.insert h s v).2.2 →
      LinkedSet.Reachable32 ok this (LinkedSet.insert h s v).2.1
        (LinkedSet.stored (LinkedSet.insert h s v).2.2) its
  | erase {h : Heap T} {s : LinkedSet} {its : List LinkedSet.Iterator} (v : T) :
      LinkedSet.Reachable32 ok this h s its → ok (LinkedSet.erase h s v).2.2 →
      LinkedSet.Reachable32 ok this (LinkedSet.erase h s v).2.1
        (LinkedSet.stored (LinkedSet.erase h s v).2.2) its
  | clear {h : Heap T} {s : LinkedSet} {its : List LinkedSet.Iterator} :
      LinkedSet.Reachable32 ok this h s its → ok (LinkedSet.clear h s).2.2 →
      LinkedSet.Reachable32 ok this (LinkedSet.clear h s).2.1
        (LinkedSet.stored (LinkedSet.clear h s).2.2) its
  | insert_all {h : Heap T} {s : LinkedSet} {its : List LinkedSet.Iterator} (i : List T) :
      LinkedSet.Reachable32 ok this h s its → ok (LinkedSet.insert_all h s i).2.2 →
      LinkedSet.Reachable32 ok this (LinkedSet.insert_all h s i).2.1
        (LinkedSet.stored (LinkedSet.insert_all h s i).2.2) its
  | erase_all {h : Heap T} {s : LinkedSet} {its : List LinkedSet.Iterator} (i : List T) :
      LinkedSet.Reachable32 ok this h s its → ok (LinkedSet.erase_all h s i).2.2 →
      LinkedSet.Reachable32 ok this (LinkedSet.erase_all h s i).2.1
        (LinkedSet.stored (LinkedSet.erase_all h s i).2.2) its
  | retain_all {h : Heap T} {s : LinkedSet} {its : List LinkedSet.Iterator} (i : List T) :
      LinkedSet.Reachable32 ok this h s its → ok (LinkedSet.retain_all h s i).2.2 →
      LinkedSet.Reachable32 ok this (LinkedSet.retain_all h s i).2.1
        (LinkedSet.stored (LinkedSet.retain_all h s i).2.2) its
  | self_assign {h : Heap T} {s : LinkedSet} {its : List LinkedSet.Iterator} :
      LinkedSet.Reachable32 ok this h s its →
      ok (LinkedSet.operator_assign this this h s s).2.2 →
      LinkedSet.Reachable32 ok this (LinkedSet.operator_assign this this h s s).2.1
        (LinkedSet.stored (LinkedSet.operator_assign this this h s s).2.2) its
  | operator_assign {h : Heap T} {s : LinkedSet} {its : List LinkedSet.Iterator}
      (rhs_addr : Nat) (rhs : LinkedSet) (lr : List (Nat × T)) :
      LinkedSet.Reachable32 ok this h s its → this ≠ rhs_addr →
      LinkedSet.WellFormed h rhs lr → LinkedSet.Unique lr →
      (∀ a, LinkedSet.Owns h s a → ¬ LinkedSet.Owns h rhs a) →
      ok (LinkedSet.operator_assign this rhs_addr h s rhs).2.2 →
      LinkedSet.Reachable32 ok this (LinkedSet.operator_assign this rhs_addr h s rhs).2.1
        (LinkedSet.stored (LinkedSet.operator_assign this rhs_addr h s rhs).2.2) its
  | begin {h : Heap T} {s : LinkedSet} {its : List LinkedSet.Iterator} :
      LinkedSet.Reachable32 ok this h s its →
      LinkedSet.Reachable32 ok this h s (LinkedSet.begin this s :: its)
  | end_ {h : Heap T} {s : LinkedSet} {its : List LinkedSet.Iterator} :
      LinkedSet.Reachable32 ok this h s its →
      LinkedSet.Reachable32 ok this h s (LinkedSet.end_ this s :: its)
  | iterator_erase {h : Heap T} {s : LinkedSet} {its : List LinkedSet.Iterator} (i : Nat)
      (it : LinkedSet.Iterator) :
      LinkedSet.Reachable32 ok this h s its → its[i]? = some it →
      ok (LinkedSet.Iterator.erase h s it).2.2.1 →
      LinkedSet.Reachable32 ok this (LinkedSet.Iterator.erase h s it).2.1
        (LinkedSet.stored (LinkedSet.Iterator.erase h s it).2.2.1)
        (its.set i (LinkedSet.Iterator.stored (LinkedSet.Iterator.erase h s it).2.2.2))
  | iterator_pre_inc {h : Heap T} {s : LinkedSet} {its : List LinkedSet.Iterator} (i : Nat)
      (it : LinkedSet.Iterator) :
      LinkedSet.Reachable32 ok this h s its → its[i]? = some it →
      LinkedSet.Reachable32 ok this h s
        (its.set i (LinkedSet.Iterator.operator_pre_inc h s it).2.2.2)
  | iterator_post_inc {h : Heap T} {s : LinkedSet} {its : List LinkedSet.Iterator} (i : Nat)
      (it : LinkedSet.Iterator) :
      LinkedSet.Reachable32 ok this h s its → its[i]? = some it →
      LinkedSet.Reachable32 ok this h s
        (it :: its.set i (LinkedSet.Iterator.operator_post_inc h s it).2.2.2)
  | frame {h : Heap T} {s : LinkedSet} {its : List LinkedSet.Iterator} (h1 : Heap T) :
      LinkedSet.Reachable32 ok this h s its →
      (∀ a, LinkedSet.Owns h s a → h1.read a = h.read a) →
      LinkedSet.Reachable32 ok this h1 s its

end Runs

/-! ## The array exercises (`q6solution.hpp`) -/

section Arrays

variable {T : Type}

/-- Read `a[i]` of a raw array held as a list; `none` outside the array. -/
def arr_get (a : List T) (i : Int) : Option T :=
  if 0 ≤ i then a[i.toNat]? else none

/-- Store `a[i] = v` in a raw array held as a list; `none` outside the array. -/
def arr_set (a : List T) (i : Int) (v : T) : Option (List T) :=
  if 0 ≤ i ∧ i < a.length then some (a.set i.toNat v) else none

/-- The first loop of `merge`, `for (int i = 0; i < length; ++i)`, with `n` rounds
to go: `temp` holds the values stored so far, `le` is `operator <=` of `T`. -/
def merge_fill (le : T → T → Bool) (a : List T) (left_high right_high : Int) :
    Nat → Int → Int → List T → Option (List T)
  | 0, _, _, temp => some temp
  | n + 1, left, right, temp =>
    if left > left_high then
      match arr_get a right with
      | none => none
      | some v => merge_fill le a left_high right_high n left (right + 1) (temp ++ [v])
    else if right > right_high then
      match arr_get a left with
      | none => none
      | some v => merge_fill le a left_high right_high n (left + 1) right (temp ++ [v])
    else
      match arr_get a left, arr_get a right with
      | some x, some y =>
        if le x y then merge_fill le a left_high right_high n (left + 1) right (temp ++ [x])
        else merge_fill le a left_high right_high n left (right + 1) (temp ++ [y])
      | _, _ => none

/-- The second loop of `merge`, `a[left_low++] = temp[i]` for every `i`. -/
def merge_copy : List T → Int → List T → Option (List T)
  | a, _, [] => some a
  | a, left_low, v :: temp =>
    match arr_set a left_low v with
    | none => none
    | some a1 => merge_copy a1 (left_low + 1) temp

/-- Function `merge(a, left_low, left_high, right_low, right_high)`; gives the
array afterwards, `none` when an index leaves the array.  The `int` indices are
unbounded integers: inside an array no index computed here overflows. -/
def merge (le : T → T → Bool) (a : List T) (left_low left_high right_low right_high : Int) :
    Option (List T) :=
  let length := right_high - left_low + 1
  match merge_fill le a left_high right_high length.toNat left_low right_low [] with
  | none => none
  | some temp => merge_copy a left_low temp

/-- The part `a[lo..hi]` of an array, both ends included. -/
def slice (a : List T) (lo hi : Int) : List T :=
  (a.drop lo.toNat).take (hi + 1 - lo).toNat

end Arrays

/-- Function `select_digit(number, place)`: `number/place % 10`, where `/` and `%`
of `int` truncate toward zero. -/
def select_digit (number place : Int) : Int :=
  (number.tdiv place).tmod 10

/-- Modelled from the spec: `ics::ArrayQueue<int>` of `array_queue.hpp`, which is not
among the sources; the specification gives the array-based queue only by its
interface, that of the FIFO queue: `enqueue` appends at the rear, `dequeue`
removes and returns the front value and fails on the empty queue, `empty`
tells whether there is no value. -/
structure ArrayQueue where
  items : List Int := []
  deriving DecidableEq, Repr

/-- Modelled from the spec: `enqueue(v)` appends `v` at the rear. -/
def ArrayQueue.enqueue (q : ArrayQueue) (v : Int) : ArrayQueue :=
  { items := q.items ++ [v] }

/-- Modelled from the spec: `empty()`. -/
def ArrayQueue.empty (q : ArrayQueue) : Bool :=
  q.items.isEmpty

/-- Modelled from the spec: `dequeue()` removes and returns the front value; `none`
stands for the `EmptyError` thrown on the empty queue. -/
def ArrayQueue.dequeue (q : ArrayQueue) : Option (Int × ArrayQueue) :=
  match q.items with
  | [] => none
  | v :: rest => some (v, { items := rest })

/-- The loop `for (int i=0; i<length; i++) buckets[select_digit(a[i],place)].enqueue(a[i]);`
of `radix_sort`, with `n` rounds to go. -/
def radix_distribute (a : List Int) (place : Int) :
    Nat → Int → List ArrayQueue → Option (List ArrayQueue)
  | 0, _, buckets => some buckets
  | n + 1, i, buckets =>
    match arr_get a i with
    | none => none
    | some v =>
      match arr_get buckets (select_digit v place) with
      | none => none
      | some q =>
        match arr_set buckets (select_digit v place) (q.enqueue v) with
        | none => none
        | some buckets1 => radix_distribute a place n (i + 1) buckets1

/-- The loop `while (!buckets[b].empty()) a[i++] = buckets[b].dequeue();` of
`radix_sort`; gives the array, `i` and the buckets afterwards. -/
def radix_drain : Nat → List Int → Int → List ArrayQueue → Int →
    Option (List Int × Int × List ArrayQueue)
  | 0, _, _, _, _ => none
  | fuel + 1, a, i, buckets, b =>
    match arr_get buckets b with
    | none => none
    | some q =>
      if q.empty then some (a, i, buckets)
      else
        match q.dequeue with
        | none => none
        | some (v, q1) =>
          match arr_set buckets b q1 with
          | none => none
          | some buckets1 =>
            match arr_set a i v with
            | none => none
            | some a1 => radix_drain fuel a1 (i + 1) buckets1 b

/-- The loop `for (int b=0; b<10; b++)` of `radix_sort`, with `n` rounds to go;
`fuel` bounds each inner `while` loop. -/
def radix_collect (fuel : Nat) : Nat → List Int → Int → List ArrayQueue → Int →
    Option (List Int × List ArrayQueue)
  | 0, a, _, buckets, _ => some (a, buckets)
  | n + 1, a, i, buckets, b =>
    match radix_drain fuel a i buckets b with
    | none => none
    | some (a1, i1, buckets1) => radix_collect fuel n a1 i1 buckets1 (b + 1)

/-- The body of the outer loop of `radix_sort` for one `place`. -/
def radix_pass (a : List Int) (length place : Int) (buckets : List ArrayQueue) :
    Option (List Int × List ArrayQueue) :=
  match radix_distribute a place length.toNat 0 buckets with
  | none => none
  | some buckets1 => radix_collect (length.toNat + 1) 10 a 0 buckets1 0

/-- The outer loop `for (int place = 1; place<=100000; place=place*10)` of
`radix_sort`. -/
def radix_loop (length : Int) : Nat → Int → List Int → List ArrayQueue →
    Option (List Int × List ArrayQueue)
  | 0, place, a, buckets => if place ≤ 100000 then none else some (a, buckets)
  | fuel + 1, place, a, buckets =>
    if place ≤ 100000 then
      match radix_pass a length place buckets with
      | none => none
      | some (a1, buckets1) => radix_loop length fuel (place * 10) a1 buckets1
    else some (a, buckets)

/-- Function `radix_sort(a, length)`; gives the array afterwards, `none` when an
index leaves an array or an empty bucket is dequeued. -/
def radix_sort (a : List Int) (length : Int) : Option (List Int) :=
  match radix_loop length 6 1 a (List.replicate 10 {}) with
  | none => none
  | some (a1, _) => some a1

/-- The first `k` rounds of the outer loop of `radix_sort`, from `place` on. -/
def radix_passes (length : Int) : Nat → Int → List Int → List ArrayQueue →
    Option (List Int × List ArrayQueue)
  | 0, _, a, buckets => some (a, buckets)
  | k + 1, place, a, buckets =>
    match radix_pass a length place buckets with
    | none => none
    | some (a1, buckets1) => radix_passes length k (place * 10) a1 buckets1

/-- The ten buckets of `radix_sort` when bucket `d` holds the values `f d`, front
first. -/
def buckets_of (f : Nat → List Int) : List ArrayQueue :=
  (List.range 10).map (fun d => { items := f d })

/-- The array contents after a stable distribution by the digit at `place`:
the values with digit 0 in their order, then those with digit 1, and so on to
digit 9. -/
def digit_pass (place : Int) (a : List Int) : List Int :=
  (List.range 10).flatMap (fun d => a.filter (fun x => decide (select_digit x place = (d : Int))))

end ics

namespace ics

/-! ## Heap lemmas -/

namespace Heap

variable {T : Type}

theorem read_lt {h : Heap T} {a : Nat} {n : LN T} (hr : h.read a = some n) :
    a < h.cells.length := by
  unfold read at hr
  by_contra hlt
  rw [List.getElem?_eq_none (by omega)] at hr
  simp at hr

theorem read_alloc_self (h : Heap T) (n : LN T) :
    (h.alloc n).2.read (h.alloc n).1 = some n := by
  simp [read, alloc]

theorem read_alloc_of_ne (h : Heap T) (n : LN T) {a : Nat} (ha : a ≠ h.cells.length) :
    (h.alloc n).2.read a = h.read a := by
  unfold read alloc
  rcases Nat.lt_or_gt_of_ne ha with hlt | hgt
  · simp [List.getElem?_append_left hlt]
  · have h1 : (h.cells ++ [some n])[a]? = none :=
      List.getElem?_eq_none (by simp; omega)
    have h2 : h.cells[a]? = none := List.getElem?_eq_none (by omega)
    simp [h1, h2]

theorem read_write_self {h : Heap T} {a : Nat} (n : LN T) (ha : a < h.cells.length) :
    (h.write a n).read a = some n := by
  simp [read, write, ha]

theorem read_write_of_ne (h : Heap T) {a b : Nat} (n : LN T) (hab : b ≠ a) :
    (h.write a n).read b = h.read b := by
  simp [read, write, List.getElem?_set_ne (Ne.symm hab)]

theorem read_free_self (h : Heap T) (a : Nat) : (h.free a).read a = none := by
  unfold read free
  by_cases ha : a < h.cells.length
  · simp [ha]
  · rw [List.getElem?_eq_none (by simp; omega)]

theorem read_free_of_ne (h : Heap T) {a b : Nat} (hab : b ≠ a) :
    (h.free a).read b = h.read b := by
  simp [read, free, List.getElem?_set_ne (Ne.symm hab)]

@[simp] theorem length_alloc (h : Heap T) (n : LN T) :
    (h.alloc n).2.cells.length = h.cells.length + 1 := by
  simp [alloc]

@[simp] theorem fst_alloc (h : Heap T) (n : LN T) : (h.alloc n).1 = h.cells.length := rfl

@[simp] theorem length_write (h : Heap T) (a : Nat) (n : LN T) :
    (h.write a n).cells.length = h.cells.length := by
  simp [write]

@[simp] theorem length_free (h : Heap T) (a : Nat) :
    (h.free a).cells.length = h.cells.length := by
  simp [free]

end Heap

/-! ## Chains -/

section PathLemmas

variable {T : Type}

theorem Path.nil_iff {h : Heap T} {p q : Option Nat} : Path h p [] q ↔ p = q := Iff.rfl

theorem Path.cons_iff {h : Heap T} {p q : Option Nat} {x : Nat × T} {l : List (Nat × T)} :
    Path h p (x :: l) q ↔ p = some x.1 ∧ ∃ nx, h.read x.1 = some ⟨x.2, nx⟩ ∧ Path h nx l q :=
  Iff.rfl

theorem Path.frame {h h' : Heap T} {l : List (Nat × T)} {p q : Option Nat}
    (hp : Path h p l q) (hf : ∀ x ∈ l, h'.read x.1 = h.read x.1) : Path h' p l q := by
  induction l generalizing p with
  | nil => exact hp
  | cons x l ih =>
    obtain ⟨h1, nx, h2, h3⟩ := hp
    refine ⟨h1, nx, ?_, ih h3 (fun y hy => hf y (List.mem_cons_of_mem _ hy))⟩
    rw [hf x (List.mem_cons_self _ _)]; exact h2

theorem Path.append_iff {h : Heap T} {l1 l2 : List (Nat × T)} {p q : Option Nat} :
    Path h p (l1 ++ l2) q ↔ ∃ m, Path h p l1 m ∧ Path h m l2 q := by
  induction l1 generalizing p with
  | nil =>
    constructor
    · intro hp; exact ⟨p, rfl, hp⟩
    · rintro ⟨m, h1, h2⟩; rw [Path.nil_iff] at h1; subst h1; exact h2
  | cons x l ih =>
    constructor
    · rintro ⟨h1, nx, h2, h3⟩
      obtain ⟨m, h4, h5⟩ := ih.mp h3
      exact ⟨m, ⟨h1, nx, h2, h4⟩, h5⟩
    · rintro ⟨m, ⟨h1, nx, h2, h4⟩, h5⟩
      exact ⟨h1, nx, h2, ih.mpr ⟨m, h4, h5⟩⟩

theorem Path.lt_length {h : Heap T} {l : List (Nat × T)} {p q : Option Nat}
    (hp : Path h p l q) : ∀ x ∈ l, x.1 < h.cells.length := by
  induction l generalizing p with
  | nil => intro x hx; cases hx
  | cons y l ih =>
    obtain ⟨_, nx, h2, h3⟩ := hp
    intro x hx
    rcases List.mem_cons.mp hx with rfl | hx
    · exact Heap.read_lt h2
    · exact ih h3 x hx

/-- Two walks from the same pointer to the same end pointer that do not pass a
node at the end pointer list the same nodes. -/
theorem Path.unique {h : Heap T} {l1 l2 : List (Nat × T)} {p q : Option Nat}
    (h1 : Path h p l1 q) (h2 : Path h p l2 q)
    (n1 : ∀ x ∈ l1, some x.1 ≠ q) (n2 : ∀ x ∈ l2, some x.1 ≠ q) : l1 = l2 := by
  induction l1 generalizing p l2 with
  | nil =>
    cases l2 with
    | nil => rfl
    | cons y l2 =>
      obtain ⟨hy, _⟩ := h2
      rw [Path.nil_iff] at h1
      exact absurd (hy.symm.trans h1) (n2 y (List.mem_cons_self _ _))
  | cons x l1 ih =>
    cases l2 with
    | nil =>
      obtain ⟨hx, _⟩ := h1
      rw [Path.nil_iff] at h2
      exact absurd (hx.symm.trans h2) (n1 x (List.mem_cons_self _ _))
    | cons y l2 =>
      obtain ⟨hx, nx, hrx, hpx⟩ := h1
      obtain ⟨hy, ny, hry, hpy⟩ := h2
      have hxy : x.1 = y.1 := Option.some.inj (hx.symm.trans hy)
      rw [hxy, hry] at hrx
      have hv : y.2 = x.2 := by injection hrx with hrx; injection hrx
      have hn : ny = nx := by injection hrx with hrx; injection hrx
      subst hn
      have : x = y := Prod.ext hxy hv.symm
      subst this
      rw [ih hpx hpy (fun z hz => n1 z (List.mem_cons_of_mem _ hz))
        (fun z hz => n2 z (List.mem_cons_of_mem _ hz))]

/-- A walk that ends before it meets its end pointer visits no address twice. -/
theorem Path.nodup {h : Heap T} {l : List (Nat × T)} {p q : Option Nat}
    (hp : Path h p l q) (hn : ∀ x ∈ l, some x.1 ≠ q) : (l.map Prod.fst).Nodup := by
  induction l generalizing p with
  | nil => simp
  | cons x l ih =>
    obtain ⟨hx, nx, hrx, hpx⟩ := hp
    have hn' : ∀ z ∈ l, some z.1 ≠ q := fun z hz => hn z (List.mem_cons_of_mem _ hz)
    rw [List.map_cons, List.nodup_cons]
    refine ⟨?_, ih hpx hn'⟩
    intro hmem
    obtain ⟨y, hy, hyx⟩ := List.mem_map.mp hmem
    obtain ⟨l1, l2, rfl⟩ := List.append_of_mem hy
    obtain ⟨m, hm1, hm2⟩ := Path.append_iff.mp hpx
    have hm2' := hm2
    obtain ⟨hmy, ny, hry, hpy⟩ := hm2
    rw [hyx, hrx] at hry
    have hny : nx = ny := by injection hry with hry; injection hry
    subst hny
    have hl2 : ∀ z ∈ l2, some z.1 ≠ q := fun z hz =>
      hn' z (List.mem_append_right _ (List.mem_cons_of_mem _ hz))
    have := Path.unique hpx hpy hn' hl2
    have hlen := congrArg List.length this
    simp at hlen
    omega

theorem Path.length_le {h : Heap T} {l : List (Nat × T)} {p q : Option Nat}
    (hp : Path h p l q) (hn : ∀ x ∈ l, some x.1 ≠ q) : l.length ≤ h.cells.length := by
  have hnd := Path.nodup hp hn
  have hsub : l.map Prod.fst ⊆ List.range h.cells.length := by
    intro a ha
    obtain ⟨x, hx, rfl⟩ := List.mem_map.mp ha
    exact List.mem_range.mpr (Path.lt_length hp x hx)
  have := (List.subperm_of_subset hnd hsub).length_le
  simpa using this

end PathLemmas

end ics

namespace ics

/-! ## LinkedQueue: `enqueue`, `dequeue`, `peek` on a well-formed queue -/

namespace LinkedQueue

variable {T : Type}

theorem WellFormed.front_eq_none_iff {h : Heap T} {q : LinkedQueue} {l : List (Nat × T)}
    (hw : WellFormed h q l) : q.front = none ↔ l = [] := by
  obtain ⟨hp, _, _⟩ := hw
  cases l with
  | nil => simpa using hp
  | cons x l => obtain ⟨hx, _⟩ := hp; simp [hx]

theorem WellFormed.used_eq_zero_iff {h : Heap T} {q : LinkedQueue} {l : List (Nat × T)}
    (hw : WellFormed h q l) : q.used = 0 ↔ l = [] := by
  obtain ⟨_, hu, _⟩ := hw
  rw [hu]
  cases l <;> simp
  omega

theorem q_wellFormed_default_ctor (h : Heap T) : WellFormed h default_ctor [] := by
  refine ⟨rfl, rfl, ?_⟩
  intro x hx; simp at hx

/-- Member `enqueue` on a well-formed queue: it returns 1 and links one new node, at
the first unused address, behind the chain. -/
theorem enqueue_spec {h : Heap T} {q : LinkedQueue} {l : List (Nat × T)}
    (hw : WellFormed h q l) (v : T) :
    ∃ h1 q1, enqueue h q v = (.ok 1, h1, q1) ∧
      WellFormed h1 q1 (l ++ [(h.cells.length, v)]) ∧
      q1.mod_count = q.mod_count + 1 ∧ h1.cells.length = h.cells.length + 1 ∧
      ∀ a, a < h.cells.length → (∀ x, l.getLast? = some x → a ≠ x.1) → h1.read a = h.read a := by
  have hfront := hw.front_eq_none_iff
  obtain ⟨hp, hu, hr⟩ := hw
  rcases List.eq_nil_or_concat l with rfl | ⟨l0, x, rfl⟩
  · have hf : q.front = none := hfront.mpr rfl
    refine ⟨_, _, by simp only [enqueue, hf, if_true]; rfl, ⟨?_, ?_, ?_⟩, rfl, by simp, ?_⟩
    · exact ⟨rfl, none, Heap.read_alloc_self h _, rfl⟩
    · simp [hu]
    · intro y hy; simp at hy; subst hy; rfl
    · intro a ha _
      exact Heap.read_alloc_of_ne h _ (Nat.ne_of_lt ha)
  · have hf : q.front ≠ none := fun hc => by
      have := hfront.mp hc; simp at this
    have hrear : q.rear = some x.1 := hr x (by simp)
    rw [List.concat_eq_append] at hp
    obtain ⟨m, hp0, hm, nx, hrx, hnx⟩ := Path.append_iff.mp hp
    rw [Path.nil_iff] at hnx
    subst hnx
    have hlt : x.1 < h.cells.length := Heap.read_lt hrx
    have hne : x.1 ≠ h.cells.length := Nat.ne_of_lt hlt
    have hrx1 : (h.alloc ⟨v, none⟩).2.read x.1 = some ⟨x.2, none⟩ := by
      rw [Heap.read_alloc_of_ne h _ hne]; exact hrx
    have hnd := Path.nodup hp (by intro y _; simp)
    rw [List.map_append, List.nodup_append] at hnd
    have hx0 : ∀ y ∈ l0, y.1 ≠ x.1 := by
      intro y hy hxy
      exact hnd.2.2 (List.mem_map_of_mem _ hy) (by simp [hxy])
    refine ⟨_, _, by simp only [enqueue, hf, if_false, hrear, hrx1]; rfl, ⟨?_, ?_, ?_⟩, rfl,
      by simp, ?_⟩
    · rw [List.concat_eq_append, List.append_assoc]
      refine Path.append_iff.mpr ⟨m, ?_, hm, some h.cells.length, ?_, rfl, none, ?_, rfl⟩
      · refine Path.frame hp0 ?_
        intro y hy
        rw [Heap.read_write_of_ne _ _ (hx0 y hy),
          Heap.read_alloc_of_ne h _ (Nat.ne_of_lt (Path.lt_length hp0 y hy))]
      · rw [Heap.read_write_self _ (by simp; omega)]; rfl
      · simp only [Heap.fst_alloc]
        rw [Heap.read_write_of_ne _ _ (Ne.symm hne)]
        exact Heap.read_alloc_self h _
    · simp [hu]; omega
    · intro y hy; simp at hy; subst hy; rfl
    · intro a ha hax
      rw [Heap.read_write_of_ne _ _ (hax x (by simp)),
        Heap.read_alloc_of_ne h _ (Nat.ne_of_lt ha)]

/-- Member `dequeue` on a well-formed queue that is not empty: it returns the value of
the first node, deletes that node and keeps the rest of the chain. -/
theorem dequeue_spec {h : Heap T} {q : LinkedQueue} {x : Nat × T} {l : List (Nat × T)}
    (hw : WellFormed h q (x :: l)) :
    ∃ q1, dequeue h q = (.ok x.2, h.free x.1, q1) ∧ WellFormed (h.free x.1) q1 l ∧
      q1.mod_count = q.mod_count + 1 ∧ q1.used = q.used - 1 := by
  have hne : q.used ≠ 0 := fun hc => by simpa using hw.used_eq_zero_iff.mp hc
  obtain ⟨hp, hu, hr⟩ := hw
  have hnd := Path.nodup hp (by intro y _; simp)
  obtain ⟨hx, nx, hrx, hpx⟩ := hp
  refine ⟨_, by simp only [dequeue, empty, beq_iff_eq, hne, if_false, hx, hrx]; rfl,
    ⟨?_, ?_, ?_⟩, rfl, rfl⟩
  · refine Path.frame hpx ?_
    intro y hy
    refine Heap.read_free_of_ne h ?_
    intro hyx
    rw [List.map_cons, List.nodup_cons] at hnd
    exact hnd.1 (hyx ▸ List.mem_map_of_mem _ hy)
  · show q.used - 1 = _
    rw [hu]; simp
  · intro y hy
    refine hr y ?_
    cases l with
    | nil => simp at hy
    | cons z l => simpa using hy

theorem dequeue_empty (h : Heap T) (q : LinkedQueue) (hq : q.used = 0) :
    dequeue h q = (.error .EmptyError, h, q) := by
  simp [dequeue, empty, hq]

theorem peek_empty (h : Heap T) (q : LinkedQueue) (hq : q.used = 0) :
    peek h q = (.error .EmptyError, h, q) := by
  simp [peek, empty, hq]

theorem peek_spec {h : Heap T} {q : LinkedQueue} {x : Nat × T} {l : List (Nat × T)}
    (hw : WellFormed h q (x :: l)) : peek h q = (.ok x.2, h, q) := by
  have hne : q.used ≠ 0 := fun hc => by simpa using hw.used_eq_zero_iff.mp hc
  obtain ⟨⟨hx, nx, hrx, _⟩, _, _⟩ := hw
  simp [peek, empty, hne, hx, Heap.deref, hrx]

end LinkedQueue

end ics

namespace ics

/-! ## C1: the queue refines the list model -/

section QueueRefinement

variable {T : Type}

theorem FifoModel.run_nil (l : List T) : FifoModel.run l ([] : List (QueueCall T)) = ([], l) := by
  cases l <;> rfl

theorem LinkedQueue.run_refines_aux (cs : List (QueueCall T)) :
    ∀ (h : Heap T) (q : LinkedQueue) (l : List (Nat × T)), LinkedQueue.WellFormed h q l →
      (LinkedQueue.run h q cs).1 = (FifoModel.run (l.map Prod.snd) cs).1 ∧
      (∃ l1, LinkedQueue.WellFormed (LinkedQueue.run h q cs).2.1 (LinkedQueue.run h q cs).2.2 l1 ∧
        l1.map Prod.snd = (FifoModel.run (l.map Prod.snd) cs).2) ∧
      (LinkedQueue.run h q cs).2.2.used =
        q.used + QueueCall.enqueues cs - QueueCall.dequeued cs (LinkedQueue.run h q cs).1 := by
  induction cs with
  | nil =>
    intro h q l hw
    rw [FifoModel.run_nil]
    exact ⟨rfl, ⟨l, hw, rfl⟩, by simp [LinkedQueue.run, QueueCall.enqueues, QueueCall.dequeued]⟩
  | cons c cs ih =>
    intro h q l hw
    cases c with
    | enqueue v =>
      obtain ⟨h1, q1, he, hw1, _, _, _⟩ := LinkedQueue.enqueue_spec hw v
      obtain ⟨i1, i2, i3⟩ := ih h1 q1 _ hw1
      have hu1 : q1.used = q.used + 1 := by
        rw [hw1.2.1, hw.2.1]; simp
      simp only [LinkedQueue.run, he, FifoModel.run, Except.map, QueueCall.enqueues,
        QueueCall.dequeued]
      simp only [List.map_append, List.map_cons, List.map_nil] at i1 i2
      refine ⟨by rw [i1], i2, ?_⟩
      rw [i3, hu1]; ring
    | dequeue =>
      cases l with
      | nil =>
        have hq : q.used = 0 := hw.used_eq_zero_iff.mpr rfl
        obtain ⟨i1, i2, i3⟩ := ih h q _ hw
        simp only [LinkedQueue.run, LinkedQueue.dequeue_empty h q hq, FifoModel.run, Except.map,
          QueueCall.enqueues, QueueCall.dequeued, List.map_nil]
        simp only [List.map_nil] at i1 i2
        exact ⟨by rw [i1], i2, i3⟩
      | cons x l =>
        obtain ⟨q1, hd, hw1, _, hu1⟩ := LinkedQueue.dequeue_spec hw
        obtain ⟨i1, i2, i3⟩ := ih _ q1 _ hw1
        simp only [LinkedQueue.run, hd, FifoModel.run, Except.map, QueueCall.enqueues,
          QueueCall.dequeued, List.map_cons]
        refine ⟨by rw [i1], i2, ?_⟩
        rw [i3, hu1]; ring
    | peek =>
      cases l with
      | nil =>
        have hq : q.used = 0 := hw.used_eq_zero_iff.mpr rfl
        obtain ⟨i1, i2, i3⟩ := ih h q _ hw
        simp only [LinkedQueue.run, LinkedQueue.peek_empty h q hq, FifoModel.run, Except.map,
          QueueCall.enqueues, QueueCall.dequeued, List.map_nil]
        simp only [List.map_nil] at i1 i2
        exact ⟨by rw [i1], i2, i3⟩
      | cons x l =>
        obtain ⟨i1, i2, i3⟩ := ih h q _ hw
        simp only [LinkedQueue.run, LinkedQueue.peek_spec hw, FifoModel.run, Except.map,
          QueueCall.enqueues, QueueCall.dequeued, List.map_cons]
        simp only [List.map_cons] at i1 i2
        exact ⟨by rw [i1], i2, i3⟩

/-- C1.  Whatever the heap `h0` the queue is created in and whatever the calls
`cs` of `enqueue`, `dequeue` (and `peek`) made on the default-constructed queue:
the replies are those of the first-in-first-out list model, the values along
the chain from `front` to the null pointer are the model list, `size()` is the
length of the model list, and `size()` is the number of `enqueue` calls minus
the number of `dequeue` calls that returned a value. -/
theorem LinkedQueue.run_refines_fifo (h0 : Heap T) (cs : List (QueueCall T)) :
    (LinkedQueue.run h0 LinkedQueue.default_ctor cs).1 = (FifoModel.run [] cs).1 ∧
    (∃ l, Path (LinkedQueue.run h0 LinkedQueue.default_ctor cs).2.1
        (LinkedQueue.run h0 LinkedQueue.default_ctor cs).2.2.front l none ∧
      l.map Prod.snd = (FifoModel.run [] cs).2) ∧
    (LinkedQueue.run h0 LinkedQueue.default_ctor cs).2.2.size =
      ((FifoModel.run [] cs).2.length : Int) ∧
    (LinkedQueue.run h0 LinkedQueue.default_ctor cs).2.2.size =
      QueueCall.enqueues cs -
        QueueCall.dequeued cs (LinkedQueue.run h0 LinkedQueue.default_ctor cs).1 := by
  obtain ⟨i1, ⟨l1, hw1, hl1⟩, i3⟩ :=
    LinkedQueue.run_refines_aux cs h0 LinkedQueue.default_ctor []
      (LinkedQueue.q_wellFormed_default_ctor h0)
  simp only [List.map_nil] at i1 hl1
  refine ⟨i1, ⟨l1, hw1.1, hl1⟩, ?_, ?_⟩
  · rw [← hl1, LinkedQueue.size, hw1.2.1]; simp
  · rw [LinkedQueue.size, i3]; simp [LinkedQueue.default_ctor]

end QueueRefinement

end ics

namespace ics

/-! ## C2: `EmptyError` of `dequeue` and `peek` -/

section QueueEmpty

variable {T : Type}

/-- C2.  `dequeue()` and `peek()` throw `EmptyError` exactly when `size()` is 0;
whenever either of them ends with an exception the heap and the queue (chain,
`used`, `mod_count`) are what they were; and on a well-formed queue whose
`size()` is not 0, `peek()` returns the value of the first node and leaves the
heap and the queue as they were. -/
theorem LinkedQueue.empty_error_iff (h : Heap T) (q : LinkedQueue) :
    ((LinkedQueue.dequeue h q).1 = .error .EmptyError ↔ q.size = 0) ∧
    ((LinkedQueue.peek h q).1 = .error .EmptyError ↔ q.size = 0) ∧
    (∀ e, (LinkedQueue.dequeue h q).1 = .error e → (LinkedQueue.dequeue h q).2 = (h, q)) ∧
    (∀ e, (LinkedQueue.peek h q).1 = .error e → (LinkedQueue.peek h q).2 = (h, q)) ∧
    (∀ l, LinkedQueue.WellFormed h q l → q.size ≠ 0 →
      ∃ x l1, l = x :: l1 ∧ LinkedQueue.peek h q = (.ok x.2, h, q)) := by
  refine ⟨?_, ?_, ?_, ?_, ?_⟩
  · constructor
    · intro hd
      by_contra hne
      have hne : q.used ≠ 0 := hne
      simp only [LinkedQueue.dequeue, LinkedQueue.empty, beq_iff_eq, hne, if_false] at hd
      cases hf : q.front with
      | none => simp [hf] at hd
      | some fa =>
        cases hr : h.read fa with
        | none => simp [hf, hr] at hd
        | some fn => simp [hf, hr] at hd
    · intro hq
      rw [LinkedQueue.dequeue_empty h q hq]
  · constructor
    · intro hd
      by_contra hne
      have hne : q.used ≠ 0 := hne
      simp only [LinkedQueue.peek, LinkedQueue.empty, beq_iff_eq, hne, if_false] at hd
      cases hr : h.deref q.front with
      | none => simp [hr] at hd
      | some fn => simp [hr] at hd
    · intro hq
      rw [LinkedQueue.peek_empty h q hq]
  · intro e he
    by_cases hq : q.used = 0
    · rw [LinkedQueue.dequeue_empty h q hq]
    · cases hf : q.front with
      | none => simp [LinkedQueue.dequeue, LinkedQueue.empty, hq, hf]
      | some fa =>
        cases hr : h.read fa with
        | none => simp [LinkedQueue.dequeue, LinkedQueue.empty, hq, hf, hr]
        | some fn => simp [LinkedQueue.dequeue, LinkedQueue.empty, hq, hf, hr] at he
  · intro e _
    unfold LinkedQueue.peek
    split
    · rfl
    · split <;> rfl
  · intro l hw hne
    cases l with
    | nil => exact absurd (hw.used_eq_zero_iff.mpr rfl) hne
    | cons x l1 => exact ⟨x, l1, rfl, LinkedQueue.peek_spec hw⟩

/-- C2 at a queue holding 7 and 8: `peek()` returns 7 and changes nothing. -/
theorem LinkedQueue.empty_error_iff_witness :
    LinkedQueue.WellFormed (⟨[some ⟨7, some 1⟩, some ⟨8, none⟩]⟩ : Heap Nat)
      { front := some 0, rear := some 1, used := 2, mod_count := 2 } [(0, 7), (1, 8)] ∧
    ∃ x l1, [(0, 7), (1, 8)] = x :: l1 ∧
      LinkedQueue.peek (⟨[some ⟨7, some 1⟩, some ⟨8, none⟩]⟩ : Heap Nat)
        { front := some 0, rear := some 1, used := 2, mod_count := 2 } =
        (.ok x.2, ⟨[some ⟨7, some 1⟩, some ⟨8, none⟩]⟩,
          { front := some 0, rear := some 1, used := 2, mod_count := 2 }) :=
  have hw : LinkedQueue.WellFormed (⟨[some ⟨7, some 1⟩, some ⟨8, none⟩]⟩ : Heap Nat)
      { front := some 0, rear := some 1, used := 2, mod_count := 2 } [(0, 7), (1, 8)] :=
    ⟨⟨rfl, some 1, rfl, rfl, none, rfl, rfl⟩, rfl, by simp⟩
  ⟨hw, (LinkedQueue.empty_error_iff _ _).2.2.2.2 _ hw (by decide)⟩

end QueueEmpty

end ics

namespace ics

/-! ## LinkedSet: `contains`, `insert`, `erase_at`, `erase` on a well-formed set -/

section SetBasics

variable {T : Type}

theorem LinkedSet.WellFormed.length_lt {h : Heap T} {s : LinkedSet} {l : List (Nat × T)}
    (hw : LinkedSet.WellFormed h s l) : l.length < h.cells.length + 1 := by
  obtain ⟨t, _, hp, hn, _, _⟩ := hw
  have := Path.length_le hp (fun x hx hc => hn x hx (Option.some.inj hc))
  omega

theorem LinkedSet.WellFormed.addr_nodup {h : Heap T} {s : LinkedSet} {l : List (Nat × T)}
    (hw : LinkedSet.WellFormed h s l) : (l.map Prod.fst).Nodup := by
  obtain ⟨t, _, hp, hn, _, _⟩ := hw
  exact Path.nodup hp (fun x hx hc => hn x hx (Option.some.inj hc))

/-- Two descriptions of the chain of one set list the same nodes. -/
theorem LinkedSet.WellFormed.chain_unique {h : Heap T} {s : LinkedSet} {l1 l2 : List (Nat × T)}
    (h1 : LinkedSet.WellFormed h s l1) (h2 : LinkedSet.WellFormed h s l2) : l1 = l2 := by
  obtain ⟨t, ht, hp, hn, _, _⟩ := h1
  obtain ⟨t2, ht2, hp2, hn2, _, _⟩ := h2
  have : t2 = t := Option.some.inj (ht2.symm.trans ht)
  subst this
  exact Path.unique hp hp2 (fun x hx hc => hn x hx (Option.some.inj hc))
    (fun x hx hc => hn2 x hx (Option.some.inj hc))

theorem LinkedSet.contains_loop_spec [DecidableEq T] {h : Heap T} {t : Nat} (e : T) :
    ∀ (l : List (Nat × T)) (p : Option Nat) (fuel : Nat), Path h p l (some t) →
      (∀ x ∈ l, x.1 ≠ t) → l.length ≤ fuel →
      LinkedSet.contains_loop h (some t) e fuel p = .ok (decide (e ∈ l.map Prod.snd)) := by
  intro l
  induction l with
  | nil =>
    intro p fuel hp _ _
    rw [Path.nil_iff] at hp
    subst hp
    cases fuel <;> simp [LinkedSet.contains_loop]
  | cons x l ih =>
    intro p fuel hp hn hlen
    obtain ⟨hx, nx, hrx, hpx⟩ := hp
    subst hx
    have hxt : (some x.1 : Option Nat) ≠ some t := fun hc =>
      hn x (List.mem_cons_self _ _) (Option.some.inj hc)
    cases fuel with
    | zero => simp at hlen
    | succ fuel =>
      simp only [LinkedSet.contains_loop, hxt, if_false, Heap.deref, hrx]
      by_cases hv : x.2 = e
      · simp [hv]
      · rw [if_neg hv, ih nx fuel hpx (fun y hy => hn y (List.mem_cons_of_mem _ hy))
          (by simpa using hlen)]
        have : ¬ e = x.2 := fun hc => hv hc.symm
        simp [this]

/-- Member `contains` on a well-formed set answers whether a node of the chain holds
the value. -/
theorem LinkedSet.contains_spec [DecidableEq T] {h : Heap T} {s : LinkedSet}
    {l : List (Nat × T)} (hw : LinkedSet.WellFormed h s l) (e : T) :
    LinkedSet.contains h s e = .ok (decide (e ∈ l.map Prod.snd)) := by
  have hlen := hw.length_lt
  obtain ⟨t, ht, hp, hn, _, _⟩ := hw
  unfold LinkedSet.contains
  rw [ht]
  exact LinkedSet.contains_loop_spec e l s.front _ hp hn (by omega)

/-- Member `insert` of a value that no node holds: one node is allocated at the first
unused address and becomes the front of the chain. -/
theorem LinkedSet.insert_absent [DecidableEq T] {h : Heap T} {s : LinkedSet}
    {l : List (Nat × T)} (hw : LinkedSet.WellFormed h s l) {e : T}
    (he : e ∉ l.map Prod.snd) :
    LinkedSet.insert h s e = (.ok 1, (h.alloc ⟨e, s.front⟩).2,
      { s with front := some h.cells.length, used := s.used + 1,
               mod_count := s.mod_count + 1 }) ∧
    LinkedSet.WellFormed (h.alloc ⟨e, s.front⟩).2
      { s with front := some h.cells.length, used := s.used + 1,
               mod_count := s.mod_count + 1 } ((h.cells.length, e) :: l) := by
  have hc := LinkedSet.contains_spec hw e
  obtain ⟨t, ht, hp, hn, ⟨tv, htr⟩, hu⟩ := hw
  constructor
  · simp only [LinkedSet.insert, hc, he, decide_False]
    rfl
  · have htl : t < h.cells.length := Heap.read_lt htr
    refine ⟨t, ht, ⟨rfl, s.front, Heap.read_alloc_self h _, ?_⟩, ?_, ⟨tv, ?_⟩, ?_⟩
    · refine Path.frame hp ?_
      intro y hy
      exact Heap.read_alloc_of_ne h _ (Nat.ne_of_lt (Path.lt_length hp y hy))
    · intro y hy
      rcases List.mem_cons.mp hy with rfl | hy
      · exact Nat.ne_of_gt htl
      · exact hn y hy
    · rw [Heap.read_alloc_of_ne h _ (Nat.ne_of_lt htl)]; exact htr
    · simp [hu]

theorem LinkedSet.insert_present [DecidableEq T] {h : Heap T} {s : LinkedSet}
    {l : List (Nat × T)} (hw : LinkedSet.WellFormed h s l) {e : T}
    (he : e ∈ l.map Prod.snd) : LinkedSet.insert h s e = (.ok 0, h, s) := by
  have hc := LinkedSet.contains_spec hw e
  simp only [LinkedSet.insert, hc, he, decide_True]

end SetBasics

end ics

namespace ics

/-! ## C3: `insert` -/

section SetInsert

variable {T : Type}

end SetInsert

end ics

namespace ics

/-! ## LinkedSet: `erase_at` and `erase` -/

section SetErase

variable {T : Type}

@[simp] theorem LinkedSet.map_snd_absorb (a : Nat) (l : List (Nat × T)) :
    (LinkedSet.absorb a l).map Prod.snd = l.map Prod.snd := by
  cases l <;> rfl

@[simp] theorem LinkedSet.length_absorb (a : Nat) (l : List (Nat × T)) :
    (LinkedSet.absorb a l).length = l.length := by
  cases l <;> rfl

/-- Member `erase_at(p)` at the node `x` of a well-formed set: it returns 1; the node
keeps its address and takes over value and link of its successor, which is
deleted; when the successor was the trailer, the node becomes the trailer. -/
theorem LinkedSet.erase_at_spec {h : Heap T} {s : LinkedSet} {l1 l2 : List (Nat × T)}
    {x : Nat × T} (hw : LinkedSet.WellFormed h s (l1 ++ x :: l2)) :
    ∃ h1 s1, LinkedSet.erase_at h s x.1 = (.ok 1, h1, s1) ∧
      LinkedSet.WellFormed h1 s1 (l1 ++ LinkedSet.absorb x.1 l2) ∧
      s1.mod_count = s.mod_count + 1 ∧ s1.used = s.used - 1 ∧ s1.front = s.front ∧
      h1.cells.length = h.cells.length ∧
      s1.trailer = (if l2.isEmpty then some x.1 else s.trailer) ∧
      ∀ a, a ≠ x.1 → (∀ y ∈ l2, a ≠ y.1) → some a ≠ s.trailer → h1.read a = h.read a := by
  have hnd := hw.addr_nodup
  obtain ⟨t, ht, hp, hn, ⟨tv, htr⟩, hu⟩ := hw
  obtain ⟨m, hp1, hm, nx, hrx, hp2⟩ := Path.append_iff.mp hp
  rw [List.map_append, List.map_cons, List.nodup_append, List.nodup_cons] at hnd
  obtain ⟨_, ⟨hx2, _⟩, hdis⟩ := hnd
  have hx1 : ∀ y ∈ l1, y.1 ≠ x.1 := fun y hy hc =>
    hdis (List.mem_map_of_mem _ hy) (by simp [hc])
  have hxt : x.1 ≠ t := hn x (by simp)
  cases l2 with
  | nil =>
    rw [Path.nil_iff] at hp2
    subst hp2
    have hfree : ∀ a, a ≠ x.1 → a ≠ t →
        ((h.write x.1 ⟨tv, none⟩).free t).read a = h.read a := fun a h1 h2 => by
      rw [Heap.read_free_of_ne _ h2, Heap.read_write_of_ne _ _ h1]
    refine ⟨(h.write x.1 ⟨tv, none⟩).free t,
      { s with trailer := some x.1, used := s.used - 1, mod_count := s.mod_count + 1 },
      ?_, ⟨x.1, rfl, ?_, ?_, ⟨tv, ?_⟩, ?_⟩, rfl, rfl, rfl, by simp, by simp, ?_⟩
    · simp only [LinkedSet.erase_at, hrx, ht, if_true, htr]
    · rw [LinkedSet.absorb, List.append_nil]
      refine Path.frame (hm ▸ hp1) ?_
      intro y hy
      exact hfree y.1 (hx1 y hy) (hn y (by simp [hy]))
    · intro y hy
      rw [LinkedSet.absorb, List.append_nil] at hy
      exact hx1 y hy
    · rw [Heap.read_free_of_ne _ hxt, Heap.read_write_self _ (Heap.read_lt hrx)]
    · simp [hu, LinkedSet.absorb]
    · intro a h1 _ h3
      exact hfree a h1 (fun hc => h3 (by rw [ht, hc]))
  | cons y l3 =>
    obtain ⟨hy, ny, hry, hp3⟩ := hp2
    subst hy
    have hyt : y.1 ≠ t := hn y (by simp)
    have hyx : y.1 ≠ x.1 := fun hc => hx2 (by simp [hc])
    have hnd3 := Path.nodup (Path.cons_iff.mpr ⟨rfl, ny, hry, hp3⟩)
      (fun z hz hc => hn z (by
        rcases List.mem_cons.mp hz with rfl | hz
        · simp
        · simp [hz]) (Option.some.inj hc))
    rw [List.map_cons, List.nodup_cons] at hnd3
    have hfree : ∀ a, a ≠ x.1 → a ≠ y.1 →
        ((h.write x.1 ⟨y.2, ny⟩).free y.1).read a = h.read a := fun a h1 h2 => by
      rw [Heap.read_free_of_ne _ h2, Heap.read_write_of_ne _ _ h1]
    have hcond : (some y.1 : Option Nat) ≠ s.trailer := by
      rw [ht]; exact fun hc => hyt (Option.some.inj hc)
    refine ⟨(h.write x.1 ⟨y.2, ny⟩).free y.1,
      { s with used := s.used - 1, mod_count := s.mod_count + 1 },
      ?_, ⟨t, ht, ?_, ?_, ⟨tv, ?_⟩, ?_⟩, rfl, rfl, rfl, by simp, by simp, ?_⟩
    · simp only [LinkedSet.erase_at, hrx, hcond, if_false, hry]
    · refine Path.append_iff.mpr ⟨m, ?_, hm, ny, ?_, ?_⟩
      · refine Path.frame hp1 ?_
        intro z hz
        refine hfree z.1 (hx1 z hz) ?_
        intro hc
        exact hdis (List.mem_map_of_mem _ hz) (by simp [hc])
      · show ((h.write x.1 ⟨y.2, ny⟩).free y.1).read x.1 = _
        rw [Heap.read_free_of_ne _ (Ne.symm hyx), Heap.read_write_self _ (Heap.read_lt hrx)]
      · refine Path.frame hp3 ?_
        intro z hz
        refine hfree z.1 ?_ ?_
        · intro hc
          exact hx2 (hc ▸ List.mem_cons_of_mem _ (List.mem_map_of_mem _ hz))
        · intro hc
          exact hnd3.1 (hc ▸ List.mem_map_of_mem _ hz)
    · intro z hz
      rcases List.mem_append.mp hz with hz | hz
      · exact hn z (by simp [hz])
      · rcases List.mem_cons.mp hz with rfl | hz
        · exact hxt
        · exact hn z (by simp [hz])
    · rw [hfree t (Ne.symm hxt) (Ne.symm hyt)]; exact htr
    · simp [hu, LinkedSet.absorb]; omega
    · intro a h1 h2 _
      exact hfree a h1 (h2 y (by simp))

theorem LinkedSet.erase_loop_absent [DecidableEq T] {h : Heap T} {s : LinkedSet} {t : Nat}
    (ht : s.trailer = some t) (e : T) :
    ∀ (l : List (Nat × T)) (p : Option Nat) (fuel : Nat), Path h p l (some t) →
      (∀ x ∈ l, x.1 ≠ t) → l.length ≤ fuel → e ∉ l.map Prod.snd →
      LinkedSet.erase_loop h s e fuel p = (.ok 0, h, s) := by
  intro l
  induction l with
  | nil =>
    intro p fuel hp _ _ _
    rw [Path.nil_iff] at hp
    subst hp
    cases fuel <;> simp [LinkedSet.erase_loop, ht]
  | cons x l ih =>
    intro p fuel hp hn hlen he
    obtain ⟨hx, nx, hrx, hpx⟩ := hp
    subst hx
    have hxt : (some x.1 : Option Nat) ≠ s.trailer := by
      rw [ht]; exact fun hc => hn x (List.mem_cons_self _ _) (Option.some.inj hc)
    have hv : ¬ x.2 = e := fun hc => he (by simp [hc])
    cases fuel with
    | zero => simp at hlen
    | succ fuel =>
      simp only [LinkedSet.erase_loop, hxt, if_false, hrx, hv]
      exact ih nx fuel hpx (fun y hy => hn y (List.mem_cons_of_mem _ hy)) (by simpa using hlen)
        (fun hc => he (by simp only [List.map_cons]; exact List.mem_cons_of_mem _ hc))

theorem LinkedSet.erase_loop_present [DecidableEq T] {h : Heap T} {s : LinkedSet} {t : Nat}
    (ht : s.trailer = some t) (x : Nat × T) (l2 : List (Nat × T)) :
    ∀ (l1 : List (Nat × T)) (p : Option Nat) (fuel : Nat), Path h p (l1 ++ x :: l2) (some t) →
      (∀ y ∈ l1 ++ x :: l2, y.1 ≠ t) → (l1 ++ x :: l2).length ≤ fuel →
      x.2 ∉ l1.map Prod.snd →
      LinkedSet.erase_loop h s x.2 fuel p = LinkedSet.erase_at h s x.1 := by
  intro l1
  induction l1 with
  | nil =>
    intro p fuel hp hn hlen _
    obtain ⟨hx, nx, hrx, hpx⟩ := hp
    subst hx
    have hxt : (some x.1 : Option Nat) ≠ s.trailer := by
      rw [ht]; exact fun hc => hn x (by simp) (Option.some.inj hc)
    cases fuel with
    | zero => simp at hlen
    | succ fuel => simp only [LinkedSet.erase_loop, hxt, if_false, hrx, if_true]
  | cons z l1 ih =>
    intro p fuel hp hn hlen he
    obtain ⟨hz, nz, hrz, hpz⟩ := hp
    subst hz
    have hzt : (some z.1 : Option Nat) ≠ s.trailer := by
      rw [ht]; exact fun hc => hn z (by simp) (Option.some.inj hc)
    have hv : ¬ z.2 = x.2 := fun hc => he (by simp [hc])
    cases fuel with
    | zero => simp at hlen
    | succ fuel =>
      simp only [LinkedSet.erase_loop, hzt, if_false, hrz, hv]
      exact ih nz fuel hpz (fun y hy => hn y (List.mem_cons_of_mem _ hy))
        (by simpa using hlen)
        (fun hc => he (by simp only [List.map_cons]; exact List.mem_cons_of_mem _ hc))

theorem LinkedSet.erase_absent [DecidableEq T] {h : Heap T} {s : LinkedSet}
    {l : List (Nat × T)} (hw : LinkedSet.WellFormed h s l) {e : T}
    (he : e ∉ l.map Prod.snd) : LinkedSet.erase h s e = (.ok 0, h, s) := by
  have hlen := hw.length_lt
  obtain ⟨t, ht, hp, hn, _, _⟩ := hw
  exact LinkedSet.erase_loop_absent ht e l s.front _ hp hn (by omega) he

/-- Member `erase(e)` on a well-formed set is `erase_at` at the first node that holds
`e`. -/
theorem LinkedSet.erase_present [DecidableEq T] {h : Heap T} {s : LinkedSet}
    {l1 l2 : List (Nat × T)} {x : Nat × T} (hw : LinkedSet.WellFormed h s (l1 ++ x :: l2))
    (he : x.2 ∉ l1.map Prod.snd) : LinkedSet.erase h s x.2 = LinkedSet.erase_at h s x.1 := by
  have hlen := hw.length_lt
  obtain ⟨t, ht, hp, hn, _, _⟩ := hw
  exact LinkedSet.erase_loop_present ht x l2 l1 s.front _ hp hn (by omega) he

/-- Every value of a list has a first occurrence. -/
theorem LinkedSet.first_occurrence [DecidableEq T] {l : List (Nat × T)} {e : T}
    (he : e ∈ l.map Prod.snd) :
    ∃ l1 x l2, l = l1 ++ x :: l2 ∧ x.2 = e ∧ e ∉ l1.map Prod.snd := by
  induction l with
  | nil => simp at he
  | cons y l ih =>
    by_cases hy : y.2 = e
    · exact ⟨[], y, l, rfl, hy, by simp⟩
    · have he1 : e ∈ l.map Prod.snd := by
        simp only [List.map_cons, List.mem_cons] at he
        rcases he with he | he
        · exact absurd he.symm hy
        · exact he
      obtain ⟨l1, x, l2, rfl, hx, hn⟩ := ih he1
      refine ⟨y :: l1, x, l2, rfl, hx, ?_⟩
      simp only [List.map_cons, List.mem_cons, not_or]
      exact ⟨fun hc => hy hc.symm, hn⟩

end SetErase

end ics

namespace ics

/-! ## C5: `erase` -/

section SetEraseClaim

variable {T : Type}

theorem LinkedSet.Unique.not_mem_of_split {l1 l2 : List (Nat × T)} {x : Nat × T}
    (hu : LinkedSet.Unique (l1 ++ x :: l2)) :
    x.2 ∉ l1.map Prod.snd ∧ x.2 ∉ l2.map Prod.snd ∧
      LinkedSet.Unique (l1 ++ LinkedSet.absorb x.1 l2) := by
  unfold LinkedSet.Unique at hu ⊢
  rw [List.map_append, List.map_cons, List.nodup_append, List.nodup_cons] at hu
  obtain ⟨h1, ⟨h2, h3⟩, h4⟩ := hu
  refine ⟨fun hc => h4 hc (List.mem_cons_self _ _), h2, ?_⟩
  rw [List.map_append, LinkedSet.map_snd_absorb, List.nodup_append]
  exact ⟨h1, h3, fun a ha hb => h4 ha (List.mem_cons_of_mem _ hb)⟩

/-- C5.  On a well-formed set without duplicates, `contains(v)` answers; if `v`
is absent, `erase(v)` returns 0 and leaves the heap and the set (chain, `used`,
`mod_count`) as they were; if `v` is present, wherever in the chain its node
is, `erase(v)` returns 1, `size()` drops by exactly one, the set is well-formed
and free of duplicates again, `contains(v)` is false afterwards and
`contains(w)` is what it was for every other value `w`. -/
theorem LinkedSet.erase_correct [DecidableEq T] (h : Heap T) (s : LinkedSet)
    (l : List (Nat × T)) (hw : LinkedSet.WellFormed h s l) (hu : LinkedSet.Unique l) (v : T) :
    (LinkedSet.contains h s v = .ok true ∨ LinkedSet.contains h s v = .ok false) ∧
    (LinkedSet.contains h s v = .ok false → LinkedSet.erase h s v = (.ok 0, h, s)) ∧
    (LinkedSet.contains h s v = .ok true →
      (LinkedSet.erase h s v).1 = .ok 1 ∧
      (LinkedSet.erase h s v).2.2.size = s.size - 1 ∧
      (∃ l1, LinkedSet.WellFormed (LinkedSet.erase h s v).2.1 (LinkedSet.erase h s v).2.2 l1 ∧
        LinkedSet.Unique l1) ∧
      LinkedSet.contains (LinkedSet.erase h s v).2.1 (LinkedSet.erase h s v).2.2 v = .ok false ∧
      ∀ w, w ≠ v →
        LinkedSet.contains (LinkedSet.erase h s v).2.1 (LinkedSet.erase h s v).2.2 w =
          LinkedSet.contains h s w) := by
  have hc := LinkedSet.contains_spec hw v
  refine ⟨?_, ?_, ?_⟩
  · rw [hc]
    by_cases hv : v ∈ l.map Prod.snd <;> simp [hv]
  · intro hf
    rw [hc] at hf
    exact LinkedSet.erase_absent hw (by simpa using hf)
  · intro ht
    rw [hc] at ht
    have hv : v ∈ l.map Prod.snd := by simpa using ht
    obtain ⟨l1, x, l2, rfl, hx, hn1⟩ := LinkedSet.first_occurrence hv
    subst hx
    obtain ⟨_, hn2, hu1⟩ := hu.not_mem_of_split
    obtain ⟨h1, s1, he, hw1, _, hused, _⟩ := LinkedSet.erase_at_spec hw
    rw [LinkedSet.erase_present hw hn1, he]
    refine ⟨rfl, hused, ⟨_, hw1, hu1⟩, ?_, ?_⟩
    · rw [LinkedSet.contains_spec hw1 x.2]
      simp only [List.map_append, LinkedSet.map_snd_absorb, List.mem_append, hn1, hn2, or_self,
        decide_False]
    · intro w hwv
      show LinkedSet.contains h1 s1 w = _
      rw [LinkedSet.contains_spec hw1 w, LinkedSet.contains_spec hw w]
      simp [hwv]

/-- C5 at the set made by inserting "a", "b", "c" (trailer at address 0, "a"
in the node just before it): erasing "a" returns 1 and leaves size 2. -/
theorem LinkedSet.erase_correct_witness :
    LinkedSet.WellFormed
      (⟨[some ⟨"", none⟩, some ⟨"a", some 0⟩, some ⟨"b", some 1⟩, some ⟨"c", some 2⟩]⟩ :
        Heap String)
      { front := some 3, trailer := some 0, used := 3, mod_count := 3 }
      [(3, "c"), (2, "b"), (1, "a")] ∧
    LinkedSet.Unique [(3, "c"), (2, "b"), (1, "a")] ∧
    (LinkedSet.erase
      (⟨[some ⟨"", none⟩, some ⟨"a", some 0⟩, some ⟨"b", some 1⟩, some ⟨"c", some 2⟩]⟩ :
        Heap String)
      { front := some 3, trailer := some 0, used := 3, mod_count := 3 } "a").1 = .ok 1 ∧
    (LinkedSet.erase
      (⟨[some ⟨"", none⟩, some ⟨"a", some 0⟩, some ⟨"b", some 1⟩, some ⟨"c", some 2⟩]⟩ :
        Heap String)
      { front := some 3, trailer := some 0, used := 3, mod_count := 3 } "a").2.2.size = 3 - 1 :=
  have hw : LinkedSet.WellFormed
      (⟨[some ⟨"", none⟩, some ⟨"a", some 0⟩, some ⟨"b", some 1⟩, some ⟨"c", some 2⟩]⟩ :
        Heap String)
      { front := some 3, trailer := some 0, used := 3, mod_count := 3 }
      [(3, "c"), (2, "b"), (1, "a")] :=
    ⟨0, rfl, ⟨rfl, some 2, rfl, rfl, some 1, rfl, rfl, some 0, rfl, rfl⟩, by simp,
      ⟨"", rfl⟩, rfl⟩
  have hu : LinkedSet.Unique [(3, "c"), (2, "b"), (1, "a")] := by
    simp [LinkedSet.Unique]
  ⟨hw, hu,
    ((LinkedSet.erase_correct _ _ _ hw hu "a").2.2 (by rfl)).1,
    ((LinkedSet.erase_correct _ _ _ hw hu "a").2.2 (by rfl)).2.1⟩

end SetEraseClaim

end ics

namespace ics

/-! ## C4: inserting a sequence of values -/

section SetInsertAll

variable {T : Type}

theorem LinkedSet.wellFormed_default_ctor [Inhabited T] (h0 : Heap T) :
    LinkedSet.WellFormed (LinkedSet.default_ctor h0).1 (LinkedSet.default_ctor h0).2 [] :=
  ⟨h0.cells.length, rfl, rfl, by simp, ⟨default, Heap.read_alloc_self h0 _⟩, rfl⟩

/-- The loop of `insert_all` on a well-formed set without duplicates: the nodes
`l0` it allocates are put in front of the chain, one for each value that was
not yet there; the count grows by their number. -/
theorem LinkedSet.insert_all_loop_spec [DecidableEq T] (vs : List T) :
    ∀ (h : Heap T) (s : LinkedSet) (l : List (Nat × T)) (c : Int),
      LinkedSet.WellFormed h s l → LinkedSet.Unique l →
      ∃ (h1 : Heap T) (s1 : LinkedSet) (l0 : List (Nat × T)) (ks : List Int),
        LinkedSet.insert_all_loop h s c vs = (.ok (c + l0.length), h1, s1) ∧
        LinkedSet.insert_each h s vs = (ks.map Except.ok, h1, s1) ∧ ks.sum = l0.length ∧
        LinkedSet.WellFormed h1 s1 (l0 ++ l) ∧ LinkedSet.Unique (l0 ++ l) ∧
        (∀ w, w ∈ (l0 ++ l).map Prod.snd ↔ w ∈ l.map Prod.snd ∨ w ∈ vs) ∧
        s1.mod_count = s.mod_count + l0.length ∧ s1.trailer = s.trailer ∧
        h.cells.length ≤ h1.cells.length ∧
        (∀ a, a < h.cells.length → h1.read a = h.read a) ∧
        (∀ x ∈ l0, h.cells.length ≤ x.1) := by
  induction vs with
  | nil =>
    intro h s l c hw hu
    exact ⟨h, s, [], [], by simp [LinkedSet.insert_all_loop], rfl, rfl, hw, hu, by simp,
      by simp, rfl, le_refl _, fun _ _ => rfl, by simp⟩
  | cons v vs ih =>
    intro h s l c hw hu
    by_cases hv : v ∈ l.map Prod.snd
    · have hi := LinkedSet.insert_present hw hv
      obtain ⟨h1, s1, l0, ks, e1, e2, e3, hw1, hu1, hm, hmc, htr, hlen, hfr, hge⟩ :=
        ih h s l (c + 0) hw hu
      refine ⟨h1, s1, l0, 0 :: ks, ?_, ?_, by simpa using e3, hw1, hu1, ?_, hmc, htr, hlen,
        hfr, hge⟩
      · simp only [LinkedSet.insert_all_loop, hi, e1]; simp
      · simp only [LinkedSet.insert_each, hi, e2]; rfl
      · intro w
        rw [hm w]
        constructor
        · rintro (h1 | h1)
          · exact Or.inl h1
          · exact Or.inr (List.mem_cons_of_mem _ h1)
        · rintro (h1 | h1)
          · exact Or.inl h1
          · rcases List.mem_cons.mp h1 with rfl | h1
            · exact Or.inl hv
            · exact Or.inr h1
    · obtain ⟨hi, hw0⟩ := LinkedSet.insert_absent hw hv
      have hu0 : LinkedSet.Unique ((h.cells.length, v) :: l) := by
        unfold LinkedSet.Unique at hu ⊢
        rw [List.map_cons, List.nodup_cons]
        exact ⟨hv, hu⟩
      obtain ⟨h1, s1, l0, ks, e1, e2, e3, hw1, hu1, hm, hmc, htr, hlen, hfr, hge⟩ :=
        ih _ _ _ (c + 1) hw0 hu0
      have hassoc : l0 ++ (h.cells.length, v) :: l = (l0 ++ [(h.cells.length, v)]) ++ l := by
        simp
      rw [hassoc] at hw1 hu1 hm
      refine ⟨h1, s1, l0 ++ [(h.cells.length, v)], 1 :: ks, ?_, ?_, ?_, hw1, hu1, ?_, ?_, htr,
        ?_, ?_, ?_⟩
      · simp only [LinkedSet.insert_all_loop, hi, e1]
        simp; ring
      · simp only [LinkedSet.insert_each, hi, e2]; rfl
      · simp [e3]; ring
      · intro w
        rw [hm w]
        simp only [List.map_cons, List.mem_cons]
        tauto
      · rw [hmc]; simp; ring
      · have := Heap.length_alloc h ⟨v, s.front⟩
        omega
      · intro a ha
        rw [hfr a (by rw [Heap.length_alloc]; omega)]
        exact Heap.read_alloc_of_ne h _ (Nat.ne_of_lt ha)
      · intro x hx
        rcases List.mem_append.mp hx with hx | hx
        · have := hge x hx
          rw [Heap.length_alloc] at this
          omega
        · simp at hx; subst hx; exact le_refl _

/-- The number of nodes of a chain without duplicates whose values are those
of `vs` is the number of distinct values of `vs`. -/
theorem LinkedSet.length_eq_dedup [DecidableEq T] {l : List (Nat × T)} {vs : List T}
    (hu : LinkedSet.Unique l) (hm : ∀ w, w ∈ l.map Prod.snd ↔ w ∈ vs) :
    l.length = vs.dedup.length := by
  have h1 : (l.map Prod.snd).toFinset = vs.toFinset := by
    ext w; simp only [List.mem_toFinset]; exact hm w
  have h2 := List.toFinset_card_of_nodup hu
  rw [h1, List.card_toFinset] at h2
  simpa using h2.symm

/-- C4.  Insert the values `vs` into a default-constructed set, by `insert`
calls one after the other, by `insert_all`, or by the constructor from an
initializer list or iterable: every call succeeds, `size()` afterwards is the
number of distinct values of `vs`, and so is the sum of the values the
`insert` calls returned (which is what `insert_all` returns). -/
theorem LinkedSet.insert_all_distinct [DecidableEq T] [Inhabited T] (h0 : Heap T)
    (vs : List T) :
    (∃ ks : List Int, (LinkedSet.insert_each (LinkedSet.default_ctor h0).1 (LinkedSet.default_ctor h0).2
        vs).1 = ks.map Except.ok ∧ ks.sum = (vs.dedup.length : Int)) ∧
    (LinkedSet.insert_each (LinkedSet.default_ctor h0).1 (LinkedSet.default_ctor h0).2
        vs).2.2.size = (vs.dedup.length : Int) ∧
    (LinkedSet.insert_all (LinkedSet.default_ctor h0).1 (LinkedSet.default_ctor h0).2 vs).1 =
      .ok (vs.dedup.length : Int) ∧
    (LinkedSet.insert_all (LinkedSet.default_ctor h0).1 (LinkedSet.default_ctor h0).2
        vs).2.2.size = (vs.dedup.length : Int) ∧
    (LinkedSet.iterable_ctor h0 vs).1 = .ok () ∧
    (LinkedSet.iterable_ctor h0 vs).2.2.size = (vs.dedup.length : Int) := by
  obtain ⟨h1, s1, l0, ks, e1, e2, e3, hw1, hu1, hm, _⟩ :=
    LinkedSet.insert_all_loop_spec vs _ _ [] 0 (LinkedSet.wellFormed_default_ctor h0)
      (by simp [LinkedSet.Unique])
  simp only [List.append_nil] at hw1 hu1 hm
  have hlen : l0.length = vs.dedup.length :=
    LinkedSet.length_eq_dedup hu1 (fun w => by rw [hm w]; simp)
  have hsize : s1.size = (vs.dedup.length : Int) := by
    obtain ⟨_, _, _, _, _, hused⟩ := hw1
    rw [LinkedSet.size, hused, hlen]
  rw [zero_add] at e1
  refine ⟨⟨ks, by rw [e2], by rw [e3, hlen]⟩, by rw [e2]; exact hsize, ?_, ?_, ?_, ?_⟩
  · rw [LinkedSet.insert_all, e1, hlen]
  · rw [LinkedSet.insert_all, e1]; exact hsize
  · simp only [LinkedSet.iterable_ctor, e1]
  · simp only [LinkedSet.iterable_ctor, e1]; exact hsize

end SetInsertAll

end ics

namespace ics

/-! ## Every mutation that returns normally increments `mod_count` -/

section ModCount

variable {T : Type}

theorem LinkedQueue.enqueue_mod_count (h : Heap T) (q : LinkedQueue) (v : T) (k : Int)
    (hk : (LinkedQueue.enqueue h q v).1 = .ok k) :
    (LinkedQueue.enqueue h q v).2.2.mod_count = q.mod_count + 1 := by
  unfold LinkedQueue.enqueue at hk ⊢
  try dsimp only at hk ⊢
  (repeat' split) <;> simp_all

theorem LinkedQueue.dequeue_mod_count (h : Heap T) (q : LinkedQueue) (v : T)
    (hk : (LinkedQueue.dequeue h q).1 = .ok v) :
    (LinkedQueue.dequeue h q).2.2.mod_count = q.mod_count + 1 := by
  unfold LinkedQueue.dequeue at hk ⊢
  try dsimp only at hk ⊢
  (repeat' split) <;> simp_all

theorem LinkedQueue.q_clear_mod_count (h : Heap T) (q : LinkedQueue)
    (hk : (LinkedQueue.clear h q).1 = .ok ()) :
    (LinkedQueue.clear h q).2.2.mod_count = q.mod_count + 1 := by
  unfold LinkedQueue.clear at hk ⊢
  try dsimp only at hk ⊢
  (repeat' split) <;> simp_all

theorem LinkedQueue.q_operator_assign_mod_count (h : Heap T) (q rhs : LinkedQueue)
    (this rhs_addr : Nat) (hne : this ≠ rhs_addr)
    (hk : (LinkedQueue.operator_assign this rhs_addr h q rhs).1 = .ok ()) :
    (LinkedQueue.operator_assign this rhs_addr h q rhs).2.2.mod_count = q.mod_count + 1 := by
  unfold LinkedQueue.operator_assign at hk ⊢
  try dsimp only at hk ⊢
  (repeat' split) <;> simp_all

theorem LinkedQueue.q_iterator_erase_mod_count (h : Heap T) (q : LinkedQueue)
    (it : LinkedQueue.Iterator) (v : T) (hk : (LinkedQueue.Iterator.erase h q it).1 = .ok v) :
    (LinkedQueue.Iterator.erase h q it).2.2.1.mod_count = q.mod_count + 1 := by
  unfold LinkedQueue.Iterator.erase at hk ⊢
  try dsimp only at hk ⊢
  (repeat' split) <;> simp_all

theorem wrap_int_add (x y : Int) : wrap_int (wrap_int x + y) = wrap_int (x + y) := by
  unfold wrap_int; omega

/-- Adding a number of increments that is not a multiple of 2^32 changes what
an `int` holds. -/
theorem wrap_int_add_ne (x : Int) (n : Nat) (hn : ¬ 4294967296 ∣ n) :
    wrap_int (x + n) ≠ x := by
  unfold wrap_int; omega

theorem wrap_int_of_range {x : Int} (h1 : -2147483648 ≤ x) (h2 : x ≤ 2147483647) :
    wrap_int x = x := by
  unfold wrap_int; omega

/-- After calls that executed `++mod_count` `n` times the 32-bit queue holds the
old count plus `n`, wrapped. -/
theorem LinkedQueue.Mutated32.q_mod_count_eq {n : Nat} {h h1 : Heap T} {q q1 : LinkedQueue}
    (hm : LinkedQueue.Mutated32 n h q h1 q1) : q1.mod_count = wrap_int (q.mod_count + n) := by
  induction hm with
  | enqueue h q v k hk =>
    show wrap_int _ = _
    rw [LinkedQueue.enqueue_mod_count h q v k hk]; rfl
  | dequeue h q v hk =>
    show wrap_int _ = _
    rw [LinkedQueue.dequeue_mod_count h q v hk]; rfl
  | clear h q hk =>
    show wrap_int _ = _
    rw [LinkedQueue.q_clear_mod_count h q hk]; rfl
  | operator_assign h q rhs this rhs_addr hne hk =>
    show wrap_int _ = _
    rw [LinkedQueue.q_operator_assign_mod_count h q rhs this rhs_addr hne hk]; rfl
  | iterator_erase h q other v hk =>
    show wrap_int _ = _
    rw [LinkedQueue.q_iterator_erase_mod_count h q other v hk]; rfl
  | next _ _ ih1 ih2 =>
    rw [ih2, ih1, wrap_int_add, Nat.cast_add, add_assoc]

theorem LinkedSet.insert_mod_count [DecidableEq T] (h : Heap T) (s : LinkedSet) (v : T)
    (hk : (LinkedSet.insert h s v).1 = .ok 1) :
    (LinkedSet.insert h s v).2.2.mod_count = s.mod_count + 1 := by
  unfold LinkedSet.insert at hk ⊢
  try dsimp only at hk ⊢
  (repeat' split) <;> simp_all

theorem LinkedSet.erase_at_mod_count (h : Heap T) (s : LinkedSet) (p : Nat) (k : Int)
    (hk : (LinkedSet.erase_at h s p).1 = .ok k) :
    k = 1 ∧ (LinkedSet.erase_at h s p).2.2.mod_count = s.mod_count + 1 := by
  unfold LinkedSet.erase_at at hk ⊢
  cases hr : h.read p with
  | none => simp [hr] at hk
  | some pn =>
    cases hn : pn.next with
    | none => simp [hr, hn] at hk
    | some b =>
      cases hb : h.read b with
      | none => simp [hr, hn, hb] at hk
      | some nn =>
        simp only [hr, hn, hb, Except.ok.injEq] at hk ⊢
        refine ⟨hk.symm, ?_⟩
        split <;> rfl

theorem LinkedSet.erase_at_ok_mod_count {h h1 : Heap T} {s s1 : LinkedSet} {p : Nat} {k : Int}
    (hk : LinkedSet.erase_at h s p = (.ok k, h1, s1)) : s1.mod_count = s.mod_count + 1 := by
  have := (LinkedSet.erase_at_mod_count h s p k (by rw [hk])).2
  rw [hk] at this
  exact this

theorem LinkedSet.erase_loop_mod_count [DecidableEq T] (h : Heap T) (s : LinkedSet) (v : T) :
    ∀ (fuel : Nat) (p : Option Nat), (LinkedSet.erase_loop h s v fuel p).1 = .ok 1 →
      (LinkedSet.erase_loop h s v fuel p).2.2.mod_count = s.mod_count + 1 := by
  intro fuel
  induction fuel with
  | zero =>
    intro p hk
    unfold LinkedSet.erase_loop at hk
    split at hk <;> simp at hk
  | succ fuel ih =>
    intro p hk
    unfold LinkedSet.erase_loop at hk ⊢
    split
    · rename_i hp; simp [hp] at hk
    · rename_i hp
      simp only [hp, if_false] at hk
      split
      · simp at hk
      · rename_i pa
        split
        · rename_i hr; simp [hr] at hk
        · rename_i pn hr
          simp only [hr] at hk
          split
          · rename_i hv
            simp only [hv, if_true] at hk
            exact (LinkedSet.erase_at_mod_count h s pa 1 hk).2
          · rename_i hv
            simp only [hv, if_false] at hk
            exact ih _ hk

theorem LinkedSet.erase_mod_count [DecidableEq T] (h : Heap T) (s : LinkedSet) (v : T)
    (hk : (LinkedSet.erase h s v).1 = .ok 1) :
    (LinkedSet.erase h s v).2.2.mod_count = s.mod_count + 1 :=
  LinkedSet.erase_loop_mod_count h s v _ _ hk

theorem LinkedSet.clear_mod_count (h : Heap T) (s : LinkedSet)
    (hk : (LinkedSet.clear h s).1 = .ok ()) :
    (LinkedSet.clear h s).2.2.mod_count = s.mod_count + 1 := by
  unfold LinkedSet.clear at hk ⊢
  try dsimp only at hk ⊢
  (repeat' split) <;> simp_all

theorem LinkedSet.retain_all_loop_mod_count [DecidableEq T] (tmp : LinkedSet) :
    ∀ (fuel : Nat) (h : Heap T) (s : LinkedSet) (p : Option Nat) (c k : Int),
      (LinkedSet.retain_all_loop tmp fuel h s p c).1 = .ok k →
      c ≤ k ∧ (LinkedSet.retain_all_loop tmp fuel h s p c).2.2.mod_count =
        s.mod_count + (k - c) := by
  intro fuel
  induction fuel with
  | zero =>
    intro h s p c k hk
    unfold LinkedSet.retain_all_loop at hk ⊢
    split
    · rename_i hp
      simp only [hp, if_true, Except.ok.injEq] at hk
      subst hk; simp
    · rename_i hp; simp [hp] at hk
  | succ fuel ih =>
    intro h s p c k hk
    unfold LinkedSet.retain_all_loop at hk ⊢
    split
    · rename_i hp
      simp only [hp, if_true, Except.ok.injEq] at hk
      subst hk; simp
    · rename_i hp
      simp only [hp, if_false] at hk
      split
      · simp at hk
      · rename_i pa
        split
        · rename_i hr; simp [hr] at hk
        · rename_i pn hr
          simp only [hr] at hk
          split
          · rename_i e hc; simp [hc] at hk
          · rename_i hc
            simp only [hc] at hk
            split
            · rename_i e h1 s1 he; simp [he] at hk
            · rename_i k1 h1 s1 he
              simp only [he] at hk
              obtain ⟨i1, i2⟩ := ih h1 s1 (some pa) (c + 1) k hk
              have hm := (LinkedSet.erase_at_mod_count h s pa k1 (by rw [he])).2
              rw [he] at hm
              simp only at hm
              refine ⟨by omega, ?_⟩
              rw [i2, hm]; ring
          · rename_i hc
            simp only [hc] at hk
            exact ih h s pn.next c k hk

theorem LinkedSet.retain_all_mod_count [DecidableEq T] [Inhabited T] (h : Heap T)
    (s : LinkedSet) (i : List T) (k : Int) (hk : (LinkedSet.retain_all h s i).1 = .ok k) :
    0 ≤ k ∧ (LinkedSet.retain_all h s i).2.2.mod_count = s.mod_count + k := by
  unfold LinkedSet.retain_all at hk ⊢
  split
  · rename_i hc; simp [hc] at hk
  · rename_i u h1 tmp hc
    simp only [hc] at hk
    split
    · rename_i hl; simp [hl] at hk
    · rename_i count h2 s2 hl
      simp only [hl] at hk
      have hres := LinkedSet.retain_all_loop_mod_count tmp _ h1 s s.front 0 count (by rw [hl])
      rw [hl] at hres
      simp only at hres
      split
      · rename_i hd; simp [hd] at hk
      · rename_i hd
        simp only [hd, Except.ok.injEq] at hk
        subst hk
        refine ⟨hres.1, ?_⟩
        rw [hres.2]; ring

theorem LinkedSet.operator_assign_mod_count (h : Heap T) (s rhs : LinkedSet)
    (this rhs_addr : Nat) (hne : this ≠ rhs_addr)
    (hk : (LinkedSet.operator_assign this rhs_addr h s rhs).1 = .ok ()) :
    (LinkedSet.operator_assign this rhs_addr h s rhs).2.2.mod_count = s.mod_count + 1 := by
  unfold LinkedSet.operator_assign at hk ⊢
  try dsimp only at hk ⊢
  (repeat' split) <;> simp_all

theorem LinkedSet.iterator_erase_mod_count (h : Heap T) (s : LinkedSet)
    (it : LinkedSet.Iterator) (v : T) (hk : (LinkedSet.Iterator.erase h s it).1 = .ok v) :
    (LinkedSet.Iterator.erase h s it).2.2.1.mod_count = s.mod_count + 1 := by
  unfold LinkedSet.Iterator.erase at hk ⊢
  try dsimp only at hk ⊢
  (repeat' split) <;> first | exact LinkedSet.erase_at_ok_mod_count (by assumption) | simp_all

/-- After calls that executed `++mod_count` `n` times the 32-bit set holds the
old count plus `n`, wrapped. -/
theorem LinkedSet.Mutated32.mod_count_eq [DecidableEq T] [Inhabited T] {n : Nat}
    {h h1 : Heap T} {s s1 : LinkedSet} (hm : LinkedSet.Mutated32 n h s h1 s1) :
    s1.mod_count = wrap_int (s.mod_count + n) := by
  induction hm with
  | insert h s v hk =>
    show wrap_int _ = _
    rw [LinkedSet.insert_mod_count h s v hk]; rfl
  | erase h s v hk =>
    show wrap_int _ = _
    rw [LinkedSet.erase_mod_count h s v hk]; rfl
  | clear h s hk =>
    show wrap_int _ = _
    rw [LinkedSet.clear_mod_count h s hk]; rfl
  | retain_all h s i k hk hne =>
    show wrap_int _ = _
    obtain ⟨h0, he⟩ := LinkedSet.retain_all_mod_count h s i k hk
    rw [he, Int.toNat_of_nonneg h0]
  | operator_assign h s rhs this rhs_addr hne hk =>
    show wrap_int _ = _
    rw [LinkedSet.operator_assign_mod_count h s rhs this rhs_addr hne hk]; rfl
  | iterator_erase h s other v hk =>
    show wrap_int _ = _
    rw [LinkedSet.iterator_erase_mod_count h s other v hk]; rfl
  | next _ _ ih1 ih2 =>
    rw [ih2, ih1, wrap_int_add, Nat.cast_add, add_assoc]

end ModCount

end ics

namespace ics

/-! ## C8: iterators fail fast -/

section FailFast

variable {T : Type}

theorem LinkedQueue.Iterator.q_stale (h : Heap T) (q : LinkedQueue) (it x : LinkedQueue.Iterator)
    (hne : it.expected_mod_count ≠ q.mod_count) :
    LinkedQueue.Iterator.erase h q it = (.error .ConcurrentModificationError, h, q, it) ∧
    LinkedQueue.Iterator.operator_pre_inc h q it =
      (.error .ConcurrentModificationError, h, q, it) ∧
    LinkedQueue.Iterator.operator_post_inc h q it =
      (.error .ConcurrentModificationError, h, q, it) ∧
    LinkedQueue.Iterator.operator_deref h q it =
      (.error .ConcurrentModificationError, h, q, it) ∧
    LinkedQueue.Iterator.operator_arrow h q it =
      (.error .ConcurrentModificationError, h, q, it) ∧
    LinkedQueue.Iterator.operator_eq h q it x =
      (.error .ConcurrentModificationError, h, q, it) ∧
    LinkedQueue.Iterator.operator_ne h q it x =
      (.error .ConcurrentModificationError, h, q, it) := by
  refine ⟨?_, ?_, ?_, ?_, ?_, ?_, ?_⟩
  · unfold LinkedQueue.Iterator.erase; exact if_pos hne
  · unfold LinkedQueue.Iterator.operator_pre_inc; exact if_pos hne
  · unfold LinkedQueue.Iterator.operator_post_inc; exact if_pos hne
  · unfold LinkedQueue.Iterator.operator_deref; exact if_pos hne
  · unfold LinkedQueue.Iterator.operator_arrow; exact if_pos hne
  · unfold LinkedQueue.Iterator.operator_eq; exact if_pos hne
  · unfold LinkedQueue.Iterator.operator_ne; exact if_pos hne

theorem LinkedSet.Iterator.stale (h : Heap T) (s : LinkedSet) (it x : LinkedSet.Iterator)
    (hne : it.expected_mod_count ≠ s.mod_count) :
    LinkedSet.Iterator.erase h s it = (.error .ConcurrentModificationError, h, s, it) ∧
    LinkedSet.Iterator.operator_pre_inc h s it =
      (.error .ConcurrentModificationError, h, s, it) ∧
    LinkedSet.Iterator.operator_post_inc h s it =
      (.error .ConcurrentModificationError, h, s, it) ∧
    LinkedSet.Iterator.operator_deref h s it =
      (.error .ConcurrentModificationError, h, s, it) ∧
    LinkedSet.Iterator.operator_arrow h s it =
      (.error .ConcurrentModificationError, h, s, it) ∧
    LinkedSet.Iterator.operator_eq h s it x =
      (.error .ConcurrentModificationError, h, s, it) ∧
    LinkedSet.Iterator.operator_ne h s it x =
      (.error .ConcurrentModificationError, h, s, it) := by
  refine ⟨?_, ?_, ?_, ?_, ?_, ?_, ?_⟩
  · unfold LinkedSet.Iterator.erase; exact if_pos hne
  · unfold LinkedSet.Iterator.operator_pre_inc; exact if_pos hne
  · unfold LinkedSet.Iterator.operator_post_inc; exact if_pos hne
  · unfold LinkedSet.Iterator.operator_deref; exact if_pos hne
  · unfold LinkedSet.Iterator.operator_arrow; exact if_pos hne
  · unfold LinkedSet.Iterator.operator_eq; exact if_pos hne
  · unfold LinkedSet.Iterator.operator_ne; exact if_pos hne

/-- Any number of `clear()` calls on an empty queue: the heap and the queue stay
as they are but for `mod_count`. -/
theorem LinkedQueue.Mutated32.q_clears (h : Heap T) (n : Nat) :
    ∀ m : Int, LinkedQueue.Mutated32 (n + 1) h { mod_count := m } h
      { mod_count := wrap_int (m + (n + 1 : Nat)) } := by
  have hstep : ∀ m : Int, LinkedQueue.Mutated32 1 h { mod_count := m } h
      { mod_count := wrap_int (m + 1) } := by
    intro m
    have hc : LinkedQueue.clear h ({ mod_count := m } : LinkedQueue) =
        (.ok (), h, { mod_count := m + 1 }) := by
      simp [LinkedQueue.clear, LinkedQueue.delete_list, LinkedQueue.delete_list_loop]
    have hm := LinkedQueue.Mutated32.clear h ({ mod_count := m } : LinkedQueue) (by rw [hc])
    rw [hc] at hm
    have hs : LinkedQueue.stored ({ mod_count := m + 1 } : LinkedQueue) =
        { mod_count := wrap_int (m + 1) } := by
      simp [LinkedQueue.stored, wrap_int]
    rw [← hs]
    exact hm
  induction n with
  | zero => intro m; simpa using hstep m
  | succ n ih =>
    intro m
    have h2 := LinkedQueue.Mutated32.next (ih m) (hstep _)
    rw [wrap_int_add] at h2
    have e : m + ((n + 1 : Nat) : Int) + 1 = m + ((n + 1 + 1 : Nat) : Int) := by
      push_cast; ring
    rw [e] at h2
    exact h2

/-- Any number of `clear()` calls on an empty set: the heap and the set stay as
they are but for `mod_count`. -/
theorem LinkedSet.Mutated32.set_clears [DecidableEq T] [Inhabited T] (h : Heap T) (t : Nat)
    (n : Nat) :
    ∀ m : Int, LinkedSet.Mutated32 (n + 1) h ⟨some t, some t, 0, m⟩ h
      ⟨some t, some t, 0, wrap_int (m + (n + 1 : Nat))⟩ := by
  have hstep : ∀ m : Int, LinkedSet.Mutated32 1 h ⟨some t, some t, 0, m⟩ h
      ⟨some t, some t, 0, wrap_int (m + 1)⟩ := by
    intro m
    have hc : LinkedSet.clear h (⟨some t, some t, 0, m⟩ : LinkedSet) =
        (.ok (), h, ⟨some t, some t, 0, m + 1⟩) := by
      simp [LinkedSet.clear, LinkedSet.delete_list, LinkedSet.delete_list_loop]
    have hm := LinkedSet.Mutated32.clear h (⟨some t, some t, 0, m⟩ : LinkedSet) (by rw [hc])
    rw [hc] at hm
    have hs : LinkedSet.stored (⟨some t, some t, 0, m + 1⟩ : LinkedSet) =
        ⟨some t, some t, 0, wrap_int (m + 1)⟩ := by
      simp [LinkedSet.stored, wrap_int]
    rw [← hs]
    exact hm
  induction n with
  | zero => intro m; simpa using hstep m
  | succ n ih =>
    intro m
    have h2 := LinkedSet.Mutated32.next (ih m) (hstep _)
    rw [wrap_int_add] at h2
    have e : m + ((n + 1 : Nat) : Int) + 1 = m + ((n + 1 + 1 : Nat) : Int) := by
      push_cast; ring
    rw [e] at h2
    exact h2

/-- C8 as stated fails on the 32-bit counter.  Take `it = begin()` of a fresh
queue (of a fresh set) and call `clear()` directly 4294967296 times: every call
increments `mod_count`, which is back at the value the iterator recorded, and
heap and container are as they were.  Then `++it` returns normally, `it == it`
yields `true` and `it.erase()` throws `CannotEraseError`; none of them throws
`ConcurrentModificationError`. -/
theorem iterator_fail_fast_wrap_counterexample :
    (LinkedQueue.Mutated32 4294967296 (⟨[]⟩ : Heap Nat) LinkedQueue.default_ctor ⟨[]⟩
        LinkedQueue.default_ctor ∧
      LinkedQueue.Iterator.operator_pre_inc (⟨[]⟩ : Heap Nat) LinkedQueue.default_ctor
          (LinkedQueue.begin 0 LinkedQueue.default_ctor) =
        (.ok (LinkedQueue.begin 0 LinkedQueue.default_ctor), ⟨[]⟩, LinkedQueue.default_ctor,
          LinkedQueue.begin 0 LinkedQueue.default_ctor) ∧
      (LinkedQueue.Iterator.operator_eq (⟨[]⟩ : Heap Nat) LinkedQueue.default_ctor
          (LinkedQueue.begin 0 LinkedQueue.default_ctor)
          (LinkedQueue.begin 0 LinkedQueue.default_ctor)).1 = .ok true ∧
      (LinkedQueue.Iterator.erase (⟨[]⟩ : Heap Nat) LinkedQueue.default_ctor
          (LinkedQueue.begin 0 LinkedQueue.default_ctor)).1 = .error .CannotEraseError) ∧
    (LinkedSet.Mutated32 4294967296 (LinkedSet.default_ctor (⟨[]⟩ : Heap Nat)).1
        (LinkedSet.default_ctor (⟨[]⟩ : Heap Nat)).2
        (LinkedSet.default_ctor (⟨[]⟩ : Heap Nat)).1
        (LinkedSet.default_ctor (⟨[]⟩ : Heap Nat)).2 ∧
      LinkedSet.Iterator.operator_pre_inc (LinkedSet.default_ctor (⟨[]⟩ : Heap Nat)).1
          (LinkedSet.default_ctor (⟨[]⟩ : Heap Nat)).2
          (LinkedSet.begin 0 (LinkedSet.default_ctor (⟨[]⟩ : Heap Nat)).2) =
        (.ok (LinkedSet.begin 0 (LinkedSet.default_ctor (⟨[]⟩ : Heap Nat)).2),
          (LinkedSet.default_ctor (⟨[]⟩ : Heap Nat)).1,
          (LinkedSet.default_ctor (⟨[]⟩ : Heap Nat)).2,
          LinkedSet.begin 0 (LinkedSet.default_ctor (⟨[]⟩ : Heap Nat)).2) ∧
      (LinkedSet.Iterator.operator_eq (LinkedSet.default_ctor (⟨[]⟩ : Heap Nat)).1
          (LinkedSet.default_ctor (⟨[]⟩ : Heap Nat)).2
          (LinkedSet.begin 0 (LinkedSet.default_ctor (⟨[]⟩ : Heap Nat)).2)
          (LinkedSet.begin 0 (LinkedSet.default_ctor (⟨[]⟩ : Heap Nat)).2)).1 = .ok true ∧
      (LinkedSet.Iterator.erase (LinkedSet.default_ctor (⟨[]⟩ : Heap Nat)).1
          (LinkedSet.default_ctor (⟨[]⟩ : Heap Nat)).2
          (LinkedSet.begin 0 (LinkedSet.default_ctor (⟨[]⟩ : Heap Nat)).2)).1 =
        .error .CannotEraseError) := by
  refine ⟨⟨?_, by decide, by decide, by decide⟩, ⟨?_, by decide, by decide, by decide⟩⟩
  · have hm := LinkedQueue.Mutated32.q_clears (⟨[]⟩ : Heap Nat) 4294967295 0
    have e : wrap_int (0 + ((4294967295 + 1 : Nat) : Int)) = 0 := by
      norm_num [wrap_int]
    rw [e] at hm
    exact hm
  · have hm := LinkedSet.Mutated32.set_clears (LinkedSet.default_ctor (⟨[]⟩ : Heap Nat)).1 0
      4294967295 0
    have e : wrap_int (0 + ((4294967295 + 1 : Nat) : Int)) = 0 := by
      norm_num [wrap_int]
    rw [e] at hm
    exact hm

/-- C8, amended.  Take an iterator `it` over a container whose recorded
generation is the container's `mod_count` (as `begin()` and `end()` make it),
and let the 32-bit container then be mutated, once or several times, by a direct
`enqueue`, `dequeue`, `clear` or copy-assignment (queue), by an `insert` that
returned 1, an `erase` that returned 1, `clear`, a `retain_all` that removed
something or a copy-assignment (set), or by `erase()` through another iterator.
If the number `n` of increments of `mod_count` that these calls made is not a
multiple of 2^32 = 4294967296, then each of `it.erase()`, `++it`, `it++`, `*it`,
`it->`, `it == x` and `it != x` throws `ConcurrentModificationError` and leaves
heap, container and iterator as they were. -/
theorem iterator_fail_fast_unless_wrapped [DecidableEq T] [Inhabited T] :
    (∀ (this n : Nat) (h h1 : Heap T) (q q1 : LinkedQueue) (it x : LinkedQueue.Iterator),
      (it = LinkedQueue.begin this q ∨ it = LinkedQueue.end_ this q ∨
        it.expected_mod_count = q.mod_count) →
      LinkedQueue.Mutated32 n h q h1 q1 → ¬ 4294967296 ∣ n →
      LinkedQueue.Iterator.erase h1 q1 it = (.error .ConcurrentModificationError, h1, q1, it) ∧
      LinkedQueue.Iterator.operator_pre_inc h1 q1 it =
        (.error .ConcurrentModificationError, h1, q1, it) ∧
      LinkedQueue.Iterator.operator_post_inc h1 q1 it =
        (.error .ConcurrentModificationError, h1, q1, it) ∧
      LinkedQueue.Iterator.operator_deref h1 q1 it =
        (.error .ConcurrentModificationError, h1, q1, it) ∧
      LinkedQueue.Iterator.operator_arrow h1 q1 it =
        (.error .ConcurrentModificationError, h1, q1, it) ∧
      LinkedQueue.Iterator.operator_eq h1 q1 it x =
        (.error .ConcurrentModificationError, h1, q1, it) ∧
      LinkedQueue.Iterator.operator_ne h1 q1 it x =
        (.error .ConcurrentModificationError, h1, q1, it)) ∧
    (∀ (this n : Nat) (h h1 : Heap T) (s s1 : LinkedSet) (it x : LinkedSet.Iterator),
      (it = LinkedSet.begin this s ∨ it = LinkedSet.end_ this s ∨
        it.expected_mod_count = s.mod_count) →
      LinkedSet.Mutated32 n h s h1 s1 → ¬ 4294967296 ∣ n →
      LinkedSet.Iterator.erase h1 s1 it = (.error .ConcurrentModificationError, h1, s1, it) ∧
      LinkedSet.Iterator.operator_pre_inc h1 s1 it =
        (.error .ConcurrentModificationError, h1, s1, it) ∧
      LinkedSet.Iterator.operator_post_inc h1 s1 it =
        (.error .ConcurrentModificationError, h1, s1, it) ∧
      LinkedSet.Iterator.operator_deref h1 s1 it =
        (.error .ConcurrentModificationError, h1, s1, it) ∧
      LinkedSet.Iterator.operator_arrow h1 s1 it =
        (.error .ConcurrentModificationError, h1, s1, it) ∧
      LinkedSet.Iterator.operator_eq h1 s1 it x =
        (.error .ConcurrentModificationError, h1, s1, it) ∧
      LinkedSet.Iterator.operator_ne h1 s1 it x =
        (.error .ConcurrentModificationError, h1, s1, it)) := by
  constructor
  · intro this n h h1 q q1 it x hit hm hn
    have he : it.expected_mod_count = q.mod_count := by
      rcases hit with rfl | rfl | he
      · rfl
      · rfl
      · exact he
    refine LinkedQueue.Iterator.q_stale h1 q1 it x ?_
    rw [he, hm.q_mod_count_eq]
    exact (wrap_int_add_ne q.mod_count n hn).symm
  · intro this n h h1 s s1 it x hit hm hn
    have he : it.expected_mod_count = s.mod_count := by
      rcases hit with rfl | rfl | he
      · rfl
      · rfl
      · exact he
    refine LinkedSet.Iterator.stale h1 s1 it x ?_
    rw [he, hm.mod_count_eq]
    exact (wrap_int_add_ne s.mod_count n hn).symm

/-- The amended C8 at a queue and a set created in the empty heap: an iterator
from `begin()`, then a direct `enqueue(5)` (an `insert(5)`), one increment of
`mod_count`, then `++it` throws. -/
theorem iterator_fail_fast_unless_wrapped_witness :
    ¬ 4294967296 ∣ 1 ∧
    LinkedQueue.Iterator.operator_pre_inc
        (LinkedQueue.enqueue (⟨[]⟩ : Heap Nat) LinkedQueue.default_ctor 5).2.1
        (LinkedQueue.stored (LinkedQueue.enqueue (⟨[]⟩ : Heap Nat) LinkedQueue.default_ctor 5).2.2)
        (LinkedQueue.begin 0 LinkedQueue.default_ctor) =
      (.error .ConcurrentModificationError,
        (LinkedQueue.enqueue (⟨[]⟩ : Heap Nat) LinkedQueue.default_ctor 5).2.1,
        LinkedQueue.stored (LinkedQueue.enqueue (⟨[]⟩ : Heap Nat) LinkedQueue.default_ctor 5).2.2,
        LinkedQueue.begin 0 LinkedQueue.default_ctor) ∧
    LinkedSet.Iterator.operator_pre_inc
        (LinkedSet.insert (LinkedSet.default_ctor (⟨[]⟩ : Heap Nat)).1
          (LinkedSet.default_ctor (⟨[]⟩ : Heap Nat)).2 5).2.1
        (LinkedSet.stored (LinkedSet.insert (LinkedSet.default_ctor (⟨[]⟩ : Heap Nat)).1
          (LinkedSet.default_ctor (⟨[]⟩ : Heap Nat)).2 5).2.2)
        (LinkedSet.begin 0 (LinkedSet.default_ctor (⟨[]⟩ : Heap Nat)).2) =
      (.error .ConcurrentModificationError,
        (LinkedSet.insert (LinkedSet.default_ctor (⟨[]⟩ : Heap Nat)).1
          (LinkedSet.default_ctor (⟨[]⟩ : Heap Nat)).2 5).2.1,
        LinkedSet.stored (LinkedSet.insert (LinkedSet.default_ctor (⟨[]⟩ : Heap Nat)).1
          (LinkedSet.default_ctor (⟨[]⟩ : Heap Nat)).2 5).2.2,
        LinkedSet.begin 0 (LinkedSet.default_ctor (⟨[]⟩ : Heap Nat)).2) :=
  ⟨by norm_num,
   ((iterator_fail_fast_unless_wrapped (T := Nat)).1 0 1 _ _ _ _ _
      (LinkedQueue.begin 0 LinkedQueue.default_ctor) (Or.inl rfl)
      (LinkedQueue.Mutated32.enqueue ⟨[]⟩ LinkedQueue.default_ctor 5 1 rfl) (by norm_num)).2.1,
   ((iterator_fail_fast_unless_wrapped (T := Nat)).2 0 1 _ _ _ _ _
      (LinkedSet.begin 0 (LinkedSet.default_ctor (⟨[]⟩ : Heap Nat)).2) (Or.inl rfl)
      (LinkedSet.Mutated32.insert (LinkedSet.default_ctor (⟨[]⟩ : Heap Nat)).1
        (LinkedSet.default_ctor (⟨[]⟩ : Heap Nat)).2 5 rfl) (by norm_num)).2.1⟩

end FailFast

end ics

namespace ics

/-! ## C10: comparing iterators -/

section IteratorComparison

variable {T : Type}

/-- C10 as stated fails: after `enqueue(5)` on a fresh queue (after `insert(5)`
on a fresh set) the iterator `b` taken before the call is stale and the iterator
`a` taken after it is up to date, yet `a == b` and `a != b` return a value
instead of throwing `ConcurrentModificationError`. -/
theorem iterator_comparison_stale_rhs_counterexample :
    ((LinkedQueue.begin 0 LinkedQueue.default_ctor).expected_mod_count ≠
        (LinkedQueue.enqueue (⟨[]⟩ : Heap Nat) LinkedQueue.default_ctor 5).2.2.mod_count ∧
      (LinkedQueue.Iterator.operator_eq
        (LinkedQueue.enqueue (⟨[]⟩ : Heap Nat) LinkedQueue.default_ctor 5).2.1
        (LinkedQueue.enqueue (⟨[]⟩ : Heap Nat) LinkedQueue.default_ctor 5).2.2
        (LinkedQueue.begin 0 (LinkedQueue.enqueue (⟨[]⟩ : Heap Nat) LinkedQueue.default_ctor 5).2.2)
        (LinkedQueue.begin 0 LinkedQueue.default_ctor)).1 = .ok false ∧
      (LinkedQueue.Iterator.operator_ne
        (LinkedQueue.enqueue (⟨[]⟩ : Heap Nat) LinkedQueue.default_ctor 5).2.1
        (LinkedQueue.enqueue (⟨[]⟩ : Heap Nat) LinkedQueue.default_ctor 5).2.2
        (LinkedQueue.begin 0 (LinkedQueue.enqueue (⟨[]⟩ : Heap Nat) LinkedQueue.default_ctor 5).2.2)
        (LinkedQueue.begin 0 LinkedQueue.default_ctor)).1 = .ok true) ∧
    ((LinkedSet.begin 0 (LinkedSet.default_ctor (⟨[]⟩ : Heap Nat)).2).expected_mod_count ≠
        (LinkedSet.insert (LinkedSet.default_ctor (⟨[]⟩ : Heap Nat)).1
          (LinkedSet.default_ctor (⟨[]⟩ : Heap Nat)).2 5).2.2.mod_count ∧
      (LinkedSet.Iterator.operator_eq
        (LinkedSet.insert (LinkedSet.default_ctor (⟨[]⟩ : Heap Nat)).1
          (LinkedSet.default_ctor (⟨[]⟩ : Heap Nat)).2 5).2.1
        (LinkedSet.insert (LinkedSet.default_ctor (⟨[]⟩ : Heap Nat)).1
          (LinkedSet.default_ctor (⟨[]⟩ : Heap Nat)).2 5).2.2
        (LinkedSet.begin 0 (LinkedSet.insert (LinkedSet.default_ctor (⟨[]⟩ : Heap Nat)).1
          (LinkedSet.default_ctor (⟨[]⟩ : Heap Nat)).2 5).2.2)
        (LinkedSet.begin 0 (LinkedSet.default_ctor (⟨[]⟩ : Heap Nat)).2)).1 = .ok false ∧
      (LinkedSet.Iterator.operator_ne
        (LinkedSet.insert (LinkedSet.default_ctor (⟨[]⟩ : Heap Nat)).1
          (LinkedSet.default_ctor (⟨[]⟩ : Heap Nat)).2 5).2.1
        (LinkedSet.insert (LinkedSet.default_ctor (⟨[]⟩ : Heap Nat)).1
          (LinkedSet.default_ctor (⟨[]⟩ : Heap Nat)).2 5).2.2
        (LinkedSet.begin 0 (LinkedSet.insert (LinkedSet.default_ctor (⟨[]⟩ : Heap Nat)).1
          (LinkedSet.default_ctor (⟨[]⟩ : Heap Nat)).2 5).2.2)
        (LinkedSet.begin 0 (LinkedSet.default_ctor (⟨[]⟩ : Heap Nat)).2)).1 = .ok true) := by
  decide

/-- C10, amended.  For both containers, `a == b` and `a != b` throw
`ConcurrentModificationError` whenever the recorded generation of the left
operand `a` differs from the `mod_count` of its container, and throw an
exception whenever `a` and `b` were made for different containers; when `a` is
up to date and both were made for the same container, `a == b` is true exactly
when both cursors hold the same pointer and `a != b` is its negation; the
generation recorded in `b` is not looked at.  In every case heap, container and
iterator are left as they were. -/
theorem iterator_comparison :
    (∀ (h : Heap T) (q : LinkedQueue) (a b : LinkedQueue.Iterator),
      (a.expected_mod_count ≠ q.mod_count →
        (LinkedQueue.Iterator.operator_eq h q a b).1 = .error .ConcurrentModificationError ∧
        (LinkedQueue.Iterator.operator_ne h q a b).1 = .error .ConcurrentModificationError) ∧
      (a.ref_queue ≠ b.ref_queue →
        ∃ e, (LinkedQueue.Iterator.operator_eq h q a b).1 = .error e ∧
          (LinkedQueue.Iterator.operator_ne h q a b).1 = .error e) ∧
      (a.expected_mod_count = q.mod_count → a.ref_queue = b.ref_queue →
        (LinkedQueue.Iterator.operator_eq h q a b).1 = .ok (decide (a.current = b.current)) ∧
        (LinkedQueue.Iterator.operator_ne h q a b).1 =
          .ok (!decide (a.current = b.current))) ∧
      (LinkedQueue.Iterator.operator_eq h q a b).2 = (h, q, a) ∧
      (LinkedQueue.Iterator.operator_ne h q a b).2 = (h, q, a)) ∧
    (∀ (h : Heap T) (s : LinkedSet) (a b : LinkedSet.Iterator),
      (a.expected_mod_count ≠ s.mod_count →
        (LinkedSet.Iterator.operator_eq h s a b).1 = .error .ConcurrentModificationError ∧
        (LinkedSet.Iterator.operator_ne h s a b).1 = .error .ConcurrentModificationError) ∧
      (a.ref_set ≠ b.ref_set →
        ∃ e, (LinkedSet.Iterator.operator_eq h s a b).1 = .error e ∧
          (LinkedSet.Iterator.operator_ne h s a b).1 = .error e) ∧
      (a.expected_mod_count = s.mod_count → a.ref_set = b.ref_set →
        (LinkedSet.Iterator.operator_eq h s a b).1 = .ok (decide (a.current = b.current)) ∧
        (LinkedSet.Iterator.operator_ne h s a b).1 =
          .ok (!decide (a.current = b.current))) ∧
      (LinkedSet.Iterator.operator_eq h s a b).2 = (h, s, a) ∧
      (LinkedSet.Iterator.operator_ne h s a b).2 = (h, s, a)) := by
  constructor
  · intro h q a b
    refine ⟨fun h1 => ⟨?_, ?_⟩, fun h2 => ?_, fun h1 h2 => ⟨?_, ?_⟩, ?_, ?_⟩
    · unfold LinkedQueue.Iterator.operator_eq; rw [if_pos h1]
    · unfold LinkedQueue.Iterator.operator_ne; rw [if_pos h1]
    · by_cases h1 : a.expected_mod_count ≠ q.mod_count
      · exact ⟨_, by unfold LinkedQueue.Iterator.operator_eq; rw [if_pos h1],
          by unfold LinkedQueue.Iterator.operator_ne; rw [if_pos h1]⟩
      · exact ⟨_, by unfold LinkedQueue.Iterator.operator_eq; rw [if_neg h1, if_pos h2],
          by unfold LinkedQueue.Iterator.operator_ne; rw [if_neg h1, if_pos h2]⟩
    · unfold LinkedQueue.Iterator.operator_eq
      rw [if_neg (not_not.mpr h1), if_neg (not_not.mpr h2)]
      by_cases h3 : a.current = b.current <;> simp [h3]
    · unfold LinkedQueue.Iterator.operator_ne
      rw [if_neg (not_not.mpr h1), if_neg (not_not.mpr h2)]
      by_cases h3 : a.current = b.current <;> simp [h3]
    · unfold LinkedQueue.Iterator.operator_eq; split_ifs <;> rfl
    · unfold LinkedQueue.Iterator.operator_ne; split_ifs <;> rfl
  · intro h s a b
    refine ⟨fun h1 => ⟨?_, ?_⟩, fun h2 => ?_, fun h1 h2 => ⟨?_, ?_⟩, ?_, ?_⟩
    · unfold LinkedSet.Iterator.operator_eq; rw [if_pos h1]
    · unfold LinkedSet.Iterator.operator_ne; rw [if_pos h1]
    · by_cases h1 : a.expected_mod_count ≠ s.mod_count
      · exact ⟨_, by unfold LinkedSet.Iterator.operator_eq; rw [if_pos h1],
          by unfold LinkedSet.Iterator.operator_ne; rw [if_pos h1]⟩
      · exact ⟨_, by unfold LinkedSet.Iterator.operator_eq; rw [if_neg h1, if_pos h2],
          by unfold LinkedSet.Iterator.operator_ne; rw [if_neg h1, if_pos h2]⟩
    · unfold LinkedSet.Iterator.operator_eq
      rw [if_neg (not_not.mpr h1), if_neg (not_not.mpr h2)]
      by_cases h3 : a.current = b.current <;> simp [h3]
    · unfold LinkedSet.Iterator.operator_ne
      rw [if_neg (not_not.mpr h1), if_neg (not_not.mpr h2)]
      by_cases h3 : a.current = b.current <;> simp [h3]
    · unfold LinkedSet.Iterator.operator_eq; split_ifs <;> rfl
    · unfold LinkedSet.Iterator.operator_ne; split_ifs <;> rfl

/-- The amended C10 at a fresh queue and a fresh set, before and after one
insertion: an iterator taken before it is stale on the left of `==`, and
iterators of the containers at addresses 0 and 1 do not compare. -/
theorem iterator_comparison_witness :
    (LinkedQueue.Iterator.operator_eq
        (LinkedQueue.enqueue (⟨[]⟩ : Heap Nat) LinkedQueue.default_ctor 5).2.1
        (LinkedQueue.enqueue (⟨[]⟩ : Heap Nat) LinkedQueue.default_ctor 5).2.2
        (LinkedQueue.begin 0 LinkedQueue.default_ctor)
        (LinkedQueue.begin 0 (LinkedQueue.enqueue (⟨[]⟩ : Heap Nat) LinkedQueue.default_ctor 5).2.2)).1
      = .error .ConcurrentModificationError ∧
    (∃ e, (LinkedSet.Iterator.operator_eq (LinkedSet.default_ctor (⟨[]⟩ : Heap Nat)).1
        (LinkedSet.default_ctor (⟨[]⟩ : Heap Nat)).2
        (LinkedSet.begin 0 (LinkedSet.default_ctor (⟨[]⟩ : Heap Nat)).2)
        (LinkedSet.begin 1 (LinkedSet.default_ctor (⟨[]⟩ : Heap Nat)).2)).1 = .error e ∧
      (LinkedSet.Iterator.operator_ne (LinkedSet.default_ctor (⟨[]⟩ : Heap Nat)).1
        (LinkedSet.default_ctor (⟨[]⟩ : Heap Nat)).2
        (LinkedSet.begin 0 (LinkedSet.default_ctor (⟨[]⟩ : Heap Nat)).2)
        (LinkedSet.begin 1 (LinkedSet.default_ctor (⟨[]⟩ : Heap Nat)).2)).1 = .error e) ∧
    (LinkedSet.Iterator.operator_eq (LinkedSet.default_ctor (⟨[]⟩ : Heap Nat)).1
        (LinkedSet.default_ctor (⟨[]⟩ : Heap Nat)).2
        (LinkedSet.begin 0 (LinkedSet.default_ctor (⟨[]⟩ : Heap Nat)).2)
        (LinkedSet.end_ 0 (LinkedSet.default_ctor (⟨[]⟩ : Heap Nat)).2)).1 =
      .ok (decide ((LinkedSet.begin 0 (LinkedSet.default_ctor (⟨[]⟩ : Heap Nat)).2).current =
        (LinkedSet.end_ 0 (LinkedSet.default_ctor (⟨[]⟩ : Heap Nat)).2).current)) :=
  ⟨(((iterator_comparison (T := Nat)).1 _ _ _ _).1 (by decide)).1,
   ((iterator_comparison (T := Nat)).2 _ _ _ _).2.1 (by decide),
   (((iterator_comparison (T := Nat)).2 _ _ _ _).2.2.1 rfl rfl).1⟩

end IteratorComparison

end ics

namespace ics

/-! ## C9: an iterator survives its own `erase()` -/

section SelfHeal

variable {T : Type}

theorem LinkedQueue.begin_erase_spec (this : Nat) {h : Heap T} {q : LinkedQueue}
    {x1 x2 : Nat × T} {l : List (Nat × T)} (hw : LinkedQueue.WellFormed h q (x1 :: x2 :: l)) :
    LinkedQueue.Iterator.erase h q (LinkedQueue.begin this q) =
      (.ok x1.2, h.free x1.1,
        { q with front := some x2.1, used := q.used - 1, mod_count := q.mod_count + 1 },
        { prev := none, current := some x2.1, ref_queue := this,
          expected_mod_count := q.mod_count + 1, can_erase := false }) ∧
    LinkedQueue.WellFormed (h.free x1.1)
      { q with front := some x2.1, used := q.used - 1, mod_count := q.mod_count + 1 }
      (x2 :: l) := by
  obtain ⟨q1, _, hw1, _, _⟩ := LinkedQueue.dequeue_spec hw
  obtain ⟨hp, hu, hr⟩ := hw
  have hnd := Path.nodup hp (by intro y _; simp)
  obtain ⟨hx, nx, hrx, hpx⟩ := hp
  have hpx' := hpx
  obtain ⟨hx2, _⟩ := hpx
  subst hx2
  have hrear : (some x1.1 : Option Nat) ≠ q.rear := by
    obtain ⟨y, hy⟩ : ∃ y, (x1 :: x2 :: l).getLast? = some y := by
      cases hl : (x1 :: x2 :: l).getLast? with
      | none => simp at hl
      | some y => exact ⟨y, rfl⟩
    rw [hr y hy]
    intro hc
    have hmem : y ∈ x2 :: l := by
      rw [List.getLast?_cons_cons] at hy
      exact List.mem_of_getLast?_eq_some hy
    rw [List.map_cons, List.nodup_cons] at hnd
    exact hnd.1 ((Option.some.inj hc) ▸ List.mem_map_of_mem _ hmem)
  constructor
  · simp only [LinkedQueue.Iterator.erase, LinkedQueue.begin, ne_eq, not_true_eq_false,
      if_false, Bool.not_true, Bool.false_eq_true, hx, hrx, hrear]
  · obtain ⟨hp1, hu1, hr1⟩ := hw1
    refine ⟨?_, ?_, ?_⟩
    · have hf : q1.front = some x2.1 := hp1.1
      rw [hf] at hp1
      exact hp1
    · show q.used - 1 = _
      rw [hu]; simp
    · intro y hy
      exact hr y (by simpa using hy)

theorem LinkedQueue.q_self_heal_aux (this : Nat) (h : Heap T) (q : LinkedQueue)
    (x1 x2 : Nat × T) (l : List (Nat × T))
    (hw : LinkedQueue.WellFormed h q (x1 :: x2 :: l)) :
    ∃ h1 q1 it1 it2,
      LinkedQueue.Iterator.erase h q (LinkedQueue.begin this q) = (.ok x1.2, h1, q1, it1) ∧
      LinkedQueue.Iterator.operator_pre_inc h1 q1 it1 = (.ok it2, h1, q1, it2) ∧
      LinkedQueue.Iterator.operator_post_inc h1 q1 it1 = (.ok it1, h1, q1, it2) ∧
      LinkedQueue.Iterator.operator_deref h1 q1 it2 = (.ok x2.2, h1, q1, it2) ∧
      LinkedQueue.WellFormed h1 q1 (x2 :: l) := by
  obtain ⟨he, hw1⟩ := LinkedQueue.begin_erase_spec this hw
  obtain ⟨⟨_, nx, hrx, _⟩, _, _⟩ := id hw1
  refine ⟨_, _, _, LinkedQueue.Iterator.mk none (some x2.1) this (q.mod_count + 1) true,
    he, ?_, ?_, ?_, hw1⟩
  · simp [LinkedQueue.Iterator.operator_pre_inc, LinkedQueue.Iterator.advance]
  · simp [LinkedQueue.Iterator.operator_post_inc, LinkedQueue.Iterator.advance]
  · simp [LinkedQueue.Iterator.operator_deref, Heap.deref, hrx]

theorem LinkedSet.self_heal_aux (this : Nat) (h : Heap T) (s : LinkedSet)
    (x1 x2 : Nat × T) (l : List (Nat × T))
    (hw : LinkedSet.WellFormed h s (x1 :: x2 :: l)) :
    ∃ h1 s1 it1 it2,
      LinkedSet.Iterator.erase h s (LinkedSet.begin this s) = (.ok x1.2, h1, s1, it1) ∧
      LinkedSet.Iterator.operator_pre_inc h1 s1 it1 = (.ok it2, h1, s1, it2) ∧
      LinkedSet.Iterator.operator_post_inc h1 s1 it1 = (.ok it1, h1, s1, it2) ∧
      LinkedSet.Iterator.operator_deref h1 s1 it2 = (.ok x2.2, h1, s1, it2) ∧
      LinkedSet.WellFormed h1 s1 ((x1.1, x2.2) :: l) := by
  have hw0 : LinkedSet.WellFormed h s ([] ++ x1 :: (x2 :: l)) := hw
  obtain ⟨h1, s1, he, hw1, hmc, _, _, _, htr, _⟩ := LinkedSet.erase_at_spec hw0
  simp only [List.nil_append, LinkedSet.absorb, List.isEmpty_cons, Bool.false_eq_true,
    if_false] at hw1 htr
  obtain ⟨t, ht, ⟨hf, nx, hrx, _⟩, hn, _, _⟩ := id hw
  obtain ⟨t1, ht1, ⟨_, nx1, hrx1, _⟩, _, _, _⟩ := id hw1
  have hxt : (some x1.1 : Option Nat) ≠ some t := fun hc =>
    hn x1 (by simp) (Option.some.inj hc)
  have hxt1 : (some x1.1 : Option Nat) ≠ s1.trailer := by rw [htr, ht]; exact hxt
  refine ⟨h1, s1, LinkedSet.Iterator.mk (some x1.1) this s1.mod_count false,
    LinkedSet.Iterator.mk (some x1.1) this s1.mod_count true, ?_, ?_, ?_, ?_, hw1⟩
  · simp only [LinkedSet.Iterator.erase, LinkedSet.begin, ne_eq, not_true_eq_false, if_false,
      Bool.not_true, Bool.false_eq_true, hf, ht, hxt, hrx, he]
  · simp [LinkedSet.Iterator.operator_pre_inc, LinkedSet.Iterator.advance, hxt1]
  · simp [LinkedSet.Iterator.operator_post_inc, LinkedSet.Iterator.advance, hxt1]
  · simp [LinkedSet.Iterator.operator_deref, Heap.deref, hrx1, hxt1]

/-- C9.  On a well-formed container, queue or set, whose chain is `x1, x2, ...`:
`erase()` on the iterator from `begin()` returns the value of `x1`; the prefix
or postfix increment that follows and the dereference after it throw nothing;
the dereference yields the value of `x2`; and the container is well-formed and
holds the values of `x2, ...`, the original ones without that of `x1`. -/
theorem iterator_self_heal (this : Nat) (h : Heap T) (x1 x2 : Nat × T) (l : List (Nat × T)) :
    (∀ q : LinkedQueue, LinkedQueue.WellFormed h q (x1 :: x2 :: l) →
      ∃ h1 q1 it1 it2,
        LinkedQueue.Iterator.erase h q (LinkedQueue.begin this q) = (.ok x1.2, h1, q1, it1) ∧
        LinkedQueue.Iterator.operator_pre_inc h1 q1 it1 = (.ok it2, h1, q1, it2) ∧
        LinkedQueue.Iterator.operator_post_inc h1 q1 it1 = (.ok it1, h1, q1, it2) ∧
        LinkedQueue.Iterator.operator_deref h1 q1 it2 = (.ok x2.2, h1, q1, it2) ∧
        ∃ l1, LinkedQueue.WellFormed h1 q1 l1 ∧ l1.map Prod.snd = (x2 :: l).map Prod.snd) ∧
    (∀ s : LinkedSet, LinkedSet.WellFormed h s (x1 :: x2 :: l) →
      ∃ h1 s1 it1 it2,
        LinkedSet.Iterator.erase h s (LinkedSet.begin this s) = (.ok x1.2, h1, s1, it1) ∧
        LinkedSet.Iterator.operator_pre_inc h1 s1 it1 = (.ok it2, h1, s1, it2) ∧
        LinkedSet.Iterator.operator_post_inc h1 s1 it1 = (.ok it1, h1, s1, it2) ∧
        LinkedSet.Iterator.operator_deref h1 s1 it2 = (.ok x2.2, h1, s1, it2) ∧
        ∃ l1, LinkedSet.WellFormed h1 s1 l1 ∧ l1.map Prod.snd = (x2 :: l).map Prod.snd) := by
  constructor
  · intro q hw
    obtain ⟨h1, q1, it1, it2, e1, e2, e3, e4, hw1⟩ :=
      LinkedQueue.q_self_heal_aux this h q x1 x2 l hw
    exact ⟨h1, q1, it1, it2, e1, e2, e3, e4, _, hw1, rfl⟩
  · intro s hw
    obtain ⟨h1, s1, it1, it2, e1, e2, e3, e4, hw1⟩ :=
      LinkedSet.self_heal_aux this h s x1 x2 l hw
    exact ⟨h1, s1, it1, it2, e1, e2, e3, e4, _, hw1, rfl⟩

/-- C9 at the queue with the chain 7, 8 and at the set with the chain 8, 7. -/
theorem iterator_self_heal_witness :
    (∃ h1 q1 it1 it2,
      LinkedQueue.Iterator.erase (⟨[some ⟨7, some 1⟩, some ⟨8, none⟩]⟩ : Heap Nat)
        { front := some 0, rear := some 1, used := 2, mod_count := 2 }
        (LinkedQueue.begin 0 { front := some 0, rear := some 1, used := 2, mod_count := 2 }) =
        (.ok 7, h1, q1, it1) ∧
      LinkedQueue.Iterator.operator_pre_inc h1 q1 it1 = (.ok it2, h1, q1, it2) ∧
      LinkedQueue.Iterator.operator_post_inc h1 q1 it1 = (.ok it1, h1, q1, it2) ∧
      LinkedQueue.Iterator.operator_deref h1 q1 it2 = (.ok 8, h1, q1, it2) ∧
      ∃ l1, LinkedQueue.WellFormed h1 q1 l1 ∧ l1.map Prod.snd = [8]) ∧
    (∃ h1 s1 it1 it2,
      LinkedSet.Iterator.erase
        (⟨[some ⟨0, none⟩, some ⟨7, some 0⟩, some ⟨8, some 1⟩]⟩ : Heap Nat)
        { front := some 2, trailer := some 0, used := 2, mod_count := 2 }
        (LinkedSet.begin 0 { front := some 2, trailer := some 0, used := 2, mod_count := 2 }) =
        (.ok 8, h1, s1, it1) ∧
      LinkedSet.Iterator.operator_pre_inc h1 s1 it1 = (.ok it2, h1, s1, it2) ∧
      LinkedSet.Iterator.operator_post_inc h1 s1 it1 = (.ok it1, h1, s1, it2) ∧
      LinkedSet.Iterator.operator_deref h1 s1 it2 = (.ok 7, h1, s1, it2) ∧
      ∃ l1, LinkedSet.WellFormed h1 s1 l1 ∧ l1.map Prod.snd = [7]) :=
  ⟨(iterator_self_heal 0 (⟨[some ⟨7, some 1⟩, some ⟨8, none⟩]⟩ : Heap Nat) (0, 7) (1, 8) []).1 _
      ⟨⟨rfl, some 1, rfl, rfl, none, rfl, rfl⟩, rfl, by simp⟩,
   (iterator_self_heal 0 (⟨[some ⟨0, none⟩, some ⟨7, some 0⟩, some ⟨8, some 1⟩]⟩ : Heap Nat)
      (2, 8) (1, 7) []).2 _
      ⟨0, rfl, ⟨rfl, some 1, rfl, rfl, some 0, rfl, rfl⟩, by simp, ⟨0, rfl⟩, rfl⟩⟩

end SelfHeal

end ics

namespace ics

/-! ## LinkedSet: `delete_list`, `clear`, the destructor, `erase_all` -/

section SetClear

variable {T : Type}

theorem Path.end_unique {h : Heap T} {l : List (Nat × T)} {p q1 q2 : Option Nat}
    (h1 : Path h p l q1) (h2 : Path h p l q2) : q1 = q2 := by
  induction l generalizing p with
  | nil => exact h1.symm.trans h2
  | cons x l ih =>
    obtain ⟨_, nx, hrx, hpx⟩ := h1
    obtain ⟨_, ny, hry, hpy⟩ := h2
    rw [hrx] at hry
    have : nx = ny := by injection hry with hry; injection hry
    subst this
    exact ih hpx hpy

/-- Well-formedness only depends on the nodes the set owns. -/
theorem LinkedSet.WellFormed.set_frame {h h1 : Heap T} {s : LinkedSet} {l : List (Nat × T)}
    (hw : LinkedSet.WellFormed h s l) (hl : ∀ x ∈ l, h1.read x.1 = h.read x.1)
    (ht : ∀ t, s.trailer = some t → h1.read t = h.read t) : LinkedSet.WellFormed h1 s l := by
  obtain ⟨t, hts, hp, hn, ⟨tv, htr⟩, hu⟩ := hw
  exact ⟨t, hts, Path.frame hp hl, hn, ⟨tv, by rw [ht t hts]; exact htr⟩, hu⟩

theorem LinkedSet.WellFormed.addr_lt_length {h : Heap T} {s : LinkedSet} {l : List (Nat × T)}
    (hw : LinkedSet.WellFormed h s l) :
    (∀ x ∈ l, x.1 < h.cells.length) ∧ ∀ t, s.trailer = some t → t < h.cells.length := by
  obtain ⟨t, hts, hp, _, ⟨tv, htr⟩, _⟩ := hw
  refine ⟨Path.lt_length hp, ?_⟩
  intro t1 ht1
  rw [hts] at ht1
  rw [← Option.some.inj ht1]
  exact Heap.read_lt htr

theorem LinkedSet.delete_list_loop_spec {t : Nat} :
    ∀ (l : List (Nat × T)) (h : Heap T) (p : Option Nat) (fuel : Nat), Path h p l (some t) →
      (∀ x ∈ l, x.1 ≠ t) → l.length ≤ fuel →
      ∃ h1, LinkedSet.delete_list_loop (some t) fuel h p = (.ok (), h1) ∧
        h1.cells.length = h.cells.length ∧
        (∀ a, (∀ x ∈ l, x.1 ≠ a) → h1.read a = h.read a) := by
  intro l
  induction l with
  | nil =>
    intro h p fuel hp _ _
    rw [Path.nil_iff] at hp
    subst hp
    refine ⟨h, ?_, rfl, fun _ _ => rfl⟩
    cases fuel <;> simp [LinkedSet.delete_list_loop]
  | cons x l ih =>
    intro h p fuel hp hn hlen
    have hnd := Path.nodup hp (fun y hy hc => hn y hy (Option.some.inj hc))
    obtain ⟨hx, nx, hrx, hpx⟩ := hp
    subst hx
    have hxt : (some x.1 : Option Nat) ≠ some t := fun hc =>
      hn x (List.mem_cons_self _ _) (Option.some.inj hc)
    rw [List.map_cons, List.nodup_cons] at hnd
    have hpx1 : Path (h.free x.1) nx l (some t) := by
      refine Path.frame hpx ?_
      intro y hy
      refine Heap.read_free_of_ne h ?_
      intro hc
      exact hnd.1 (hc ▸ List.mem_map_of_mem _ hy)
    cases fuel with
    | zero => simp at hlen
    | succ fuel =>
      obtain ⟨h1, e1, e2, e3⟩ := ih (h.free x.1) nx fuel hpx1
        (fun y hy => hn y (List.mem_cons_of_mem _ hy)) (by simpa using hlen)
      refine ⟨h1, ?_, by rw [e2]; simp, ?_⟩
      · simp only [LinkedSet.delete_list_loop, hxt, if_false, hrx, e1]
      · intro a ha
        rw [e3 a (fun y hy => ha y (List.mem_cons_of_mem _ hy))]
        exact Heap.read_free_of_ne h (Ne.symm (ha x (List.mem_cons_self _ _)))

/-- Member `clear()` on a well-formed set: every node before the trailer is deleted,
the trailer stays, and the generation grows by one. -/
theorem LinkedSet.clear_spec {h : Heap T} {s : LinkedSet} {l : List (Nat × T)}
    (hw : LinkedSet.WellFormed h s l) :
    ∃ h1, LinkedSet.clear h s =
        (.ok (), h1, { s with front := s.trailer, used := 0, mod_count := s.mod_count + 1 }) ∧
      LinkedSet.WellFormed h1
        { s with front := s.trailer, used := 0, mod_count := s.mod_count + 1 } [] ∧
      h1.cells.length = h.cells.length ∧
      (∀ a, (∀ x ∈ l, x.1 ≠ a) → h1.read a = h.read a) := by
  have hlen := hw.length_lt
  obtain ⟨t, hts, hp, hn, ⟨tv, htr⟩, hu⟩ := hw
  obtain ⟨h1, e1, e2, e3⟩ := LinkedSet.delete_list_loop_spec l h s.front
    (h.cells.length + 1) hp hn (by omega)
  refine ⟨h1, ?_, ⟨t, hts, hts, by simp, ⟨tv, ?_⟩, rfl⟩, e2, e3⟩
  · simp only [LinkedSet.clear, LinkedSet.delete_list, hts, e1]
  · rw [e3 t hn]; exact htr

/-- The destructor of a well-formed set deletes the nodes the set owns and
nothing else. -/
theorem LinkedSet.destructor_spec {h : Heap T} {s : LinkedSet} {l : List (Nat × T)}
    (hw : LinkedSet.WellFormed h s l) :
    ∃ h1, LinkedSet.destructor h s = (.ok (), h1) ∧ h1.cells.length = h.cells.length ∧
      (∀ a, (∀ x ∈ l, x.1 ≠ a) → s.trailer ≠ some a → h1.read a = h.read a) := by
  have hlen := hw.length_lt
  obtain ⟨t, hts, hp, hn, ⟨tv, htr⟩, hu⟩ := hw
  obtain ⟨h1, e1, e2, e3⟩ := LinkedSet.delete_list_loop_spec l h s.front
    (h.cells.length + 1) hp hn (by omega)
  have htr1 : h1.read t = some ⟨tv, none⟩ := by rw [e3 t hn]; exact htr
  refine ⟨h1.free t, ?_, by simp [e2], ?_⟩
  · simp only [LinkedSet.destructor, LinkedSet.delete_list, hts, e1, htr1]
  · intro a ha hat
    rw [Heap.read_free_of_ne _ (fun hc => hat (by rw [hts, hc])), e3 a ha]

theorem LinkedSet.Advances.refl (s : LinkedSet) (l : List (Nat × T)) :
    LinkedSet.Advances s l s l := Or.inr ⟨rfl, rfl, rfl⟩

theorem LinkedSet.Advances.trans {s s1 s2 : LinkedSet} {l l1 l2 : List (Nat × T)}
    (h1 : LinkedSet.Advances s l s1 l1) (h2 : LinkedSet.Advances s1 l1 s2 l2) :
    LinkedSet.Advances s l s2 l2 := by
  rcases h1 with h1 | ⟨a1, a2, a3⟩
  · rcases h2 with h2 | ⟨b1, _, _⟩
    · exact Or.inl (by omega)
    · exact Or.inl (by omega)
  · rcases h2 with h2 | ⟨b1, b2, b3⟩
    · exact Or.inl (by omega)
    · exact Or.inr ⟨by omega, b2.trans a2, b3.trans a3⟩

/-- Member `erase` on a well-formed set without duplicates, whatever the value. -/
theorem LinkedSet.erase_spec [DecidableEq T] {h : Heap T} {s : LinkedSet}
    {l : List (Nat × T)} (hw : LinkedSet.WellFormed h s l) (hu : LinkedSet.Unique l) (v : T) :
    ∃ h1 s1 l1 k, LinkedSet.erase h s v = (.ok k, h1, s1) ∧
      LinkedSet.WellFormed h1 s1 l1 ∧ LinkedSet.Unique l1 ∧ LinkedSet.Advances s l s1 l1 ∧
      (∀ w, w ∈ l1.map Prod.snd ↔ w ∈ l.map Prod.snd ∧ w ≠ v) := by
  by_cases hv : v ∈ l.map Prod.snd
  · obtain ⟨l1, x, l2, rfl, hx, hn1⟩ := LinkedSet.first_occurrence hv
    subst hx
    obtain ⟨_, hn2, hu1⟩ := hu.not_mem_of_split
    obtain ⟨h1, s1, he, hw1, hmc, _⟩ := LinkedSet.erase_at_spec hw
    refine ⟨h1, s1, _, 1, by rw [LinkedSet.erase_present hw hn1, he], hw1, hu1,
      Or.inl (by omega), ?_⟩
    intro w
    simp only [List.map_append, LinkedSet.map_snd_absorb, List.mem_append, List.map_cons,
      List.mem_cons]
    constructor
    · rintro (hw | hw)
      · exact ⟨Or.inl hw, fun hc => hn1 (hc ▸ hw)⟩
      · exact ⟨Or.inr (Or.inr hw), fun hc => hn2 (hc ▸ hw)⟩
    · rintro ⟨hw | hw | hw, hne⟩
      · exact Or.inl hw
      · exact absurd hw hne
      · exact Or.inr hw
  · refine ⟨h, s, l, 0, LinkedSet.erase_absent hw hv, hw, hu, LinkedSet.Advances.refl s l, ?_⟩
    intro w
    constructor
    · intro hw1
      exact ⟨hw1, fun hc => hv (hc ▸ hw1)⟩
    · exact fun hw1 => hw1.1

/-- The loop of `erase_all` on a well-formed set without duplicates. -/
theorem LinkedSet.erase_all_loop_spec [DecidableEq T] (vs : List T) :
    ∀ (h : Heap T) (s : LinkedSet) (l : List (Nat × T)) (c : Int),
      LinkedSet.WellFormed h s l → LinkedSet.Unique l →
      ∃ h1 s1 l1 k, LinkedSet.erase_all_loop h s c vs = (.ok k, h1, s1) ∧
        LinkedSet.WellFormed h1 s1 l1 ∧ LinkedSet.Unique l1 ∧ LinkedSet.Advances s l s1 l1 ∧
        (∀ w, w ∈ l1.map Prod.snd ↔ w ∈ l.map Prod.snd ∧ w ∉ vs) := by
  induction vs with
  | nil =>
    intro h s l c hw hu
    exact ⟨h, s, l, c, rfl, hw, hu, LinkedSet.Advances.refl s l, by simp⟩
  | cons v vs ih =>
    intro h s l c hw hu
    obtain ⟨h1, s1, l1, k, e1, hw1, hu1, ha1, hm1⟩ := LinkedSet.erase_spec hw hu v
    obtain ⟨h2, s2, l2, k2, e2, hw2, hu2, ha2, hm2⟩ := ih h1 s1 l1 (c + k) hw1 hu1
    refine ⟨h2, s2, l2, k2, ?_, hw2, hu2, ha1.trans ha2, ?_⟩
    · simp only [LinkedSet.erase_all_loop, e1, e2]
    · intro w
      rw [hm2 w, hm1 w]
      simp only [List.mem_cons, not_or]
      tauto

end SetClear

end ics

namespace ics

/-! ## LinkedSet: `retain_all` -/

section SetRetain

variable {T : Type}

theorem LinkedSet.mem_absorb {a : Nat} {l : List (Nat × T)} {x : Nat × T}
    (hx : x ∈ LinkedSet.absorb a l) : x.1 = a ∨ x ∈ l := by
  cases l with
  | nil => simp [LinkedSet.absorb] at hx
  | cons y l3 =>
    simp only [LinkedSet.absorb, List.mem_cons] at hx
    rcases hx with rfl | hx
    · exact Or.inl rfl
    · exact Or.inr (List.mem_cons_of_mem _ hx)

/-- The loop of `retain_all`, started at the pointer `p` that the nodes `done`
lead to: the nodes `rest` from `p` on are filtered in place against the
temporary set `tmp`, whose nodes lie at addresses from `N` on while those of
this set lie below `N`. -/
theorem LinkedSet.retain_all_loop_spec [DecidableEq T] {tmp : LinkedSet}
    {lt : List (Nat × T)} (N : Nat) :
    ∀ (fuel : Nat) (h : Heap T) (s : LinkedSet) (done rest : List (Nat × T))
      (p : Option Nat) (c : Int),
      LinkedSet.WellFormed h s (done ++ rest) → Path h s.front done p →
      LinkedSet.WellFormed h tmp lt →
      (∀ x ∈ done ++ rest, x.1 < N) → (∀ t, s.trailer = some t → t < N) →
      (∀ y ∈ lt, N ≤ y.1) → (∀ t, tmp.trailer = some t → N ≤ t) →
      rest.length ≤ fuel →
      ∃ h1 s1 rest1,
        LinkedSet.retain_all_loop tmp fuel h s p c =
          (.ok (c + ((rest.length : Int) - rest1.length)), h1, s1) ∧
        LinkedSet.WellFormed h1 s1 (done ++ rest1) ∧ LinkedSet.WellFormed h1 tmp lt ∧
        rest1.map Prod.snd = (rest.map Prod.snd).filter (fun v => decide (v ∈ lt.map Prod.snd)) ∧
        s1.mod_count = s.mod_count + ((rest.length : Int) - rest1.length) ∧
        (rest1.length = rest.length → s1.trailer = s.trailer ∧ rest1 = rest) ∧
        rest1.length ≤ rest.length ∧
        (∀ x ∈ rest1, x.1 < N) ∧ (∀ t, s1.trailer = some t → t < N) ∧
        h1.cells.length = h.cells.length ∧
        (∀ a, N ≤ a → h1.read a = h.read a) := by
  intro fuel
  induction fuel with
  | zero =>
    intro h s done rest p c hw hpd hwt hb hbt _ _ hlen
    have hr : rest = [] := List.eq_nil_of_length_eq_zero (by omega)
    subst hr
    obtain ⟨t, hts, hp, _⟩ := id hw
    rw [List.append_nil] at hp
    have hpt : p = s.trailer := by rw [hts]; exact Path.end_unique hpd hp
    refine ⟨h, s, [], ?_, hw, hwt, rfl, by simp, fun _ => ⟨rfl, rfl⟩, le_refl _, by simp,
      hbt, rfl, fun _ _ => rfl⟩
    simp [LinkedSet.retain_all_loop, hpt]
  | succ fuel ih =>
    intro h s done rest p c hw hpd hwt hb hbt hbl hbtt hlen
    obtain ⟨t, hts, hp, hn, _, _⟩ := id hw
    cases rest with
    | nil =>
      rw [List.append_nil] at hp
      have hpt : p = s.trailer := by rw [hts]; exact Path.end_unique hpd hp
      refine ⟨h, s, [], ?_, hw, hwt, rfl, by simp, fun _ => ⟨rfl, rfl⟩, le_refl _, by simp,
        hbt, rfl, fun _ _ => rfl⟩
      simp [LinkedSet.retain_all_loop, hpt]
    | cons x rest =>
      obtain ⟨m, hm1, hm2⟩ := Path.append_iff.mp hp
      have hmp : m = p := Path.end_unique hm1 hpd
      subst hmp
      obtain ⟨hx, nx, hrx, hpx⟩ := hm2
      subst hx
      have hxt : (some x.1 : Option Nat) ≠ s.trailer := by
        rw [hts]; exact fun hc => hn x (by simp) (Option.some.inj hc)
      have hc := LinkedSet.contains_spec hwt x.2
      by_cases hv : x.2 ∈ lt.map Prod.snd
      · have hassoc : done ++ x :: rest = (done ++ [x]) ++ rest := by simp
        obtain ⟨h1, s1, rest1, e1, hw1, hwt1, hval, hmc, hsame, hle, hb1, hbt1, hl1, hfr⟩ :=
          ih h s (done ++ [x]) rest nx c (hassoc ▸ hw)
            (Path.append_iff.mpr ⟨some x.1, hm1, rfl, nx, hrx, rfl⟩) hwt
            (hassoc ▸ hb) hbt hbl hbtt (by simpa using hlen)
        refine ⟨h1, s1, x :: rest1, ?_, by simpa using hw1, hwt1, ?_, ?_, ?_, ?_, ?_, hbt1, hl1,
          hfr⟩
        · simp only [LinkedSet.retain_all_loop, hxt, if_false, hrx, hc, hv, decide_True, e1]
          simp
        · simp [hval, hv]
        · rw [hmc]; simp
        · intro hlen1
          obtain ⟨a1, a2⟩ := hsame (by simpa using hlen1)
          exact ⟨a1, by rw [a2]⟩
        · simpa using hle
        · intro y hy
          rcases List.mem_cons.mp hy with rfl | hy
          · exact hb _ (by simp)
          · exact hb1 y hy
      · obtain ⟨h1, s1, he, hw1, hmc1, _, hfront, hlen1, htr1, hfr1⟩ := LinkedSet.erase_at_spec hw
        have hbx : x.1 < N := hb x (by simp)
        have hge : ∀ a, N ≤ a → h1.read a = h.read a := by
          intro a ha
          refine hfr1 a (by omega) ?_ ?_
          · intro y hy
            have := hb y (by simp [hy])
            omega
          · intro hc1
            have := hbt a hc1.symm
            omega
        have hwt1 : LinkedSet.WellFormed h1 tmp lt :=
          hwt.set_frame (fun y hy => hge y.1 (hbl y hy)) (fun t1 ht1 => hge t1 (hbtt t1 ht1))
        have hb1 : ∀ y ∈ done ++ LinkedSet.absorb x.1 rest, y.1 < N := by
          intro y hy
          rcases List.mem_append.mp hy with hy | hy
          · exact hb y (by simp [hy])
          · rcases LinkedSet.mem_absorb hy with hy | hy
            · omega
            · exact hb y (by simp [hy])
        have hbt1 : ∀ t1, s1.trailer = some t1 → t1 < N := by
          intro t1 ht1
          rw [htr1] at ht1
          split at ht1
          · rw [← Option.some.inj ht1]; exact hbx
          · exact hbt t1 ht1
        have hpd1 : Path h1 s1.front done (some x.1) := by
          obtain ⟨t1, hts1, hp1, _⟩ := id hw1
          obtain ⟨m1, hq1, hq2⟩ := Path.append_iff.mp hp1
          cases rest with
          | nil =>
            simp only [LinkedSet.absorb, Path.nil_iff] at hq2
            simp only [List.isEmpty_nil, if_true] at htr1
            rw [hts1] at htr1
            rw [hq2, htr1] at hq1
            exact hq1
          | cons y rest2 =>
            obtain ⟨hq3, _⟩ := hq2
            rw [hq3] at hq1
            exact hq1
        obtain ⟨h2, s2, rest1, e2, hw2, hwt2, hval, hmc2, _, hle, hb2, hbt2, hl2, hfr2⟩ :=
          ih h1 s1 done (LinkedSet.absorb x.1 rest) (some x.1) (c + 1) hw1 hpd1 hwt1 hb1 hbt1
            hbl hbtt (by simpa using hlen)
        rw [LinkedSet.length_absorb] at e2 hmc2 hle
        refine ⟨h2, s2, rest1, ?_, hw2, hwt2, ?_, ?_, ?_, ?_, hb2, hbt2, by rw [hl2, hlen1], ?_⟩
        · simp only [LinkedSet.retain_all_loop, hxt, if_false, hrx, hc, hv, decide_False, he, e2]
          simp only [List.length_cons, Nat.cast_add, Nat.cast_one]
          congr 2
          ring
        · rw [hval, LinkedSet.map_snd_absorb]
          simp [hv]
        · rw [hmc2, hmc1]
          simp only [List.length_cons, Nat.cast_add, Nat.cast_one]
          ring
        · intro hc1
          simp only [List.length_cons] at hc1
          omega
        · simp only [List.length_cons]; omega
        · intro a ha
          rw [hfr2 a ha, hge a ha]

end SetRetain

end ics

namespace ics

section SetRetainAll

variable {T : Type}

theorem LinkedSet.Unique.filter [DecidableEq T] {l l1 : List (Nat × T)} (p : T → Bool)
    (hu : LinkedSet.Unique l) (hl : l1.map Prod.snd = (l.map Prod.snd).filter p) :
    LinkedSet.Unique l1 := by
  unfold LinkedSet.Unique at hu ⊢
  rw [hl]
  exact hu.filter p

/-- Member `retain_all(i)` on a well-formed set: it returns the number of nodes whose
value does not occur in `i`; the values that occur in `i` stay, in their order;
the generation grows by the number returned. -/
theorem LinkedSet.retain_all_spec [DecidableEq T] [Inhabited T] {h : Heap T} {s : LinkedSet}
    {l : List (Nat × T)} (hw : LinkedSet.WellFormed h s l) (i : List T) :
    ∃ h1 s1 l1,
      LinkedSet.retain_all h s i = (.ok ((l.length : Int) - l1.length), h1, s1) ∧
      LinkedSet.WellFormed h1 s1 l1 ∧
      l1.map Prod.snd = (l.map Prod.snd).filter (fun v => decide (v ∈ i)) ∧
      s1.mod_count = s.mod_count + ((l.length : Int) - l1.length) ∧
      l1.length ≤ l.length ∧
      LinkedSet.Advances s l s1 l1 := by
  obtain ⟨hbl, hbt⟩ := hw.addr_lt_length
  -- the temporary set
  obtain ⟨ht1, tmp, lt, ks, e1, _, _, hwt, _, hmt, _, htt, hlen1, hfr1, hge1⟩ :=
    LinkedSet.insert_all_loop_spec i _ _ [] 0 (LinkedSet.wellFormed_default_ctor h)
      (by simp [LinkedSet.Unique])
  simp only [List.append_nil, List.map_nil, List.not_mem_nil, false_or] at hwt hmt
  have hlen0 : (LinkedSet.default_ctor h).1.cells.length = h.cells.length + 1 := by
    simp [LinkedSet.default_ctor]
  have hfr : ∀ a, a < h.cells.length → ht1.read a = h.read a := by
    intro a ha
    rw [hfr1 a (by omega)]
    exact Heap.read_alloc_of_ne h _ (Nat.ne_of_lt ha)
  have hws : LinkedSet.WellFormed ht1 s l :=
    hw.set_frame (fun x hx => hfr x.1 (hbl x hx)) (fun t ht => hfr t (hbt t ht))
  have htmpt : ∀ t, tmp.trailer = some t → h.cells.length ≤ t := by
    intro t ht
    rw [htt] at ht
    simp only [LinkedSet.default_ctor, Heap.fst_alloc, Option.some.injEq] at ht
    omega
  have hfuel := hws.length_lt
  obtain ⟨h2, s2, l1, e2, hw2, hwt2, hval, hmc, hsame, hle, hb2, hbt2, _, hfr2⟩ :=
    LinkedSet.retain_all_loop_spec h.cells.length (ht1.cells.length + 1) ht1 s [] l s.front 0
      hws rfl hwt (by simpa using hbl) hbt (fun y hy => by have := hge1 y hy; omega) htmpt
      (by omega)
  simp only [List.nil_append, zero_add] at e2 hw2
  obtain ⟨h3, e3, _, hfr3⟩ := LinkedSet.destructor_spec hwt2
  have hw3 : LinkedSet.WellFormed h3 s2 l1 := by
    refine hw2.set_frame ?_ ?_
    · intro x hx
      refine hfr3 x.1 ?_ ?_
      · intro y hy hc
        have h1 := hge1 y hy
        have h2 := hb2 x hx
        omega
      · intro hc
        have h1 := htmpt x.1 hc
        have h2 := hb2 x hx
        omega
    · intro t ht
      refine hfr3 t ?_ ?_
      · intro y hy hc
        have h1 := hge1 y hy
        have h2 := hbt2 t ht
        omega
      · intro hc
        have h1 := htmpt t hc
        have h2 := hbt2 t ht
        omega
  have hfilter : (l.map Prod.snd).filter (fun v => decide (v ∈ lt.map Prod.snd)) =
      (l.map Prod.snd).filter (fun v => decide (v ∈ i)) := by
    refine List.filter_congr ?_
    intro v _
    simp only [hmt v]
  refine ⟨h3, s2, l1, ?_, hw3, by rw [hval, hfilter], hmc, hle, ?_⟩
  · simp only [LinkedSet.retain_all, LinkedSet.iterable_ctor, e1, e2, e3]
  · by_cases hc : l1.length = l.length
    · obtain ⟨a1, a2⟩ := hsame hc
      exact Or.inr ⟨by rw [hmc, hc]; simp, a1, a2⟩
    · exact Or.inl (by rw [hmc]; omega)

end SetRetainAll

end ics

namespace ics

/-! ## LinkedSet: the copy constructor -/

section SetCopyCtor

variable {T : Type}

theorem LinkedSet.copy_ctor_loop_spec {ts a0 : Nat} :
    ∀ (src : List (Nat × T)) (fuel : Nat) (h : Heap T) (front f : Option Nat)
      (done : List (Nat × T)),
      Path h f src (some ts) → (∀ x ∈ src, x.1 ≠ ts) →
      Path h front done (some a0) → (∀ x ∈ done, x.1 ≠ a0) → a0 < h.cells.length →
      src.length ≤ fuel →
      ∃ h1 front1 done1,
        LinkedSet.copy_ctor_loop (some ts) fuel h front f = (.ok (), h1, front1) ∧
        Path h1 front1 done1 (some a0) ∧ (∀ x ∈ done1, x.1 ≠ a0) ∧
        done1.map Prod.snd = (src.map Prod.snd).reverse ++ done.map Prod.snd ∧
        h.cells.length ≤ h1.cells.length ∧
        (∀ a, a < h.cells.length → h1.read a = h.read a) ∧
        (∀ x ∈ done1, x ∈ done ∨ h.cells.length ≤ x.1) := by
  intro src
  induction src with
  | nil =>
    intro fuel h front f done hp _ hd hdn _ _
    rw [Path.nil_iff] at hp
    subst hp
    refine ⟨h, front, done, ?_, hd, hdn, by simp, le_refl _, fun _ _ => rfl,
      fun x hx => Or.inl hx⟩
    cases fuel <;> simp [LinkedSet.copy_ctor_loop]
  | cons x src ih =>
    intro fuel h front f done hp hn hd hdn ha0 hlen
    obtain ⟨hx, nx, hrx, hpx⟩ := hp
    subst hx
    have hxt : (some x.1 : Option Nat) ≠ some ts := fun hc =>
      hn x (List.mem_cons_self _ _) (Option.some.inj hc)
    have hfr : ∀ a, a < h.cells.length → (h.alloc ⟨x.2, front⟩).2.read a = h.read a :=
      fun a ha => Heap.read_alloc_of_ne h _ (Nat.ne_of_lt ha)
    cases fuel with
    | zero => simp at hlen
    | succ fuel =>
      have hpx1 : Path (h.alloc ⟨x.2, front⟩).2 nx src (some ts) :=
        Path.frame hpx (fun y hy => hfr y.1 (Path.lt_length hpx y hy))
      have hd1 : Path (h.alloc ⟨x.2, front⟩).2 (some h.cells.length)
          ((h.cells.length, x.2) :: done) (some a0) :=
        ⟨rfl, front, Heap.read_alloc_self h _,
          Path.frame hd (fun y hy => hfr y.1 (Path.lt_length hd y hy))⟩
      have hdn1 : ∀ y ∈ (h.cells.length, x.2) :: done, y.1 ≠ a0 := by
        intro y hy
        rcases List.mem_cons.mp hy with rfl | hy
        · exact Nat.ne_of_gt ha0
        · exact hdn y hy
      obtain ⟨h1, front1, done1, e1, hp1, hdn2, hval, hlen1, hfr1, horig⟩ :=
        ih fuel _ (some h.cells.length) nx _ hpx1
          (fun y hy => hn y (List.mem_cons_of_mem _ hy)) hd1 hdn1
          (by rw [Heap.length_alloc]; omega) (by simpa using hlen)
      rw [Heap.length_alloc] at hlen1 hfr1 horig
      refine ⟨h1, front1, done1, ?_, hp1, hdn2, ?_, by omega, ?_, ?_⟩
      · simp only [LinkedSet.copy_ctor_loop, hxt, if_false, Heap.deref, hrx]
        exact e1
      · rw [hval]; simp
      · intro a ha
        rw [hfr1 a (by omega), hfr a ha]
      · intro y hy
        rcases horig y hy with hy | hy
        · rcases List.mem_cons.mp hy with rfl | hy
          · exact Or.inr (le_refl _)
          · exact Or.inl hy
        · exact Or.inr (by omega)

/-- The copy constructor on a well-formed source: the new set owns fresh nodes
only, holds the values of the source in reverse order, and the heap below the
old end is untouched. -/
theorem LinkedSet.copy_ctor_spec [Inhabited T] {h : Heap T} {src : LinkedSet}
    {lr : List (Nat × T)} (hwr : LinkedSet.WellFormed h src lr) :
    ∃ h1 s1 l1, LinkedSet.copy_ctor h src = (.ok (), h1, s1) ∧
      LinkedSet.WellFormed h1 s1 l1 ∧ l1.map Prod.snd = (lr.map Prod.snd).reverse ∧
      s1.mod_count = 0 ∧ h.cells.length ≤ h1.cells.length ∧
      (∀ a, a < h.cells.length → h1.read a = h.read a) ∧
      (∀ x ∈ l1, h.cells.length ≤ x.1) ∧ s1.trailer = some h.cells.length := by
  have hlen := hwr.length_lt
  obtain ⟨ts, hts, hp, hn, _, hu⟩ := hwr
  have hfr : ∀ a, a < h.cells.length → (h.alloc ⟨default, none⟩).2.read a = h.read a :=
    fun a ha => Heap.read_alloc_of_ne h _ (Nat.ne_of_lt ha)
  obtain ⟨h1, front1, done1, e1, hp1, hdn1, hval, hlen1, hfr1, horig⟩ :=
    @LinkedSet.copy_ctor_loop_spec _ _ h.cells.length lr
      ((h.alloc (⟨default, none⟩ : LN T)).2.cells.length + 1)
      (h.alloc ⟨default, none⟩).2 (some h.cells.length) src.front []
      (Path.frame hp (fun y hy => hfr y.1 (Path.lt_length hp y hy))) hn rfl (by simp)
      (by rw [Heap.length_alloc]; omega) (by rw [Heap.length_alloc]; omega)
  rw [Heap.length_alloc] at hlen1 hfr1 horig
  simp only [List.map_nil, List.append_nil] at hval
  have hlen2 : done1.length = lr.length := by
    have := congrArg List.length hval
    simpa using this
  refine ⟨h1, { front := front1, trailer := some h.cells.length, used := src.used }, done1,
    ?_, ⟨h.cells.length, rfl, hp1, hdn1, ⟨default, ?_⟩, ?_⟩, hval, rfl, by omega, ?_, ?_, rfl⟩
  · simp only [LinkedSet.copy_ctor, Heap.fst_alloc, hts, e1]
  · rw [hfr1 _ (by omega)]; exact Heap.read_alloc_self h _
  · show src.used = _
    rw [hu, hlen2]
  · intro a ha
    rw [hfr1 a (by omega), hfr a ha]
  · intro x hx
    rcases horig x hx with hx | hx
    · simp at hx
    · omega

end SetCopyCtor

end ics

namespace ics

/-! ## LinkedSet: `operator =` -/

section SetAssign

variable {T : Type}

@[simp] theorem Slot.after_nil : Slot.after ([] : List (Nat × T)) = .front := rfl

@[simp] theorem Slot.after_concat (done : List (Nat × T)) (y : Nat × T) :
    Slot.after (done ++ [y]) = .next y.1 := by
  simp [Slot.after]

theorem Slot.get_after {h : Heap T} {front m : Option Nat} {done : List (Nat × T)}
    (hp : Path h front done m) : (Slot.after done).get h front = some m := by
  rcases List.eq_nil_or_concat done with rfl | ⟨d0, y, rfl⟩
  · rw [Path.nil_iff] at hp
    simp [Slot.get, hp]
  · rw [List.concat_eq_append] at hp ⊢
    obtain ⟨m1, _, _, ny, hry, hny⟩ := Path.append_iff.mp hp
    rw [Path.nil_iff] at hny
    simp [Slot.get, hry, hny]

/-- Storing through the slot behind the nodes `done` redirects the end of the
walk through them and changes no other node. -/
theorem Slot.set_after {h : Heap T} {front m : Option Nat} {done : List (Nat × T)}
    (hp : Path h front done m) (hnd : (done.map Prod.fst).Nodup) (m1 : Option Nat) :
    ∃ h1 front1, (Slot.after done).set h front m1 = some (h1, front1) ∧
      Path h1 front1 done m1 ∧ h1.cells.length = h.cells.length ∧
      (∀ a, (∀ y, done.getLast? = some y → a ≠ y.1) → h1.read a = h.read a) := by
  rcases List.eq_nil_or_concat done with rfl | ⟨d0, y, rfl⟩
  · exact ⟨h, m1, rfl, rfl, rfl, fun _ _ => rfl⟩
  · rw [List.concat_eq_append] at hp hnd ⊢
    obtain ⟨m0, hp0, hm0, ny, hry, _⟩ := Path.append_iff.mp hp
    rw [List.map_append, List.nodup_append] at hnd
    refine ⟨h.write y.1 ⟨y.2, m1⟩, front, ?_, ?_, by simp, ?_⟩
    · simp [Slot.set, hry]
    · refine Path.append_iff.mpr ⟨m0, ?_, hm0, m1, ?_, rfl⟩
      · refine Path.frame hp0 ?_
        intro z hz
        refine Heap.read_write_of_ne _ _ ?_
        intro hc
        exact hnd.2.2 (List.mem_map_of_mem _ hz) (by simp [hc])
      · exact Heap.read_write_self _ (Heap.read_lt hry)
    · intro a ha
      exact Heap.read_write_of_ne _ _ (ha y (by simp))

/-- The `for` loop of `operator =`, entered with the nodes `done` of the
destination chain already passed, the nodes `rest` still ahead of `*to`, and
the nodes `src` of the source chain still to be copied. -/
theorem LinkedSet.operator_assign_loop_spec {t ts : Nat} :
    ∀ (src : List (Nat × T)) (fuel : Nat) (h : Heap T) (front p m : Option Nat)
      (done rest : List (Nat × T)),
      Path h p src (some ts) → (∀ x ∈ src, x.1 ≠ ts) →
      Path h front done m → Path h m rest (some t) → (∀ x ∈ done ++ rest, x.1 ≠ t) →
      t < h.cells.length →
      (∀ x ∈ src, ∀ y ∈ done ++ rest, x.1 ≠ y.1) →
      src.length ≤ fuel →
      ∃ h1 front1 done1 m1,
        LinkedSet.operator_assign_loop (some t) (some ts) fuel h front (Slot.after done) p =
          (.ok (), h1, front1, Slot.after (done ++ done1)) ∧
        Path h1 front1 (done ++ done1) m1 ∧ Path h1 m1 (rest.drop src.length) (some t) ∧
        (∀ x ∈ (done ++ done1) ++ rest.drop src.length, x.1 ≠ t) ∧
        done1.map Prod.snd = src.map Prod.snd ∧
        h.cells.length ≤ h1.cells.length ∧
        (∀ a, a < h.cells.length → (∀ y ∈ done ++ rest, a ≠ y.1) → h1.read a = h.read a) ∧
        (∀ x ∈ done1, (∃ y ∈ rest, y.1 = x.1) ∨ h.cells.length ≤ x.1) := by
  intro src
  induction src with
  | nil =>
    intro fuel h front p m done rest hp _ hd hr hnt _ _ _
    rw [Path.nil_iff] at hp
    subst hp
    refine ⟨h, front, [], m, ?_, by simpa using hd, by simpa using hr, by simpa using hnt,
      rfl, le_refl _, fun _ _ _ => rfl, by simp⟩
    cases fuel <;> simp [LinkedSet.operator_assign_loop]
  | cons x src ih =>
    intro fuel h front p m done rest hp hn hd hr hnt htl hsep hlen
    obtain ⟨hx, nx, hrx, hpx⟩ := hp
    subst hx
    have hxt : (some x.1 : Option Nat) ≠ some ts := fun hc =>
      hn x (List.mem_cons_self _ _) (Option.some.inj hc)
    have hwhole : Path h front (done ++ rest) (some t) := Path.append_iff.mpr ⟨m, hd, hr⟩
    have hnd := Path.nodup hwhole (fun y hy hc => hnt y hy (Option.some.inj hc))
    have hget := Slot.get_after hd
    cases fuel with
    | zero => simp at hlen
    | succ fuel =>
      cases rest with
      | nil =>
        rw [Path.nil_iff] at hr
        subst hr
        rw [List.append_nil] at hnt hsep hnd
        have hfr0 : ∀ a, a < h.cells.length →
            (h.alloc ⟨x.2, some t⟩).2.read a = h.read a :=
          fun a ha => Heap.read_alloc_of_ne h _ (Nat.ne_of_lt ha)
        have hd0 : Path (h.alloc ⟨x.2, some t⟩).2 front done (some t) :=
          Path.frame hd (fun y hy => hfr0 y.1 (Path.lt_length hd y hy))
        obtain ⟨h2, front2, eset, hd2, hlen2, hfr2⟩ :=
          Slot.set_after hd0 hnd (some h.cells.length)
        rw [Heap.length_alloc] at hlen2
        have hlast : ∀ a, (∀ y ∈ done, a ≠ y.1) →
            ∀ y, done.getLast? = some y → a ≠ y.1 :=
          fun a ha y hy => ha y (List.mem_of_getLast?_eq_some hy)
        have hrx2 : h2.read x.1 = some ⟨x.2, nx⟩ := by
          rw [hfr2 x.1 (hlast x.1 (fun y hy => hsep x (by simp) y hy)),
            hfr0 x.1 (Heap.read_lt hrx)]
          exact hrx
        have hpx2 : Path h2 nx src (some ts) := by
          refine Path.frame hpx ?_
          intro z hz
          rw [hfr2 z.1 (hlast z.1 (fun y hy => hsep z (by simp [hz]) y hy)),
            hfr0 z.1 (Path.lt_length hpx z hz)]
        have hnew : h2.read h.cells.length = some ⟨x.2, some t⟩ := by
          rw [hfr2 _ (hlast _ (fun y hy => Nat.ne_of_gt (Path.lt_length hd y hy)))]
          exact Heap.read_alloc_self h _
        obtain ⟨h1, front1, done1, m1, e1, hp1, hr1, hnt1, hval, hlen1, hfr1, horig⟩ :=
          ih fuel h2 front2 nx (some t) (done ++ [(h.cells.length, x.2)]) []
            hpx2 (fun y hy => hn y (List.mem_cons_of_mem _ hy))
            (Path.append_iff.mpr ⟨_, hd2, rfl, some t, hnew, rfl⟩) rfl
            (by
              intro y hy
              simp only [List.append_nil, List.mem_append, List.mem_singleton] at hy
              rcases hy with hy | rfl
              · exact hnt y hy
              · exact Nat.ne_of_gt htl)
            (by omega)
            (by
              intro z hz y hy
              simp only [List.append_nil, List.mem_append, List.mem_singleton] at hy
              rcases hy with hy | rfl
              · exact hsep z (by simp [hz]) y hy
              · exact Nat.ne_of_lt (Path.lt_length hpx z hz))
            (by simpa using hlen)
        rw [List.append_assoc] at e1 hp1 hnt1
        simp only [List.drop_nil, List.singleton_append] at hr1 hnt1 e1 hp1
        refine ⟨h1, front1, (h.cells.length, x.2) :: done1, m1, ?_, hp1, by simpa using hr1,
          by simpa using hnt1, by simp [hval], by omega, ?_, ?_⟩
        · simp only [LinkedSet.operator_assign_loop, hxt, if_false, hget, ne_eq,
            not_true_eq_false, hrx, Heap.fst_alloc, eset, hrx2, Slot.after_concat] at e1 ⊢
          exact e1
        · intro a ha hna
          rw [hfr1 a (by omega) (by
            intro y hy
            simp only [List.append_nil, List.mem_append, List.mem_singleton] at hy
            rcases hy with hy | rfl
            · exact hna y (by simpa using hy)
            · exact Nat.ne_of_lt ha),
            hfr2 a (hlast a (fun y hy => hna y (by simpa using hy))), hfr0 a ha]
        · intro z hz
          rcases List.mem_cons.mp hz with rfl | hz
          · exact Or.inr (le_refl _)
          · rcases horig z hz with ⟨y, hy, _⟩ | hz
            · simp at hy
            · exact Or.inr (by omega)
      | cons y rest =>
        obtain ⟨hy, ny, hry, hpy⟩ := hr
        subst hy
        have hyt : (some y.1 : Option Nat) ≠ some t := fun hc =>
          hnt y (by simp) (Option.some.inj hc)
        have hxy : x.1 ≠ y.1 := hsep x (by simp) y (by simp)
        rw [List.map_append, List.map_cons, List.nodup_append, List.nodup_cons] at hnd
        obtain ⟨_, ⟨hy2, _⟩, hdis⟩ := hnd
        have hfr0 : ∀ a, a ≠ y.1 → (h.write y.1 ⟨x.2, ny⟩).read a = h.read a :=
          fun a ha => Heap.read_write_of_ne _ _ ha
        have hrx1 : (h.write y.1 ⟨x.2, ny⟩).read x.1 = some ⟨x.2, nx⟩ := by
          rw [hfr0 x.1 hxy]; exact hrx
        have hpx1 : Path (h.write y.1 ⟨x.2, ny⟩) nx src (some ts) := by
          refine Path.frame hpx ?_
          intro z hz
          exact hfr0 z.1 (hsep z (by simp [hz]) y (by simp))
        have hd1 : Path (h.write y.1 ⟨x.2, ny⟩) front (done ++ [(y.1, x.2)]) ny := by
          refine Path.append_iff.mpr ⟨some y.1, ?_, rfl, ny, ?_, rfl⟩
          · refine Path.frame hd ?_
            intro z hz
            refine hfr0 z.1 ?_
            intro hc
            exact hdis (List.mem_map_of_mem _ hz) (by simp [hc])
          · exact Heap.read_write_self _ (Heap.read_lt hry)
        have hr1 : Path (h.write y.1 ⟨x.2, ny⟩) ny rest (some t) := by
          refine Path.frame hpy ?_
          intro z hz
          refine hfr0 z.1 ?_
          intro hc
          exact hy2 (hc ▸ List.mem_map_of_mem _ hz)
        obtain ⟨h1, front1, done1, m1, e1, hp1, hr2, hnt1, hval, hlen1, hfr1, horig⟩ :=
          ih fuel (h.write y.1 ⟨x.2, ny⟩) front nx ny (done ++ [(y.1, x.2)]) rest
            hpx1 (fun z hz => hn z (List.mem_cons_of_mem _ hz)) hd1 hr1
            (by
              intro z hz
              simp only [List.mem_append, List.mem_singleton] at hz
              rcases hz with (hz | rfl) | hz
              · exact hnt z (by simp [hz])
              · exact hnt y (by simp)
              · exact hnt z (by simp [hz]))
            (by simpa using htl)
            (by
              intro z hz w hw
              simp only [List.mem_append, List.mem_singleton] at hw
              rcases hw with (hw | rfl) | hw
              · exact hsep z (by simp [hz]) w (by simp [hw])
              · exact hsep z (by simp [hz]) y (by simp)
              · exact hsep z (by simp [hz]) w (by simp [hw]))
            (by simpa using hlen)
        rw [List.append_assoc] at e1 hp1 hnt1
        simp only [List.singleton_append, Heap.length_write] at hp1 hnt1 e1 hlen1 hfr1 horig
        refine ⟨h1, front1, (y.1, x.2) :: done1, m1, ?_, hp1, by simpa using hr2,
          by simpa using hnt1, by simp [hval], hlen1, ?_, ?_⟩
        · simp only [LinkedSet.operator_assign_loop, hxt, if_false, hget, ne_eq, hyt,
            not_false_eq_true, if_true, hrx, hry, hrx1, Slot.after_concat] at e1 ⊢
          exact e1
        · intro a ha hna
          rw [hfr1 a ha (by
            intro w hw
            simp only [List.mem_append, List.mem_singleton] at hw
            rcases hw with (hw | rfl) | hw
            · exact hna w (by simp [hw])
            · exact hna y (by simp)
            · exact hna w (by simp [hw])),
            hfr0 a (hna y (by simp))]
        · intro z hz
          rcases List.mem_cons.mp hz with rfl | hz
          · exact Or.inl ⟨y, by simp, rfl⟩
          · rcases horig z hz with ⟨w, hw, hwz⟩ | hz
            · exact Or.inl ⟨w, by simp [hw], hwz⟩
            · exact Or.inr hz

/-- Member `operator =` called with another set: with both sets well-formed and
no node of the source among the nodes of the destination, the destination ends up
well-formed with the values of the source in the same order, made of its own
old nodes and of fresh ones; only destination nodes are written or deleted. -/
theorem LinkedSet.operator_assign_spec {this rhs_addr : Nat} (hne : this ≠ rhs_addr)
    {h : Heap T} {s rhs : LinkedSet} {l lr : List (Nat × T)}
    (hw : LinkedSet.WellFormed h s l) (hwr : LinkedSet.WellFormed h rhs lr)
    (hsep : ∀ x ∈ lr, (∀ y ∈ l, x.1 ≠ y.1) ∧ s.trailer ≠ some x.1) :
    ∃ h1 s1 l1, LinkedSet.operator_assign this rhs_addr h s rhs = (.ok (), h1, s1) ∧
      LinkedSet.WellFormed h1 s1 l1 ∧ l1.map Prod.snd = lr.map Prod.snd ∧
      s1.mod_count = s.mod_count + 1 ∧ s1.trailer = s.trailer ∧ s1.used = rhs.used ∧
      h.cells.length ≤ h1.cells.length ∧
      (∀ a, a < h.cells.length → (∀ y ∈ l, a ≠ y.1) → h1.read a = h.read a) ∧
      (∀ x ∈ l1, (∃ y ∈ l, y.1 = x.1) ∨ h.cells.length ≤ x.1) := by
  have hlenr := hwr.length_lt
  obtain ⟨t, hts, hp, hn, ⟨tv, htr⟩, hu⟩ := hw
  obtain ⟨ts, htsr, hpr, hnr, _, hur⟩ := hwr
  have htl : t < h.cells.length := Heap.read_lt htr
  obtain ⟨h1, front1, done1, m1, e1, hp1, hr1, hnt1, hval, hlen1, hfr1, horig⟩ :=
    LinkedSet.operator_assign_loop_spec lr (h.cells.length + 1) h s.front rhs.front s.front
      [] l hpr hnr rfl hp (by simpa using hn) htl
      (by
        intro x hx y hy
        exact (hsep x hx).1 y (by simpa using hy))
      (by omega)
  simp only [List.nil_append, Slot.after_nil] at e1 hp1 hnt1 hfr1
  have hget1 := Slot.get_after hp1
  have hlen2 : done1.length = lr.length := by
    have := congrArg List.length hval
    simpa using this
  have htr1 : h1.read t = some ⟨tv, none⟩ := by
    rw [hfr1 t htl (fun y hy => Ne.symm (hn y hy))]; exact htr
  have hwhole : Path h1 front1 (done1 ++ l.drop lr.length) (some t) :=
    Path.append_iff.mpr ⟨m1, hp1, hr1⟩
  have hnd := Path.nodup hwhole (fun y hy hc => hnt1 y hy (Option.some.inj hc))
  have hdrop : ∀ y ∈ l.drop lr.length, y ∈ l := fun y hy => List.mem_of_mem_drop hy
  have hlastd : ∀ a, a < h.cells.length → (∀ y ∈ l, a ≠ y.1) →
      ∀ y, done1.getLast? = some y → a ≠ y.1 := by
    intro a ha hna y hy
    rcases horig y (List.mem_of_getLast?_eq_some hy) with ⟨w, hw, hwy⟩ | hge
    · rw [← hwy]; exact hna w hw
    · omega
  by_cases hm : m1 = some t
  · subst hm
    refine ⟨h1, { s with front := front1, used := rhs.used, mod_count := s.mod_count + 1 },
      done1, ?_, ⟨t, hts, hp1, ?_, ⟨tv, htr1⟩, ?_⟩, hval, rfl, rfl, rfl, hlen1, hfr1, horig⟩
    · simp only [LinkedSet.operator_assign, hne, if_false, hts, htsr, e1, hget1, ne_eq,
        not_true_eq_false]
    · intro y hy
      exact hnt1 y (by simp [hy])
    · show rhs.used = _
      rw [hur, hlen2]
  · have hfuel := Path.length_le hr1
      (fun y hy hc => hnt1 y (by simp [hy]) (Option.some.inj hc))
    obtain ⟨h2, e2, hl2, hfr2⟩ := LinkedSet.delete_list_loop_spec (l.drop lr.length) h1 m1
      (h1.cells.length + 1) hr1 (fun y hy => hnt1 y (by simp [hy])) (by omega)
    rw [List.map_append, List.nodup_append] at hnd
    have hp2 : Path h2 front1 done1 m1 := by
      refine Path.frame hp1 ?_
      intro y hy
      refine hfr2 y.1 ?_
      intro z hz hc
      exact hnd.2.2 (List.mem_map_of_mem _ hy) (hc ▸ List.mem_map_of_mem _ hz)
    obtain ⟨h3, front3, eset, hp3, hl3, hfr3⟩ := Slot.set_after hp2 hnd.1 (some t)
    have htr3 : h3.read t = some ⟨tv, none⟩ := by
      rw [hfr3 t (fun y hy => Ne.symm (hnt1 y (by
          simp [List.mem_of_getLast?_eq_some hy]))),
        hfr2 t (fun y hy => hnt1 y (by simp [hy]))]
      exact htr1
    refine ⟨h3, { s with front := front3, used := rhs.used, mod_count := s.mod_count + 1 },
      done1, ?_, ⟨t, hts, hp3, ?_, ⟨tv, htr3⟩, ?_⟩, hval, rfl, rfl, rfl, by omega, ?_, horig⟩
    · simp only [LinkedSet.operator_assign, hne, if_false, hts, htsr, e1, hget1, ne_eq, hm,
        not_false_eq_true, if_true, LinkedSet.delete_list, e2, eset]
    · intro y hy
      exact hnt1 y (by simp [hy])
    · show rhs.used = _
      rw [hur, hlen2]
    · intro a ha hna
      rw [hfr3 a (hlastd a ha hna), hfr2 a (fun y hy => Ne.symm (hna y (hdrop y hy))),
        hfr1 a ha hna]

end SetAssign

end ics

namespace ics

/-! ## LinkedSet: iterators over a well-formed set -/

section SetIterators

variable {T : Type}

theorem LinkedSet.IteratorOk.advances {s s1 : LinkedSet} {l l1 : List (Nat × T)}
    {it : LinkedSet.Iterator} (hi : LinkedSet.IteratorOk s l it)
    (ha : LinkedSet.Advances s l s1 l1) : LinkedSet.IteratorOk s1 l1 it := by
  obtain ⟨h1, h2⟩ := hi
  rcases ha with ha | ⟨a1, a2, a3⟩
  · exact ⟨by omega, fun hc => by omega⟩
  · refine ⟨by omega, fun hc => ?_⟩
    rw [a2, a3]
    exact h2 (by omega)

theorem LinkedSet.IteratorOk.begin (this : Nat) {h : Heap T} {s : LinkedSet}
    {l : List (Nat × T)} (hw : LinkedSet.WellFormed h s l) :
    LinkedSet.IteratorOk s l (LinkedSet.begin this s) := by
  obtain ⟨t, hts, hp, _⟩ := hw
  refine ⟨le_refl _, fun _ => ?_⟩
  cases l with
  | nil =>
    rw [Path.nil_iff] at hp
    exact Or.inl (by rw [hts]; exact hp)
  | cons x l => exact Or.inr ⟨x, by simp, hp.1⟩

theorem LinkedSet.IteratorOk.end_ (this : Nat) (s : LinkedSet) (l : List (Nat × T)) :
    LinkedSet.IteratorOk s l (LinkedSet.end_ this s) :=
  ⟨le_refl _, fun _ => Or.inl rfl⟩

/-- The node after a node of the chain is a node of the chain or the trailer. -/
theorem LinkedSet.WellFormed.next_mem {h : Heap T} {s : LinkedSet} {l : List (Nat × T)}
    (hw : LinkedSet.WellFormed h s l) {x : Nat × T} (hx : x ∈ l) :
    ∃ nx, h.read x.1 = some ⟨x.2, nx⟩ ∧ (nx = s.trailer ∨ ∃ y ∈ l, nx = some y.1) := by
  obtain ⟨t, hts, hp, _⟩ := hw
  obtain ⟨l1, l2, rfl⟩ := List.append_of_mem hx
  obtain ⟨m, _, _, nx, hrx, hp2⟩ := Path.append_iff.mp hp
  refine ⟨nx, hrx, ?_⟩
  cases l2 with
  | nil =>
    rw [Path.nil_iff] at hp2
    exact Or.inl (by rw [hts]; exact hp2)
  | cons y l2 => exact Or.inr ⟨y, by simp, hp2.1⟩

theorem LinkedSet.IteratorOk.advance {h : Heap T} {s : LinkedSet} {l : List (Nat × T)}
    {it it1 : LinkedSet.Iterator} (hw : LinkedSet.WellFormed h s l)
    (hi : LinkedSet.IteratorOk s l it) (hc : it.current ≠ s.trailer)
    (ha : LinkedSet.Iterator.advance h it = some it1) : LinkedSet.IteratorOk s l it1 := by
  obtain ⟨h1, h2⟩ := hi
  unfold LinkedSet.Iterator.advance at ha
  by_cases hce : it.can_erase = true
  · simp only [hce, if_true] at ha
    cases hd : h.deref it.current with
    | none => simp [hd] at ha
    | some cn =>
      simp only [hd, Option.some.injEq] at ha
      subst ha
      refine ⟨h1, fun he => ?_⟩
      rcases h2 he with h3 | ⟨x, hx, h3⟩
      · exact absurd h3 hc
      · obtain ⟨nx, hrx, hnx⟩ := hw.next_mem hx
        rw [h3] at hd
        simp only [Heap.deref, hrx, Option.some.injEq] at hd
        subst hd
        exact hnx
  · rw [if_neg hce] at ha
    simp only [Option.some.injEq] at ha
    subst ha
    exact ⟨h1, h2⟩

theorem LinkedSet.IteratorOk.pre_inc {h : Heap T} {s : LinkedSet} {l : List (Nat × T)}
    {it : LinkedSet.Iterator} (hw : LinkedSet.WellFormed h s l)
    (hi : LinkedSet.IteratorOk s l it) :
    LinkedSet.IteratorOk s l (LinkedSet.Iterator.operator_pre_inc h s it).2.2.2 := by
  unfold LinkedSet.Iterator.operator_pre_inc
  split
  · exact hi
  · split
    · exact hi
    · rename_i hc
      split
      · exact hi
      · rename_i it1 ha
        exact hi.advance hw hc ha

theorem LinkedSet.IteratorOk.post_inc {h : Heap T} {s : LinkedSet} {l : List (Nat × T)}
    {it : LinkedSet.Iterator} (hw : LinkedSet.WellFormed h s l)
    (hi : LinkedSet.IteratorOk s l it) :
    LinkedSet.IteratorOk s l (LinkedSet.Iterator.operator_post_inc h s it).2.2.2 := by
  unfold LinkedSet.Iterator.operator_post_inc
  split
  · exact hi
  · split
    · exact hi
    · rename_i hc
      split
      · exact hi
      · rename_i it1 ha
        exact hi.advance hw hc ha

/-- Member `erase()` through an iterator over a well-formed set without duplicates:
the set stays well-formed and free of duplicates, and the iterator stays
sound; when it erased, the generation has grown. -/
theorem LinkedSet.iterator_erase_spec [DecidableEq T] {h : Heap T} {s : LinkedSet}
    {l : List (Nat × T)} {it : LinkedSet.Iterator} (hw : LinkedSet.WellFormed h s l)
    (hu : LinkedSet.Unique l) (hi : LinkedSet.IteratorOk s l it) :
    ∃ l1, LinkedSet.WellFormed (LinkedSet.Iterator.erase h s it).2.1
        (LinkedSet.Iterator.erase h s it).2.2.1 l1 ∧
      LinkedSet.Unique l1 ∧
      LinkedSet.Advances s l (LinkedSet.Iterator.erase h s it).2.2.1 l1 ∧
      LinkedSet.IteratorOk (LinkedSet.Iterator.erase h s it).2.2.1 l1
        (LinkedSet.Iterator.erase h s it).2.2.2 := by
  have hsame : ∃ l1, LinkedSet.WellFormed h s l1 ∧ LinkedSet.Unique l1 ∧
      LinkedSet.Advances s l s l1 ∧ LinkedSet.IteratorOk s l1 it :=
    ⟨l, hw, hu, LinkedSet.Advances.refl s l, hi⟩
  by_cases h1 : it.expected_mod_count ≠ s.mod_count
  · unfold LinkedSet.Iterator.erase; rw [if_pos h1]; exact hsame
  by_cases h2 : (!it.can_erase) = true
  · unfold LinkedSet.Iterator.erase; rw [if_neg h1, if_pos h2]; exact hsame
  by_cases h3 : it.current = s.trailer
  · unfold LinkedSet.Iterator.erase; rw [if_neg h1, if_neg h2, if_pos h3]; exact hsame
  obtain ⟨_, hcur⟩ := hi
  rcases hcur (not_not.mp h1) with hc | ⟨x, hx, hc⟩
  · exact absurd hc h3
  · obtain ⟨l1, l2, rfl⟩ := List.append_of_mem hx
    obtain ⟨_, _, hu1⟩ := hu.not_mem_of_split
    obtain ⟨hh, s1, he, hw1, hmc, _, _, _, htr, _⟩ := LinkedSet.erase_at_spec hw
    obtain ⟨t, _, hp, _⟩ := id hw
    obtain ⟨_, _, _, nx, hrx, _⟩ := Path.append_iff.mp hp
    have hres : LinkedSet.Iterator.erase h s it =
        (.ok x.2, hh, s1, { it with can_erase := false, expected_mod_count := s1.mod_count }) := by
      unfold LinkedSet.Iterator.erase
      rw [if_neg h1, if_neg h2, if_neg h3]
      simp only [hc, hrx, he]
    rw [hres]
    refine ⟨_, hw1, hu1, Or.inl (by simp only; omega), le_refl _, fun _ => ?_⟩
    simp only [hc]
    cases l2 with
    | nil =>
      simp only [List.isEmpty_nil, if_true] at htr
      exact Or.inl htr.symm
    | cons y l2 =>
      exact Or.inr ⟨(x.1, y.2), by simp [LinkedSet.absorb], rfl⟩

end SetIterators

end ics

namespace ics

/-! ## C6, C7: the invariants of a set and the runs that keep them -/

section SetReachable

variable {T : Type}

theorem LinkedSet.Inv.of_advances {h1 : Heap T} {s s1 : LinkedSet}
    {its : List LinkedSet.Iterator} {l l1 : List (Nat × T)}
    (hits : ∀ it ∈ its, LinkedSet.IteratorOk s l it)
    (hw1 : LinkedSet.WellFormed h1 s1 l1) (hu1 : LinkedSet.Unique l1)
    (ha : LinkedSet.Advances s l s1 l1) : LinkedSet.Inv h1 s1 its :=
  ⟨l1, hw1, hu1, fun it hit => (hits it hit).advances ha⟩

theorem LinkedSet.Unique.of_map_eq {l l1 : List (Nat × T)} (hu : LinkedSet.Unique l)
    (hl : l1.map Prod.snd = l.map Prod.snd) : LinkedSet.Unique l1 := by
  unfold LinkedSet.Unique at hu ⊢
  rw [hl]; exact hu

theorem LinkedSet.mem_set_cases {its : List LinkedSet.Iterator} {i : Nat}
    {it1 it : LinkedSet.Iterator} (hm : it ∈ its.set i it1) : it = it1 ∨ it ∈ its := by
  rcases List.mem_or_eq_of_mem_set hm with hm | hm
  · exact Or.inr hm
  · exact Or.inl hm

/-- With exact counters, every reachable state of a set and its iterators
satisfies the invariant. -/
theorem LinkedSet.Reachable.inv [DecidableEq T] [Inhabited T] {this : Nat} {h : Heap T}
    {s : LinkedSet} {its : List LinkedSet.Iterator} (hr : LinkedSet.Reachable this h s its) :
    LinkedSet.Inv h s its := by
  induction hr with
  | default_ctor h0 =>
    exact ⟨[], LinkedSet.wellFormed_default_ctor h0, by simp [LinkedSet.Unique], by simp⟩
  | iterable_ctor h0 i =>
    obtain ⟨h1, s1, l0, ks, e1, _, _, hw1, hu1, _⟩ :=
      LinkedSet.insert_all_loop_spec i _ _ [] 0 (LinkedSet.wellFormed_default_ctor h0)
        (by simp [LinkedSet.Unique])
    refine ⟨l0 ++ [], ?_, hu1, by simp⟩
    simp only [LinkedSet.iterable_ctor, e1]
    exact hw1
  | copy_ctor h0 src l hw hu =>
    obtain ⟨h1, s1, l1, e1, hw1, hval, _⟩ := LinkedSet.copy_ctor_spec hw
    rw [e1]
    refine ⟨l1, hw1, ?_, by simp⟩
    unfold LinkedSet.Unique at hu ⊢
    rw [hval]
    exact List.nodup_reverse.mpr hu
  | @insert h s its v _ ih =>
    obtain ⟨l, hw, hu, hits⟩ := ih
    by_cases hv : v ∈ l.map Prod.snd
    · rw [LinkedSet.insert_present hw hv]
      exact ⟨l, hw, hu, hits⟩
    · obtain ⟨e1, hw1⟩ := LinkedSet.insert_absent hw hv
      rw [e1]
      refine LinkedSet.Inv.of_advances hits hw1 ?_ (Or.inl (by simp only; omega))
      unfold LinkedSet.Unique at hu ⊢
      rw [List.map_cons, List.nodup_cons]
      exact ⟨hv, hu⟩
  | @erase h s its v _ ih =>
    obtain ⟨l, hw, hu, hits⟩ := ih
    obtain ⟨h1, s1, l1, k, e1, hw1, hu1, ha, _⟩ := LinkedSet.erase_spec hw hu v
    rw [e1]
    exact LinkedSet.Inv.of_advances hits hw1 hu1 ha
  | @clear h s its _ ih =>
    obtain ⟨l, hw, hu, hits⟩ := ih
    obtain ⟨h1, e1, hw1, _⟩ := LinkedSet.clear_spec hw
    rw [e1]
    exact LinkedSet.Inv.of_advances hits hw1 (by simp [LinkedSet.Unique])
      (Or.inl (by simp only; omega))
  | @insert_all h s its i _ ih =>
    obtain ⟨l, hw, hu, hits⟩ := ih
    obtain ⟨h1, s1, l0, ks, e1, _, _, hw1, hu1, _, hmc, htr, _⟩ :=
      LinkedSet.insert_all_loop_spec i h s l 0 hw hu
    rw [LinkedSet.insert_all, e1]
    refine LinkedSet.Inv.of_advances hits hw1 hu1 ?_
    cases l0 with
    | nil => exact Or.inr ⟨by simpa using hmc, htr, rfl⟩
    | cons x l0 =>
      refine Or.inl ?_
      rw [hmc]
      simp only [List.length_cons, Nat.cast_add, Nat.cast_one]
      omega
  | @erase_all h s its i _ ih =>
    obtain ⟨l, hw, hu, hits⟩ := ih
    obtain ⟨h1, s1, l1, k, e1, hw1, hu1, ha, _⟩ := LinkedSet.erase_all_loop_spec i h s l 0 hw hu
    rw [LinkedSet.erase_all, e1]
    exact LinkedSet.Inv.of_advances hits hw1 hu1 ha
  | @retain_all h s its i _ ih =>
    obtain ⟨l, hw, hu, hits⟩ := ih
    obtain ⟨h1, s1, l1, e1, hw1, hval, _, _, ha⟩ := LinkedSet.retain_all_spec hw i
    rw [e1]
    exact LinkedSet.Inv.of_advances hits hw1 (hu.filter _ hval) ha
  | @self_assign h s its _ ih =>
    have : LinkedSet.operator_assign this this h s s = (.ok (), h, s) := by
      simp [LinkedSet.operator_assign]
    rw [this]
    exact ih
  | @operator_assign h s its rhs_addr rhs lr _ hne hwr hur hsep ih =>
    obtain ⟨l, hw, hu, hits⟩ := ih
    have hsep1 : ∀ x ∈ lr, (∀ y ∈ l, x.1 ≠ y.1) ∧ s.trailer ≠ some x.1 := by
      intro x hx
      have hrx : LinkedSet.Owns h rhs x.1 := ⟨lr, hwr, Or.inr ⟨x, hx, rfl⟩⟩
      constructor
      · intro y hy hc
        exact hsep x.1 ⟨l, hw, Or.inr ⟨y, hy, hc.symm⟩⟩ hrx
      · intro hc
        exact hsep x.1 ⟨l, hw, Or.inl hc⟩ hrx
    obtain ⟨h1, s1, l1, e1, hw1, hval, hmc, _⟩ := LinkedSet.operator_assign_spec hne hw hwr hsep1
    rw [e1]
    exact LinkedSet.Inv.of_advances hits hw1 (hur.of_map_eq hval)
      (Or.inl (by show s.mod_count < s1.mod_count; omega))
  | @begin h s its _ ih =>
    obtain ⟨l, hw, hu, hits⟩ := ih
    refine ⟨l, hw, hu, ?_⟩
    intro it hit
    rcases List.mem_cons.mp hit with rfl | hit
    · exact LinkedSet.IteratorOk.begin this hw
    · exact hits it hit
  | @end_ h s its _ ih =>
    obtain ⟨l, hw, hu, hits⟩ := ih
    refine ⟨l, hw, hu, ?_⟩
    intro it hit
    rcases List.mem_cons.mp hit with rfl | hit
    · exact LinkedSet.IteratorOk.end_ this s l
    · exact hits it hit
  | @iterator_erase h s its i it _ hget ih =>
    obtain ⟨l, hw, hu, hits⟩ := ih
    have hit := hits it (List.getElem?_mem hget)
    obtain ⟨l1, hw1, hu1, ha, hi1⟩ := LinkedSet.iterator_erase_spec hw hu hit
    refine ⟨l1, hw1, hu1, ?_⟩
    intro it2 hit2
    rcases LinkedSet.mem_set_cases hit2 with rfl | hit2
    · exact hi1
    · exact (hits it2 hit2).advances ha
  | @iterator_pre_inc h s its i it _ hget ih =>
    obtain ⟨l, hw, hu, hits⟩ := ih
    have hit := hits it (List.getElem?_mem hget)
    refine ⟨l, hw, hu, ?_⟩
    intro it2 hit2
    rcases LinkedSet.mem_set_cases hit2 with rfl | hit2
    · exact hit.pre_inc hw
    · exact hits it2 hit2
  | @iterator_post_inc h s its i it _ hget ih =>
    obtain ⟨l, hw, hu, hits⟩ := ih
    have hit := hits it (List.getElem?_mem hget)
    refine ⟨l, hw, hu, ?_⟩
    intro it2 hit2
    rcases List.mem_cons.mp hit2 with rfl | hit2
    · exact hit
    · rcases LinkedSet.mem_set_cases hit2 with rfl | hit2
      · exact hit.post_inc hw
      · exact hits it2 hit2
  | @frame h s its h1 _ hfr ih =>
    obtain ⟨l, hw, hu, hits⟩ := ih
    refine ⟨l, ?_, hu, hits⟩
    exact hw.set_frame (fun x hx => hfr x.1 ⟨l, hw, Or.inr ⟨x, hx, rfl⟩⟩)
      (fun t ht => hfr t ⟨l, hw, Or.inl ht⟩)

theorem LinkedSet.stored_of_inRange {s : LinkedSet} (hs : LinkedSet.InRange s) :
    LinkedSet.stored s = s := by
  obtain ⟨h1, h2, h3, h4⟩ := hs
  cases s
  simp only [LinkedSet.stored, LinkedSet.mk.injEq, true_and]
  exact ⟨wrap_int_of_range h1 h2, wrap_int_of_range h3 h4⟩

/-- The generation that `erase()` leaves in the iterator is the one it had or
the one the set has after the call. -/
theorem LinkedSet.Iterator.erase_expected (h : Heap T) (s : LinkedSet)
    (it : LinkedSet.Iterator) :
    (LinkedSet.Iterator.erase h s it).2.2.2.expected_mod_count = it.expected_mod_count ∨
      (LinkedSet.Iterator.erase h s it).2.2.2.expected_mod_count =
        (LinkedSet.Iterator.erase h s it).2.2.1.mod_count := by
  unfold LinkedSet.Iterator.erase
  try dsimp only
  (repeat' split) <;> simp

theorem LinkedSet.Iterator.advance_expected {h : Heap T} {it it1 : LinkedSet.Iterator}
    (ha : LinkedSet.Iterator.advance h it = some it1) :
    it1.expected_mod_count = it.expected_mod_count := by
  unfold LinkedSet.Iterator.advance at ha
  split at ha
  · split at ha
    · cases ha
    · cases ha; rfl
  · cases ha; rfl

theorem LinkedSet.Iterator.pre_inc_expected (h : Heap T) (s : LinkedSet)
    (it : LinkedSet.Iterator) :
    (LinkedSet.Iterator.operator_pre_inc h s it).2.2.2.expected_mod_count =
      it.expected_mod_count := by
  unfold LinkedSet.Iterator.operator_pre_inc
  split
  · rfl
  · split
    · rfl
    · split
      · rfl
      · rename_i it1 ha
        exact LinkedSet.Iterator.advance_expected ha

theorem LinkedSet.Iterator.post_inc_expected (h : Heap T) (s : LinkedSet)
    (it : LinkedSet.Iterator) :
    (LinkedSet.Iterator.operator_post_inc h s it).2.2.2.expected_mod_count =
      it.expected_mod_count := by
  unfold LinkedSet.Iterator.operator_post_inc
  split
  · rfl
  · split
    · rfl
    · split
      · rfl
      · rename_i it1 ha
        exact LinkedSet.Iterator.advance_expected ha

/-- A run of the 32-bit set in which no counter overflows is a run with exact
counters, and all the counts it holds and has handed to iterators are in
range. -/
theorem LinkedSet.Reachable32.exact_run [DecidableEq T] [Inhabited T] {this : Nat} {h : Heap T}
    {s : LinkedSet} {its : List LinkedSet.Iterator}
    (hr : LinkedSet.Reachable32 LinkedSet.InRange this h s its) :
    LinkedSet.Reachable this h s its ∧ LinkedSet.InRange s ∧
      ∀ it ∈ its, LinkedSet.Iterator.stored it = it := by
  induction hr with
  | default_ctor h0 hok =>
    rw [LinkedSet.stored_of_inRange hok]
    exact ⟨LinkedSet.Reachable.default_ctor h0, hok, by simp⟩
  | iterable_ctor h0 i hok =>
    rw [LinkedSet.stored_of_inRange hok]
    exact ⟨LinkedSet.Reachable.iterable_ctor h0 i, hok, by simp⟩
  | copy_ctor h0 src l hw hu hok =>
    rw [LinkedSet.stored_of_inRange hok]
    exact ⟨LinkedSet.Reachable.copy_ctor h0 src l hw hu, hok, by simp⟩
  | insert v _ hok ih =>
    rw [LinkedSet.stored_of_inRange hok]
    exact ⟨LinkedSet.Reachable.insert v ih.1, hok, ih.2.2⟩
  | erase v _ hok ih =>
    rw [LinkedSet.stored_of_inRange hok]
    exact ⟨LinkedSet.Reachable.erase v ih.1, hok, ih.2.2⟩
  | clear _ hok ih =>
    rw [LinkedSet.stored_of_inRange hok]
    exact ⟨LinkedSet.Reachable.clear ih.1, hok, ih.2.2⟩
  | insert_all i _ hok ih =>
    rw [LinkedSet.stored_of_inRange hok]
    exact ⟨LinkedSet.Reachable.insert_all i ih.1, hok, ih.2.2⟩
  | erase_all i _ hok ih =>
    rw [LinkedSet.stored_of_inRange hok]
    exact ⟨LinkedSet.Reachable.erase_all i ih.1, hok, ih.2.2⟩
  | retain_all i _ hok ih =>
    rw [LinkedSet.stored_of_inRange hok]
    exact ⟨LinkedSet.Reachable.retain_all i ih.1, hok, ih.2.2⟩
  | self_assign _ hok ih =>
    rw [LinkedSet.stored_of_inRange hok]
    exact ⟨LinkedSet.Reachable.self_assign ih.1, hok, ih.2.2⟩
  | operator_assign rhs_addr rhs lr _ hne hwr hur hsep hok ih =>
    rw [LinkedSet.stored_of_inRange hok]
    exact ⟨LinkedSet.Reachable.operator_assign rhs_addr rhs lr ih.1 hne hwr hur hsep, hok,
      ih.2.2⟩
  | @begin h s its _ ih =>
    refine ⟨LinkedSet.Reachable.begin ih.1, ih.2.1, ?_⟩
    intro it hit
    rcases List.mem_cons.mp hit with rfl | hit
    · obtain ⟨_, _, h3, h4⟩ := ih.2.1
      simp only [LinkedSet.Iterator.stored, LinkedSet.begin]
      rw [wrap_int_of_range h3 h4]
    · exact ih.2.2 it hit
  | @end_ h s its _ ih =>
    refine ⟨LinkedSet.Reachable.end_ ih.1, ih.2.1, ?_⟩
    intro it hit
    rcases List.mem_cons.mp hit with rfl | hit
    · obtain ⟨_, _, h3, h4⟩ := ih.2.1
      simp only [LinkedSet.Iterator.stored, LinkedSet.end_]
      rw [wrap_int_of_range h3 h4]
    · exact ih.2.2 it hit
  | @iterator_erase h s its i it _ hget hok ih =>
    have hit : LinkedSet.Iterator.stored it = it := ih.2.2 it (List.getElem?_mem hget)
    have hst : LinkedSet.Iterator.stored (LinkedSet.Iterator.erase h s it).2.2.2 =
        (LinkedSet.Iterator.erase h s it).2.2.2 := by
      have hexp : wrap_int (LinkedSet.Iterator.erase h s it).2.2.2.expected_mod_count =
          (LinkedSet.Iterator.erase h s it).2.2.2.expected_mod_count := by
        rcases LinkedSet.Iterator.erase_expected h s it with he | he
        · rw [he]
          exact congrArg LinkedSet.Iterator.expected_mod_count hit
        · rw [he]
          exact wrap_int_of_range hok.2.2.1 hok.2.2.2
      generalize (LinkedSet.Iterator.erase h s it).2.2.2 = r at hexp ⊢
      cases r
      simp only [LinkedSet.Iterator.stored, LinkedSet.Iterator.mk.injEq, true_and, and_true]
      exact hexp
    rw [LinkedSet.stored_of_inRange hok, hst]
    refine ⟨LinkedSet.Reachable.iterator_erase i it ih.1 hget, hok, ?_⟩
    intro it2 hit2
    rcases LinkedSet.mem_set_cases hit2 with rfl | hit2
    · exact hst
    · exact ih.2.2 it2 hit2
  | @iterator_pre_inc h s its i it _ hget ih =>
    have hit : LinkedSet.Iterator.stored it = it := ih.2.2 it (List.getElem?_mem hget)
    refine ⟨LinkedSet.Reachable.iterator_pre_inc i it ih.1 hget, ih.2.1, ?_⟩
    intro it2 hit2
    rcases LinkedSet.mem_set_cases hit2 with rfl | hit2
    · have hexp : (LinkedSet.Iterator.operator_pre_inc h s it).2.2.2.expected_mod_count =
          it.expected_mod_count := by
        exact LinkedSet.Iterator.pre_inc_expected h s it
      have hw := congrArg LinkedSet.Iterator.expected_mod_count hit
      generalize (LinkedSet.Iterator.operator_pre_inc h s it).2.2.2 = r at hexp ⊢
      cases r
      simp only [LinkedSet.Iterator.stored, LinkedSet.Iterator.mk.injEq, true_and, and_true]
      simp only at hexp
      rw [hexp]
      exact hw
    · exact ih.2.2 it2 hit2
  | @iterator_post_inc h s its i it _ hget ih =>
    have hit : LinkedSet.Iterator.stored it = it := ih.2.2 it (List.getElem?_mem hget)
    refine ⟨LinkedSet.Reachable.iterator_post_inc i it ih.1 hget, ih.2.1, ?_⟩
    intro it2 hit2
    rcases List.mem_cons.mp hit2 with rfl | hit2
    · exact hit
    · rcases LinkedSet.mem_set_cases hit2 with rfl | hit2
      · have hexp : (LinkedSet.Iterator.operator_post_inc h s it).2.2.2.expected_mod_count =
            it.expected_mod_count := by
          exact LinkedSet.Iterator.post_inc_expected h s it
        have hw := congrArg LinkedSet.Iterator.expected_mod_count hit
        generalize (LinkedSet.Iterator.operator_post_inc h s it).2.2.2 = r at hexp ⊢
        cases r
        simp only [LinkedSet.Iterator.stored, LinkedSet.Iterator.mk.injEq, true_and, and_true]
        simp only at hexp
        rw [hexp]
        exact hw
      · exact ih.2.2 it2 hit2
  | frame h1 _ hfr ih =>
    exact ⟨LinkedSet.Reachable.frame h1 ih.1 hfr, ih.2.1, ih.2.2⟩

theorem Path.read_mem {h : Heap T} {l : List (Nat × T)} {p q : Option Nat}
    (hp : Path h p l q) : ∀ x ∈ l, ∃ nx, h.read x.1 = some ⟨x.2, nx⟩ := by
  induction l generalizing p with
  | nil => intro x hx; cases hx
  | cons y l ih =>
    obtain ⟨_, nx, h2, h3⟩ := hp
    intro x hx
    rcases List.mem_cons.mp hx with rfl | hx
    · exact ⟨nx, h2⟩
    · exact ih h3 x hx

/-- The nodes a set owns are live. -/
theorem LinkedSet.Owns.live {h : Heap T} {s : LinkedSet} {a : Nat}
    (ho : LinkedSet.Owns h s a) : h.read a ≠ none := by
  obtain ⟨l, ⟨t, hts, hp, _, ⟨v, hv⟩, _⟩, hor⟩ := ho
  rcases hor with ht | ⟨x, hx, rfl⟩
  · rw [hts] at ht
    cases Option.some.inj ht
    rw [hv]; simp
  · obtain ⟨nx, hr⟩ := Path.read_mem hp x hx
    rw [hr]; simp

/-- Between calls the rest of the program may take a deallocated cell into use
again and store a node of its own there. -/
theorem LinkedSet.Reachable32.reuse [DecidableEq T] [Inhabited T] {ok : LinkedSet → Prop}
    {this : Nat} {h : Heap T} {s : LinkedSet} {its : List LinkedSet.Iterator} (a : Nat)
    (n : LN T) (hr : LinkedSet.Reachable32 ok this h s its) (ha : h.read a = none) :
    LinkedSet.Reachable32 ok this (h.write a n) s its := by
  refine LinkedSet.Reachable32.frame (h.write a n) hr ?_
  intro b hb
  have hne : b ≠ a := by
    rintro rfl
    exact hb.live ha
  exact Heap.read_write_of_ne h n hne

/-- Any number of `clear()` calls on an empty 32-bit set: the heap and the set
stay as they are but for `mod_count`. -/
theorem LinkedSet.Reachable32.run_clears [DecidableEq T] [Inhabited T] {this : Nat} {h : Heap T}
    {t : Nat} {its : List LinkedSet.Iterator} (n : Nat) :
    ∀ m : Int, LinkedSet.Reachable32 (fun _ => True) this h ⟨some t, some t, 0, m⟩ its →
      LinkedSet.Reachable32 (fun _ => True) this h
        ⟨some t, some t, 0, wrap_int (m + (n + 1 : Nat))⟩ its := by
  have hstep : ∀ m : Int,
      LinkedSet.Reachable32 (fun _ => True) this h ⟨some t, some t, 0, m⟩ its →
      LinkedSet.Reachable32 (fun _ => True) this h ⟨some t, some t, 0, wrap_int (m + 1)⟩
        its := by
    intro m hr
    have hc : LinkedSet.clear h (⟨some t, some t, 0, m⟩ : LinkedSet) =
        (.ok (), h, ⟨some t, some t, 0, m + 1⟩) := by
      simp [LinkedSet.clear, LinkedSet.delete_list, LinkedSet.delete_list_loop]
    have hm := LinkedSet.Reachable32.clear hr trivial
    rw [hc] at hm
    have hs : LinkedSet.stored (⟨some t, some t, 0, m + 1⟩ : LinkedSet) =
        ⟨some t, some t, 0, wrap_int (m + 1)⟩ := by
      simp [LinkedSet.stored, wrap_int]
    rw [← hs]
    exact hm
  induction n with
  | zero => intro m hr; simpa using hstep m hr
  | succ n ih =>
    intro m hr
    have h2 := hstep _ (ih m hr)
    rw [wrap_int_add] at h2
    have e : m + ((n + 1 : Nat) : Int) + 1 = m + ((n + 1 + 1 : Nat) : Int) := by
      push_cast; ring
    rw [e] at h2
    exact h2

/-- The start of both runs below, in the empty heap: a set is created, takes 5
and 6, an iterator is made by `begin()` and stepped to the node of 5 (address 1),
a direct `erase(6)` deletes that node, and `clear()` empties the set.  The
iterator has recorded generation 2; the set is at generation 4. -/
theorem LinkedSet.Reachable32.stale_cursor :
    LinkedSet.Reachable32 (fun _ => True) 0 (⟨[some ⟨0, none⟩, none, none]⟩ : Heap Nat)
      ⟨some 0, some 0, 0, 4⟩ [⟨some 1, 0, 2, true⟩] := by
  have r0 : LinkedSet.Reachable32 (fun _ => True) 0 (⟨[some ⟨0, none⟩]⟩ : Heap Nat)
      ⟨some 0, some 0, 0, 0⟩ [] := LinkedSet.Reachable32.default_ctor ⟨[]⟩ trivial
  have r1 : LinkedSet.Reachable32 (fun _ => True) 0
      (⟨[some ⟨0, none⟩, some ⟨5, some 0⟩]⟩ : Heap Nat) ⟨some 1, some 0, 1, 1⟩ [] :=
    LinkedSet.Reachable32.insert 5 r0 trivial
  have r2 : LinkedSet.Reachable32 (fun _ => True) 0
      (⟨[some ⟨0, none⟩, some ⟨5, some 0⟩, some ⟨6, some 1⟩]⟩ : Heap Nat)
      ⟨some 2, some 0, 2, 2⟩ [] :=
    LinkedSet.Reachable32.insert 6 r1 trivial
  have r3 : LinkedSet.Reachable32 (fun _ => True) 0
      (⟨[some ⟨0, none⟩, some ⟨5, some 0⟩, some ⟨6, some 1⟩]⟩ : Heap Nat)
      ⟨some 2, some 0, 2, 2⟩ [⟨some 2, 0, 2, true⟩] :=
    LinkedSet.Reachable32.begin r2
  have r4 : LinkedSet.Reachable32 (fun _ => True) 0
      (⟨[some ⟨0, none⟩, some ⟨5, some 0⟩, some ⟨6, some 1⟩]⟩ : Heap Nat)
      ⟨some 2, some 0, 2, 2⟩ [⟨some 1, 0, 2, true⟩] :=
    LinkedSet.Reachable32.iterator_pre_inc 0 ⟨some 2, 0, 2, true⟩ r3 rfl
  have r5 : LinkedSet.Reachable32 (fun _ => True) 0
      (⟨[some ⟨0, none⟩, none, some ⟨5, some 0⟩]⟩ : Heap Nat)
      ⟨some 2, some 0, 1, 3⟩ [⟨some 1, 0, 2, true⟩] :=
    LinkedSet.Reachable32.erase 6 r4 trivial
  exact LinkedSet.Reachable32.clear r5 trivial

/-- C6 as stated fails on the 32-bit counter.  After the start above the set,
now empty, is at generation 4 and the iterator, whose node at address 1 has
been deleted, recorded 2.  Then `clear()` is called 4294967293 times and
`insert(5)` once, which makes a node at address 3 and brings the 32-bit
`mod_count` back to 2.  The rest of the program reuses the cell at address 1
for a node of its own that happens to link to address 3.  Now `erase()` through
the stale iterator passes the generation check and runs `erase_at` on the
foreign node: it copies the set's node into it and deletes the set's node, so
`front` dangles and no chain leads from it to the trailer (first part).  When
the cell at address 3 is reused as well, for a node with value 5 that links to
address 1, the chain from `front` to the trailer holds 5 twice (second
part). -/
theorem LinkedSet.unique_wrap_counterexample :
    (LinkedSet.Reachable32 (fun _ => True) 0
        (⟨[some ⟨0, none⟩, some ⟨5, some 0⟩, none, none]⟩ : Heap Nat)
        ⟨some 3, some 0, 0, 3⟩ [⟨some 1, 0, 3, false⟩] ∧
      ¬ ∃ l, Path (⟨[some ⟨0, none⟩, some ⟨5, some 0⟩, none, none]⟩ : Heap Nat)
          (some 3) l (some 0)) ∧
    (LinkedSet.Reachable32 (fun _ => True) 0
        (⟨[some ⟨0, none⟩, some ⟨5, some 0⟩, none, some ⟨5, some 1⟩]⟩ : Heap Nat)
        ⟨some 3, some 0, 0, 3⟩ [⟨some 1, 0, 3, false⟩] ∧
      Path (⟨[some ⟨0, none⟩, some ⟨5, some 0⟩, none, some ⟨5, some 1⟩]⟩ : Heap Nat)
        (some 3) [(3, 5), (1, 5)] (some 0) ∧
      ¬ ∃ l, Path (⟨[some ⟨0, none⟩, some ⟨5, some 0⟩, none, some ⟨5, some 1⟩]⟩ : Heap Nat)
          (some 3) l (some 0) ∧ (∀ x ∈ l, some x.1 ≠ some 0) ∧ (l.map Prod.snd).Nodup) := by
  have hp : Path (⟨[some ⟨0, none⟩, some ⟨5, some 0⟩, none, some ⟨5, some 1⟩]⟩ : Heap Nat)
      (some 3) [(3, 5), (1, 5)] (some 0) :=
    ⟨rfl, some 1, rfl, rfl, some 0, rfl, rfl⟩
  have r9 : LinkedSet.Reachable32 (fun _ => True) 0
      (⟨[some ⟨0, none⟩, some ⟨5, some 0⟩, none, none]⟩ : Heap Nat)
      ⟨some 3, some 0, 0, 3⟩ [⟨some 1, 0, 3, false⟩] := by
    have r6 := LinkedSet.Reachable32.run_clears 4294967292 4 LinkedSet.Reachable32.stale_cursor
    have e : wrap_int (4 + ((4294967292 + 1 : Nat) : Int)) = 1 := by
      norm_num [wrap_int]
    rw [e] at r6
    have r7 : LinkedSet.Reachable32 (fun _ => True) 0
        (⟨[some ⟨0, none⟩, none, none, some ⟨5, some 0⟩]⟩ : Heap Nat)
        ⟨some 3, some 0, 1, 2⟩ [⟨some 1, 0, 2, true⟩] :=
      LinkedSet.Reachable32.insert 5 r6 trivial
    have r8 : LinkedSet.Reachable32 (fun _ => True) 0
        (⟨[some ⟨0, none⟩, some ⟨9, some 3⟩, none, some ⟨5, some 0⟩]⟩ : Heap Nat)
        ⟨some 3, some 0, 1, 2⟩ [⟨some 1, 0, 2, true⟩] :=
      LinkedSet.Reachable32.reuse 1 ⟨9, some 3⟩ r7 rfl
    exact LinkedSet.Reachable32.iterator_erase 0 ⟨some 1, 0, 2, true⟩ r8 rfl trivial
  refine ⟨⟨r9, ?_⟩, LinkedSet.Reachable32.reuse 3 ⟨5, some 1⟩ r9 rfl, hp, ?_⟩
  · rintro ⟨l, hl⟩
    cases l with
    | nil => exact absurd (Path.nil_iff.mp hl) (by decide)
    | cons x l =>
      obtain ⟨hx, nx, hr, _⟩ := hl
      rw [← Option.some.inj hx] at hr
      cases hr
  · rintro ⟨l, hl, hn, hu⟩
    have := Path.unique hl hp hn (by decide)
    subst this
    simp at hu

/-- C6, amended.  In every state a 32-bit set object can reach from its
construction (default, from an iterable, or as a copy of a set that satisfies
the invariants) by `insert`, `insert_all`, `erase`, `erase_all`, `retain_all`,
`clear`, copy-assignment from itself or from a separate set that satisfies the
invariants, and steps and `erase()` through its iterators, all without an
overflow of `used` or `mod_count`, the chain from `front` to the trailer holds
no value twice. -/
theorem LinkedSet.unique_without_overflow [DecidableEq T] [Inhabited T] (this : Nat)
    (h : Heap T) (s : LinkedSet) (its : List LinkedSet.Iterator)
    (hr : LinkedSet.Reachable32 LinkedSet.InRange this h s its) :
    ∃ l, Path h s.front l s.trailer ∧ (∀ x ∈ l, some x.1 ≠ s.trailer) ∧
      (l.map Prod.snd).Nodup := by
  obtain ⟨l, ⟨t, hts, hp, hn, _, _⟩, hu, _⟩ := hr.exact_run.1.inv
  refine ⟨l, by rw [hts]; exact hp, ?_, hu⟩
  intro x hx hc
  rw [hts] at hc
  exact hn x hx (Option.some.inj hc)

/-- The amended C6 at the set constructed from the values 5, 6, 5 in the empty
heap, whose counters are in range. -/
theorem LinkedSet.unique_without_overflow_witness :
    LinkedSet.InRange (LinkedSet.iterable_ctor (⟨[]⟩ : Heap Nat) [5, 6, 5]).2.2 ∧
    ∃ l, Path (LinkedSet.iterable_ctor (⟨[]⟩ : Heap Nat) [5, 6, 5]).2.1
        (LinkedSet.stored (LinkedSet.iterable_ctor (⟨[]⟩ : Heap Nat) [5, 6, 5]).2.2).front l
        (LinkedSet.stored (LinkedSet.iterable_ctor (⟨[]⟩ : Heap Nat) [5, 6, 5]).2.2).trailer ∧
      (∀ x ∈ l, some x.1 ≠
        (LinkedSet.stored (LinkedSet.iterable_ctor (⟨[]⟩ : Heap Nat) [5, 6, 5]).2.2).trailer) ∧
      (l.map Prod.snd).Nodup :=
  ⟨by decide,
   LinkedSet.unique_without_overflow 0 _ _ []
    (LinkedSet.Reachable32.iterable_ctor (⟨[]⟩ : Heap Nat) [5, 6, 5] (by decide))⟩

/-- C7 as stated fails on the 32-bit counter.  After the start above the set,
now empty, is at generation 4 and the iterator, whose node at address 1 has
been deleted, recorded 2.  Then `clear()` is called 4294967294 times, which
brings the 32-bit `mod_count` back to 2.  The rest of the program reuses the
cells at addresses 1 and 2 for two linked nodes of its own.  Now `erase()`
through the stale iterator passes the generation check, runs `erase_at` on the
foreign node and executes `--used` on the empty set: `used` is -1, which is the
length of no chain. -/
theorem LinkedSet.well_formed_wrap_counterexample :
    LinkedSet.Reachable32 (fun _ => True) 0
        (⟨[some ⟨0, none⟩, some ⟨8, none⟩, none]⟩ : Heap Nat)
        ⟨some 0, some 0, -1, 3⟩ [⟨some 1, 0, 3, false⟩] ∧
      ¬ ∃ l, LinkedSet.WellFormed (⟨[some ⟨0, none⟩, some ⟨8, none⟩, none]⟩ : Heap Nat)
          ⟨some 0, some 0, -1, 3⟩ l := by
  constructor
  · have r6 := LinkedSet.Reachable32.run_clears 4294967293 4 LinkedSet.Reachable32.stale_cursor
    have e : wrap_int (4 + ((4294967293 + 1 : Nat) : Int)) = 2 := by
      norm_num [wrap_int]
    rw [e] at r6
    have r7 : LinkedSet.Reachable32 (fun _ => True) 0
        (⟨[some ⟨0, none⟩, some ⟨9, some 2⟩, none]⟩ : Heap Nat)
        ⟨some 0, some 0, 0, 2⟩ [⟨some 1, 0, 2, true⟩] :=
      LinkedSet.Reachable32.reuse 1 ⟨9, some 2⟩ r6 rfl
    have r8 : LinkedSet.Reachable32 (fun _ => True) 0
        (⟨[some ⟨0, none⟩, some ⟨9, some 2⟩, some ⟨8, none⟩]⟩ : Heap Nat)
        ⟨some 0, some 0, 0, 2⟩ [⟨some 1, 0, 2, true⟩] :=
      LinkedSet.Reachable32.reuse 2 ⟨8, none⟩ r7 rfl
    exact LinkedSet.Reachable32.iterator_erase 0 ⟨some 1, 0, 2, true⟩ r8 rfl trivial
  · rintro ⟨l, t, _, _, _, _, hu⟩
    have h0 : (0 : Int) ≤ (l.length : Int) := Int.ofNat_nonneg _
    have h1 : (-1 : Int) = (l.length : Int) := hu
    omega

/-- C7, amended.  In every state a 32-bit set object can reach from its
construction by `insert`, `erase`, `retain_all`, `clear`, copy-assignment and
steps and `erase()` through its iterators (and the other members), all without
an overflow of `used` or `mod_count`, following `next` from `front` reaches the
trailer after finitely many nodes without passing it, the trailer node is live
with a null `next`, and `used` is the number of nodes before the trailer. -/
theorem LinkedSet.well_formed_without_overflow [DecidableEq T] [Inhabited T] (this : Nat)
    (h : Heap T) (s : LinkedSet) (its : List LinkedSet.Iterator)
    (hr : LinkedSet.Reachable32 LinkedSet.InRange this h s its) :
    ∃ t l, s.trailer = some t ∧ Path h s.front l (some t) ∧ (∀ x ∈ l, x.1 ≠ t) ∧
      (∃ v, h.read t = some ⟨v, none⟩) ∧ s.used = l.length := by
  obtain ⟨l, ⟨t, hts, hp, hn, htr, hu⟩, _, _⟩ := hr.exact_run.1.inv
  exact ⟨t, l, hts, hp, hn, htr, hu⟩

/-- The amended C7 at the set created in the empty heap, after `insert(7)`; the
counters of both calls are in range. -/
theorem LinkedSet.well_formed_without_overflow_witness :
    (LinkedSet.InRange (LinkedSet.default_ctor (⟨[]⟩ : Heap Nat)).2 ∧
      LinkedSet.InRange (LinkedSet.insert (LinkedSet.default_ctor (⟨[]⟩ : Heap Nat)).1
        (LinkedSet.stored (LinkedSet.default_ctor (⟨[]⟩ : Heap Nat)).2) 7).2.2) ∧
    ∃ t l,
      (LinkedSet.stored (LinkedSet.insert (LinkedSet.default_ctor (⟨[]⟩ : Heap Nat)).1
        (LinkedSet.stored (LinkedSet.default_ctor (⟨[]⟩ : Heap Nat)).2) 7).2.2).trailer =
          some t ∧
      Path (LinkedSet.insert (LinkedSet.default_ctor (⟨[]⟩ : Heap Nat)).1
          (LinkedSet.stored (LinkedSet.default_ctor (⟨[]⟩ : Heap Nat)).2) 7).2.1
        (LinkedSet.stored (LinkedSet.insert (LinkedSet.default_ctor (⟨[]⟩ : Heap Nat)).1
          (LinkedSet.stored (LinkedSet.default_ctor (⟨[]⟩ : Heap Nat)).2) 7).2.2).front l
        (some t) ∧
      (∀ x ∈ l, x.1 ≠ t) ∧
      (∃ v, (LinkedSet.insert (LinkedSet.default_ctor (⟨[]⟩ : Heap Nat)).1
          (LinkedSet.stored (LinkedSet.default_ctor (⟨[]⟩ : Heap Nat)).2) 7).2.1.read t =
        some ⟨v, none⟩) ∧
      (LinkedSet.stored (LinkedSet.insert (LinkedSet.default_ctor (⟨[]⟩ : Heap Nat)).1
        (LinkedSet.stored (LinkedSet.default_ctor (⟨[]⟩ : Heap Nat)).2) 7).2.2).used =
          l.length :=
  ⟨⟨by decide, by decide⟩,
   LinkedSet.well_formed_without_overflow 0 _ _ []
    (LinkedSet.Reachable32.insert 7
      (LinkedSet.Reachable32.default_ctor (⟨[]⟩ : Heap Nat) (by decide)) (by decide))⟩

end SetReachable

end ics

namespace ics

/-! ## The two concrete scenarios of the specification -/

/-- The queue scenario of the specification: enqueue 1, 2, 3; `peek()` is 1;
three `dequeue()` calls yield 1, 2, 3; a fourth throws `EmptyError`. -/
theorem LinkedQueue.queue_scenario :
    (LinkedQueue.run (⟨[]⟩ : Heap Nat) LinkedQueue.default_ctor
      [.enqueue 1, .enqueue 2, .enqueue 3, .peek, .dequeue, .dequeue, .dequeue, .dequeue]).1 =
      [.ok (.inl 1), .ok (.inl 1), .ok (.inl 1), .ok (.inr 1), .ok (.inr 1), .ok (.inr 2),
        .ok (.inr 3), .error .EmptyError] := by
  decide

/-- The set scenario of the specification: insert "a", "b", "c" gives size 3;
`erase("a")` gives size 2 with "a" gone and "b", "c" contained; `erase("c")`
gives size 1; `insert("d")` then returns 1 and the chain holds "d" and "b". -/
theorem LinkedSet.set_scenario :
    ∃ h1 s1 h2 s2 h3 s3 h4 s4,
      LinkedSet.insert_all (LinkedSet.default_ctor (⟨[]⟩ : Heap String)).1
        (LinkedSet.default_ctor (⟨[]⟩ : Heap String)).2 ["a", "b", "c"] = (.ok 3, h1, s1) ∧
      s1.size = 3 ∧
      LinkedSet.erase h1 s1 "a" = (.ok 1, h2, s2) ∧ s2.size = 2 ∧
      LinkedSet.contains h2 s2 "a" = .ok false ∧ LinkedSet.contains h2 s2 "b" = .ok true ∧
      LinkedSet.contains h2 s2 "c" = .ok true ∧
      LinkedSet.erase h2 s2 "c" = (.ok 1, h3, s3) ∧ s3.size = 1 ∧
      LinkedSet.insert h3 s3 "d" = (.ok 1, h4, s4) ∧
      ∃ l, LinkedSet.WellFormed h4 s4 l ∧ l.map Prod.snd = ["d", "b"] := by
  refine ⟨_, _, _, _, _, _, _, _, rfl, rfl, rfl, rfl, rfl, rfl, rfl, rfl, rfl, rfl,
    [(4, "d"), (3, "b")], ⟨1, rfl, ⟨rfl, some 3, rfl, rfl, some 1, rfl, rfl⟩, by simp,
      ⟨"", rfl⟩, rfl⟩, rfl⟩

end ics

namespace ics

/-! ## C11, C12: `rear` after `dequeue` and after `operator =` -/

section QueueRear

variable {T : Type}

theorem LinkedQueue.Invariant.wellFormed {h : Heap T} {q : LinkedQueue} {l : List (Nat × T)}
    (hi : LinkedQueue.Invariant h q l) : LinkedQueue.WellFormed h q l := by
  obtain ⟨hp, hu, hr⟩ := hi
  refine ⟨hp, hu, ?_⟩
  intro x hx
  rw [hr, hx]; rfl

theorem LinkedQueue.Invariant.rear_of_front_none {h : Heap T} {q : LinkedQueue}
    {l : List (Nat × T)} (hi : LinkedQueue.Invariant h q l) (hf : q.front = none) :
    q.rear = none := by
  have hl : l = [] := hi.wellFormed.front_eq_none_iff.mp hf
  subst hl
  exact hi.2.2

/-- C11 fails on the code.  The queue made by `enqueue(5)` in the empty heap
satisfies the invariant and holds exactly one element; `dequeue()` returns 5
and leaves `front` null, but `rear` still holds the address 0 of the node it
has just deleted, so no chain satisfies the invariant afterwards. -/
theorem LinkedQueue.dequeue_leaves_rear_stale :
    LinkedQueue.Invariant (⟨[some ⟨5, none⟩]⟩ : Heap Nat)
      { front := some 0, rear := some 0, used := 1, mod_count := 1 } [(0, 5)] ∧
    LinkedQueue.dequeue (⟨[some ⟨5, none⟩]⟩ : Heap Nat)
      { front := some 0, rear := some 0, used := 1, mod_count := 1 } =
      (.ok 5, ⟨[none]⟩, { front := none, rear := some 0, used := 0, mod_count := 2 }) ∧
    (⟨[none]⟩ : Heap Nat).read 0 = none ∧
    ¬ ∃ l, LinkedQueue.Invariant (⟨[none]⟩ : Heap Nat)
      { front := none, rear := some 0, used := 0, mod_count := 2 } l := by
  refine ⟨⟨⟨rfl, none, rfl, rfl⟩, rfl, rfl⟩, rfl, rfl, ?_⟩
  rintro ⟨l, hi⟩
  have := hi.rear_of_front_none rfl
  simp at this

/-- C12 fails on the code.  In the heap holding the well-formed queues 7, 8, 9
(at address 0 on) and 1 (at address 3): assigning the longer one to the shorter
one leaves the destination with the chain 7, 8, 9 and a null `rear`; assigning
the shorter one to the longer one leaves the destination with the chain 1 and
`rear` at the deleted node 1.  Neither result satisfies the invariant. -/
theorem LinkedQueue.operator_assign_leaves_rear_wrong :
    LinkedQueue.Invariant
      (⟨[some ⟨7, some 1⟩, some ⟨8, some 2⟩, some ⟨9, none⟩, some ⟨1, none⟩]⟩ : Heap Nat)
      { front := some 0, rear := some 2, used := 3, mod_count := 3 }
      [(0, 7), (1, 8), (2, 9)] ∧
    LinkedQueue.Invariant
      (⟨[some ⟨7, some 1⟩, some ⟨8, some 2⟩, some ⟨9, none⟩, some ⟨1, none⟩]⟩ : Heap Nat)
      { front := some 3, rear := some 3, used := 1, mod_count := 1 } [(3, 1)] ∧
    LinkedQueue.operator_assign 1 0
      (⟨[some ⟨7, some 1⟩, some ⟨8, some 2⟩, some ⟨9, none⟩, some ⟨1, none⟩]⟩ : Heap Nat)
      { front := some 3, rear := some 3, used := 1, mod_count := 1 }
      { front := some 0, rear := some 2, used := 3, mod_count := 3 } =
      (.ok (), ⟨[some ⟨7, some 1⟩, some ⟨8, some 2⟩, some ⟨9, none⟩, some ⟨7, some 4⟩,
          some ⟨8, some 5⟩, some ⟨9, none⟩]⟩,
        { front := some 3, rear := none, used := 3, mod_count := 2 }) ∧
    (¬ ∃ l, LinkedQueue.Invariant
      (⟨[some ⟨7, some 1⟩, some ⟨8, some 2⟩, some ⟨9, none⟩, some ⟨7, some 4⟩,
          some ⟨8, some 5⟩, some ⟨9, none⟩]⟩ : Heap Nat)
      { front := some 3, rear := none, used := 3, mod_count := 2 } l) ∧
    LinkedQueue.operator_assign 0 1
      (⟨[some ⟨7, some 1⟩, some ⟨8, some 2⟩, some ⟨9, none⟩, some ⟨1, none⟩]⟩ : Heap Nat)
      { front := some 0, rear := some 2, used := 3, mod_count := 3 }
      { front := some 3, rear := some 3, used := 1, mod_count := 1 } =
      (.ok (), ⟨[some ⟨1, none⟩, none, none, some ⟨1, none⟩]⟩,
        { front := some 0, rear := some 1, used := 1, mod_count := 4 }) ∧
    (⟨[some ⟨1, none⟩, none, none, some ⟨1, none⟩]⟩ : Heap Nat).read 1 = none ∧
    ¬ ∃ l, LinkedQueue.Invariant
      (⟨[some ⟨1, none⟩, none, none, some ⟨1, none⟩]⟩ : Heap Nat)
      { front := some 0, rear := some 1, used := 1, mod_count := 4 } l := by
  refine ⟨⟨⟨rfl, some 1, rfl, rfl, some 2, rfl, rfl, none, rfl, rfl⟩, rfl, rfl⟩,
    ⟨⟨rfl, none, rfl, rfl⟩, rfl, rfl⟩, rfl, ?_, rfl, rfl, ?_⟩
  · rintro ⟨l, hp, _, hr⟩
    cases l with
    | nil => simp [Path] at hp
    | cons x l =>
      have : (x :: l).getLast?.map Prod.fst ≠ none := by
        rw [List.getLast?_eq_getLast _ (by simp)]
        simp
      exact this hr.symm
  · rintro ⟨l, hp, _, hr⟩
    obtain ⟨y, hy⟩ : ∃ y, l.getLast? = some y := by
      cases hl : l.getLast? with
      | none => rw [hl] at hr; simp at hr
      | some y => exact ⟨y, rfl⟩
    rw [hy] at hr
    simp only [Option.map_some', Option.some.injEq] at hr
    have hlt := Path.lt_length hp y (List.mem_of_getLast?_eq_some hy)
    have hmem := List.mem_of_getLast?_eq_some hy
    obtain ⟨l1, l2, rfl⟩ := List.append_of_mem hmem
    obtain ⟨_, _, _, ny, hry, _⟩ := Path.append_iff.mp hp
    rw [← hr] at hry
    simp [Heap.read] at hry

end QueueRear

end ics

namespace ics

/-! ## C16: relational laws of the set operators -/

section SetLaws

variable {T : Type}

/-- C16.  For any two set objects `A` (at address `this`) and `B` (at address
`rhs_addr`) in one heap: if `A <= B` and `B <= A` both return true then `A == B`
returns true; and if `A < B` returns true then `A <= B` returns true and
`A != B` returns true. -/
theorem LinkedSet.relational_laws [DecidableEq T] (this rhs_addr : Nat) (h : Heap T)
    (A B : LinkedSet) :
    (LinkedSet.operator_le this rhs_addr h A B = .ok true →
      LinkedSet.operator_le rhs_addr this h B A = .ok true →
      LinkedSet.operator_eq this rhs_addr h A B = .ok true) ∧
    (LinkedSet.operator_lt this rhs_addr h A B = .ok true →
      LinkedSet.operator_le this rhs_addr h A B = .ok true ∧
      LinkedSet.operator_ne this rhs_addr h A B = .ok true) := by
  constructor
  · intro h1 h2
    unfold LinkedSet.operator_le at h1 h2
    unfold LinkedSet.operator_eq
    by_cases hne : this = rhs_addr
    · rw [if_pos hne]
    · have hne2 : ¬ rhs_addr = this := fun hc => hne hc.symm
      rw [if_neg hne] at h1 ⊢
      rw [if_neg hne2] at h2
      by_cases ha : A.used > B.size
      · rw [if_pos ha] at h1; simp at h1
      · by_cases hb : B.used > A.size
        · rw [if_pos hb] at h2; simp at h2
        · rw [if_neg ha] at h1
          have heq : ¬ A.used ≠ B.size := by
            simp only [LinkedSet.size] at ha hb ⊢
            omega
          rw [if_neg heq]
          exact h1
  · intro h1
    unfold LinkedSet.operator_lt at h1
    unfold LinkedSet.operator_ne LinkedSet.operator_le LinkedSet.operator_eq
    by_cases hne : this = rhs_addr
    · rw [if_pos hne] at h1; simp at h1
    · rw [if_neg hne] at h1 ⊢
      by_cases ha : A.used ≥ B.size
      · rw [if_pos ha] at h1; simp at h1
      · rw [if_neg ha] at h1
        have hgt : ¬ A.used > B.size := by
          simp only [LinkedSet.size] at ha ⊢
          omega
        have hneq : A.used ≠ B.size := by
          simp only [LinkedSet.size] at ha ⊢
          omega
        rw [if_neg hgt, if_neg hne, if_pos hneq]
        exact ⟨h1, rfl⟩

/-- C16 at the empty set `A` (trailer at address 0), at a second empty set and
at the set `B` holding 5 (trailer at address 1, node at address 2). -/
theorem LinkedSet.relational_laws_witness :
    LinkedSet.operator_eq 0 1 (⟨[some ⟨0, none⟩, some ⟨0, none⟩, some ⟨5, some 1⟩]⟩ : Heap Nat)
      { front := some 0, trailer := some 0 } { front := some 1, trailer := some 1 } =
      .ok true ∧
    LinkedSet.operator_le 0 1 (⟨[some ⟨0, none⟩, some ⟨0, none⟩, some ⟨5, some 1⟩]⟩ : Heap Nat)
      { front := some 0, trailer := some 0 }
      { front := some 2, trailer := some 1, used := 1, mod_count := 1 } = .ok true ∧
    LinkedSet.operator_ne 0 1 (⟨[some ⟨0, none⟩, some ⟨0, none⟩, some ⟨5, some 1⟩]⟩ : Heap Nat)
      { front := some 0, trailer := some 0 }
      { front := some 2, trailer := some 1, used := 1, mod_count := 1 } = .ok true :=
  ⟨(LinkedSet.relational_laws 0 1
      (⟨[some ⟨0, none⟩, some ⟨0, none⟩, some ⟨5, some 1⟩]⟩ : Heap Nat)
      { front := some 0, trailer := some 0 } { front := some 1, trailer := some 1 }).1
      (by decide) (by decide),
   ((LinkedSet.relational_laws 0 1
      (⟨[some ⟨0, none⟩, some ⟨0, none⟩, some ⟨5, some 1⟩]⟩ : Heap Nat)
      { front := some 0, trailer := some 0 }
      { front := some 2, trailer := some 1, used := 1, mod_count := 1 }).2 (by decide)).1,
   ((LinkedSet.relational_laws 0 1
      (⟨[some ⟨0, none⟩, some ⟨0, none⟩, some ⟨5, some 1⟩]⟩ : Heap Nat)
      { front := some 0, trailer := some 0 }
      { front := some 2, trailer := some 1, used := 1, mod_count := 1 }).2 (by decide)).2⟩

end SetLaws

end ics

namespace ics

/-! ## C18: what a bulk operation does to `mod_count` -/

section BulkModCount

variable {T : Type}

end BulkModCount

end ics

namespace ics

/-! ## C17: `retain_all` -/

section SetRetainClaim

variable {T : Type}

/-- C17.  On a well-formed set with chain `l`, `retain_all(xs)` returns the
number of values of the chain that do not occur in `xs`; afterwards the set is
well-formed, its chain holds exactly the values of `l` that occur in `xs`, in
the order they had, and `size()` has dropped by the number returned. -/
theorem LinkedSet.retain_all_correct [DecidableEq T] [Inhabited T] (h : Heap T)
    (s : LinkedSet) (l : List (Nat × T)) (hw : LinkedSet.WellFormed h s l) (xs : List T) :
    ∃ h1 s1 l1,
      LinkedSet.retain_all h s xs =
        (.ok (((l.map Prod.snd).filter (fun v => !decide (v ∈ xs))).length : Int), h1, s1) ∧
      LinkedSet.WellFormed h1 s1 l1 ∧
      l1.map Prod.snd = (l.map Prod.snd).filter (fun v => decide (v ∈ xs)) ∧
      (∀ v, v ∈ l1.map Prod.snd ↔ v ∈ l.map Prod.snd ∧ v ∈ xs) ∧
      s1.size = s.size - (((l.map Prod.snd).filter (fun v => !decide (v ∈ xs))).length : Int) := by
  obtain ⟨h1, s1, l1, e1, hw1, hval, _, hle, _⟩ := LinkedSet.retain_all_spec hw xs
  have hlen1 : l1.length = ((l.map Prod.snd).filter (fun v => decide (v ∈ xs))).length := by
    rw [← hval]; simp
  have hsplit := List.length_eq_length_filter_add (l := l.map Prod.snd)
    (fun v => decide (v ∈ xs))
  rw [List.length_map] at hsplit
  have hk : ((l.length : Int) - l1.length) =
      (((l.map Prod.snd).filter (fun v => !decide (v ∈ xs))).length : Int) := by
    rw [hlen1]
    omega
  refine ⟨h1, s1, l1, by rw [e1, hk], hw1, hval, ?_, ?_⟩
  · intro v
    rw [hval]
    simp
  · obtain ⟨_, _, _, _, _, hu1⟩ := hw1
    obtain ⟨_, _, _, _, _, hu⟩ := hw
    rw [LinkedSet.size, LinkedSet.size, hu1, hu, ← hk]
    ring

/-- C17 at the set holding 6, 5 (constructed from 5, 6 in the empty heap):
`retain_all` of the single value 6 returns 1. -/
theorem LinkedSet.retain_all_correct_witness :
    ∃ h1 s1 l1,
      LinkedSet.retain_all
        (⟨[some ⟨0, none⟩, some ⟨5, some 0⟩, some ⟨6, some 1⟩]⟩ : Heap Nat)
        { front := some 2, trailer := some 0, used := 2, mod_count := 2 } [6] =
        (.ok ((([(2, 6), (1, 5)].map Prod.snd).filter (fun v => !decide (v ∈ [6]))).length :
          Int), h1, s1) ∧
      LinkedSet.WellFormed h1 s1 l1 ∧
      l1.map Prod.snd = ([(2, 6), (1, 5)].map Prod.snd).filter (fun v => decide (v ∈ [6])) ∧
      (∀ v, v ∈ l1.map Prod.snd ↔ v ∈ [(2, 6), (1, 5)].map Prod.snd ∧ v ∈ [6]) ∧
      s1.size = LinkedSet.size { front := some 2, trailer := some 0, used := 2, mod_count := 2 } -
        ((([(2, 6), (1, 5)].map Prod.snd).filter (fun v => !decide (v ∈ [6]))).length : Int) :=
  LinkedSet.retain_all_correct (⟨[some ⟨0, none⟩, some ⟨5, some 0⟩, some ⟨6, some 1⟩]⟩ : Heap Nat)
    { front := some 2, trailer := some 0, used := 2, mod_count := 2 } [(2, 6), (1, 5)]
    ⟨0, rfl, ⟨rfl, some 1, rfl, rfl, some 0, rfl, rfl⟩, by simp, ⟨0, rfl⟩, rfl⟩ [6]

end SetRetainClaim

end ics

namespace ics

/-! ## C19: the single-link erase primitive -/

section SetEraseAt

variable {T : Type}

end SetEraseAt

end ics
namespace ics

/-! ## C20: the postcondition of `LinkedQueue::Iterator::erase` -/

section QueueIteratorErase

variable {T : Type}

/-- The conditional assignment `if (current == ref_queue->rear) ref_queue->rear = prev`
of `Iterator::erase`, when the cursor is on the node `x` of the chain and `prev` on
its predecessor: `rear` becomes the last node of the chain without `x`. -/
theorem LinkedQueue.Invariant.erase_rear {h : Heap T} {q : LinkedQueue}
    {l1 l2 : List (Nat × T)} {x : Nat × T} {it : LinkedQueue.Iterator}
    (hi : LinkedQueue.Invariant h q (l1 ++ x :: l2)) (hc : it.current = some x.1)
    (hpv : it.prev = l1.getLast?.map Prod.fst) :
    (if it.current = q.rear then { q with rear := it.prev } else q) =
      { q with rear := (l1 ++ l2).getLast?.map Prod.fst } := by
  obtain ⟨hp, hu, hr⟩ := hi
  have hnd := Path.nodup hp (by simp)
  rcases List.eq_nil_or_concat l2 with rfl | ⟨L, b, rfl⟩
  · have h1 : q.rear = some x.1 := by rw [hr]; simp
    rw [hc, h1, if_pos rfl, hpv]; simp
  · simp only [List.concat_eq_append] at hp hu hr hnd ⊢
    have e : l1 ++ x :: (L ++ [b]) = (l1 ++ x :: L) ++ [b] := by simp
    have h1 : q.rear = some b.1 := by
      rw [hr, e, List.getLast?_concat]; rfl
    have h2 : (some x.1 : Option Nat) ≠ some b.1 := by
      intro hc2
      have := Option.some.inj hc2
      simp [List.nodup_append, this] at hnd
    rw [hc, h1, if_neg h2, ← List.append_assoc, List.getLast?_concat]
    show q = { q with rear := some b.1 }
    rw [← h1]

end QueueIteratorErase

end ics
namespace ics

/-! ## C14: `LinkedQueue::operator ==` and `operator !=` -/

section QueueEquality

variable {T : Type}

/-- The loop of `operator ==` over two chains of the same length, the iterator
being up to date, erasable and on the first node of the second chain: the result
says whether the two value lists are equal. -/
theorem LinkedQueue.operator_eq_loop_spec [DecidableEq T] {h : Heap T} {rhs : LinkedQueue}
    {la : List (Nat × T)} :
    ∀ {lb : List (Nat × T)} {fuel : Nat} {p : Option Nat} {it : LinkedQueue.Iterator},
      Path h p la none → Path h it.current lb none → la.length = lb.length →
      it.expected_mod_count = rhs.mod_count → it.can_erase = true → la.length ≤ fuel →
      LinkedQueue.operator_eq_loop fuel h rhs p it =
        .ok (decide (la.map Prod.snd = lb.map Prod.snd)) := by
  induction la with
  | nil =>
    intro lb fuel p it hp _ hlen _ _ _
    rw [Path.nil_iff] at hp
    subst hp
    have hlb : lb = [] := List.length_eq_zero.mp hlen.symm
    subst hlb
    cases fuel <;> simp [LinkedQueue.operator_eq_loop]
  | cons x la ih =>
    intro lb fuel p it hp hq hlen he hce hfuel
    cases lb with
    | nil => simp at hlen
    | cons y lb =>
      obtain ⟨hpx, nx, hrx, hpn⟩ := hp
      obtain ⟨hqy, ny, hry, hqn⟩ := hq
      subst hpx
      cases fuel with
      | zero => simp at hfuel
      | succ fuel =>
        have hd : LinkedQueue.Iterator.operator_deref h rhs it = (.ok y.2, h, rhs, it) := by
          simp [LinkedQueue.Iterator.operator_deref, he, hce, hqy, Heap.deref, hry]
        have hi : LinkedQueue.Iterator.operator_pre_inc h rhs it =
            (.ok { it with prev := some y.1, current := ny }, h, rhs,
              { it with prev := some y.1, current := ny }) := by
          simp [LinkedQueue.Iterator.operator_pre_inc, LinkedQueue.Iterator.advance, he, hce,
            hqy, hry]
        by_cases hv : x.2 = y.2
        · have hrec := @ih lb fuel nx { it with prev := some y.1, current := ny } hpn hqn
            (by simpa using hlen) he hce (by simpa using hfuel)
          simp only [LinkedQueue.operator_eq_loop, hrx, hd, hi, hv, ne_eq, not_true_eq_false,
            if_false, hrec]
          simp [hv]
        · simp [LinkedQueue.operator_eq_loop, hrx, hd, hv]

/-- Member `operator ==` on two queues whose chains end at the null pointer and
whose `used` is the length of the chain. -/
theorem LinkedQueue.q_operator_eq_spec [DecidableEq T] {this rhs_addr : Nat} {h : Heap T}
    {a b : LinkedQueue} {la lb : List (Nat × T)}
    (ha : Path h a.front la none) (hua : a.used = la.length)
    (hb : Path h b.front lb none) (hub : b.used = lb.length)
    (hsame : this = rhs_addr → a = b) :
    LinkedQueue.operator_eq this rhs_addr h a b =
      .ok (decide (la.map Prod.snd = lb.map Prod.snd)) := by
  unfold LinkedQueue.operator_eq
  by_cases hs : this = rhs_addr
  · have hab := hsame hs
    subst hab
    have hl : la = lb := Path.unique ha hb (by simp) (by simp)
    simp [hs, hl]
  · rw [if_neg hs]
    by_cases hsz : a.size = b.size
    · rw [if_neg (by simpa using hsz)]
      have hlen : la.length = lb.length := by
        simp only [LinkedQueue.size, hua, hub] at hsz
        exact_mod_cast hsz
      exact LinkedQueue.operator_eq_loop_spec ha hb hlen rfl rfl
        (Nat.le_succ_of_le (Path.length_le ha (by simp)))
    · rw [if_pos hsz]
      have hne : la.map Prod.snd ≠ lb.map Prod.snd := by
        intro hc
        apply hsz
        have := congrArg List.length hc
        simp only [List.length_map] at this
        simp [LinkedQueue.size, hua, hub, this]
      simp [hne]

/-- C14.  For two queues whose chains end at the null pointer and whose `used`
is the length of the chain (the same object when the two addresses are the
same), `operator ==` returns, without an error, whether the two value lists are
equal, that is, whether the chains have the same length and equal values at
every position, and `operator !=` returns the negation. -/
theorem LinkedQueue.operator_eq_correct [DecidableEq T] (this rhs_addr : Nat) (h : Heap T)
    (a b : LinkedQueue) (la lb : List (Nat × T))
    (ha : Path h a.front la none) (hua : a.used = la.length)
    (hb : Path h b.front lb none) (hub : b.used = lb.length)
    (hsame : this = rhs_addr → a = b) :
    LinkedQueue.operator_eq this rhs_addr h a b =
        .ok (decide (la.map Prod.snd = lb.map Prod.snd)) ∧
      LinkedQueue.operator_ne this rhs_addr h a b =
        .ok (!decide (la.map Prod.snd = lb.map Prod.snd)) ∧
      (LinkedQueue.operator_eq this rhs_addr h a b = .ok true ↔
        la.length = lb.length ∧
          ∀ i : Nat, i < la.length → (la.map Prod.snd)[i]? = (lb.map Prod.snd)[i]?) := by
  have key := LinkedQueue.q_operator_eq_spec ha hua hb hub hsame
  refine ⟨key, ?_, ?_⟩
  · unfold LinkedQueue.operator_ne
    rw [key]
  · rw [key]
    simp only [Except.ok.injEq, decide_eq_true_eq]
    constructor
    · intro hc
      refine ⟨by simpa using congrArg List.length hc, fun i _ => by rw [hc]⟩
    · rintro ⟨hlen, hi⟩
      apply List.ext_getElem?
      intro i
      by_cases hlt : i < la.length
      · exact hi i hlt
      · rw [List.getElem?_eq_none (by simp; omega), List.getElem?_eq_none (by simp; omega)]

/-- C14 at the queues 7, 8 and 7, 9 in one heap: `==` gives false and `!=` true. -/
theorem LinkedQueue.operator_eq_correct_witness :
    LinkedQueue.operator_eq 0 1
        (⟨[some ⟨7, some 1⟩, some ⟨8, none⟩, some ⟨7, some 3⟩, some ⟨9, none⟩]⟩ : Heap Nat)
        { front := some 0, rear := some 1, used := 2, mod_count := 2 }
        { front := some 2, rear := some 3, used := 2, mod_count := 2 } = .ok false ∧
      LinkedQueue.operator_ne 0 1
        (⟨[some ⟨7, some 1⟩, some ⟨8, none⟩, some ⟨7, some 3⟩, some ⟨9, none⟩]⟩ : Heap Nat)
        { front := some 0, rear := some 1, used := 2, mod_count := 2 }
        { front := some 2, rear := some 3, used := 2, mod_count := 2 } = .ok true := by
  obtain ⟨e1, e2, _⟩ := LinkedQueue.operator_eq_correct 0 1
    (⟨[some ⟨7, some 1⟩, some ⟨8, none⟩, some ⟨7, some 3⟩, some ⟨9, none⟩]⟩ : Heap Nat)
    { front := some 0, rear := some 1, used := 2, mod_count := 2 }
    { front := some 2, rear := some 3, used := 2, mod_count := 2 }
    [(0, 7), (1, 8)] [(2, 7), (3, 9)]
    ⟨rfl, some 1, rfl, rfl, none, rfl, rfl⟩ rfl
    ⟨rfl, some 3, rfl, rfl, none, rfl, rfl⟩ rfl (by decide)
  exact ⟨e1, e2⟩

end QueueEquality

end ics
namespace ics

/-! ## C15: the relational operators of `LinkedSet` -/

section SetRelational

variable {T : Type}

/-- A well-formed set counts the nodes of its chain. -/
theorem LinkedSet.WellFormed.used_eq_length {h : Heap T} {s : LinkedSet} {l : List (Nat × T)}
    (hw : LinkedSet.WellFormed h s l) : s.used = l.length := by
  obtain ⟨_, _, _, _, _, hu⟩ := hw
  exact hu

/-- The loop shared by `==`, `<=` and `<` over a chain that ends at the trailer:
the result says whether every value of the chain is in `rhs`. -/
theorem LinkedSet.all_in_loop_spec [DecidableEq T] {h : Heap T} {t : Nat} {rhs : LinkedSet}
    {lb : List (Nat × T)} (hb : LinkedSet.WellFormed h rhs lb) :
    ∀ (l : List (Nat × T)) (p : Option Nat) (fuel : Nat), Path h p l (some t) →
      (∀ x ∈ l, x.1 ≠ t) → l.length ≤ fuel →
      LinkedSet.all_in_loop h (some t) rhs fuel p =
        .ok ((l.map Prod.snd).all (fun v => decide (v ∈ lb.map Prod.snd))) := by
  intro l
  induction l with
  | nil =>
    intro p fuel hp _ _
    rw [Path.nil_iff] at hp
    subst hp
    cases fuel <;> simp [LinkedSet.all_in_loop]
  | cons x l ih =>
    intro p fuel hp hn hlen
    obtain ⟨hx, nx, hrx, hpx⟩ := hp
    subst hx
    have hxt : (some x.1 : Option Nat) ≠ some t := fun hc =>
      hn x (List.mem_cons_self _ _) (Option.some.inj hc)
    cases fuel with
    | zero => simp at hlen
    | succ fuel =>
      simp only [LinkedSet.all_in_loop, hxt, if_false, Heap.deref, hrx,
        LinkedSet.contains_spec hb]
      by_cases hv : x.2 ∈ lb.map Prod.snd
      · rw [decide_eq_true hv]
        simp only []
        rw [ih nx fuel hpx (fun y hy => hn y (List.mem_cons_of_mem _ hy)) (by simpa using hlen)]
        simp [hv]
      · rw [decide_eq_false hv]
        simp [hv]

/-- The loop of the relational operators run on a well-formed set. -/
theorem LinkedSet.all_in_spec [DecidableEq T] {h : Heap T} {A B : LinkedSet}
    {la lb : List (Nat × T)} (ha : LinkedSet.WellFormed h A la)
    (hb : LinkedSet.WellFormed h B lb) :
    ∃ b, LinkedSet.all_in_loop h A.trailer B (h.cells.length + 1) A.front = .ok b ∧
      (b = true ↔ ∀ v ∈ la.map Prod.snd, v ∈ lb.map Prod.snd) := by
  have hlen := ha.length_lt
  obtain ⟨t, ht, hp, hn, _, _⟩ := ha
  rw [ht]
  refine ⟨_, LinkedSet.all_in_loop_spec hb la A.front _ hp hn (by omega), ?_⟩
  simp [List.all_eq_true]

/-- A duplicate-free list all of whose members are in a second list is no
longer than it. -/
theorem LinkedSet.Unique.length_le_of_subset {la lb : List (Nat × T)}
    (hua : LinkedSet.Unique la) (hs : ∀ v ∈ la.map Prod.snd, v ∈ lb.map Prod.snd) :
    la.length ≤ lb.length := by
  have := (List.subperm_of_subset hua hs).length_le
  simpa using this

/-- A duplicate-free list all of whose members are in a second list that is no
longer has all the members of the second list. -/
theorem LinkedSet.Unique.superset_of_subset {la lb : List (Nat × T)}
    (hua : LinkedSet.Unique la) (hs : ∀ v ∈ la.map Prod.snd, v ∈ lb.map Prod.snd)
    (hl : lb.length ≤ la.length) : ∀ v ∈ lb.map Prod.snd, v ∈ la.map Prod.snd := by
  have hp := (List.subperm_of_subset hua hs).perm_of_length_le (by simpa using hl)
  intro v hv
  exact hp.mem_iff.mpr hv

/-- Member `operator <=` on sets that satisfy the invariants. -/
theorem LinkedSet.operator_le_spec [DecidableEq T] {this rhs_addr : Nat} {h : Heap T}
    {A B : LinkedSet} {la lb : List (Nat × T)}
    (ha : LinkedSet.WellFormed h A la) (hua : LinkedSet.Unique la)
    (hb : LinkedSet.WellFormed h B lb) (hsame : this = rhs_addr → A = B) :
    ∃ b, LinkedSet.operator_le this rhs_addr h A B = .ok b ∧
      (b = true ↔ ∀ v ∈ la.map Prod.snd, v ∈ lb.map Prod.snd) := by
  unfold LinkedSet.operator_le
  by_cases hs : this = rhs_addr
  · have hab := hsame hs
    subst hab
    have hl := ha.chain_unique hb
    subst hl
    rw [if_pos hs]
    exact ⟨true, rfl, by simp⟩
  · rw [if_neg hs]
    by_cases hsz : A.used > B.size
    · rw [if_pos hsz]
      refine ⟨false, rfl, ?_⟩
      simp only [Bool.false_eq_true, false_iff]
      intro hc
      have := hua.length_le_of_subset hc
      have h1 : A.used = la.length := ha.used_eq_length
      have h2 : B.used = lb.length := hb.used_eq_length
      simp only [LinkedSet.size, h1, h2] at hsz
      omega
    · rw [if_neg hsz]
      exact LinkedSet.all_in_spec ha hb

/-- Member `operator <` on sets that satisfy the invariants. -/
theorem LinkedSet.operator_lt_spec [DecidableEq T] {this rhs_addr : Nat} {h : Heap T}
    {A B : LinkedSet} {la lb : List (Nat × T)}
    (ha : LinkedSet.WellFormed h A la) (hua : LinkedSet.Unique la)
    (hb : LinkedSet.WellFormed h B lb) (hub : LinkedSet.Unique lb)
    (hsame : this = rhs_addr → A = B) :
    ∃ b, LinkedSet.operator_lt this rhs_addr h A B = .ok b ∧
      (b = true ↔ (∀ v ∈ la.map Prod.snd, v ∈ lb.map Prod.snd) ∧
        ∃ v ∈ lb.map Prod.snd, v ∉ la.map Prod.snd) := by
  unfold LinkedSet.operator_lt
  have h1 : A.used = la.length := ha.used_eq_length
  have h2 : B.used = lb.length := hb.used_eq_length
  by_cases hs : this = rhs_addr
  · have hab := hsame hs
    subst hab
    have hl := ha.chain_unique hb
    subst hl
    rw [if_pos hs]
    refine ⟨false, rfl, ?_⟩
    simp only [Bool.false_eq_true, false_iff]
    rintro ⟨_, v, hv, hnv⟩
    exact hnv hv
  · rw [if_neg hs]
    by_cases hsz : A.used ≥ B.size
    · rw [if_pos hsz]
      refine ⟨false, rfl, ?_⟩
      simp only [Bool.false_eq_true, false_iff]
      rintro ⟨hc, v, hv, hnv⟩
      simp only [LinkedSet.size, h1, h2] at hsz
      exact hnv (hua.superset_of_subset hc (by omega) v hv)
    · rw [if_neg hsz]
      obtain ⟨b, hb1, hb2⟩ := LinkedSet.all_in_spec ha hb
      refine ⟨b, hb1, hb2.trans ⟨fun hc => ⟨hc, ?_⟩, fun hc => hc.1⟩⟩
      by_contra hno
      have hsub : ∀ v ∈ lb.map Prod.snd, v ∈ la.map Prod.snd := by
        intro v hv
        by_contra hnv
        exact hno ⟨v, hv, hnv⟩
      have := hub.length_le_of_subset hsub
      simp only [LinkedSet.size, h1, h2] at hsz
      omega

/-- Member `operator ==` on sets that satisfy the invariants. -/
theorem LinkedSet.operator_eq_spec [DecidableEq T] {this rhs_addr : Nat} {h : Heap T}
    {A B : LinkedSet} {la lb : List (Nat × T)}
    (ha : LinkedSet.WellFormed h A la) (hua : LinkedSet.Unique la)
    (hb : LinkedSet.WellFormed h B lb) (hub : LinkedSet.Unique lb)
    (hsame : this = rhs_addr → A = B) :
    ∃ b, LinkedSet.operator_eq this rhs_addr h A B = .ok b ∧
      (b = true ↔ ∀ v, v ∈ la.map Prod.snd ↔ v ∈ lb.map Prod.snd) := by
  unfold LinkedSet.operator_eq
  have h1 : A.used = la.length := ha.used_eq_length
  have h2 : B.used = lb.length := hb.used_eq_length
  by_cases hs : this = rhs_addr
  · have hab := hsame hs
    subst hab
    have hl := ha.chain_unique hb
    subst hl
    rw [if_pos hs]
    exact ⟨true, rfl, by simp⟩
  · rw [if_neg hs]
    by_cases hsz : A.used ≠ B.size
    · rw [if_pos hsz]
      refine ⟨false, rfl, ?_⟩
      simp only [Bool.false_eq_true, false_iff]
      intro hc
      have l1 := hua.length_le_of_subset (fun v hv => (hc v).mp hv)
      have l2 := hub.length_le_of_subset (fun v hv => (hc v).mpr hv)
      simp only [LinkedSet.size, h1, h2] at hsz
      omega
    · rw [if_neg hsz]
      obtain ⟨b, hb1, hb2⟩ := LinkedSet.all_in_spec ha hb
      refine ⟨b, hb1, hb2.trans ⟨fun hc v => ⟨hc v, ?_⟩, fun hc v hv => (hc v).mp hv⟩⟩
      simp only [LinkedSet.size, h1, h2, ne_eq, not_not] at hsz
      exact hua.superset_of_subset hc (by omega) v

/-- C15.  For two sets `A` (at address `this`) and `B` (at address `rhs_addr`)
that satisfy the set invariants (well-formed chain, no duplicates, exact
count; the same object when the two addresses are the same), each relational
operator returns, without an error, the truth value of its set-theoretic
definition on the two member sets: `==` same members, `!=` not the same
members, `<=` every member of `A` in `B`, `<` that and some member of `B` not
in `A`, `>=` every member of `B` in `A`, `>` that and some member of `A` not in
`B`. -/
theorem LinkedSet.relational_correct [DecidableEq T] (this rhs_addr : Nat) (h : Heap T)
    (A B : LinkedSet) (la lb : List (Nat × T))
    (ha : LinkedSet.WellFormed h A la) (hua : LinkedSet.Unique la)
    (hb : LinkedSet.WellFormed h B lb) (hub : LinkedSet.Unique lb)
    (hsame : this = rhs_addr → A = B) :
    (∃ b, LinkedSet.operator_eq this rhs_addr h A B = .ok b ∧
      (b = true ↔ ∀ v, v ∈ la.map Prod.snd ↔ v ∈ lb.map Prod.snd)) ∧
    (∃ b, LinkedSet.operator_ne this rhs_addr h A B = .ok b ∧
      (b = true ↔ ¬ ∀ v, v ∈ la.map Prod.snd ↔ v ∈ lb.map Prod.snd)) ∧
    (∃ b, LinkedSet.operator_le this rhs_addr h A B = .ok b ∧
      (b = true ↔ ∀ v ∈ la.map Prod.snd, v ∈ lb.map Prod.snd)) ∧
    (∃ b, LinkedSet.operator_lt this rhs_addr h A B = .ok b ∧
      (b = true ↔ (∀ v ∈ la.map Prod.snd, v ∈ lb.map Prod.snd) ∧
        ∃ v ∈ lb.map Prod.snd, v ∉ la.map Prod.snd)) ∧
    (∃ b, LinkedSet.operator_ge this rhs_addr h A B = .ok b ∧
      (b = true ↔ ∀ v ∈ lb.map Prod.snd, v ∈ la.map Prod.snd)) ∧
    (∃ b, LinkedSet.operator_gt this rhs_addr h A B = .ok b ∧
      (b = true ↔ (∀ v ∈ lb.map Prod.snd, v ∈ la.map Prod.snd) ∧
        ∃ v ∈ la.map Prod.snd, v ∉ lb.map Prod.snd)) := by
  have hsame2 : rhs_addr = this → B = A := fun hc => (hsame hc.symm).symm
  refine ⟨LinkedSet.operator_eq_spec ha hua hb hub hsame, ?_,
    LinkedSet.operator_le_spec ha hua hb hsame,
    LinkedSet.operator_lt_spec ha hua hb hub hsame,
    LinkedSet.operator_le_spec hb hub ha hsame2,
    LinkedSet.operator_lt_spec hb hub ha hua hsame2⟩
  obtain ⟨b, hb1, hb2⟩ := LinkedSet.operator_eq_spec ha hua hb hub hsame
  refine ⟨!b, ?_, ?_⟩
  · unfold LinkedSet.operator_ne
    rw [hb1]
  · rw [← hb2]
    cases b <;> simp

/-- C15 at the set `A` holding 5 and the set `B` holding 6, 5 in one heap:
`A < B` and `A <= B` are true, `A == B` is false. -/
theorem LinkedSet.relational_correct_witness :
    (∃ b, LinkedSet.operator_eq 0 1
        (⟨[some ⟨0, none⟩, some ⟨5, some 0⟩, some ⟨0, none⟩, some ⟨5, some 2⟩,
          some ⟨6, some 3⟩]⟩ : Heap Nat)
        { front := some 1, trailer := some 0, used := 1, mod_count := 1 }
        { front := some 4, trailer := some 2, used := 2, mod_count := 2 } = .ok b ∧
      (b = true ↔ ∀ v, v ∈ [(1, 5)].map Prod.snd ↔ v ∈ [(4, 6), (3, 5)].map Prod.snd)) ∧
    (∃ b, LinkedSet.operator_lt 0 1
        (⟨[some ⟨0, none⟩, some ⟨5, some 0⟩, some ⟨0, none⟩, some ⟨5, some 2⟩,
          some ⟨6, some 3⟩]⟩ : Heap Nat)
        { front := some 1, trailer := some 0, used := 1, mod_count := 1 }
        { front := some 4, trailer := some 2, used := 2, mod_count := 2 } = .ok b ∧
      (b = true ↔ (∀ v ∈ [(1, 5)].map Prod.snd, v ∈ [(4, 6), (3, 5)].map Prod.snd) ∧
        ∃ v ∈ [(4, 6), (3, 5)].map Prod.snd, v ∉ [(1, 5)].map Prod.snd)) := by
  obtain ⟨e1, _, _, e4, _, _⟩ := LinkedSet.relational_correct 0 1
    (⟨[some ⟨0, none⟩, some ⟨5, some 0⟩, some ⟨0, none⟩, some ⟨5, some 2⟩,
      some ⟨6, some 3⟩]⟩ : Heap Nat)
    { front := some 1, trailer := some 0, used := 1, mod_count := 1 }
    { front := some 4, trailer := some 2, used := 2, mod_count := 2 }
    [(1, 5)] [(4, 6), (3, 5)]
    ⟨0, rfl, ⟨rfl, some 0, rfl, rfl⟩, by simp, ⟨0, rfl⟩, rfl⟩ (by simp [LinkedSet.Unique])
    ⟨2, rfl, ⟨rfl, some 3, rfl, rfl, some 2, rfl, rfl⟩, by simp, ⟨0, rfl⟩, rfl⟩
    (by simp [LinkedSet.Unique]) (by decide)
  exact ⟨e1, e4⟩

end SetRelational

end ics
namespace ics

/-! ## C13: the queue copy round-trip -/

section QueueCopy

variable {T : Type}

end QueueCopy

end ics
namespace ics

/-! ## C21, C22: the error conditions of `erase()`, `operator *` and `operator ->` -/

section IteratorErrors

variable {T : Type}

/-- The helper `erase_at` never throws `CannotEraseError`. -/
theorem LinkedSet.erase_at_ne_cannot_erase (h : Heap T) (s : LinkedSet) (p : Nat) :
    (LinkedSet.erase_at h s p).1 ≠ .error .CannotEraseError := by
  unfold LinkedSet.erase_at
  cases hp : h.read p with
  | none => simp
  | some pn =>
    cases hn : pn.next with
    | none => simp [hn]
    | some d =>
      cases hd : h.read d with
      | none => simp [hn, hd]
      | some nn => simp [hn, hd]

/-- Member `erase()` of a queue iterator that is up to date: when `CannotEraseError` is thrown. -/
theorem LinkedQueue.Iterator.q_erase_cannot_erase_iff (h : Heap T) (q : LinkedQueue)
    (it : LinkedQueue.Iterator) (he : it.expected_mod_count = q.mod_count) :
    ((LinkedQueue.Iterator.erase h q it).1 = .error .CannotEraseError ↔
      (it.can_erase = false ∨ it.current = none)) ∧
    ((it.can_erase = false ∨ it.current = none) →
      LinkedQueue.Iterator.erase h q it = (.error .CannotEraseError, h, q, it)) := by
  have hr : (it.can_erase = false ∨ it.current = none) →
      LinkedQueue.Iterator.erase h q it = (.error .CannotEraseError, h, q, it) := by
    intro hc
    unfold LinkedQueue.Iterator.erase
    rw [if_neg (by simpa using he)]
    cases hce : it.can_erase with
    | false => simp
    | true =>
      rcases hc with hc | hc
      · rw [hce] at hc; cases hc
      · simp [hc]
  refine ⟨⟨?_, fun hc => by rw [hr hc]⟩, hr⟩
  intro hk
  by_contra hno
  simp only [not_or, Bool.not_eq_false] at hno
  obtain ⟨hce, hcur⟩ := hno
  obtain ⟨c, hc⟩ := Option.ne_none_iff_exists'.mp hcur
  unfold LinkedQueue.Iterator.erase at hk
  simp only [he, ne_eq, not_true_eq_false, if_false, hce, Bool.not_true, Bool.false_eq_true,
    hc] at hk
  cases hrc : h.read c with
  | none => simp [hrc] at hk
  | some cn =>
    simp only [hrc] at hk
    cases hp : it.prev with
    | none => simp [hp] at hk
    | some pa =>
      simp only [hp] at hk
      cases hrp : h.read pa with
      | none => simp [hrp] at hk
      | some pn =>
        simp only [hrp] at hk
        split at hk <;> simp at hk

/-- Member `erase()` of a set iterator that is up to date: when `CannotEraseError` is thrown. -/
theorem LinkedSet.Iterator.erase_cannot_erase_iff (h : Heap T) (s : LinkedSet)
    (it : LinkedSet.Iterator) (he : it.expected_mod_count = s.mod_count) :
    ((LinkedSet.Iterator.erase h s it).1 = .error .CannotEraseError ↔
      (it.can_erase = false ∨ it.current = s.trailer)) ∧
    ((it.can_erase = false ∨ it.current = s.trailer) →
      LinkedSet.Iterator.erase h s it = (.error .CannotEraseError, h, s, it)) := by
  have hr : (it.can_erase = false ∨ it.current = s.trailer) →
      LinkedSet.Iterator.erase h s it = (.error .CannotEraseError, h, s, it) := by
    intro hc
    unfold LinkedSet.Iterator.erase
    rw [if_neg (by simpa using he)]
    cases hce : it.can_erase with
    | false => simp
    | true =>
      rcases hc with hc | hc
      · rw [hce] at hc; cases hc
      · simp [hc]
  refine ⟨⟨?_, fun hc => by rw [hr hc]⟩, hr⟩
  intro hk
  by_contra hno
  simp only [not_or, Bool.not_eq_false] at hno
  obtain ⟨hce, hcur⟩ := hno
  unfold LinkedSet.Iterator.erase at hk
  simp only [he, ne_eq, not_true_eq_false, if_false, hce, Bool.not_true, Bool.false_eq_true,
    hcur] at hk
  cases hc : it.current with
  | none => simp [hc] at hk
  | some c =>
    simp only [hc] at hk
    cases hrc : h.read c with
    | none => simp [hrc] at hk
    | some cn =>
      simp only [hrc] at hk
      have hne := LinkedSet.erase_at_ne_cannot_erase h s c
      rcases hea : LinkedSet.erase_at h s c with ⟨r, h1, s1⟩
      rw [hea] at hk hne
      cases r with
      | error e =>
        simp only [Except.error.injEq] at hk
        exact hne (by rw [hk])
      | ok k => simp at hk

/-- After an `erase()` that returned, a queue iterator is not erasable and
records the new generation. -/
theorem LinkedQueue.Iterator.q_erase_ok_flags {h h1 : Heap T} {q q1 : LinkedQueue}
    {it it1 : LinkedQueue.Iterator} {v : T}
    (hk : LinkedQueue.Iterator.erase h q it = (.ok v, h1, q1, it1)) :
    it1.can_erase = false ∧ it1.expected_mod_count = q1.mod_count := by
  unfold LinkedQueue.Iterator.erase at hk
  split at hk
  · simp at hk
  split at hk
  · simp at hk
  split at hk
  · simp at hk
  dsimp only at hk
  split at hk
  · simp at hk
  split at hk
  · simp only [Prod.mk.injEq] at hk
    obtain ⟨_, _, rfl, rfl⟩ := hk
    exact ⟨rfl, rfl⟩
  split at hk
  · simp at hk
  split at hk
  · simp at hk
  simp only [Prod.mk.injEq] at hk
  obtain ⟨_, _, rfl, rfl⟩ := hk
  exact ⟨rfl, rfl⟩

/-- After an `erase()` that returned, a set iterator is not erasable and
records the new generation. -/
theorem LinkedSet.Iterator.erase_ok_flags {h h1 : Heap T} {s s1 : LinkedSet}
    {it it1 : LinkedSet.Iterator} {v : T}
    (hk : LinkedSet.Iterator.erase h s it = (.ok v, h1, s1, it1)) :
    it1.can_erase = false ∧ it1.expected_mod_count = s1.mod_count := by
  unfold LinkedSet.Iterator.erase at hk
  split at hk
  · simp at hk
  split at hk
  · simp at hk
  split at hk
  · simp at hk
  dsimp only at hk
  split at hk
  · simp at hk
  split at hk
  · simp at hk
  split at hk
  · simp at hk
  simp only [Prod.mk.injEq] at hk
  obtain ⟨_, _, rfl, rfl⟩ := hk
  exact ⟨rfl, rfl⟩

/-- C21.  For an iterator of either container whose recorded generation is the
container's, `erase()` throws `CannotEraseError` exactly when `can_erase` is
false or the cursor is at the terminal position (null for the queue, the
trailer for the set); when it throws that error, heap, container and iterator
are as they were.  In particular a second `erase()` directly after one that
returned throws it. -/
theorem iterator_erase_failure (hq : Heap T) (q : LinkedQueue) (qi : LinkedQueue.Iterator)
    (hs : Heap T) (s : LinkedSet) (si : LinkedSet.Iterator)
    (he1 : qi.expected_mod_count = q.mod_count) (he2 : si.expected_mod_count = s.mod_count) :
    (((LinkedQueue.Iterator.erase hq q qi).1 = .error .CannotEraseError ↔
        (qi.can_erase = false ∨ qi.current = none)) ∧
      ((LinkedQueue.Iterator.erase hq q qi).1 = .error .CannotEraseError →
        LinkedQueue.Iterator.erase hq q qi = (.error .CannotEraseError, hq, q, qi)) ∧
      (∀ v h1 q1 it1, LinkedQueue.Iterator.erase hq q qi = (.ok v, h1, q1, it1) →
        LinkedQueue.Iterator.erase h1 q1 it1 = (.error .CannotEraseError, h1, q1, it1))) ∧
    (((LinkedSet.Iterator.erase hs s si).1 = .error .CannotEraseError ↔
        (si.can_erase = false ∨ si.current = s.trailer)) ∧
      ((LinkedSet.Iterator.erase hs s si).1 = .error .CannotEraseError →
        LinkedSet.Iterator.erase hs s si = (.error .CannotEraseError, hs, s, si)) ∧
      (∀ v h1 s1 it1, LinkedSet.Iterator.erase hs s si = (.ok v, h1, s1, it1) →
        LinkedSet.Iterator.erase h1 s1 it1 = (.error .CannotEraseError, h1, s1, it1))) := by
  obtain ⟨q1, q2⟩ := LinkedQueue.Iterator.q_erase_cannot_erase_iff hq q qi he1
  obtain ⟨s1, s2⟩ := LinkedSet.Iterator.erase_cannot_erase_iff hs s si he2
  refine ⟨⟨q1, fun hk => q2 (q1.mp hk), ?_⟩, ⟨s1, fun hk => s2 (s1.mp hk), ?_⟩⟩
  · intro v h1 q1 it1 hk
    obtain ⟨hce, hex⟩ := LinkedQueue.Iterator.q_erase_ok_flags hk
    exact (LinkedQueue.Iterator.q_erase_cannot_erase_iff h1 q1 it1 hex).2 (Or.inl hce)
  · intro v h1 s1 it1 hk
    obtain ⟨hce, hex⟩ := LinkedSet.Iterator.erase_ok_flags hk
    exact (LinkedSet.Iterator.erase_cannot_erase_iff h1 s1 it1 hex).2 (Or.inl hce)

/-- C21 at the queue 7 and the set holding 5 with their `end()` iterators:
`erase()` throws `CannotEraseError` and changes nothing. -/
theorem iterator_erase_failure_witness :
    LinkedQueue.Iterator.erase (⟨[some ⟨7, none⟩]⟩ : Heap Nat)
        { front := some 0, rear := some 0, used := 1, mod_count := 1 }
        (LinkedQueue.end_ 0 { front := some 0, rear := some 0, used := 1, mod_count := 1 }) =
      (.error .CannotEraseError, ⟨[some ⟨7, none⟩]⟩,
        { front := some 0, rear := some 0, used := 1, mod_count := 1 },
        LinkedQueue.end_ 0 { front := some 0, rear := some 0, used := 1, mod_count := 1 }) ∧
    LinkedSet.Iterator.erase (⟨[some ⟨0, none⟩, some ⟨5, some 0⟩]⟩ : Heap Nat)
        { front := some 1, trailer := some 0, used := 1, mod_count := 1 }
        (LinkedSet.end_ 0 { front := some 1, trailer := some 0, used := 1, mod_count := 1 }) =
      (.error .CannotEraseError, ⟨[some ⟨0, none⟩, some ⟨5, some 0⟩]⟩,
        { front := some 1, trailer := some 0, used := 1, mod_count := 1 },
        LinkedSet.end_ 0 { front := some 1, trailer := some 0, used := 1, mod_count := 1 }) := by
  obtain ⟨⟨_, a, _⟩, ⟨_, b, _⟩⟩ := iterator_erase_failure
    (⟨[some ⟨7, none⟩]⟩ : Heap Nat)
    { front := some 0, rear := some 0, used := 1, mod_count := 1 }
    (LinkedQueue.end_ 0 { front := some 0, rear := some 0, used := 1, mod_count := 1 })
    (⟨[some ⟨0, none⟩, some ⟨5, some 0⟩]⟩ : Heap Nat)
    { front := some 1, trailer := some 0, used := 1, mod_count := 1 }
    (LinkedSet.end_ 0 { front := some 1, trailer := some 0, used := 1, mod_count := 1 })
    rfl rfl
  exact ⟨a (by decide), b (by decide)⟩

/-- Members `operator *` and `operator ->` of a queue iterator that is up to date. -/
theorem LinkedQueue.Iterator.q_deref_spec (h : Heap T) (q : LinkedQueue)
    (it : LinkedQueue.Iterator) (he : it.expected_mod_count = q.mod_count) :
    ((LinkedQueue.Iterator.operator_deref h q it).1 = .error .IteratorPositionIllegal ↔
      (it.can_erase = false ∨ it.current = none)) ∧
    ((LinkedQueue.Iterator.operator_arrow h q it).1 = .error .IteratorPositionIllegal ↔
      (it.can_erase = false ∨ it.current = none)) ∧
    (∀ c n, it.can_erase = true → it.current = some c → h.read c = some n →
      (LinkedQueue.Iterator.operator_deref h q it).1 = .ok n.value ∧
      (LinkedQueue.Iterator.operator_arrow h q it).1 = .ok c) ∧
    (LinkedQueue.Iterator.operator_deref h q it).2 = (h, q, it) ∧
    (LinkedQueue.Iterator.operator_arrow h q it).2 = (h, q, it) := by
  unfold LinkedQueue.Iterator.operator_deref LinkedQueue.Iterator.operator_arrow
  simp only [he, ne_eq, not_true_eq_false, if_false]
  cases hce : it.can_erase with
  | false => simp
  | true =>
    cases hc : it.current with
    | none => simp
    | some c =>
      cases hr : h.read c with
      | none =>
        simp only [Heap.deref, hr]
        refine ⟨by simp, by simp, ?_, by simp, by simp⟩
        intro c1 n _ hc1 hr1
        cases hc1
        rw [hr] at hr1
        cases hr1
      | some n =>
        simp only [Heap.deref, hr]
        refine ⟨by simp, by simp, ?_, by simp, by simp⟩
        intro c1 n1 _ hc1 hr1
        cases hc1
        rw [hr] at hr1
        cases hr1
        exact ⟨rfl, rfl⟩

/-- Members `operator *` and `operator ->` of a set iterator that is up to date. -/
theorem LinkedSet.Iterator.deref_spec (h : Heap T) (s : LinkedSet)
    (it : LinkedSet.Iterator) (he : it.expected_mod_count = s.mod_count) :
    ((LinkedSet.Iterator.operator_deref h s it).1 = .error .IteratorPositionIllegal ↔
      (it.can_erase = false ∨ it.current = s.trailer)) ∧
    ((LinkedSet.Iterator.operator_arrow h s it).1 = .error .IteratorPositionIllegal ↔
      (it.can_erase = false ∨ it.current = s.trailer)) ∧
    (∀ c n, it.can_erase = true → it.current = some c → it.current ≠ s.trailer →
      h.read c = some n →
      (LinkedSet.Iterator.operator_deref h s it).1 = .ok n.value ∧
      (LinkedSet.Iterator.operator_arrow h s it).1 = .ok (some c)) ∧
    (LinkedSet.Iterator.operator_deref h s it).2 = (h, s, it) ∧
    (LinkedSet.Iterator.operator_arrow h s it).2 = (h, s, it) := by
  unfold LinkedSet.Iterator.operator_deref LinkedSet.Iterator.operator_arrow
  simp only [he, ne_eq, not_true_eq_false, if_false]
  cases hce : it.can_erase with
  | false => simp
  | true =>
    by_cases ht : it.current = s.trailer
    · simp [ht]
    · cases hd : h.deref it.current with
      | none =>
        simp only [Bool.not_true, Bool.false_or, beq_iff_eq, ht, if_false, hd]
        refine ⟨by simp, by simp, ?_, by simp, by simp⟩
        intro c n _ hc _ hr
        rw [hc] at hd
        simp [Heap.deref, hr] at hd
      | some n0 =>
        simp only [Bool.not_true, Bool.false_or, beq_iff_eq, ht, if_false, hd]
        refine ⟨by simp, by simp, ?_, by simp, by simp⟩
        intro c n _ hc _ hr
        rw [hc] at hd
        simp only [Heap.deref, hr, Option.some.injEq] at hd
        subst hd
        exact ⟨rfl, by rw [hc]⟩

/-- C22.  For an iterator of either container whose recorded generation is the
container's, `operator *` and `operator ->` throw `IteratorPositionIllegal`
exactly when `can_erase` is false or the cursor is at the terminal position
(null for the queue, the trailer for the set); otherwise, the cursor being on a
live node, `operator *` returns the value of that node and `operator ->` points
to it.  Neither changes heap, container or iterator.  Both throw directly after
an `erase()` that returned, and both throw on `end()`. -/
theorem iterator_dereference (hq : Heap T) (q : LinkedQueue) (qi : LinkedQueue.Iterator)
    (hs : Heap T) (s : LinkedSet) (si : LinkedSet.Iterator)
    (he1 : qi.expected_mod_count = q.mod_count) (he2 : si.expected_mod_count = s.mod_count) :
    (((LinkedQueue.Iterator.operator_deref hq q qi).1 = .error .IteratorPositionIllegal ↔
        (qi.can_erase = false ∨ qi.current = none)) ∧
      ((LinkedQueue.Iterator.operator_arrow hq q qi).1 = .error .IteratorPositionIllegal ↔
        (qi.can_erase = false ∨ qi.current = none)) ∧
      (∀ c n, qi.can_erase = true → qi.current = some c → hq.read c = some n →
        (LinkedQueue.Iterator.operator_deref hq q qi).1 = .ok n.value ∧
        (LinkedQueue.Iterator.operator_arrow hq q qi).1 = .ok c) ∧
      (LinkedQueue.Iterator.operator_deref hq q qi).2 = (hq, q, qi) ∧
      (LinkedQueue.Iterator.operator_arrow hq q qi).2 = (hq, q, qi) ∧
      (∀ v h1 q1 it1, LinkedQueue.Iterator.erase hq q qi = (.ok v, h1, q1, it1) →
        (LinkedQueue.Iterator.operator_deref h1 q1 it1).1 = .error .IteratorPositionIllegal ∧
        (LinkedQueue.Iterator.operator_arrow h1 q1 it1).1 = .error .IteratorPositionIllegal) ∧
      (∀ this, (LinkedQueue.Iterator.operator_deref hq q (LinkedQueue.end_ this q)).1 =
          .error .IteratorPositionIllegal ∧
        (LinkedQueue.Iterator.operator_arrow hq q (LinkedQueue.end_ this q)).1 =
          .error .IteratorPositionIllegal)) ∧
    (((LinkedSet.Iterator.operator_deref hs s si).1 = .error .IteratorPositionIllegal ↔
        (si.can_erase = false ∨ si.current = s.trailer)) ∧
      ((LinkedSet.Iterator.operator_arrow hs s si).1 = .error .IteratorPositionIllegal ↔
        (si.can_erase = false ∨ si.current = s.trailer)) ∧
      (∀ c n, si.can_erase = true → si.current = some c → si.current ≠ s.trailer →
        hs.read c = some n →
        (LinkedSet.Iterator.operator_deref hs s si).1 = .ok n.value ∧
        (LinkedSet.Iterator.operator_arrow hs s si).1 = .ok (some c)) ∧
      (LinkedSet.Iterator.operator_deref hs s si).2 = (hs, s, si) ∧
      (LinkedSet.Iterator.operator_arrow hs s si).2 = (hs, s, si) ∧
      (∀ v h1 s1 it1, LinkedSet.Iterator.erase hs s si = (.ok v, h1, s1, it1) →
        (LinkedSet.Iterator.operator_deref h1 s1 it1).1 = .error .IteratorPositionIllegal ∧
        (LinkedSet.Iterator.operator_arrow h1 s1 it1).1 = .error .IteratorPositionIllegal) ∧
      (∀ this, (LinkedSet.Iterator.operator_deref hs s (LinkedSet.end_ this s)).1 =
          .error .IteratorPositionIllegal ∧
        (LinkedSet.Iterator.operator_arrow hs s (LinkedSet.end_ this s)).1 =
          .error .IteratorPositionIllegal)) := by
  obtain ⟨a1, a2, a3, a4, a5⟩ := LinkedQueue.Iterator.q_deref_spec hq q qi he1
  obtain ⟨b1, b2, b3, b4, b5⟩ := LinkedSet.Iterator.deref_spec hs s si he2
  refine ⟨⟨a1, a2, a3, a4, a5, ?_, ?_⟩, ⟨b1, b2, b3, b4, b5, ?_, ?_⟩⟩
  · intro v h1 q1 it1 hk
    obtain ⟨hce, hex⟩ := LinkedQueue.Iterator.q_erase_ok_flags hk
    obtain ⟨c1, c2, _⟩ := LinkedQueue.Iterator.q_deref_spec h1 q1 it1 hex
    exact ⟨c1.mpr (Or.inl hce), c2.mpr (Or.inl hce)⟩
  · intro this
    obtain ⟨c1, c2, _⟩ := LinkedQueue.Iterator.q_deref_spec hq q (LinkedQueue.end_ this q) rfl
    exact ⟨c1.mpr (Or.inr rfl), c2.mpr (Or.inr rfl)⟩
  · intro v h1 s1 it1 hk
    obtain ⟨hce, hex⟩ := LinkedSet.Iterator.erase_ok_flags hk
    obtain ⟨c1, c2, _⟩ := LinkedSet.Iterator.deref_spec h1 s1 it1 hex
    exact ⟨c1.mpr (Or.inl hce), c2.mpr (Or.inl hce)⟩
  · intro this
    obtain ⟨c1, c2, _⟩ := LinkedSet.Iterator.deref_spec hs s (LinkedSet.end_ this s) rfl
    exact ⟨c1.mpr (Or.inr rfl), c2.mpr (Or.inr rfl)⟩

/-- C22 at the queue 7 and the set holding 5 with their `begin()` iterators:
`operator *` returns 7 and 5. -/
theorem iterator_dereference_witness :
    (LinkedQueue.Iterator.operator_deref (⟨[some ⟨7, none⟩]⟩ : Heap Nat)
        { front := some 0, rear := some 0, used := 1, mod_count := 1 }
        (LinkedQueue.begin 0 { front := some 0, rear := some 0, used := 1, mod_count := 1 })).1 =
      .ok 7 ∧
    (LinkedSet.Iterator.operator_deref (⟨[some ⟨0, none⟩, some ⟨5, some 0⟩]⟩ : Heap Nat)
        { front := some 1, trailer := some 0, used := 1, mod_count := 1 }
        (LinkedSet.begin 0 { front := some 1, trailer := some 0, used := 1, mod_count := 1 })).1 =
      .ok 5 := by
  obtain ⟨⟨_, _, a, _⟩, ⟨_, _, b, _⟩⟩ := iterator_dereference
    (⟨[some ⟨7, none⟩]⟩ : Heap Nat)
    { front := some 0, rear := some 0, used := 1, mod_count := 1 }
    (LinkedQueue.begin 0 { front := some 0, rear := some 0, used := 1, mod_count := 1 })
    (⟨[some ⟨0, none⟩, some ⟨5, some 0⟩]⟩ : Heap Nat)
    { front := some 1, trailer := some 0, used := 1, mod_count := 1 }
    (LinkedSet.begin 0 { front := some 1, trailer := some 0, used := 1, mod_count := 1 })
    rfl rfl
  exact ⟨(a 0 ⟨7, none⟩ rfl rfl rfl).1, (b 1 ⟨5, some 0⟩ rfl rfl (by decide) rfl).1⟩

end IteratorErrors

end ics
namespace ics

/-! ## C23: copy-assignment of a set -/

section SetCopyAssign

variable {T : Type}

end SetCopyAssign

end ics
namespace ics

/-! ## C26: `enqueue` on a copy-assigned queue -/

section QueueEnqueueAfterAssign

/-- C26 fails on the code.  In the heap holding the well-formed queues 7, 8, 9
(at address 0 on) and 1 (at address 3), and in the heap holding the queues 7 and
1: after `dst = src` returned, with the source not empty, `dst.enqueue(4)`
follows a `rear` that is null (destination shorter than, or as long as, the
source) or that is the address of a deleted node (destination longer), which
the model reports as `invalidAccess`. -/
theorem LinkedQueue.enqueue_after_assign_invalid :
    (LinkedQueue.operator_assign 1 0
      (⟨[some ⟨7, some 1⟩, some ⟨8, some 2⟩, some ⟨9, none⟩, some ⟨1, none⟩]⟩ : Heap Nat)
      { front := some 3, rear := some 3, used := 1, mod_count := 1 }
      { front := some 0, rear := some 2, used := 3, mod_count := 3 } =
      (.ok (), ⟨[some ⟨7, some 1⟩, some ⟨8, some 2⟩, some ⟨9, none⟩, some ⟨7, some 4⟩,
          some ⟨8, some 5⟩, some ⟨9, none⟩]⟩,
        { front := some 3, rear := none, used := 3, mod_count := 2 }) ∧
      (LinkedQueue.enqueue
        (⟨[some ⟨7, some 1⟩, some ⟨8, some 2⟩, some ⟨9, none⟩, some ⟨7, some 4⟩,
          some ⟨8, some 5⟩, some ⟨9, none⟩]⟩ : Heap Nat)
        { front := some 3, rear := none, used := 3, mod_count := 2 } 4).1 =
        .error .invalidAccess) ∧
    (LinkedQueue.operator_assign 0 1
      (⟨[some ⟨7, some 1⟩, some ⟨8, some 2⟩, some ⟨9, none⟩, some ⟨1, none⟩]⟩ : Heap Nat)
      { front := some 0, rear := some 2, used := 3, mod_count := 3 }
      { front := some 3, rear := some 3, used := 1, mod_count := 1 } =
      (.ok (), ⟨[some ⟨1, none⟩, none, none, some ⟨1, none⟩]⟩,
        { front := some 0, rear := some 1, used := 1, mod_count := 4 }) ∧
      (⟨[some ⟨1, none⟩, none, none, some ⟨1, none⟩]⟩ : Heap Nat).read 1 = none ∧
      (LinkedQueue.enqueue (⟨[some ⟨1, none⟩, none, none, some ⟨1, none⟩]⟩ : Heap Nat)
        { front := some 0, rear := some 1, used := 1, mod_count := 4 } 4).1 =
        .error .invalidAccess) ∧
    (LinkedQueue.operator_assign 1 0 (⟨[some ⟨7, none⟩, some ⟨1, none⟩]⟩ : Heap Nat)
      { front := some 1, rear := some 1, used := 1, mod_count := 1 }
      { front := some 0, rear := some 0, used := 1, mod_count := 1 } =
      (.ok (), ⟨[some ⟨7, none⟩, some ⟨7, none⟩]⟩,
        { front := some 1, rear := none, used := 1, mod_count := 2 }) ∧
      (LinkedQueue.enqueue (⟨[some ⟨7, none⟩, some ⟨7, none⟩]⟩ : Heap Nat)
        { front := some 1, rear := none, used := 1, mod_count := 2 } 4).1 =
        .error .invalidAccess) :=
  ⟨⟨rfl, rfl⟩, ⟨rfl, rfl, rfl⟩, ⟨rfl, rfl⟩⟩

end QueueEnqueueAfterAssign

end ics
namespace ics

/-! ## C24: complete traversal -/

section Traversal

variable {T : Type}

/-- Prefix `++` of an up-to-date, erasable queue iterator on a live node moves it to the
successor. -/
theorem LinkedQueue.Iterator.q_pre_inc_step {h : Heap T} {q : LinkedQueue}
    {it : LinkedQueue.Iterator} {c : Nat} {n : LN T}
    (he : it.expected_mod_count = q.mod_count) (hce : it.can_erase = true)
    (hc : it.current = some c) (hr : h.read c = some n) :
    LinkedQueue.Iterator.operator_pre_inc h q it =
      (.ok { it with prev := some c, current := n.next }, h, q,
        { it with prev := some c, current := n.next }) := by
  simp [LinkedQueue.Iterator.operator_pre_inc, LinkedQueue.Iterator.advance, he, hce, hc, hr]

/-- Prefix `++` of an up-to-date queue iterator at the end changes nothing. -/
theorem LinkedQueue.Iterator.q_pre_inc_end {h : Heap T} {q : LinkedQueue}
    {it : LinkedQueue.Iterator} (he : it.expected_mod_count = q.mod_count)
    (hc : it.current = none) :
    LinkedQueue.Iterator.operator_pre_inc h q it = (.ok it, h, q, it) := by
  simp [LinkedQueue.Iterator.operator_pre_inc, he, hc]

theorem LinkedQueue.Iterator.q_increments_add (h : Heap T) (q : LinkedQueue) (a b : Nat) :
    ∀ it : LinkedQueue.Iterator, LinkedQueue.Iterator.increments h q (a + b) it =
      match LinkedQueue.Iterator.increments h q a it with
      | .error e => .error e
      | .ok it1 => LinkedQueue.Iterator.increments h q b it1 := by
  induction a with
  | zero => intro it; simp [LinkedQueue.Iterator.increments]
  | succ a ih =>
    intro it
    rw [Nat.succ_add]
    simp only [LinkedQueue.Iterator.increments]
    rcases hk : LinkedQueue.Iterator.operator_pre_inc h q it with ⟨r, h1, q1, it1⟩
    cases r with
    | error e => rfl
    | ok v => exact ih it1

theorem LinkedQueue.Iterator.q_increments_end {h : Heap T} {q : LinkedQueue}
    {it : LinkedQueue.Iterator} (he : it.expected_mod_count = q.mod_count)
    (hc : it.current = none) :
    ∀ j, LinkedQueue.Iterator.increments h q j it = .ok it := by
  intro j
  induction j with
  | zero => rfl
  | succ j ih =>
    simp only [LinkedQueue.Iterator.increments, LinkedQueue.Iterator.q_pre_inc_end he hc, ih]

/-- After `k` increments an up-to-date, erasable queue iterator that stood at the start
of the chain `l` stands at the start of what is left after `k` nodes. -/
theorem LinkedQueue.Iterator.q_increments_spec {h : Heap T} {q : LinkedQueue} :
    ∀ (k : Nat) (l : List (Nat × T)) (it : LinkedQueue.Iterator),
      Path h it.current l none → it.expected_mod_count = q.mod_count → it.can_erase = true →
      k ≤ l.length →
      ∃ itk, LinkedQueue.Iterator.increments h q k it = .ok itk ∧
        Path h itk.current (l.drop k) none ∧ itk.expected_mod_count = q.mod_count ∧
        itk.can_erase = true ∧ itk.ref_queue = it.ref_queue := by
  intro k
  induction k with
  | zero => intro l it hp he hce _; exact ⟨it, rfl, hp, he, hce, rfl⟩
  | succ k ih =>
    intro l it hp he hce hk
    cases l with
    | nil => simp at hk
    | cons x l =>
      obtain ⟨hx, nx, hrx, hpx⟩ := hp
      obtain ⟨itk, e1, e2, e3, e4, e5⟩ :=
        ih l { it with prev := some x.1, current := nx } hpx he hce (by simpa using hk)
      refine ⟨itk, ?_, e2, e3, e4, e5⟩
      simp only [LinkedQueue.Iterator.increments,
        LinkedQueue.Iterator.q_pre_inc_step he hce hx hrx]
      exact e1

/-- The for-each loop over the rest of a queue chain visits its values in order. -/
theorem LinkedQueue.q_for_each_loop_spec {this : Nat} {h : Heap T} {q : LinkedQueue} :
    ∀ (l : List (Nat × T)) (fuel : Nat) (it : LinkedQueue.Iterator) (acc : List T),
      Path h it.current l none → it.expected_mod_count = q.mod_count → it.can_erase = true →
      it.ref_queue = this → l.length < fuel →
      LinkedQueue.for_each_loop this h q fuel it acc = .ok (acc ++ l.map Prod.snd) := by
  intro l
  induction l with
  | nil =>
    intro fuel it acc hp he hce hrf hfuel
    rw [Path.nil_iff] at hp
    cases fuel with
    | zero => simp at hfuel
    | succ fuel =>
      simp [LinkedQueue.for_each_loop, LinkedQueue.Iterator.operator_ne, LinkedQueue.end_, he,
        hrf, hp]
  | cons x l ih =>
    intro fuel it acc hp he hce hrf hfuel
    obtain ⟨hx, nx, hrx, hpx⟩ := hp
    cases fuel with
    | zero => simp at hfuel
    | succ fuel =>
      have hrec := ih fuel { it with prev := some x.1, current := nx } (acc ++ [x.2]) hpx he hce
        hrf (by simpa using hfuel)
      simp only [LinkedQueue.for_each_loop, LinkedQueue.Iterator.operator_ne, LinkedQueue.end_,
        he, hrf, hx, ne_eq, not_true_eq_false, if_false,
        LinkedQueue.Iterator.operator_deref, hce, Heap.deref, hrx,
        LinkedQueue.Iterator.q_pre_inc_step he hce hx hrx]
      simp only [he, hrf, hce] at hrec
      simpa using hrec

/-- Complete traversal of a queue whose chain ends at the null pointer. -/
theorem LinkedQueue.q_traversal (this : Nat) {h : Heap T} {q : LinkedQueue}
    {l : List (Nat × T)} (hp : Path h q.front l none) :
    (∀ k v, (l.map Prod.snd)[k]? = some v →
      ∃ itk, LinkedQueue.Iterator.increments h q k (LinkedQueue.begin this q) = .ok itk ∧
        LinkedQueue.Iterator.operator_deref h q itk = (.ok v, h, q, itk) ∧
        LinkedQueue.Iterator.operator_ne h q itk (LinkedQueue.end_ this q) =
          (.ok true, h, q, itk)) ∧
    (∃ itn, LinkedQueue.Iterator.increments h q l.length (LinkedQueue.begin this q) = .ok itn ∧
      LinkedQueue.Iterator.operator_eq h q itn (LinkedQueue.end_ this q) =
        (.ok true, h, q, itn) ∧
      LinkedQueue.Iterator.operator_pre_inc h q itn = (.ok itn, h, q, itn) ∧
      ∀ j, LinkedQueue.Iterator.increments h q (l.length + j) (LinkedQueue.begin this q) =
        .ok itn) ∧
    LinkedQueue.for_each this h q = .ok (l.map Prod.snd) := by
  refine ⟨?_, ?_, ?_⟩
  · intro k v hk
    have hlt : k < l.length := by
      have := (List.getElem?_eq_some_iff.mp hk).1
      simpa using this
    obtain ⟨itk, e1, e2, e3, e4, e5⟩ := LinkedQueue.Iterator.q_increments_spec k l
      (LinkedQueue.begin this q) hp rfl rfl (Nat.le_of_lt hlt)
    obtain ⟨x, l2, hx⟩ : ∃ x l2, l.drop k = x :: l2 := by
      cases hd : l.drop k with
      | nil =>
        have := congrArg List.length hd
        simp at this
        omega
      | cons x l2 => exact ⟨x, l2, rfl⟩
    rw [hx] at e2
    obtain ⟨hc, nx, hrx, _⟩ := e2
    have hv : x.2 = v := by
      have h1 : (l.drop k)[0]? = some x := by rw [hx]; simp
      rw [List.getElem?_drop, Nat.add_zero] at h1
      rw [List.getElem?_map, h1] at hk
      simpa using hk
    refine ⟨itk, e1, ?_, ?_⟩
    · simp [LinkedQueue.Iterator.operator_deref, e3, e4, hc, Heap.deref, hrx, hv]
    · simp [LinkedQueue.Iterator.operator_ne, LinkedQueue.end_, e3, e5, hc, LinkedQueue.begin]
  · obtain ⟨itn, e1, e2, e3, e4, e5⟩ := LinkedQueue.Iterator.q_increments_spec l.length l
      (LinkedQueue.begin this q) hp rfl rfl (le_refl _)
    rw [List.drop_length, Path.nil_iff] at e2
    refine ⟨itn, e1, ?_, LinkedQueue.Iterator.q_pre_inc_end e3 e2, ?_⟩
    · simp [LinkedQueue.Iterator.operator_eq, LinkedQueue.end_, e3, e5, e2, LinkedQueue.begin]
    · intro j
      rw [LinkedQueue.Iterator.q_increments_add, e1]
      exact LinkedQueue.Iterator.q_increments_end e3 e2 j
  · exact (LinkedQueue.q_for_each_loop_spec l _ (LinkedQueue.begin this q) [] hp rfl rfl rfl
      (Nat.lt_succ_of_le (Path.length_le hp (by simp)))).trans (by simp)

/-- Prefix `++` of an up-to-date, erasable set iterator on a live node before the trailer
moves it to the successor. -/
theorem LinkedSet.Iterator.pre_inc_step {h : Heap T} {s : LinkedSet}
    {it : LinkedSet.Iterator} {c : Nat} {n : LN T}
    (he : it.expected_mod_count = s.mod_count) (hce : it.can_erase = true)
    (hc : it.current = some c) (hct : some c ≠ s.trailer) (hr : h.read c = some n) :
    LinkedSet.Iterator.operator_pre_inc h s it =
      (.ok { it with current := n.next }, h, s, { it with current := n.next }) := by
  simp [LinkedSet.Iterator.operator_pre_inc, LinkedSet.Iterator.advance, he, hce, hc, hct,
    Heap.deref, hr]

/-- Prefix `++` of an up-to-date set iterator at the trailer changes nothing. -/
theorem LinkedSet.Iterator.pre_inc_end {h : Heap T} {s : LinkedSet}
    {it : LinkedSet.Iterator} (he : it.expected_mod_count = s.mod_count)
    (hc : it.current = s.trailer) :
    LinkedSet.Iterator.operator_pre_inc h s it = (.ok it, h, s, it) := by
  simp [LinkedSet.Iterator.operator_pre_inc, he, hc]

theorem LinkedSet.Iterator.increments_add (h : Heap T) (s : LinkedSet) (a b : Nat) :
    ∀ it : LinkedSet.Iterator, LinkedSet.Iterator.increments h s (a + b) it =
      match LinkedSet.Iterator.increments h s a it with
      | .error e => .error e
      | .ok it1 => LinkedSet.Iterator.increments h s b it1 := by
  induction a with
  | zero => intro it; simp [LinkedSet.Iterator.increments]
  | succ a ih =>
    intro it
    rw [Nat.succ_add]
    simp only [LinkedSet.Iterator.increments]
    rcases hk : LinkedSet.Iterator.operator_pre_inc h s it with ⟨r, h1, s1, it1⟩
    cases r with
    | error e => rfl
    | ok v => exact ih it1

theorem LinkedSet.Iterator.increments_end {h : Heap T} {s : LinkedSet}
    {it : LinkedSet.Iterator} (he : it.expected_mod_count = s.mod_count)
    (hc : it.current = s.trailer) :
    ∀ j, LinkedSet.Iterator.increments h s j it = .ok it := by
  intro j
  induction j with
  | zero => rfl
  | succ j ih =>
    simp only [LinkedSet.Iterator.increments, LinkedSet.Iterator.pre_inc_end he hc, ih]

/-- After `k` increments an up-to-date, erasable set iterator that stood at the start of
the chain `l` stands at the start of what is left after `k` nodes. -/
theorem LinkedSet.Iterator.increments_spec {h : Heap T} {s : LinkedSet} {t : Nat}
    (ht : s.trailer = some t) :
    ∀ (k : Nat) (l : List (Nat × T)) (it : LinkedSet.Iterator),
      Path h it.current l (some t) → (∀ x ∈ l, x.1 ≠ t) →
      it.expected_mod_count = s.mod_count → it.can_erase = true → k ≤ l.length →
      ∃ itk, LinkedSet.Iterator.increments h s k it = .ok itk ∧
        Path h itk.current (l.drop k) (some t) ∧ itk.expected_mod_count = s.mod_count ∧
        itk.can_erase = true ∧ itk.ref_set = it.ref_set := by
  intro k
  induction k with
  | zero => intro l it hp _ he hce _; exact ⟨it, rfl, hp, he, hce, rfl⟩
  | succ k ih =>
    intro l it hp hn he hce hk
    cases l with
    | nil => simp at hk
    | cons x l =>
      obtain ⟨hx, nx, hrx, hpx⟩ := hp
      have hxt : (some x.1 : Option Nat) ≠ s.trailer := by
        rw [ht]
        exact fun hc => hn x (List.mem_cons_self _ _) (Option.some.inj hc)
      obtain ⟨itk, e1, e2, e3, e4, e5⟩ :=
        ih l { it with current := nx } hpx (fun y hy => hn y (List.mem_cons_of_mem _ hy))
          he hce (by simpa using hk)
      refine ⟨itk, ?_, e2, e3, e4, e5⟩
      simp only [LinkedSet.Iterator.increments,
        LinkedSet.Iterator.pre_inc_step he hce hx hxt hrx]
      exact e1

/-- The for-each loop over the rest of a set chain visits its values in order. -/
theorem LinkedSet.for_each_loop_spec {this : Nat} {h : Heap T} {s : LinkedSet} {t : Nat}
    (ht : s.trailer = some t) :
    ∀ (l : List (Nat × T)) (fuel : Nat) (it : LinkedSet.Iterator) (acc : List T),
      Path h it.current l (some t) → (∀ x ∈ l, x.1 ≠ t) →
      it.expected_mod_count = s.mod_count → it.can_erase = true →
      it.ref_set = this → l.length < fuel →
      LinkedSet.for_each_loop this h s fuel it acc = .ok (acc ++ l.map Prod.snd) := by
  intro l
  induction l with
  | nil =>
    intro fuel it acc hp _ he hce hrf hfuel
    rw [Path.nil_iff] at hp
    cases fuel with
    | zero => simp at hfuel
    | succ fuel =>
      simp [LinkedSet.for_each_loop, LinkedSet.Iterator.operator_ne, LinkedSet.end_, he,
        hrf, hp, ht]
  | cons x l ih =>
    intro fuel it acc hp hn he hce hrf hfuel
    obtain ⟨hx, nx, hrx, hpx⟩ := hp
    have hxt : (some x.1 : Option Nat) ≠ s.trailer := by
      rw [ht]
      exact fun hc => hn x (List.mem_cons_self _ _) (Option.some.inj hc)
    cases fuel with
    | zero => simp at hfuel
    | succ fuel =>
      have hrec := ih fuel { it with current := nx } (acc ++ [x.2]) hpx
        (fun y hy => hn y (List.mem_cons_of_mem _ hy)) he hce hrf (by simpa using hfuel)
      simp only [LinkedSet.for_each_loop, LinkedSet.Iterator.operator_ne, LinkedSet.end_,
        he, hrf, hx, ne_eq, not_true_eq_false, if_false,
        LinkedSet.Iterator.operator_deref, hce, Heap.deref, hrx,
        LinkedSet.Iterator.pre_inc_step he hce hx hxt hrx]
      simp only [he, hrf, hce] at hrec
      have hb : ((some x.1 : Option Nat) != s.trailer) = true := by simpa using hxt
      have hb2 : ((some x.1 : Option Nat) == s.trailer) = false := by simpa using hxt
      simp only [hb, hb2, Bool.not_true, Bool.or_false, Bool.false_eq_true, if_false]
      simpa using hrec

/-- Complete traversal of a well-formed set. -/
theorem LinkedSet.traversal (this : Nat) {h : Heap T} {s : LinkedSet}
    {l : List (Nat × T)} (hw : LinkedSet.WellFormed h s l) :
    (∀ k v, (l.map Prod.snd)[k]? = some v →
      ∃ itk, LinkedSet.Iterator.increments h s k (LinkedSet.begin this s) = .ok itk ∧
        LinkedSet.Iterator.operator_deref h s itk = (.ok v, h, s, itk) ∧
        LinkedSet.Iterator.operator_ne h s itk (LinkedSet.end_ this s) =
          (.ok true, h, s, itk)) ∧
    (∃ itn, LinkedSet.Iterator.increments h s l.length (LinkedSet.begin this s) = .ok itn ∧
      LinkedSet.Iterator.operator_eq h s itn (LinkedSet.end_ this s) =
        (.ok true, h, s, itn) ∧
      LinkedSet.Iterator.operator_pre_inc h s itn = (.ok itn, h, s, itn) ∧
      ∀ j, LinkedSet.Iterator.increments h s (l.length + j) (LinkedSet.begin this s) =
        .ok itn) ∧
    LinkedSet.for_each this h s = .ok (l.map Prod.snd) := by
  have hlen := hw.length_lt
  obtain ⟨t, ht, hp, hn, _, _⟩ := hw
  refine ⟨?_, ?_, ?_⟩
  · intro k v hk
    have hlt : k < l.length := by
      have := (List.getElem?_eq_some_iff.mp hk).1
      simpa using this
    obtain ⟨itk, e1, e2, e3, e4, e5⟩ := LinkedSet.Iterator.increments_spec ht k l
      (LinkedSet.begin this s) hp hn rfl rfl (Nat.le_of_lt hlt)
    obtain ⟨x, l2, hx⟩ : ∃ x l2, l.drop k = x :: l2 := by
      cases hd : l.drop k with
      | nil =>
        have := congrArg List.length hd
        simp at this
        omega
      | cons x l2 => exact ⟨x, l2, rfl⟩
    have hxm : x ∈ l := List.mem_of_mem_drop (by rw [hx]; simp)
    rw [hx] at e2
    obtain ⟨hc, nx, hrx, _⟩ := e2
    have hv : x.2 = v := by
      have h1 : (l.drop k)[0]? = some x := by rw [hx]; simp
      rw [List.getElem?_drop, Nat.add_zero] at h1
      rw [List.getElem?_map, h1] at hk
      simpa using hk
    have hxt : x.1 ≠ t := hn x hxm
    refine ⟨itk, e1, ?_, ?_⟩
    · simp [LinkedSet.Iterator.operator_deref, e3, e4, hc, Heap.deref, hrx, hv, ht, hxt]
    · simp [LinkedSet.Iterator.operator_ne, LinkedSet.end_, e3, e5, hc, LinkedSet.begin, ht,
        hxt]
  · obtain ⟨itn, e1, e2, e3, e4, e5⟩ := LinkedSet.Iterator.increments_spec ht l.length l
      (LinkedSet.begin this s) hp hn rfl rfl (le_refl _)
    rw [List.drop_length, Path.nil_iff] at e2
    have e2t : itn.current = s.trailer := by rw [e2, ht]
    refine ⟨itn, e1, ?_, LinkedSet.Iterator.pre_inc_end e3 e2t, ?_⟩
    · simp [LinkedSet.Iterator.operator_eq, LinkedSet.end_, e3, e5, e2t, LinkedSet.begin]
    · intro j
      rw [LinkedSet.Iterator.increments_add, e1]
      exact LinkedSet.Iterator.increments_end e3 e2t j
  · exact (LinkedSet.for_each_loop_spec ht l _ (LinkedSet.begin this s) [] hp hn rfl rfl rfl
      hlen).trans (by simp)

/-- C24.  For a well-formed queue with chain `lq` and a well-formed set with
chain `ls`, neither changed meanwhile: the iterator reached from `begin()` by
`k` increments, `k` less than the number of elements, is dereferenced to the
`k`-th value of the chain (counting from zero) and `it != end()` is true for it;
the iterator reached by as many increments as there are elements satisfies
`it == end()`, a further `++it` leaves it as it is, and so does any number of
further increments; and the for-each loop returns, having visited the values
of the chain once each, in chain order. -/
theorem complete_traversal (qa sa : Nat) (hq : Heap T) (q : LinkedQueue) (lq : List (Nat × T))
    (hs : Heap T) (s : LinkedSet) (ls : List (Nat × T))
    (hwq : LinkedQueue.WellFormed hq q lq) (hws : LinkedSet.WellFormed hs s ls) :
    ((∀ k v, (lq.map Prod.snd)[k]? = some v →
        ∃ itk, LinkedQueue.Iterator.increments hq q k (LinkedQueue.begin qa q) = .ok itk ∧
          LinkedQueue.Iterator.operator_deref hq q itk = (.ok v, hq, q, itk) ∧
          LinkedQueue.Iterator.operator_ne hq q itk (LinkedQueue.end_ qa q) =
            (.ok true, hq, q, itk)) ∧
      (∃ itn, LinkedQueue.Iterator.increments hq q lq.length (LinkedQueue.begin qa q) =
          .ok itn ∧
        LinkedQueue.Iterator.operator_eq hq q itn (LinkedQueue.end_ qa q) =
          (.ok true, hq, q, itn) ∧
        LinkedQueue.Iterator.operator_pre_inc hq q itn = (.ok itn, hq, q, itn) ∧
        ∀ j, LinkedQueue.Iterator.increments hq q (lq.length + j) (LinkedQueue.begin qa q) =
          .ok itn) ∧
      LinkedQueue.for_each qa hq q = .ok (lq.map Prod.snd)) ∧
    ((∀ k v, (ls.map Prod.snd)[k]? = some v →
        ∃ itk, LinkedSet.Iterator.increments hs s k (LinkedSet.begin sa s) = .ok itk ∧
          LinkedSet.Iterator.operator_deref hs s itk = (.ok v, hs, s, itk) ∧
          LinkedSet.Iterator.operator_ne hs s itk (LinkedSet.end_ sa s) =
            (.ok true, hs, s, itk)) ∧
      (∃ itn, LinkedSet.Iterator.increments hs s ls.length (LinkedSet.begin sa s) = .ok itn ∧
        LinkedSet.Iterator.operator_eq hs s itn (LinkedSet.end_ sa s) =
          (.ok true, hs, s, itn) ∧
        LinkedSet.Iterator.operator_pre_inc hs s itn = (.ok itn, hs, s, itn) ∧
        ∀ j, LinkedSet.Iterator.increments hs s (ls.length + j) (LinkedSet.begin sa s) =
          .ok itn) ∧
      LinkedSet.for_each sa hs s = .ok (ls.map Prod.snd)) :=
  ⟨LinkedQueue.q_traversal qa hwq.1, LinkedSet.traversal sa hws⟩

/-- C24 at the queue 7, 8 and the set holding 6, 5: the for-each loops visit
7, 8 and 6, 5. -/
theorem complete_traversal_witness :
    LinkedQueue.for_each 0 (⟨[some ⟨7, some 1⟩, some ⟨8, none⟩]⟩ : Heap Nat)
        { front := some 0, rear := some 1, used := 2, mod_count := 2 } = .ok [7, 8] ∧
    LinkedSet.for_each 0 (⟨[some ⟨0, none⟩, some ⟨5, some 0⟩, some ⟨6, some 1⟩]⟩ : Heap Nat)
        { front := some 2, trailer := some 0, used := 2, mod_count := 2 } = .ok [6, 5] := by
  obtain ⟨⟨_, _, a⟩, ⟨_, _, b⟩⟩ := complete_traversal 0 0
    (⟨[some ⟨7, some 1⟩, some ⟨8, none⟩]⟩ : Heap Nat)
    { front := some 0, rear := some 1, used := 2, mod_count := 2 } [(0, 7), (1, 8)]
    (⟨[some ⟨0, none⟩, some ⟨5, some 0⟩, some ⟨6, some 1⟩]⟩ : Heap Nat)
    { front := some 2, trailer := some 0, used := 2, mod_count := 2 } [(2, 6), (1, 5)]
    ⟨⟨rfl, some 1, rfl, rfl, none, rfl, rfl⟩, rfl, by simp⟩
    ⟨0, rfl, ⟨rfl, some 1, rfl, rfl, some 0, rfl, rfl⟩, by simp, ⟨0, rfl⟩, rfl⟩
  exact ⟨a, b⟩

end Traversal

end ics
namespace ics

/-! ## C25: draining a container through an iterator -/

section Drain

variable {T : Type}

/-- Member `erase()` of an up-to-date, erasable queue iterator on the first node, with
`prev` null, of a queue that satisfies the invariant. -/
theorem LinkedQueue.q_erase_front_spec {h : Heap T} {q : LinkedQueue} {x : Nat × T}
    {l : List (Nat × T)} {it : LinkedQueue.Iterator}
    (hi : LinkedQueue.Invariant h q (x :: l)) (hc : it.current = some x.1)
    (hpv : it.prev = none) (he : it.expected_mod_count = q.mod_count)
    (hce : it.can_erase = true) :
    ∃ nx, h.read x.1 = some ⟨x.2, nx⟩ ∧
      LinkedQueue.Iterator.erase h q it =
        (.ok x.2, h.free x.1,
          LinkedQueue.mk nx (l.getLast?.map Prod.fst) (q.used - 1) (q.mod_count + 1),
          LinkedQueue.Iterator.mk none nx it.ref_queue (q.mod_count + 1) false) ∧
      LinkedQueue.Invariant (h.free x.1)
        (LinkedQueue.mk nx (l.getLast?.map Prod.fst) (q.used - 1) (q.mod_count + 1)) l := by
  have hrear := @LinkedQueue.Invariant.erase_rear T h q [] l x it hi hc (by rw [hpv]; rfl)
  obtain ⟨hp, hu, hr⟩ := id hi
  have hnd := Path.nodup hp (by simp)
  obtain ⟨hx, nx, hrx, hpx⟩ := hp
  rw [List.map_cons, List.nodup_cons] at hnd
  have hpf : Path (h.free x.1) nx l none := by
    refine Path.frame hpx (fun z hz => Heap.read_free_of_ne _ ?_)
    intro hzx
    exact hnd.1 (hzx ▸ List.mem_map_of_mem _ hz)
  refine ⟨nx, hrx, ?_, ⟨hpf, ?_, rfl⟩⟩
  · simp only [hc, hpv, List.nil_append] at hrear
    simp only [LinkedQueue.Iterator.erase, he, hce, hc, hrx, hpv, hrear, ne_eq,
      not_true_eq_false, if_false, Bool.not_true, Bool.false_eq_true]
  · show q.used - 1 = _
    rw [hu]; simp

/-- The draining loop on a queue that satisfies the invariant, entered with the
iterator on the first node, `prev` null. -/
theorem LinkedQueue.q_drain_loop_spec {this : Nat} :
    ∀ (l : List (Nat × T)) (fuel : Nat) (h : Heap T) (q : LinkedQueue)
      (it : LinkedQueue.Iterator) (acc : List T),
      LinkedQueue.Invariant h q l → it.current = q.front → it.prev = none →
      it.expected_mod_count = q.mod_count → it.ref_queue = this →
      (it.can_erase = true ∨ l = []) → l.length < fuel →
      ∃ h1 it1, LinkedQueue.drain_loop this fuel h q it acc =
          (.ok (acc ++ l.map Prod.snd), h1,
            LinkedQueue.mk none none 0 (q.mod_count + l.length), it1) ∧
        h1.cells.length = h.cells.length ∧ (∀ x ∈ l, h1.read x.1 = none) ∧
        (∀ a, (∀ y ∈ l, y.1 ≠ a) → h1.read a = h.read a) := by
  intro l
  induction l with
  | nil =>
    intro fuel h q it acc hi hc _ he hrf _ hfuel
    obtain ⟨hp, hu, hr⟩ := hi
    rw [Path.nil_iff] at hp
    have hq : q = LinkedQueue.mk none none 0 (q.mod_count + ([] : List (Nat × T)).length) := by
      cases q
      simp only [List.length_nil, Nat.cast_zero, add_zero, LinkedQueue.mk.injEq, and_true]
      exact ⟨hp, hr, hu⟩
    cases fuel with
    | zero => simp at hfuel
    | succ fuel =>
      refine ⟨h, it, ?_, rfl, by simp, fun _ _ => rfl⟩
      rw [hp] at hc
      simp only [LinkedQueue.drain_loop, LinkedQueue.Iterator.operator_ne, LinkedQueue.end_,
        he, hrf, hc, ne_eq, not_true_eq_false, if_false, bne_self_eq_false, List.map_nil,
        List.append_nil]
      rw [← hq]
  | cons x l ih =>
    intro fuel h q it acc hi hc hpv he hrf hce hfuel
    have hce1 : it.can_erase = true := by
      rcases hce with hce | hce
      · exact hce
      · cases hce
    have hfx : q.front = some x.1 := hi.1.1
    rw [hfx] at hc
    obtain ⟨nx, hrx, heq, hi1⟩ := LinkedQueue.q_erase_front_spec hi hc hpv he hce1
    cases fuel with
    | zero => simp at hfuel
    | succ fuel =>
      have hinc : ∃ it2, LinkedQueue.Iterator.operator_pre_inc (h.free x.1)
            (LinkedQueue.mk nx (l.getLast?.map Prod.fst) (q.used - 1) (q.mod_count + 1))
            (LinkedQueue.Iterator.mk none nx it.ref_queue (q.mod_count + 1) false) =
            (.ok it2, h.free x.1,
              LinkedQueue.mk nx (l.getLast?.map Prod.fst) (q.used - 1) (q.mod_count + 1), it2) ∧
          it2.current = nx ∧ it2.prev = none ∧ it2.expected_mod_count = q.mod_count + 1 ∧
          it2.ref_queue = it.ref_queue ∧ (it2.can_erase = true ∨ l = []) := by
        cases hnx : nx with
        | none =>
          have hl : l = [] := by
            rw [hnx] at hi1
            exact hi1.wellFormed.front_eq_none_iff.mp rfl
          exact ⟨LinkedQueue.Iterator.mk none none it.ref_queue (q.mod_count + 1) false,
            by simp [LinkedQueue.Iterator.operator_pre_inc], rfl, rfl, rfl, rfl, Or.inr hl⟩
        | some c =>
          exact ⟨LinkedQueue.Iterator.mk none (some c) it.ref_queue (q.mod_count + 1) true,
            by simp [LinkedQueue.Iterator.operator_pre_inc, LinkedQueue.Iterator.advance],
            rfl, rfl, rfl, rfl, Or.inl rfl⟩
      obtain ⟨it2, hinc, h2c, h2p, h2e, h2r, h2ce⟩ := hinc
      obtain ⟨h1, it1, e1, e2, e3, e4⟩ := ih fuel (h.free x.1)
        (LinkedQueue.mk nx (l.getLast?.map Prod.fst) (q.used - 1) (q.mod_count + 1)) it2
        (acc ++ [x.2]) hi1 h2c h2p h2e (h2r.trans hrf) h2ce (by simpa using hfuel)
      have hnd := Path.nodup hi.1 (by simp)
      rw [List.map_cons, List.nodup_cons] at hnd
      have hxl : ∀ y ∈ l, y.1 ≠ x.1 := fun y hy hyx =>
        hnd.1 (hyx ▸ List.mem_map_of_mem _ hy)
      refine ⟨h1, it1, ?_, by rw [e2]; simp, ?_, ?_⟩
      · rw [hrf] at heq hinc
        have hb : ((some x.1 : Option Nat) != none) = true := by simp
        simp only [LinkedQueue.drain_loop, LinkedQueue.Iterator.operator_ne, LinkedQueue.end_,
          he, hrf, hc, ne_eq, not_true_eq_false, if_false, heq, hinc, e1, hb]
        simp only [List.length_cons, Nat.cast_add, Nat.cast_one, List.map_cons,
          List.append_assoc, List.singleton_append, Prod.mk.injEq, LinkedQueue.mk.injEq,
          true_and, and_true]
        ring
      · intro y hy
        rcases List.mem_cons.mp hy with rfl | hy
        · rw [e4 y.1 hxl]
          exact Heap.read_free_self _ _
        · exact e3 y hy
      · intro a ha
        rw [e4 a (fun y hy => ha y (List.mem_cons_of_mem _ hy))]
        exact Heap.read_free_of_ne _ (Ne.symm (ha x (List.mem_cons_self _ _)))

/-- Member `erase()` of an up-to-date, erasable set iterator on the first node of a
well-formed set. -/
theorem LinkedSet.erase_front_spec {h : Heap T} {s : LinkedSet} {x : Nat × T}
    {l : List (Nat × T)} {it : LinkedSet.Iterator}
    (hw : LinkedSet.WellFormed h s (x :: l)) (hc : it.current = some x.1)
    (he : it.expected_mod_count = s.mod_count) (hce : it.can_erase = true) :
    ∃ h1 s1, LinkedSet.Iterator.erase h s it =
        (.ok x.2, h1, s1, LinkedSet.Iterator.mk (some x.1) it.ref_set s1.mod_count false) ∧
      LinkedSet.WellFormed h1 s1 (LinkedSet.absorb x.1 l) ∧
      s1.mod_count = s.mod_count + 1 ∧ s1.front = s.front ∧
      s1.trailer = (if l.isEmpty then some x.1 else s.trailer) ∧
      h1.cells.length = h.cells.length := by
  obtain ⟨h1, s1, hea, hw1, hmc, _, hfr, hlen, htr, _⟩ :=
    @LinkedSet.erase_at_spec T h s [] l x hw
  obtain ⟨t, hts, hp, hn, _, _⟩ := id hw
  obtain ⟨_, nx, hrx, _⟩ := hp
  have hxt : (some x.1 : Option Nat) ≠ s.trailer := by
    rw [hts]
    exact fun hc2 => hn x (List.mem_cons_self _ _) (Option.some.inj hc2)
  refine ⟨h1, s1, ?_, hw1, hmc, hfr, htr, hlen⟩
  simp only [LinkedSet.Iterator.erase, he, ne_eq, not_true_eq_false, if_false, hce,
    Bool.not_true, Bool.false_eq_true, hc, hxt, hrx, hea]

/-- The draining loop on a well-formed set, entered with the iterator on the
first node (on the trailer when the set is empty). -/
theorem LinkedSet.drain_loop_spec {this : Nat} :
    ∀ (n : Nat) (l : List (Nat × T)) (fuel : Nat) (h : Heap T) (s : LinkedSet)
      (it : LinkedSet.Iterator) (acc : List T),
      l.length = n → LinkedSet.WellFormed h s l → it.current = s.front →
      it.expected_mod_count = s.mod_count → it.ref_set = this →
      (it.can_erase = true ∨ l = []) → n < fuel →
      ∃ h1 s1 it1, LinkedSet.drain_loop this fuel h s it acc =
          (.ok (acc ++ l.map Prod.snd), h1, s1, it1) ∧
        LinkedSet.WellFormed h1 s1 [] ∧ s1.mod_count = s.mod_count + n ∧
        h1.cells.length = h.cells.length := by
  intro n
  induction n with
  | zero =>
    intro l fuel h s it acc hl hw hc he hrf _ hfuel
    have hl0 : l = [] := List.length_eq_zero.mp hl
    subst hl0
    obtain ⟨t, hts, hp, _, _, _⟩ := id hw
    rw [Path.nil_iff] at hp
    cases fuel with
    | zero => simp at hfuel
    | succ fuel =>
      refine ⟨h, s, it, ?_, hw, by simp, rfl⟩
      simp [LinkedSet.drain_loop, LinkedSet.Iterator.operator_ne, LinkedSet.end_, he, hrf, hc,
        hp, hts]
  | succ n ih =>
    intro l fuel h s it acc hl hw hc he hrf hce hfuel
    cases l with
    | nil => simp at hl
    | cons x l =>
      have hce1 : it.can_erase = true := by
        rcases hce with hce | hce
        · exact hce
        · cases hce
      obtain ⟨t, hts, hp, hn, _, _⟩ := id hw
      have hfx : s.front = some x.1 := hp.1
      rw [hfx] at hc
      have hxt : x.1 ≠ t := hn x (List.mem_cons_self _ _)
      obtain ⟨h1, s1, heq, hw1, hmc, hfr, htr, hlen⟩ := LinkedSet.erase_front_spec hw hc he hce1
      cases fuel with
      | zero => simp at hfuel
      | succ fuel =>
        have hinc : ∃ it2, LinkedSet.Iterator.operator_pre_inc h1 s1
              (LinkedSet.Iterator.mk (some x.1) it.ref_set s1.mod_count false) =
              (.ok it2, h1, s1, it2) ∧
            it2.current = s1.front ∧ it2.expected_mod_count = s1.mod_count ∧
            it2.ref_set = it.ref_set ∧
            (it2.can_erase = true ∨ LinkedSet.absorb x.1 l = []) := by
          cases l with
          | nil =>
            simp only [List.isEmpty_nil, if_true] at htr
            exact ⟨LinkedSet.Iterator.mk (some x.1) it.ref_set s1.mod_count false,
              by simp [LinkedSet.Iterator.operator_pre_inc, htr], by rw [hfr, hfx], rfl, rfl,
              Or.inr rfl⟩
          | cons y l =>
            simp only [List.isEmpty_cons, Bool.false_eq_true, if_false] at htr
            have hne : ¬ (some x.1 : Option Nat) = s1.trailer := by
              rw [htr, hts]
              exact fun hc2 => hxt (Option.some.inj hc2)
            exact ⟨LinkedSet.Iterator.mk (some x.1) it.ref_set s1.mod_count true,
              by simp [LinkedSet.Iterator.operator_pre_inc, LinkedSet.Iterator.advance, hne],
              by rw [hfr, hfx], rfl, rfl, Or.inl rfl⟩
        obtain ⟨it2, hinc, h2c, h2e, h2r, h2ce⟩ := hinc
        obtain ⟨h3, s3, it3, e1, e2, e3, e4⟩ := ih (LinkedSet.absorb x.1 l) fuel h1 s1 it2
          (acc ++ [x.2]) (by simpa using hl) hw1 h2c h2e (h2r.trans hrf) h2ce
          (by omega)
        refine ⟨h3, s3, it3, ?_, e2, ?_, by rw [e4, hlen]⟩
        · rw [hrf] at heq hinc
          have hb : ((some x.1 : Option Nat) != s.trailer) = true := by
            rw [hts]
            simpa using hxt
          simp only [LinkedSet.drain_loop, LinkedSet.Iterator.operator_ne, LinkedSet.end_,
            he, hrf, hc, ne_eq, not_true_eq_false, if_false, heq, hinc, e1, hb]
          simp
        · rw [e3, hmc]
          push_cast
          ring

/-- C25.  For a queue that satisfies the invariant with chain `lq` and a
well-formed set with chain `ls`, the loop
`for (it = begin(); it != end(); ++it) it.erase();` returns without an error;
the calls of `erase()` returned the values of the chain in chain order, once
each; afterwards `size()` is 0, for the queue `front` and `rear` are null, and
for the set `front` is the trailer, whose `next` is null. -/
theorem drain_correct (qa sa : Nat) (hq : Heap T) (q : LinkedQueue) (lq : List (Nat × T))
    (hs : Heap T) (s : LinkedSet) (ls : List (Nat × T))
    (hiq : LinkedQueue.Invariant hq q lq) (hws : LinkedSet.WellFormed hs s ls) :
    (∃ h1 q1 it1, LinkedQueue.drain qa hq q = (.ok (lq.map Prod.snd), h1, q1, it1) ∧
      q1.size = 0 ∧ q1.front = none ∧ q1.rear = none ∧
      q1.mod_count = q.mod_count + lq.length ∧ (∀ x ∈ lq, h1.read x.1 = none)) ∧
    (∃ h1 s1 it1, LinkedSet.drain sa hs s = (.ok (ls.map Prod.snd), h1, s1, it1) ∧
      s1.size = 0 ∧ s1.front = s1.trailer ∧
      (∃ t v, s1.trailer = some t ∧ h1.read t = some ⟨v, none⟩) ∧
      s1.mod_count = s.mod_count + ls.length) := by
  constructor
  · obtain ⟨h1, it1, e1, _, e3, _⟩ := @LinkedQueue.q_drain_loop_spec T qa lq (hq.cells.length + 1) hq q
      (LinkedQueue.begin qa q) [] hiq rfl rfl rfl rfl (Or.inl rfl)
      (Nat.lt_succ_of_le (Path.length_le hiq.1 (by simp)))
    refine ⟨h1, LinkedQueue.mk none none 0 (q.mod_count + lq.length), it1, ?_, rfl, rfl, rfl,
      rfl, e3⟩
    rw [LinkedQueue.drain, e1]
    simp
  · obtain ⟨h1, s1, it1, e1, e2, e3, _⟩ := @LinkedSet.drain_loop_spec T sa ls.length ls
      (hs.cells.length + 1) hs s (LinkedSet.begin sa s) [] rfl hws rfl rfl rfl (Or.inl rfl)
      hws.length_lt
    obtain ⟨t, hts, hp, _, ⟨v, hv⟩, hu⟩ := e2
    rw [Path.nil_iff] at hp
    refine ⟨h1, s1, it1, ?_, ?_, by rw [hp, hts], ⟨t, v, hts, hv⟩, e3⟩
    · rw [LinkedSet.drain, e1]
      simp
    · rw [LinkedSet.size, hu]
      rfl

/-- C25 at the queue 7, 8 and the set holding 6, 5: draining returns 7, 8 and
6, 5 and leaves both empty. -/
theorem drain_correct_witness :
    (∃ h1 q1 it1, LinkedQueue.drain 0 (⟨[some ⟨7, some 1⟩, some ⟨8, none⟩]⟩ : Heap Nat)
        { front := some 0, rear := some 1, used := 2, mod_count := 2 } =
        (.ok [7, 8], h1, q1, it1) ∧
      q1.size = 0 ∧ q1.front = none ∧ q1.rear = none) ∧
    (∃ h1 s1 it1, LinkedSet.drain 0
        (⟨[some ⟨0, none⟩, some ⟨5, some 0⟩, some ⟨6, some 1⟩]⟩ : Heap Nat)
        { front := some 2, trailer := some 0, used := 2, mod_count := 2 } =
        (.ok [6, 5], h1, s1, it1) ∧
      s1.size = 0 ∧ s1.front = s1.trailer) := by
  obtain ⟨⟨h1, q1, it1, a1, a2, a3, a4, _⟩, ⟨h2, s1, it2, b1, b2, b3, _⟩⟩ := drain_correct 0 0
    (⟨[some ⟨7, some 1⟩, some ⟨8, none⟩]⟩ : Heap Nat)
    { front := some 0, rear := some 1, used := 2, mod_count := 2 } [(0, 7), (1, 8)]
    (⟨[some ⟨0, none⟩, some ⟨5, some 0⟩, some ⟨6, some 1⟩]⟩ : Heap Nat)
    { front := some 2, trailer := some 0, used := 2, mod_count := 2 } [(2, 6), (1, 5)]
    ⟨⟨rfl, some 1, rfl, rfl, none, rfl, rfl⟩, rfl, rfl⟩
    ⟨0, rfl, ⟨rfl, some 1, rfl, rfl, some 0, rfl, rfl⟩, by simp, ⟨0, rfl⟩, rfl⟩
  exact ⟨⟨h1, q1, it1, a1, a2, a3, a4⟩, ⟨h2, s1, it2, b1, b2, b3⟩⟩

end Drain

end ics
namespace ics

/-! ## C27: `merge` -/

section Merge

variable {T : Type}

theorem arr_get_of_eq {a A B : List T} {x : T} {i : Int} (ha : a = A ++ x :: B)
    (hi : i = A.length) : arr_get a i = some x := by
  subst ha hi
  unfold arr_get
  rw [if_pos (by omega), Int.toNat_ofNat, List.getElem?_append_right (le_refl _)]
  simp

theorem arr_set_of_eq {a A B : List T} {x : T} {i : Int} (v : T) (ha : a = A ++ x :: B)
    (hi : i = A.length) : arr_set a i v = some (A ++ v :: B) := by
  subst ha hi
  unfold arr_set
  rw [if_pos (by simp), Int.toNat_ofNat, List.set_append]
  simp

/-- The first loop of `merge` with the parts `L2` and `R2` of the two runs still to be
read: it appends their merge to `temp`. -/
theorem merge_fill_spec (le : T → T → Bool) (a pre post : List T) (lh rh : Int) :
    ∀ (n : Nat) (L1 L2 R1 R2 temp : List T) (left right : Int),
      a = pre ++ L1 ++ L2 ++ R1 ++ R2 ++ post →
      lh = ((pre.length + L1.length + L2.length : Nat) : Int) - 1 →
      rh = ((pre.length + L1.length + L2.length + R1.length + R2.length : Nat) : Int) - 1 →
      left = ((pre.length + L1.length : Nat) : Int) →
      right = ((pre.length + L1.length + L2.length + R1.length : Nat) : Int) →
      n = L2.length + R2.length →
      merge_fill le a lh rh n left right temp = some (temp ++ List.merge L2 R2 le) := by
  intro n
  induction n with
  | zero =>
    intro L1 L2 R1 R2 temp left right _ _ _ _ _ hn
    have h2 : L2 = [] := List.length_eq_zero.mp (by omega)
    have h3 : R2 = [] := List.length_eq_zero.mp (by omega)
    subst h2 h3
    simp [merge_fill]
  | succ n ih =>
    intro L1 L2 R1 R2 temp left right ha hlh hrh hl hr hn
    cases L2 with
    | nil =>
      cases R2 with
      | nil => simp at hn
      | cons y R2 =>
        have hgt : left > lh := by
          simp only [List.length_cons, List.length_nil] at *
          omega
        have hy : arr_get a right = some y :=
          arr_get_of_eq (A := pre ++ L1 ++ [] ++ R1) (B := R2 ++ post)
            (by rw [ha]; simp) (by
            simp only [List.length_append, List.length_cons, List.length_singleton,
              List.length_nil] at *
            omega)
        have hrec := ih L1 [] (R1 ++ [y]) R2 (temp ++ [y]) left (right + 1)
          (by rw [ha]; simp) (by
            simp only [List.length_append, List.length_cons, List.length_singleton,
              List.length_nil] at *
            omega) (by
            simp only [List.length_append, List.length_cons, List.length_singleton,
              List.length_nil] at *
            omega) hl
          (by
            simp only [List.length_append, List.length_cons, List.length_singleton,
              List.length_nil] at *
            omega) (by
            simp only [List.length_append, List.length_cons, List.length_singleton,
              List.length_nil] at *
            omega)
        simp only [merge_fill, hgt, if_true, hy, hrec]
        simp
    | cons x L2 =>
      have hngt : ¬ left > lh := by
        simp only [List.length_cons] at *
        omega
      have hx : arr_get a left = some x :=
        arr_get_of_eq (A := pre ++ L1) (B := L2 ++ R1 ++ R2 ++ post)
          (by rw [ha]; simp) (by
            simp only [List.length_append, List.length_cons, List.length_singleton,
              List.length_nil] at *
            omega)
      cases R2 with
      | nil =>
        have hgt : right > rh := by
          simp only [List.length_cons, List.length_nil] at *
          omega
        have hrec := ih (L1 ++ [x]) L2 R1 [] (temp ++ [x]) (left + 1) right
          (by rw [ha]; simp) (by
            simp only [List.length_append, List.length_cons, List.length_singleton,
              List.length_nil] at *
            omega) (by
            simp only [List.length_append, List.length_cons, List.length_singleton,
              List.length_nil] at *
            omega)
          (by
            simp only [List.length_append, List.length_cons, List.length_singleton,
              List.length_nil] at *
            omega) (by
            simp only [List.length_append, List.length_cons, List.length_singleton,
              List.length_nil] at *
            omega) (by
            simp only [List.length_append, List.length_cons, List.length_singleton,
              List.length_nil] at *
            omega)
        simp only [merge_fill, hngt, if_false, hgt, if_true, hx, hrec]
        simp
      | cons y R2 =>
        have hngt2 : ¬ right > rh := by
          simp only [List.length_cons] at *
          omega
        have hy : arr_get a right = some y :=
          arr_get_of_eq (A := pre ++ L1 ++ (x :: L2) ++ R1) (B := R2 ++ post)
            (by rw [ha]; simp) (by
            simp only [List.length_append, List.length_cons, List.length_singleton,
              List.length_nil] at *
            omega)
        by_cases hle : le x y = true
        · have hrec := ih (L1 ++ [x]) L2 R1 (y :: R2) (temp ++ [x]) (left + 1) right
            (by rw [ha]; simp) (by
            simp only [List.length_append, List.length_cons, List.length_singleton,
              List.length_nil] at *
            omega) (by
            simp only [List.length_append, List.length_cons, List.length_singleton,
              List.length_nil] at *
            omega)
            (by
            simp only [List.length_append, List.length_cons, List.length_singleton,
              List.length_nil] at *
            omega) (by
            simp only [List.length_append, List.length_cons, List.length_singleton,
              List.length_nil] at *
            omega)
            (by
            simp only [List.length_append, List.length_cons, List.length_singleton,
              List.length_nil] at *
            omega)
          simp only [merge_fill, hngt, if_false, hngt2, hx, hy, hle, if_true, hrec,
            List.cons_merge_cons_pos le L2 R2 hle]
          simp
        · have hrec := ih L1 (x :: L2) (R1 ++ [y]) R2 (temp ++ [y]) left (right + 1)
            (by rw [ha]; simp) (by
            simp only [List.length_append, List.length_cons, List.length_singleton,
              List.length_nil] at *
            omega) (by
            simp only [List.length_append, List.length_cons, List.length_singleton,
              List.length_nil] at *
            omega) hl
            (by
            simp only [List.length_append, List.length_cons, List.length_singleton,
              List.length_nil] at *
            omega)
            (by
            simp only [List.length_append, List.length_cons, List.length_singleton,
              List.length_nil] at *
            omega)
          simp only [merge_fill, hngt, if_false, hngt2, hx, hy, hle, hrec,
            List.cons_merge_cons_neg le L2 R2 hle]
          simp

/-- The second loop of `merge`: it overwrites the cells from `left_low` on with
`temp`. -/
theorem merge_copy_spec (post : List T) :
    ∀ (temp old pre : List T) (left_low : Int), old.length = temp.length →
      left_low = (pre.length : Int) →
      merge_copy (pre ++ old ++ post) left_low temp = some (pre ++ temp ++ post) := by
  intro temp
  induction temp with
  | nil =>
    intro old pre left_low ho _
    have : old = [] := List.length_eq_zero.mp ho
    subst this
    simp [merge_copy]
  | cons v temp ih =>
    intro old pre left_low ho hl
    cases old with
    | nil => simp at ho
    | cons o old =>
      have hs : arr_set (pre ++ (o :: old) ++ post) left_low v =
          some (pre ++ v :: (old ++ post)) :=
        arr_set_of_eq (A := pre) (B := old ++ post) (x := o) v (by simp) hl
      have hrec := ih old (pre ++ [v]) (left_low + 1) (by simpa using ho) (by
            simp only [List.length_append, List.length_cons, List.length_singleton,
              List.length_nil] at *
            omega)
      simp only [merge_copy, hs]
      simpa using hrec

/-- Function `merge` on an array split as `pre`, left run `L`, right run `R`,
`post`: the two runs are replaced by their merge. -/
theorem merge_spec (le : T → T → Bool) (pre L R post : List T) :
    merge le (pre ++ L ++ R ++ post) pre.length
        (((pre.length + L.length : Nat) : Int) - 1)
        ((pre.length + L.length : Nat) : Int)
        (((pre.length + L.length + R.length : Nat) : Int) - 1) =
      some (pre ++ List.merge L R le ++ post) := by
  have hfill := merge_fill_spec le (pre ++ L ++ R ++ post) pre post
    (((pre.length + L.length : Nat) : Int) - 1)
    (((pre.length + L.length + R.length : Nat) : Int) - 1)
    (L.length + R.length) [] L [] R [] pre.length ((pre.length + L.length : Nat) : Int)
    (by simp) (by simp) (by simp) (by simp) (by simp) rfl
  have hn : (((pre.length + L.length + R.length : Nat) : Int) - 1 - (pre.length : Int) + 1).toNat
      = L.length + R.length := by omega
  have hcopy := merge_copy_spec post (List.merge L R le) (L ++ R) pre pre.length
    (by simp) rfl
  simp only [List.append_assoc] at hcopy hfill ⊢
  simp only [merge, hn]
  simp only [List.length_nil, Nat.add_zero, List.nil_append, Nat.cast_add] at hfill
  simp only [Nat.cast_add, hfill, hcopy]

/-- The middle part of an array, taken by its two indices. -/
theorem slice_mid (A M B : List T) (lo hi : Int) (hlo : lo = (A.length : Int))
    (hhi : hi = ((A.length + M.length : Nat) : Int) - 1) : slice (A ++ M ++ B) lo hi = M := by
  subst hlo hhi
  have h1 : (((A.length + M.length : Nat) : Int) - 1 + 1 - (A.length : Int)).toNat = M.length := by
    omega
  unfold slice
  rw [h1, Int.toNat_ofNat, List.append_assoc, List.drop_left, List.take_left]

/-- Cells outside the middle part do not depend on it. -/
theorem arr_get_outside (A M N B : List T) (hl : M.length = N.length) (i : Int)
    (hi : i < (A.length : Int) ∨ ((A.length + M.length : Nat) : Int) ≤ i) :
    arr_get (A ++ M ++ B) i = arr_get (A ++ N ++ B) i := by
  unfold arr_get
  by_cases h0 : 0 ≤ i
  · rw [if_pos h0, if_pos h0]
    rcases hi with hi | hi
    · have hlt : i.toNat < A.length := by omega
      rw [List.append_assoc, List.append_assoc, List.getElem?_append_left hlt,
        List.getElem?_append_left hlt]
    · have hge : A.length + M.length ≤ i.toNat := by omega
      rw [List.getElem?_append_right (by simp; omega),
        List.getElem?_append_right (by simp; omega)]
      simp [hl]
  · rw [if_neg h0, if_neg h0]

/-- In the merge of a sorted left run with a right run, the members of a class
of mutually ordered values are those of the left run, in their order, followed
by those of the right run, in their order. -/
theorem merge_filter_stable (le : T → T → Bool)
    (htrans : ∀ x y z, le x y = true → le y z = true → le x z = true) (p : T → Bool) :
    ∀ (L R : List T), L.Pairwise (fun x y => le x y = true) →
      (∀ x ∈ L, ∀ y ∈ R, p x = true → p y = true → le x y = true) →
      (List.merge L R le).filter p = L.filter p ++ R.filter p := by
  intro L
  induction L with
  | nil => intro R _ _; simp
  | cons x L ihL =>
    intro R
    induction R with
    | nil => intro _ _; simp
    | cons y R ihR =>
      intro hs hp
      by_cases hle : le x y = true
      · rw [List.cons_merge_cons_pos le L R hle, List.filter_cons, List.filter_cons,
          ihL (y :: R) hs.tail (fun a ha b hb => hp a (List.mem_cons_of_mem _ ha) b hb)]
        split <;> simp
      · rw [List.cons_merge_cons_neg le L R hle, List.filter_cons,
          ihR hs (fun a ha b hb => hp a ha b (List.mem_cons_of_mem _ hb))]
        by_cases hpy : p y = true
        · have hnone : (x :: L).filter p = [] := by
            rw [List.filter_eq_nil_iff]
            intro z hz hpz
            rcases List.mem_cons.mp hz with rfl | hz
            · exact hle (hp z (List.mem_cons_self _ _) y (List.mem_cons_self _ _) hpz hpy)
            · exact hle (htrans x z y (List.rel_of_pairwise_cons hs hz)
                (hp z (List.mem_cons_of_mem _ hz) y (List.mem_cons_self _ _) hpz hpy))
          simp [hpy, hnone]
        · simp [hpy]

/-- C27.  For an array `a` and indices inside it with `left_low <= left_high`,
`right_low == left_high + 1` and `right_low <= right_high`, the order
`operator <=` being transitive and total: if `a[left_low..left_high]` and
`a[right_low..right_high]` are each sorted, `merge` returns, the array keeps its
length, `a[left_low..right_high]` is afterwards sorted and a permutation of what it
was, every cell outside that range is unchanged, and the merge is stable: for
every class of values that are mutually `<=`, its members in the merged range
are those of the left run, in their order, followed by those of the right
run, in their order. -/
theorem merge_correct (le : T → T → Bool) (a : List T)
    (left_low left_high right_low right_high : Int)
    (htrans : ∀ x y z, le x y = true → le y z = true → le x z = true)
    (htotal : ∀ x y, le x y = true ∨ le y x = true)
    (h0 : 0 ≤ left_low) (h1 : left_low ≤ left_high) (h2 : right_low = left_high + 1)
    (h3 : right_low ≤ right_high) (h4 : right_high < a.length)
    (hL : (slice a left_low left_high).Pairwise (fun x y => le x y = true))
    (hR : (slice a right_low right_high).Pairwise (fun x y => le x y = true)) :
    ∃ a1, merge le a left_low left_high right_low right_high = some a1 ∧
      a1.length = a.length ∧
      (slice a1 left_low right_high).Pairwise (fun x y => le x y = true) ∧
      (slice a1 left_low right_high).Perm (slice a left_low right_high) ∧
      (∀ i : Int, (i < left_low ∨ right_high < i) → arr_get a1 i = arr_get a i) ∧
      (∀ p : T → Bool, (∀ x y, p x = true → p y = true → le x y = true) →
        (slice a1 left_low right_high).filter p =
          (slice a left_low left_high).filter p ++ (slice a right_low right_high).filter p) := by
  obtain ⟨pre, L, R, post, ha, hpre, hlen1, hlen2⟩ :
      ∃ pre L R post : List T, a = pre ++ L ++ R ++ post ∧ (pre.length : Int) = left_low ∧
        ((pre.length + L.length : Nat) : Int) = right_low ∧
        ((pre.length + L.length + R.length : Nat) : Int) = right_high + 1 := by
    refine ⟨a.take left_low.toNat, (a.drop left_low.toNat).take (right_low - left_low).toNat,
      (a.drop right_low.toNat).take (right_high + 1 - right_low).toNat,
      a.drop (right_high + 1).toNat, ?_, ?_, ?_, ?_⟩
    · have e1 : right_low.toNat = left_low.toNat + (right_low - left_low).toNat := by omega
      have e2 : (right_high + 1).toNat = right_low.toNat + (right_high + 1 - right_low).toNat := by
        omega
      rw [e2, ← List.drop_drop, List.append_assoc, List.take_append_drop, e1, ← List.drop_drop,
        List.append_assoc, List.take_append_drop, List.take_append_drop]
    · simp only [List.length_take]
      omega
    · simp only [List.length_take, List.length_drop]
      omega
    · simp only [List.length_take, List.length_drop]
      omega
  have hsL : slice a left_low left_high = L := by
    rw [ha, List.append_assoc (pre ++ L)]
    exact slice_mid pre L (R ++ post) left_low left_high hpre.symm (by omega)
  have hsR : slice a right_low right_high = R := by
    rw [ha]
    exact slice_mid (pre ++ L) R post right_low right_high
      (by rw [List.length_append]; omega) (by rw [List.length_append]; omega)
  have hsLR : slice a left_low right_high = L ++ R := by
    rw [ha, List.append_assoc pre L R]
    exact slice_mid pre (L ++ R) post left_low right_high hpre.symm
      (by rw [List.length_append]; omega)
  rw [hsL] at hL
  rw [hsR] at hR
  have hm := merge_spec le pre L R post
  rw [← ha, hpre, hlen1, hlen2] at hm
  have hidx : right_high + 1 - 1 = right_high := by omega
  have hidx2 : right_low - 1 = left_high := by omega
  rw [hidx, hidx2] at hm
  have hs1 : slice (pre ++ List.merge L R le ++ post) left_low right_high = List.merge L R le :=
    slice_mid pre (List.merge L R le) post left_low right_high hpre.symm
      (by rw [List.length_merge]; omega)
  refine ⟨pre ++ List.merge L R le ++ post, hm, ?_, ?_, ?_, ?_, ?_⟩
  · rw [ha]
    simp only [List.length_append, List.length_merge]
    omega
  · rw [hs1]
    exact @List.sorted_merge T le (fun x y z hxy hyz => htrans x y z hxy hyz)
      (fun x y => by
        rcases htotal x y with h | h
        · simp [h]
        · simp [h])
      L R hL hR
  · rw [hs1, hsLR]
    exact List.merge_perm_append le
  · intro i hi
    rw [ha, List.append_assoc pre L R]
    refine arr_get_outside pre (List.merge L R le) (L ++ R) post (by simp) i ?_
    rw [List.length_merge]
    omega
  · intro p hp
    rw [hs1, hsL, hsR]
    exact merge_filter_stable le htrans p L R hL (fun x _ y _ hx hy => hp x y hx hy)

/-- C27 at the array 9, 1, 4, 7, 2, 3, 8, 0 with the runs `a[1..3]` and
`a[4..6]`: the result is 9, 1, 2, 3, 4, 7, 8, 0. -/
theorem merge_correct_witness :
    ∃ a1, merge (fun x y : Int => decide (x ≤ y)) [9, 1, 4, 7, 2, 3, 8, 0] 1 3 4 6 = some a1 ∧
      a1.length = ([9, 1, 4, 7, 2, 3, 8, 0] : List Int).length ∧
      (slice a1 1 6).Pairwise (fun x y => decide (x ≤ y) = true) ∧
      (slice a1 1 6).Perm (slice [9, 1, 4, 7, 2, 3, 8, 0] 1 6) := by
  obtain ⟨a1, e1, e2, e3, e4, _⟩ := merge_correct (fun x y : Int => decide (x ≤ y))
    [9, 1, 4, 7, 2, 3, 8, 0] 1 3 4 6
    (fun x y z hxy hyz => by
      simp only [decide_eq_true_eq] at *
      omega)
    (fun x y => by
      simp only [decide_eq_true_eq]
      omega)
    (by decide) (by decide) (by decide) (by decide) (by decide)
    (by simp [slice]) (by simp [slice])
  exact ⟨a1, e1, e2, e3, e4⟩

end Merge

end ics
namespace ics

/-! ## C28: `select_digit` and `radix_sort` -/

section Radix

/-- Function `select_digit` on a non-negative number and a positive place gives a digit. -/
theorem select_digit_range {x place : Int} (hx : 0 ≤ x) (hp : 0 < place) :
    select_digit x place = x / place % 10 ∧
      0 ≤ select_digit x place ∧ select_digit x place ≤ 9 := by
  unfold select_digit
  rw [Int.tdiv_eq_ediv hx (le_of_lt hp),
    Int.tmod_eq_emod (Int.ediv_nonneg hx (le_of_lt hp)) (by decide)]
  refine ⟨rfl, Int.emod_nonneg _ (by decide), ?_⟩
  have := Int.emod_lt_of_pos (x / place) (show (0 : Int) < 10 by decide)
  omega

theorem buckets_of_congr {f g : Nat → List Int} (h : ∀ d, d < 10 → f d = g d) :
    buckets_of f = buckets_of g := by
  unfold buckets_of
  apply List.map_congr_left
  intro d hd
  rw [h d (List.mem_range.mp hd)]

theorem arr_get_buckets_of (f : Nat → List Int) (k : Nat) (hk : k < 10) :
    arr_get (buckets_of f) (k : Int) = some { items := f k } := by
  unfold arr_get buckets_of
  rw [if_pos (by omega), Int.toNat_ofNat]
  simp [hk]

theorem arr_set_buckets_of (f : Nat → List Int) (k : Nat) (hk : k < 10) (q : ArrayQueue) :
    arr_set (buckets_of f) (k : Int) q = some (buckets_of (Function.update f k q.items)) := by
  unfold arr_set
  rw [if_pos (by simp [buckets_of]; omega), Int.toNat_ofNat]
  congr 1
  apply List.ext_getElem?
  intro i
  simp only [buckets_of, List.getElem?_set, List.getElem?_map, List.length_map,
    List.length_range]
  by_cases hi : k = i
  · subst hi
    simp [hk]
  · simp only [hi, if_false]
    by_cases hi2 : i < 10
    · simp [List.getElem?_range hi2, Function.update_noteq (Ne.symm hi)]
    · simp [List.getElem?_eq_none (show (List.range 10).length ≤ i by simp; omega)]

/-- The distribution loop over the values `rest` still to be read: each is
appended to the bucket of its digit. -/
theorem radix_distribute_spec (a : List Int) (place : Int) :
    ∀ (rest done : List Int) (f : Nat → List Int) (n : Nat) (i : Int),
      a = done ++ rest → i = (done.length : Int) → n = rest.length →
      (∀ x ∈ rest, 0 ≤ select_digit x place ∧ select_digit x place ≤ 9) →
      radix_distribute a place n i (buckets_of f) =
        some (buckets_of (fun d =>
          f d ++ rest.filter (fun x => decide (select_digit x place = (d : Int))))) := by
  intro rest
  induction rest with
  | nil =>
    intro done f n i _ _ hn _
    subst hn
    simp [radix_distribute]
  | cons v rest ih =>
    intro done f n i ha hi hn hd
    subst hn
    obtain ⟨hd0, hd9⟩ := hd v (List.mem_cons_self _ _)
    obtain ⟨k, hk⟩ : ∃ k : Nat, select_digit v place = (k : Int) :=
      ⟨(select_digit v place).toNat, by omega⟩
    have hk10 : k < 10 := by omega
    have hv : arr_get a i = some v := arr_get_of_eq ha hi
    have hrec := ih (done ++ [v]) (Function.update f k (f k ++ [v])) rest.length (i + 1)
      (by rw [ha]; simp) (by rw [hi]; simp) rfl
      (fun x hx => hd x (List.mem_cons_of_mem _ hx))
    simp only [radix_distribute, hv, hk, arr_get_buckets_of f k hk10,
      arr_set_buckets_of f k hk10, ArrayQueue.enqueue, hrec]
    congr 1
    apply buckets_of_congr
    intro d _
    by_cases hdk : d = k
    · subst hdk
      simp [hk]
    · have hne : ¬ ((k : Int) = (d : Int)) := by omega
      simp [Function.update_noteq hdk, hk, hne]

/-- The `while` loop that empties bucket `k` into the array from index `i` on. -/
theorem radix_drain_spec (k : Nat) (hk : k < 10) (post : List Int) :
    ∀ (items old out : List Int) (f : Nat → List Int) (fuel : Nat) (i : Int),
      f k = items → old.length = items.length → i = (out.length : Int) →
      items.length < fuel →
      radix_drain fuel (out ++ old ++ post) i (buckets_of f) (k : Int) =
        some (out ++ items ++ post, i + (items.length : Int),
          buckets_of (Function.update f k [])) := by
  intro items
  induction items with
  | nil =>
    intro old out f fuel i hf ho hi hfuel
    have hold : old = [] := List.length_eq_zero.mp ho
    subst hold
    cases fuel with
    | zero => simp at hfuel
    | succ fuel =>
      have hsame : Function.update f k [] = f := by
        rw [← hf]
        exact Function.update_eq_self k f
      simp [radix_drain, arr_get_buckets_of f k hk, hf, ArrayQueue.empty, hsame]
  | cons v items ih =>
    intro old out f fuel i hf ho hi hfuel
    cases old with
    | nil => simp at ho
    | cons o old =>
      cases fuel with
      | zero => simp at hfuel
      | succ fuel =>
        have hs : arr_set (out ++ (o :: old) ++ post) i v =
            some (out ++ v :: (old ++ post)) :=
          arr_set_of_eq (A := out) (B := old ++ post) (x := o) v (by simp) hi
        have hrec := ih old (out ++ [v]) (Function.update f k items) fuel (i + 1)
          (by simp) (by simpa using ho) (by rw [hi]; simp) (by simpa using hfuel)
        simp only [Function.update_idem] at hrec
        simp only [radix_drain, arr_get_buckets_of f k hk, hf, ArrayQueue.empty,
          List.isEmpty_cons, Bool.false_eq_true, if_false, ArrayQueue.dequeue,
          arr_set_buckets_of f k hk, hs]
        have e1 : out ++ v :: (old ++ post) = out ++ [v] ++ old ++ post := by simp
        rw [e1, hrec]
        simp only [List.append_assoc, List.singleton_append, List.length_cons, Nat.cast_add,
          Nat.cast_one, Option.some.injEq, Prod.mk.injEq, true_and, and_true]
        omega

/-- The loop over the buckets `k`, `k + 1`, ... , 9, which writes their contents
one after the other into the array from index `i` on and leaves them empty. -/
theorem radix_collect_spec (fuel : Nat) (post : List Int) :
    ∀ (n k : Nat) (f : Nat → List Int) (old out : List Int) (i : Int),
      k + n = 10 → (∀ d, d < 10 → (f d).length < fuel) →
      old.length = ((List.range' k n).flatMap f).length → i = (out.length : Int) →
      ∃ g, radix_collect fuel n (out ++ old ++ post) i (buckets_of f) (k : Int) =
          some (out ++ (List.range' k n).flatMap f ++ post, buckets_of g) ∧
        (∀ d, k ≤ d → d < 10 → g d = []) ∧ (∀ d, d < k → g d = f d) := by
  intro n
  induction n with
  | zero =>
    intro k f old out i _ _ ho _
    have hold : old = [] := List.length_eq_zero.mp (by simpa using ho)
    subst hold
    exact ⟨f, by simp [radix_collect], fun d h1 h2 => by omega, fun _ _ => rfl⟩
  | succ n ih =>
    intro k f old out i hkn hfuel ho hi
    have hk : k < 10 := by omega
    rw [List.range'_succ, List.flatMap_cons, List.length_append] at ho
    have hsplit : old = old.take (f k).length ++ old.drop (f k).length :=
      (List.take_append_drop _ _).symm
    have hl1 : (old.take (f k).length).length = (f k).length := by
      rw [List.length_take]; omega
    have hl2 : (old.drop (f k).length).length = ((List.range' (k + 1) n).flatMap f).length := by
      rw [List.length_drop]; omega
    have hdrain := radix_drain_spec k hk (old.drop (f k).length ++ post) (f k)
      (old.take (f k).length) out f fuel i rfl hl1 hi (hfuel k hk)
    have hcong : (List.range' (k + 1) n).flatMap (Function.update f k []) =
        (List.range' (k + 1) n).flatMap f := by
      apply List.flatMap_congr
      intro d hd
      have : k + 1 ≤ d := (List.mem_range'_1.mp hd).1
      exact Function.update_noteq (by omega) _ _
    obtain ⟨g, hg, hg1, hg2⟩ := ih (k + 1) (Function.update f k []) (old.drop (f k).length)
      (out ++ f k) (i + ((f k).length : Int)) (by omega)
      (fun d hd => by
        by_cases hdk : d = k
        · subst hdk
          simp only [Function.update_same, List.length_nil]
          have := hfuel d hd
          omega
        · rw [Function.update_noteq hdk]
          exact hfuel d hd)
      (by rw [hcong]; exact hl2) (by rw [hi]; simp)
    refine ⟨g, ?_, ?_, ?_⟩
    · have ea : out ++ old ++ post =
          out ++ old.take (f k).length ++ (old.drop (f k).length ++ post) := by
        simp only [List.append_assoc]
        rw [← List.append_assoc (List.take _ old), List.take_append_drop]
      have eb : out ++ f k ++ (old.drop (f k).length ++ post) =
          out ++ f k ++ old.drop (f k).length ++ post := by simp
      rw [hcong] at hg
      simp only [radix_collect, ea, hdrain, eb]
      rw [List.range'_succ, List.flatMap_cons]
      simp only [Nat.cast_add, Nat.cast_one] at hg
      rw [hg]
      simp
    · intro d h1 h2
      by_cases hdk : d = k
      · subst hdk
        rw [hg2 d (by omega)]
        simp
      · exact hg1 d (by omega) h2
    · intro d hd
      rw [hg2 d (by omega), Function.update_noteq (by omega)]

theorem flatMap_insert_perm (v : Int) (k : Nat) (g : Nat → List Int) :
    ∀ ds : List Nat, ds.Nodup → k ∈ ds →
      (ds.flatMap (fun d => if d = k then v :: g d else g d)).Perm (v :: ds.flatMap g) := by
  intro ds
  induction ds with
  | nil => intro _ hk; cases hk
  | cons d ds ih =>
    intro hnd hk
    rw [List.nodup_cons] at hnd
    rw [List.flatMap_cons, List.flatMap_cons]
    by_cases hdk : d = k
    · subst hdk
      have hsame : ds.flatMap (fun e => if e = d then v :: g e else g e) = ds.flatMap g := by
        apply List.flatMap_congr
        intro e he
        have : e ≠ d := fun hc => hnd.1 (hc ▸ he)
        simp [this]
      simp [hsame]
    · have hk2 : k ∈ ds := by
        rcases List.mem_cons.mp hk with h | h
        · exact absurd h.symm hdk
        · exact h
      simp only [hdk, if_false]
      exact (List.Perm.append_left (g d) (ih hnd.2 hk2)).trans List.perm_middle

/-- A stable distribution by a digit rearranges the array. -/
theorem digit_pass_perm (place : Int) :
    ∀ a : List Int, (∀ x ∈ a, 0 ≤ select_digit x place ∧ select_digit x place ≤ 9) →
      (digit_pass place a).Perm a := by
  intro a
  induction a with
  | nil =>
    intro _
    simp [digit_pass]
  | cons v a ih =>
    intro hd
    obtain ⟨hd0, hd9⟩ := hd v (List.mem_cons_self _ _)
    obtain ⟨k, hk⟩ : ∃ k : Nat, select_digit v place = (k : Int) :=
      ⟨(select_digit v place).toNat, by omega⟩
    have hk10 : k < 10 := by omega
    have hfun : (fun d : Nat =>
        (v :: a).filter (fun x => decide (select_digit x place = (d : Int)))) =
        (fun d : Nat => if d = k then
          v :: a.filter (fun x => decide (select_digit x place = (d : Int)))
          else a.filter (fun x => decide (select_digit x place = (d : Int)))) := by
      funext d
      by_cases hdk : d = k
      · subst hdk
        simp [hk]
      · have hne : ¬ ((k : Int) = (d : Int)) := by omega
        simp [hdk, hk, hne]
    unfold digit_pass
    rw [hfun]
    exact (flatMap_insert_perm v k _ (List.range 10) (List.nodup_range 10)
      (List.mem_range.mpr hk10)).trans
      (List.Perm.cons v (ih (fun x hx => hd x (List.mem_cons_of_mem _ hx))))

/-- A stable distribution by a digit turns an array sorted by `key1` into one
sorted by `key2`, when `key2` orders by the digit first and by `key1` among
equal digits. -/
theorem digit_pass_sorted (place : Int) (key1 key2 : Int → Int) (a : List Int)
    (hlt : ∀ x ∈ a, ∀ y ∈ a, select_digit x place < select_digit y place → key2 x ≤ key2 y)
    (heq : ∀ x ∈ a, ∀ y ∈ a, select_digit x place = select_digit y place →
      key1 x ≤ key1 y → key2 x ≤ key2 y)
    (hs : a.Pairwise (fun x y => key1 x ≤ key1 y)) :
    (digit_pass place a).Pairwise (fun x y => key2 x ≤ key2 y) := by
  unfold digit_pass
  rw [List.pairwise_flatMap]
  constructor
  · intro d _
    refine List.Pairwise.imp_of_mem ?_ (hs.filter _)
    intro x y hx hy hxy
    obtain ⟨hxa, hxd⟩ := List.mem_filter.mp hx
    obtain ⟨hya, hyd⟩ := List.mem_filter.mp hy
    simp only [decide_eq_true_eq] at hxd hyd
    exact heq x hxa y hya (by rw [hxd, hyd]) hxy
  · refine List.Pairwise.imp ?_ (List.pairwise_lt_range 10)
    intro d1 d2 hlt12 x hx y hy
    obtain ⟨hxa, hxd⟩ := List.mem_filter.mp hx
    obtain ⟨hya, hyd⟩ := List.mem_filter.mp hy
    simp only [decide_eq_true_eq] at hxd hyd
    exact hlt x hxa y hya (by rw [hxd, hyd]; exact_mod_cast hlt12)

/-- One round of the outer loop of `radix_sort`, entered with empty buckets: the
array becomes its stable distribution by the digit at `place` and the buckets
are empty again. -/
theorem radix_pass_spec (a : List Int) (place : Int)
    (hd : ∀ x ∈ a, 0 ≤ select_digit x place ∧ select_digit x place ≤ 9) :
    radix_pass a (a.length : Int) place (buckets_of (fun _ => [])) =
      some (digit_pass place a, buckets_of (fun _ => [])) := by
  have hdist := radix_distribute_spec a place a [] (fun _ => []) a.length 0 (by simp) rfl rfl hd
  have hlen : a.length = ((List.range' 0 10).flatMap (fun d : Nat =>
      ([] : List Int) ++ a.filter (fun x => decide (select_digit x place = (d : Int))))).length := by
    have := (digit_pass_perm place a hd).length_eq
    simp only [digit_pass, List.range_eq_range'] at this
    simpa using this.symm
  obtain ⟨g, hg, hg1, _⟩ := radix_collect_spec (a.length + 1) [] 10 0
    (fun d : Nat => ([] : List Int) ++
      a.filter (fun x => decide (select_digit x place = (d : Int)))) a [] 0 rfl
    (fun d _ => by
      simp only [List.nil_append]
      exact Nat.lt_succ_of_le (List.length_filter_le _ _))
    hlen rfl
  simp only [List.nil_append, List.append_nil, Nat.cast_zero] at hg hdist
  simp only [radix_pass, Int.toNat_ofNat, hdist, hg]
  rw [buckets_of_congr (f := g) (g := fun _ => []) (fun d hd10 => hg1 d (Nat.zero_le _) hd10)]
  simp [digit_pass, List.range_eq_range']

theorem buckets_of_nil : buckets_of (fun _ => []) = List.replicate 10 {} := rfl

/-- One round of the outer loop of `radix_sort` at the place `P`, on an array of
non-negative numbers sorted by their remainders modulo `P`: the array is
rearranged and is then sorted by the remainders modulo `Q`, ten times `P`. -/
theorem radix_step (P Q : Int) (hP : 0 < P) (a : List Int) (len : Int)
    (hlen : len = (a.length : Int)) (hnn : ∀ x ∈ a, 0 ≤ x)
    (h1 : ∀ x y : Int, 0 ≤ x → 0 ≤ y → x / P % 10 < y / P % 10 → x % Q ≤ y % Q)
    (h2 : ∀ x y : Int, 0 ≤ x → 0 ≤ y → x / P % 10 = y / P % 10 → x % P ≤ y % P →
      x % Q ≤ y % Q)
    (hs : a.Pairwise (fun x y => x % P ≤ y % P)) :
    ∃ a1, radix_pass a len P (List.replicate 10 {}) = some (a1, List.replicate 10 {}) ∧
      a1.Perm a ∧ a1.Pairwise (fun x y => x % Q ≤ y % Q) := by
  have hd : ∀ x ∈ a, 0 ≤ select_digit x P ∧ select_digit x P ≤ 9 :=
    fun x hx => (select_digit_range (hnn x hx) hP).2
  refine ⟨digit_pass P a, ?_, digit_pass_perm P a hd, ?_⟩
  · rw [hlen, ← buckets_of_nil]
    exact radix_pass_spec a P hd
  · refine digit_pass_sorted P (fun x => x % P) (fun x => x % Q) a ?_ ?_ hs
    · intro x hx y hy hxy
      rw [(select_digit_range (hnn x hx) hP).1, (select_digit_range (hnn y hy) hP).1] at hxy
      exact h1 x y (hnn x hx) (hnn y hy) hxy
    · intro x hx y hy hxy hk
      rw [(select_digit_range (hnn x hx) hP).1, (select_digit_range (hnn y hy) hP).1] at hxy
      exact h2 x y (hnn x hx) (hnn y hy) hxy hk

/-- C28.  For an `int` array `a` of the given length whose elements all lie in
0..999999, `radix_sort(a, length)` returns; afterwards the array is sorted in
non-decreasing order and is a permutation of what it was.  For a non-negative
number and a positive place `select_digit` lies in 0..9, so it does for every
element at each of the six places; and after each of the six rounds of the
outer loop all ten buckets are empty. -/
theorem radix_sort_correct (a : List Int) (ha : ∀ x ∈ a, 0 ≤ x ∧ x ≤ 999999) :
    ∃ a1, radix_sort a (a.length : Int) = some a1 ∧
      List.Sorted (fun x y => x ≤ y) a1 ∧ a1.Perm a ∧
      (∀ x place : Int, 0 ≤ x → 0 < place →
        0 ≤ select_digit x place ∧ select_digit x place ≤ 9) ∧
      (∀ k, k ≤ 6 → ∃ ak, radix_passes (a.length : Int) k 1 a (List.replicate 10 {}) =
        some (ak, List.replicate 10 {})) := by
  have hnn : ∀ x ∈ a, 0 ≤ x := fun x hx => (ha x hx).1
  obtain ⟨a1, e1, p1, s1⟩ := radix_step 1 10 (by decide) a a.length rfl hnn
    (fun x y _ _ h => by omega) (fun x y _ _ h _ => by omega)
    (List.Pairwise.imp_of_mem (fun _ _ _ => by omega) (List.pairwise_of_forall (fun _ _ => trivial) :
      a.Pairwise (fun _ _ => True)))
  obtain ⟨a2, e2, p2, s2⟩ := radix_step 10 100 (by decide) a1 a.length
    (by rw [p1.length_eq]) (fun x hx => hnn x (p1.mem_iff.mp hx))
    (fun x y _ _ h => by omega) (fun x y _ _ h hk => by omega) s1
  have q2 := p2.trans p1
  obtain ⟨a3, e3, p3, s3⟩ := radix_step 100 1000 (by decide) a2 a.length
    (by rw [q2.length_eq]) (fun x hx => hnn x (q2.mem_iff.mp hx))
    (fun x y _ _ h => by omega) (fun x y _ _ h hk => by omega) s2
  have q3 := p3.trans q2
  obtain ⟨a4, e4, p4, s4⟩ := radix_step 1000 10000 (by decide) a3 a.length
    (by rw [q3.length_eq]) (fun x hx => hnn x (q3.mem_iff.mp hx))
    (fun x y _ _ h => by omega) (fun x y _ _ h hk => by omega) s3
  have q4 := p4.trans q3
  obtain ⟨a5, e5, p5, s5⟩ := radix_step 10000 100000 (by decide) a4 a.length
    (by rw [q4.length_eq]) (fun x hx => hnn x (q4.mem_iff.mp hx))
    (fun x y _ _ h => by omega) (fun x y _ _ h hk => by omega) s4
  have q5 := p5.trans q4
  obtain ⟨a6, e6, p6, s6⟩ := radix_step 100000 1000000 (by decide) a5 a.length
    (by rw [q5.length_eq]) (fun x hx => hnn x (q5.mem_iff.mp hx))
    (fun x y _ _ h => by omega) (fun x y _ _ h hk => by omega) s5
  have q6 := p6.trans q5
  unfold radix_sort
  generalize List.replicate 10 ({} : ArrayQueue) = E at e1 e2 e3 e4 e5 e6 ⊢
  refine ⟨a6, ?_, ?_, q6, fun x place hx hp => (select_digit_range hx hp).2, ?_⟩
  · simp [radix_loop, e1, e2, e3, e4, e5, e6]
  · refine List.Pairwise.imp_of_mem ?_ s6
    intro x y hx hy hxy
    have bx := ha x (q6.mem_iff.mp hx)
    have by1 := ha y (q6.mem_iff.mp hy)
    omega
  · intro k hk
    interval_cases k
    · exact ⟨a, rfl⟩
    · exact ⟨a1, by simp [radix_passes, e1]⟩
    · exact ⟨a2, by simp [radix_passes, e1, e2]⟩
    · exact ⟨a3, by simp [radix_passes, e1, e2, e3]⟩
    · exact ⟨a4, by simp [radix_passes, e1, e2, e3, e4]⟩
    · exact ⟨a5, by simp [radix_passes, e1, e2, e3, e4, e5]⟩
    · exact ⟨a6, by simp [radix_passes, e1, e2, e3, e4, e5, e6]⟩

/-- C28 at the array 170, 45, 75, 90, 802, 24, 2, 66. -/
theorem radix_sort_correct_witness :
    ∃ a1, radix_sort [170, 45, 75, 90, 802, 24, 2, 66] 8 = some a1 ∧
      List.Sorted (fun x y => x ≤ y) a1 ∧ a1.Perm [170, 45, 75, 90, 802, 24, 2, 66] := by
  obtain ⟨a1, e1, e2, e3, _⟩ := radix_sort_correct [170, 45, 75, 90, 802, 24, 2, 66]
    (by decide)
  exact ⟨a1, e1, e2, e3⟩

end Radix

end ics
